import Mathlib

/-!
Verification of `sorted.Set` (package `sorted`, file `sorted/set.go`) and of
`bfs.Path` (package `bfs`, file `graph/bfs/bfs.go`)

The Go code keeps an AA-tree of heap nodes linked by `l`, `r` and `parent`
pointers, with one sentinel node `bottom` of level 0 whose `l` and `r` point to
itself.  The embedding below keeps the control flow of the Go functions and
represents the pointer structure as follows.

* A subtree hanging from a pointer is a value of `SetItem α`; the sentinel is
  the constructor `bottom`.  Every real node carries an `id`, which stands for
  its address (the identity of the Go object).
* The chain of `parent` pointers from a node up to the root (`parent == nil`)
  is a `Path α`: a list of `Frame`s, nearest parent first.  A frame records the
  parent node and whether the current node hangs in its `l` or in its `r` slot
  (the Go tests `p.l == t` / `si == si.parent.r`).  A rotation relinks the slot
  of the parent (or `s.root`); here the rotated subtree is put back into the
  frame it came from.
* A pointer to a node of a set (`*SetItem[T]` used as a cursor) together with
  its parent chain is a `Loc α`.
* `level` is `int8` in Go.  Levels are natural numbers here: a tree obeying
  the AA invariants with root level `k` has at least `2^k - 1` nodes
  (`Sorted.two_pow_level_le_count`), so level 127 is out of reach of any
  addressable heap.  `size` is a Go `int`; it is an `Int` here.
* Real nodes always have level at least 1 in the Go code (`newItem` writes 1,
  `split` increments, `decreaseLevel` only decrements a level that is at
  least 2).  The model follows the Go code on such trees.
* The field `parent` of the sentinel is not part of the model.  The Go code
  writes it (`skew`, `split` and the splice of `Delete` assign the parent of a
  child that may be the sentinel) and reads it in one place only: `skew` called
  on the sentinel, which `decreaseLevel` does through `t.r.r` in the first
  step after `Delete` has spliced out a leaf.  At that point `bottom.parent` is
  the node whose left slot holds the sentinel (set by the splice, or by the
  rotation of `skew(t)` just before), and `skew` rewrites that slot with the
  sentinel and the sentinel's `l` and `r` with themselves.  `skew bottom` is
  therefore `bottom` here.
* The two implementations of the `finder` interface are `find` /
  `Set.insertNearby` (`set[T]`, the order of `cmp.Ordered`, here a
  `LinearOrder`) and `findFunc` / `Set.insertNearbyFunc` (`setFunc[T]`, a
  comparator function).  `Set.Insert`, `Set.Delete` and `Set.InsertNearby` are
  the methods of a set made by `NewSet`; `Set.InsertFunc`, `Set.DeleteFunc` and
  `Set.InsertNearbyFunc` those of a set made by `NewSetFunc`.

For `bfs.Path` the vertices, Go `int`s on which no arithmetic is done, are
integers, a graph is its method `Adjacent`, and the map `parent` is a function
from vertices to optional vertices.  The loop over the neighbours of a vertex
runs over a list.  The loop over the queue and the walk back along the parents
are bounded by a number given to `Bfs.Path`; a result reached within a bound is
the result with every larger bound (`Bfs.Path_fuel`).  The parameters `from`
and `to` are called `src` and `dst`.

For `maxflow.EdmondsKarp` (file `graph/maxflow/maxflow.go`) a graph is an
implementation of the interface `maxflow.Graph` over a type of states;
`AddFlow` yields the next state.  The result of a call records the final
state, the calls of `AddFlow` and whether the call returned or panicked.  The
Go `int` that accumulates the flow, and the `int`s in the maps of the graph of
the test, wrap around at 64 bits (`Maxflow.wrap`).

The namespace `Heap` holds a second embedding of `sorted/set.go`, at the level
of the memory, for the fields of the sentinel.  A pointer is an address (`0`
is `nil`), the memory maps addresses to nodes, and every method is code that
reads and writes single fields, statement by statement as in the Go source.  A
loop is bounded by a number; when the bound is reached, or `nil` is
dereferenced, the code stops with the memory as it is at that moment
(`Heap.Res`).  Levels are integers without bound.

For `partition.StronglyConnected` (file `graph/partition/strongly_connected.go`)
the variables shared by the closure `dfs` form a state that every statement
transforms; the slice `vs` is a function on the indices below `g.Size()`, the
stack is a list with its top first, and the recursion of `dfs` is bounded by a
number (`Partition.Out.timeout` when it is reached).
-/

namespace Sorted

/-- SetItem: a subtree of set items; `bottom` is the shared sentinel. -/
inductive SetItem (α : Type) where
  | bottom : SetItem α
  | node (id : Nat) (level : Nat) (l : SetItem α) (value : α) (r : SetItem α) : SetItem α
  deriving DecidableEq, Repr

/-- Frame: the parent of the current node and the child slot the current node
occupies: `inL` when `parent.l` is the current node, `inR` when `parent.r` is. -/
inductive Frame (α : Type) where
  | inL (id : Nat) (level : Nat) (value : α) (r : SetItem α) : Frame α
  | inR (id : Nat) (level : Nat) (l : SetItem α) (value : α) : Frame α
  deriving DecidableEq, Repr

/-- Path: the chain of `parent` pointers, nearest parent first; `[]` is
`parent == nil`. -/
abbrev Path (α : Type) := List (Frame α)

/-- Loc: a node pointer seen with its parent chain. -/
abbrev Loc (α : Type) := Path α × SetItem α

variable {α : Type}

namespace SetItem

/-- Field `level`; the sentinel has level 0. -/
def level : SetItem α → Nat
  | bottom => 0
  | node _ lv _ _ _ => lv

/-- Field `l`; the sentinel points to itself. -/
def l : SetItem α → SetItem α
  | bottom => bottom
  | node _ _ a _ _ => a

/-- Field `r`; the sentinel points to itself. -/
def r : SetItem α → SetItem α
  | bottom => bottom
  | node _ _ _ _ b => b

/-- Number of real nodes of a subtree. -/
def count : SetItem α → Nat
  | bottom => 0
  | node _ _ a _ b => count a + 1 + count b

/-- In-order sequence of the stored values. -/
def toList : SetItem α → List α
  | bottom => []
  | node _ _ a x b => toList a ++ x :: toList b

/-- In-order sequence of the node identities. -/
def ids : SetItem α → List Nat
  | bottom => []
  | node i _ a _ b => ids a ++ i :: ids b

/-- Pointer comparison with the sentinel (`t == s.bottom`). -/
def isBottom : SetItem α → Bool
  | bottom => true
  | node _ _ _ _ _ => false

end SetItem

open SetItem

/-- Put a subtree into the child slot a frame points at. -/
def Frame.attach : Frame α → SetItem α → SetItem α
  | .inL i lv x r, t => node i lv t x r
  | .inR i lv l x, t => node i lv l x t

/-- The whole tree seen from the root, given a subtree and its parent chain. -/
def rebuild : Path α → SetItem α → SetItem α
  | [], t => t
  | f :: rest, t => rebuild rest (f.attach t)

/-- Set.skew (set.go 72-86): when `t.l.level == t.level`, rotate right; the
left child becomes the root of the subtree.  The relinking of the parent's
slot and of `s.root` is the re-attachment of the result to the path.  The test
fails on a real node whose left child is the sentinel; on the sentinel the
rotation maps the sentinel onto itself. -/
def skew : SetItem α → SetItem α
  | node i lv (node j lvl a y b) x c =>
      if lvl = lv then node j lvl a y (node i lv b x c)
      else node i lv (node j lvl a y b) x c
  | t => t

/-- Set.split (set.go 88-104): when `t.level == t.r.r.level`, rotate left and
increment the level of the new subtree root; the flag tells whether it did.
The test fails on a real node whose right child is the sentinel.  The Go code
never calls `split` on the sentinel (`decreaseLevel` guards the call with
`t.r.level != 0`). -/
def split : SetItem α → SetItem α × Bool
  | node i lv a x (node j lvr b y c) =>
      if lv = c.level then (node j (lvr + 1) (node i lv a x b) y c, true)
      else (node i lv a x (node j lvr b y c), false)
  | t => (t, false)

/-- Assignment `t.r = f(t.r)`; on the sentinel it rewrites `bottom.r` with
`bottom`. -/
def mapR (f : SetItem α → SetItem α) : SetItem α → SetItem α
  | node i lv a x b => node i lv a x (f b)
  | bottom => bottom

/-- Assignment `t.level = lv` on a real node. -/
def setLevel (lv : Nat) : SetItem α → SetItem α
  | node i _ a x b => node i lv a x b
  | bottom => bottom

/-- Set.decreaseLevel (set.go 336-353). -/
def decreaseLevel : SetItem α → SetItem α × Bool
  | node i lv a x b =>
      if lv > a.level + 1 ∨ lv > b.level + 1 then
        let b1 := if b.level > lv - 1 then setLevel (lv - 1) b else b
        let t1 := skew (node i (lv - 1) a x b1)
        let t2 := mapR skew t1
        let t3 := mapR (mapR skew) t2
        let t4 := (split t3).1
        let t5 := if t4.r.level ≠ 0 then mapR (fun u => (split u).1) t4 else t4
        (t5, true)
      else (node i lv a x b, false)
  | bottom => (bottom, false)

/-- Result of `find`: `present path last` is `target == nil` (the node `last`
holds `x`); `slot last path` is `target != nil`: `last` is given as the frame
whose open child slot is `*target`, and `path` is the parent chain of `last`. -/
inductive Found (α : Type) where
  | present (path : Path α) (last : SetItem α) : Found α
  | slot (last : Frame α) (path : Path α) : Found α
  deriving DecidableEq, Repr

/-- Method `set[T].find` (set.go 360-375), descending from `root`, whose parent
chain is `path`.  Callers never pass the sentinel. -/
def find [LinearOrder α] : Path α → SetItem α → α → Found α
  | path, node i lv a v b, x =>
      if v ≠ x then
        if x < v then
          if a.level = 0 then .slot (.inL i lv v b) path
          else find (.inL i lv v b :: path) a x
        else
          if b.level = 0 then .slot (.inR i lv a v) path
          else find (.inR i lv a v :: path) b x
      else .present path (node i lv a v b)
  | path, bottom, _ => .present path bottom

/-- Set: the state of a `Set[T]`: the tree under `root`, the `size` field and
the allocation counter that gives fresh node identities. -/
structure Set (α : Type) where
  root : SetItem α
  size : Int
  nextId : Nat
  deriving DecidableEq, Repr

/-- Function `newSet` (set.go 106-115): the empty set. -/
def newSet : Set α := ⟨bottom, 0, 1⟩

/-- Set.Len (set.go 150-152). -/
def Set.Len (s : Set α) : Int := s.size

/-- The node built by `newItem` (set.go 256-266): level 1, both children the
sentinel; `id` is the fresh address. -/
def newItem (id : Nat) (x : α) : SetItem α := node id 1 bottom x bottom

/-- The loop of `Set.insert` (set.go 240-252): `t` is the node being visited,
the first argument its parent chain, `n` the number of consecutive visited
nodes without a split.  The loop stops when `n` reaches 2 or when the root has
been visited. -/
def insertLoop : Path α → SetItem α → Nat → SetItem α
  | [], t, n => if n < 2 then (split (skew t)).1 else t
  | f :: rest, t, n =>
      if n < 2 then
        let u := split (skew t)
        insertLoop rest (f.attach u.1) (if u.2 then 0 else n + 1)
      else rebuild (f :: rest) t

/-- The part of `Set.insert` after the call of `find` (set.go 235-253): the
new state, the identity of the item holding `x`, and whether it was added. -/
def insertAt (s : Set α) (x : α) : Found α → Set α × Nat × Bool
  | .present _ (node i _ _ _ _) => (s, i, false)
  | .present _ bottom => (s, 0, false)
  | .slot last path =>
      (⟨insertLoop path (last.attach (newItem s.nextId x)) 0, s.size + 1, s.nextId + 1⟩,
        s.nextId, true)

/-- Set.insert (set.go 233-254).  The argument `root` (here `hint`) is not
used by the Go code: the search starts from `s.root`. -/
def Set.insert [LinearOrder α] (s : Set α) (_hint : Nat) (x : α) : Set α × Nat × Bool :=
  insertAt s x (find [] s.root x)

/-- Set.Insert (set.go 223-230). -/
def Set.Insert [LinearOrder α] (s : Set α) (x : α) : Set α × Bool :=
  match s.root with
  | bottom => (⟨newItem s.nextId x, s.size + 1, s.nextId + 1⟩, true)
  | node i _ _ _ _ => let u := s.insert i x; (u.1, u.2.2)

/-- The successor search of `Set.Delete` (set.go 303-305):
`for successor.l != s.bottom { successor = successor.l }`. -/
def leftmost : Path α → SetItem α → Loc α
  | path, node i lv (node j lvl a y b) x c =>
      leftmost (.inL i lv x c :: path) (node j lvl a y b)
  | path, t => (path, t)

/-- The rebalancing loop of `Set.Delete` (set.go 321-332): `t` is `last`, the
first argument its parent chain. -/
def deleteLoop : Path α → SetItem α → SetItem α
  | [], t => (decreaseLevel t).1
  | f :: rest, t =>
      let u := decreaseLevel t
      if u.2 then deleteLoop rest (f.attach u.1) else rebuild (f :: rest) u.1

/-- The part of `Set.Delete` after the call of `find` (set.go 298-333),
including the deferred `s.size--`.  A node of level above 1 whose right child
is the sentinel does not occur in a tree obeying the AA invariants; there the
Go code would copy the sentinel's value and dereference the sentinel's parent,
and the model leaves the set as it is. -/
def deleteAt (s : Set α) : Found α → Set α × Bool
  | .slot _ _ => (s, false)
  | .present _ bottom => (s, false)
  | .present path (node i lv a _ b) =>
      if lv > 1 then
        match leftmost [] b with
        | (_, bottom) => (s, false)
        | ([], node _ _ _ sv sr) =>
            (⟨deleteLoop path (node i lv a sv sr), s.size - 1, s.nextId⟩, true)
        | (f :: sp, node _ _ _ sv sr) =>
            (⟨deleteLoop (sp ++ Frame.inR i lv a sv :: path) (f.attach sr), s.size - 1,
              s.nextId⟩, true)
      else
        match path with
        | [] => (⟨b, s.size - 1, s.nextId⟩, true)
        | f :: rest => (⟨deleteLoop rest (f.attach b), s.size - 1, s.nextId⟩, true)

/-- Set.Delete (set.go 288-334). -/
def Set.Delete [LinearOrder α] (s : Set α) (x : α) : Set α × Bool :=
  match s.root with
  | bottom => (s, false)
  | node i lv a v b => deleteAt s (find [] (node i lv a v b) x)

/-- The climb of `SetItem.Next` (set.go 26-29):
`for si.parent != nil && si == si.parent.r { si = si.parent }`, then
`return si.parent, si.parent != nil`. -/
def climbR : Path α → SetItem α → Option (Loc α)
  | [], _ => none
  | .inR i lv a x :: rest, t => climbR rest (node i lv a x t)
  | .inL i lv x b :: rest, t => some (rest, node i lv t x b)

/-- The climb of `SetItem.Prev` (set.go 42-45). -/
def climbL : Path α → SetItem α → Option (Loc α)
  | [], _ => none
  | .inL i lv x b :: rest, t => climbL rest (node i lv t x b)
  | .inR i lv a x :: rest, t => some (rest, node i lv a x t)

/-- The descent `for si.l.level > 0 { si = si.l }` (set.go 32-34, 160-162). -/
def descendL : Path α → SetItem α → Loc α
  | path, node i lv (node j lvl a y b) x c =>
      if lvl > 0 then descendL (.inL i lv x c :: path) (node j lvl a y b)
      else (path, node i lv (node j lvl a y b) x c)
  | path, t => (path, t)

/-- The descent `for si.r.level > 0 { si = si.r }` (set.go 48-50, 172-174). -/
def descendR : Path α → SetItem α → Loc α
  | path, node i lv a x (node j lvr b y c) =>
      if lvr > 0 then descendR (.inR i lv a x :: path) (node j lvr b y c)
      else (path, node i lv a x (node j lvr b y c))
  | path, t => (path, t)

/-- SetItem.Next (set.go 24-36); `none` is the result `(nil, false)`. -/
def Next : Loc α → Option (Loc α)
  | (path, node i lv a x b) =>
      if b.level = 0 then climbR path (node i lv a x b)
      else some (descendL (.inR i lv a x :: path) b)
  | (_, bottom) => none

/-- SetItem.Prev (set.go 40-52); `none` is the result `(nil, false)`. -/
def Prev : Loc α → Option (Loc α)
  | (path, node i lv a x b) =>
      if a.level = 0 then climbL path (node i lv a x b)
      else some (descendR (.inL i lv x b :: path) a)
  | (_, bottom) => none

/-- Set.First (set.go 155-164). -/
def Set.First (s : Set α) : Option (Loc α) :=
  if s.root.level = 0 then none else some (descendL [] s.root)

/-- Set.Last (set.go 167-176). -/
def Set.Last (s : Set α) : Option (Loc α) :=
  if s.root.level = 0 then none else some (descendR [] s.root)

/-- The loop `for ok && yield(si.value) { si, ok = step(si) }` of `All` and
`Backward` (set.go 203-206, 213-216) for a consumer that takes every value.
The first argument bounds the number of iterations: the result is `none` when
the bound is reached before `step` reports `false`. -/
def collect (step : Loc α → Option (Loc α)) : Nat → Option (Loc α) → Option (List α)
  | _, none => some []
  | 0, some _ => none
  | _ + 1, some (_, bottom) => none
  | n + 1, some (path, node i lv a x b) =>
      (collect step n (step (path, node i lv a x b))).map (fun vs => x :: vs)

/-- Set.All (set.go 201-208): the values yielded, in order.  The iteration is
bounded by the number of nodes of the tree; `collect_fuel` shows that any
larger bound yields the same sequence. -/
def Set.All (s : Set α) : Option (List α) := collect Next s.root.count s.First

/-- Set.Backward (set.go 211-218): the values yielded, in order. -/
def Set.Backward (s : Set α) : Option (List α) := collect Prev s.root.count s.Last

/-- Address of a node; the sentinel is given address 0, which `newSet` never
hands out. -/
def SetItem.id : SetItem α → Nat
  | bottom => 0
  | node i _ _ _ _ => i

/-- Dereference of an item pointer: the node of the tree with the given
identity, with its parent chain. -/
def locate : Path α → SetItem α → Nat → Option (Loc α)
  | _, bottom, _ => none
  | path, node i lv a x b, k =>
      if i = k then some (path, node i lv a x b)
      else match locate (.inL i lv x b :: path) a k with
        | some loc => some loc
        | none => locate (.inR i lv a x :: path) b k

/-- Test `a.parent == b` on two nodes given with their parent chains. -/
def parentIs : Loc α → Loc α → Bool
  | (f :: _, _), (_, t) =>
      match f with
      | .inL i _ _ _ => i == t.id
      | .inR i _ _ _ => i == t.id
  | ([], _), _ => false

/-- Function `lower` (set.go 495-506). -/
def lower (a b : Loc α) : Loc α :=
  if a.2.level < b.2.level then a
  else if b.2.level < a.2.level then b
  else if parentIs a b then b
  else a

/-- Method `set[T].insertNearby` (set.go 432-460) for an item `si` of `s`. -/
def Set.insertNearby [LinearOrder α] (s : Set α) (si : Loc α) (x : α) : Set α × Nat × Bool :=
  match si with
  | (_, bottom) => (s, 0, false)
  | (path, node i lv a v b) =>
      if v = x then (s, i, false)
      else if v < x then
        match Next (path, node i lv a v b) with
        | none => s.insert i x
        | some next =>
            match next.2 with
            | bottom => s.insert s.root.id x
            | node j _ _ nv _ =>
                if nv = x then (s, j, false)
                else if nv > x then s.insert (lower (path, node i lv a v b) next).2.id x
                else s.insert s.root.id x
      else
        match Prev (path, node i lv a v b) with
        | none => s.insert i x
        | some prev =>
            match prev.2 with
            | bottom => s.insert s.root.id x
            | node j _ _ pv _ =>
                if pv = x then (s, j, false)
                else if pv < x then s.insert (lower (path, node i lv a v b) prev).2.id x
                else s.insert s.root.id x

/-- SetItem.InsertNearby (set.go 60-62) on the item with identity `si` of the
set `s`.  An identity that is not in the tree is not an item of the set; the
set is then left as it is. -/
def Set.InsertNearby [LinearOrder α] (s : Set α) (si : Nat) (x : α) : Set α × Nat × Bool :=
  match locate [] s.root si with
  | some loc => s.insertNearby loc x
  | none => (s, 0, false)

/-! ## The AA-tree invariants -/

/-- The five AA-tree invariants, at every node of the subtree:
1. a leaf (both children the sentinel) has level 1;
2. a left child's level is its parent's level minus one;
3. a right child's level is its parent's level or one less;
4. a right child's right child has a level below its grandparent's;
5. a node of level above 1 has two children that are not the sentinel. -/
def AA : SetItem α → Prop
  | bottom => True
  | node _ lv a _ b =>
      (a.isBottom = true ∧ b.isBottom = true → lv = 1) ∧
      (a.isBottom = false → a.level + 1 = lv) ∧
      (b.isBottom = false → b.level = lv ∨ b.level + 1 = lv) ∧
      (b.isBottom = false → b.r.isBottom = false → b.r.level < lv) ∧
      (1 < lv → a.isBottom = false ∧ b.isBottom = false) ∧
      AA a ∧ AA b

/-- The same invariants in the form used in the proofs, with the sentinel
counted as a child of level 0. -/
def Inv : SetItem α → Prop
  | bottom => True
  | node _ lv a _ b =>
      lv = a.level + 1 ∧ (lv = b.level + 1 ∨ (lv = b.level ∧ b.r.level < lv)) ∧ Inv a ∧ Inv b

instance decAA : (t : SetItem α) → Decidable (AA t)
  | bottom => isTrue trivial
  | node _ lv a _ b =>
      have := decAA a
      have := decAA b
      by unfold AA; infer_instance

instance decInv : (t : SetItem α) → Decidable (Inv t)
  | bottom => isTrue trivial
  | node _ lv a _ b =>
      have := decInv a
      have := decInv b
      by unfold Inv; infer_instance

/-! ## Definitions used in the statements and proofs -/

/-- Relation between a subtree `c0` and its replacement `c` under which every
ancestor keeps the invariants, its level, and the shape of its right link. -/
def Stable (c0 c : SetItem α) : Prop :=
  Inv c ∧ c.level = c0.level ∧ (c0.r.level < c0.level → c.r.level < c.level)

/-- State of the walk of `Set.insert` when it arrives at a node whose child
`c0` has been replaced by `c`, by the value of the counter `n`:
0: `c` is one level higher than `c0`, its right link is not horizontal, and
   the right link of `c0` was not strictly descending (so `c0` was not a
   horizontal right child);
1: `c` has the level of `c0`;
2 and above: `c` is stable. -/
def InsMode : Nat → SetItem α → SetItem α → Prop
  | 0, c0, c => Inv c ∧ c.level = c0.level + 1 ∧ c.r.level < c.level ∧ ¬ c0.r.level < c0.level
  | 1, c0, c => Inv c ∧ c.level = c0.level
  | _ + 2, c0, c => Stable c0 c

/-- The rotations at the end of `decreaseLevel` (set.go 343-349), as a
function of the node after its level has been lowered. -/
def rebalance (t : SetItem α) : SetItem α :=
  if (split (mapR (mapR skew) (mapR skew (skew t)))).1.r.level ≠ 0 then
    mapR (fun u => (split u).1) (split (mapR (mapR skew) (mapR skew (skew t)))).1
  else (split (mapR (mapR skew) (mapR skew (skew t)))).1

/-- State of the walk of `Set.Delete` when it arrives at a node whose child
`c0` has been replaced by `c`: either `c` is stable, or `c` is one level
lower than `c0`. -/
def DelRel (c0 c : SetItem α) : Prop :=
  Stable c0 c ∨ (Inv c ∧ c.level + 1 = c0.level)

/-- Last step of `rebalance`: `if t.r.level != 0 { t.r, _ = s.split(t.r) }`. -/
def finish : SetItem α → SetItem α
  | node i k a x b => if b.level ≠ 0 then node i k a x (split b).1 else node i k a x b
  | bottom => bottom

/-- Values of the tree that come before the subtree a path leads to. -/
def before : Path α → List α
  | [] => []
  | .inL _ _ _ _ :: rest => before rest
  | .inR _ _ a x :: rest => before rest ++ (a.toList ++ [x])

/-- Values of the tree that come after the subtree a path leads to. -/
def after : Path α → List α
  | [] => []
  | .inL _ _ x b :: rest => x :: b.toList ++ after rest
  | .inR _ _ _ _ :: rest => after rest

/-- Every value before the position of a path is below `x` and every value
after it is above `x`. -/
def Around [LinearOrder α] (x : α) (p : Path α) : Prop :=
  (∀ y ∈ before p, y < x) ∧ (∀ y ∈ after p, x < y)

/-- Representation invariant of a set: the tree obeys the AA invariants, its
in-order sequence is strictly increasing, and `size` counts its nodes. -/
structure WF [LinearOrder α] (s : Set α) : Prop where
  inv : Inv s.root
  sorted : s.root.toList.Sorted (· < ·)
  size : s.size = s.root.toList.length

/-- Reachable: the sets obtained from the empty set by a finite sequence of
`Insert`, `Delete` and `InsertNearby` calls. -/
inductive Reachable [LinearOrder α] : Set α → Prop
  | newSet : Reachable newSet
  | Insert (s : Set α) (x : α) : Reachable s → Reachable (s.Insert x).1
  | Delete (s : Set α) (x : α) : Reachable s → Reachable (s.Delete x).1
  | InsertNearby (s : Set α) (si : Nat) (x : α) : Reachable s →
      Reachable (s.InsertNearby si x).1

/-- The set built by inserting 2, 4, 6, 1, 7, 8 in this order. -/
def exampleSet : Set Nat :=
  ((((((newSet.Insert 2).1.Insert 4).1.Insert 6).1.Insert 1).1.Insert 7).1.Insert 8).1

/-- Inserting the elements of a list one by one. -/
def insertAll [LinearOrder α] (s : Set α) (xs : List α) : Set α :=
  xs.foldl (fun s x => (s.Insert x).1) s

/-- Method `setFunc[T].find` (set.go 377-394), descending from `root`, whose
parent chain is `path`; `cmp` is the comparator given to `NewSetFunc`. -/
def findFunc (cmp : α → α → Int) : Path α → SetItem α → α → Found α
  | path, node i lv a v b, x =>
      if cmp x v < 0 then
        if a.level = 0 then .slot (.inL i lv v b) path
        else findFunc cmp (.inL i lv v b :: path) a x
      else if cmp x v > 0 then
        if b.level = 0 then .slot (.inR i lv a v) path
        else findFunc cmp (.inR i lv a v :: path) b x
      else .present path (node i lv a v b)
  | path, bottom, _ => .present path bottom

/-- Set.insert (set.go 233-254) of a set made by `NewSetFunc(cmp)`. -/
def Set.insertFunc (cmp : α → α → Int) (s : Set α) (_hint : Nat) (x : α) : Set α × Nat × Bool :=
  insertAt s x (findFunc cmp [] s.root x)

/-- Set.Insert (set.go 223-230) of a set made by `NewSetFunc(cmp)`. -/
def Set.InsertFunc (cmp : α → α → Int) (s : Set α) (x : α) : Set α × Bool :=
  match s.root with
  | bottom => (⟨newItem s.nextId x, s.size + 1, s.nextId + 1⟩, true)
  | node i _ _ _ _ => let u := s.insertFunc cmp i x; (u.1, u.2.2)

/-- Set.Delete (set.go 288-334) of a set made by `NewSetFunc(cmp)`. -/
def Set.DeleteFunc (cmp : α → α → Int) (s : Set α) (x : α) : Set α × Bool :=
  match s.root with
  | bottom => (s, false)
  | node i lv a v b => deleteAt s (findFunc cmp [] (node i lv a v b) x)

/-- Method `setFunc[T].insertNearby` (set.go 462-493) for an item `si` of `s`. -/
def Set.insertNearbyFunc (cmp : α → α → Int) (s : Set α) (si : Loc α) (x : α) :
    Set α × Nat × Bool :=
  match si with
  | (_, bottom) => (s, 0, false)
  | (path, node i lv a v b) =>
      if cmp v x = 0 then (s, i, false)
      else if cmp v x < 0 then
        match Next (path, node i lv a v b) with
        | none => s.insertFunc cmp i x
        | some next =>
            match next.2 with
            | bottom => s.insertFunc cmp s.root.id x
            | node j _ _ nv _ =>
                if cmp nv x = 0 then (s, j, false)
                else if cmp nv x > 0 then
                  s.insertFunc cmp (lower (path, node i lv a v b) next).2.id x
                else s.insertFunc cmp s.root.id x
      else
        match Prev (path, node i lv a v b) with
        | none => s.insertFunc cmp i x
        | some prev =>
            match prev.2 with
            | bottom => s.insertFunc cmp s.root.id x
            | node j _ _ pv _ =>
                if cmp pv x = 0 then (s, j, false)
                else if cmp pv x < 0 then
                  s.insertFunc cmp (lower (path, node i lv a v b) prev).2.id x
                else s.insertFunc cmp s.root.id x

/-- SetItem.InsertNearby (set.go 60-62) on the item with identity `si` of a
set made by `NewSetFunc(cmp)`. -/
def Set.InsertNearbyFunc (cmp : α → α → Int) (s : Set α) (si : Nat) (x : α) :
    Set α × Nat × Bool :=
  match locate [] s.root si with
  | some loc => s.insertNearbyFunc cmp loc x
  | none => (s, 0, false)

/-- The comparator is the three-way comparison of the order on `α`: negative
exactly below, positive exactly above (hence zero exactly on equal values). -/
def Agrees [LinearOrder α] (cmp : α → α → Int) : Prop :=
  ∀ x y, (cmp x y < 0 ↔ x < y) ∧ (0 < cmp x y ↔ y < x)

/-- The results of inserting the elements of a list one by one. -/
def insertFlags [LinearOrder α] (s : Set α) : List α → List Bool
  | [] => []
  | x :: xs => (s.Insert x).2 :: insertFlags (s.Insert x).1 xs

/-- In-order sequence of the nodes, each as its identity with its value. -/
def SetItem.entries : SetItem α → List (Nat × α)
  | bottom => []
  | node i _ a x b => SetItem.entries a ++ (i, x) :: SetItem.entries b

/-- Nodes of the tree that come before the subtree a path leads to. -/
def beforeE : Path α → List (Nat × α)
  | [] => []
  | .inL _ _ _ _ :: rest => beforeE rest
  | .inR i _ a x :: rest => beforeE rest ++ (a.entries ++ [(i, x)])

/-- Nodes of the tree that come after the subtree a path leads to. -/
def afterE : Path α → List (Nat × α)
  | [] => []
  | .inL i _ x b :: rest => (i, x) :: b.entries ++ afterE rest
  | .inR _ _ _ _ :: rest => afterE rest

/-- Node identities are addresses: no two nodes of the tree share one, and
every one was handed out before `nextId`. -/
structure Fresh (s : Set α) : Prop where
  nodup : s.root.ids.Nodup
  lt : ∀ i ∈ s.root.ids, i < s.nextId
/-- SetItem.Value (set.go 17-20); the sentinel is not an item and yields
`none`. -/
def SetItem.Value : SetItem α → Option α
  | bottom => none
  | node _ _ _ x _ => some x

/-- Test `target == nil` on the result of `find`. -/
def Found.isPresent : Found α → Bool
  | .present _ _ => true
  | .slot _ _ => false

/-- Set.Has (set.go 268-275).  The method reads the tree and writes nothing,
so the model is a function of the set alone. -/
def Set.Has [LinearOrder α] (s : Set α) (x : α) : Bool :=
  match s.root with
  | bottom => false
  | node i lv a v b => Found.isPresent (find [] (node i lv a v b) x)

/-- Method `set[T].findGreaterThanOrEqual` (set.go 396-411), descending from
`root`, whose parent chain is `path`; `none` is the result `(nil, false)`.  The
Go code never passes the sentinel: `FindGreaterThanOrEqual` tests for the empty
set and the loop descends only into a child of level above 0. -/
def findGreaterThanOrEqual [LinearOrder α] : Path α → SetItem α → α → Option (Loc α)
  | path, node i lv a v b, x =>
      if v ≠ x then
        if x < v then
          if a.level = 0 then some (path, node i lv a v b)
          else findGreaterThanOrEqual (.inL i lv v b :: path) a x
        else
          if b.level = 0 then Next (path, node i lv a v b)
          else findGreaterThanOrEqual (.inR i lv a v :: path) b x
      else some (path, node i lv a v b)
  | path, bottom, _ => some (path, bottom)

/-- Set.FindGreaterThanOrEqual (set.go 277-284). -/
def Set.FindGreaterThanOrEqual [LinearOrder α] (s : Set α) (x : α) : Option (Loc α) :=
  match s.root with
  | bottom => none
  | node i lv a v b => findGreaterThanOrEqual [] (node i lv a v b) x

/-- Set.Min (set.go 179-187); `default` is the zero value of the element
type. -/
def Set.Min [Inhabited α] (s : Set α) : α × Bool :=
  match s.First with
  | none => (default, false)
  | some (_, node _ _ _ x _) => (x, true)
  | some (_, bottom) => (default, true)

/-- Set.Max (set.go 190-198). -/
def Set.Max [Inhabited α] (s : Set α) : α × Bool :=
  match s.Last with
  | none => (default, false)
  | some (_, node _ _ _ x _) => (x, true)
  | some (_, bottom) => (default, true)
/-- A chain of `InsertNearby` calls, each on the item the previous call
returned, starting from the item with identity `si`: the final set and the
identity of the last item returned. -/
def insertNearbyAll [LinearOrder α] (s : Set α) (si : Nat) : List α → Set α × Nat
  | [] => (s, si)
  | x :: xs => insertNearbyAll (s.InsertNearby si x).1 (s.InsertNearby si x).2.1 xs
/-- Deleting the elements of a list one by one. -/
def deleteAll [LinearOrder α] (s : Set α) (xs : List α) : Set α :=
  xs.foldl (fun s x => (s.Delete x).1) s

/-- The results of deleting the elements of a list one by one. -/
def deleteFlags [LinearOrder α] (s : Set α) : List α → List Bool
  | [] => []
  | x :: xs => (s.Delete x).2 :: deleteFlags (s.Delete x).1 xs

/-- Set.Has (set.go 268-275) of a set made by `NewSetFunc(cmp)`. -/
def Set.HasFunc (cmp : α → α → Int) (s : Set α) (x : α) : Bool :=
  match s.root with
  | bottom => false
  | node i lv a v b => Found.isPresent (findFunc cmp [] (node i lv a v b) x)

/-- Method `setFunc[T].findGreaterThanOrEqual` (set.go 413-430). -/
def findGreaterThanOrEqualFunc (cmp : α → α → Int) : Path α → SetItem α → α → Option (Loc α)
  | path, node i lv a v b, x =>
      if cmp x v < 0 then
        if a.level = 0 then some (path, node i lv a v b)
        else findGreaterThanOrEqualFunc cmp (.inL i lv v b :: path) a x
      else if cmp x v > 0 then
        if b.level = 0 then Next (path, node i lv a v b)
        else findGreaterThanOrEqualFunc cmp (.inR i lv a v :: path) b x
      else some (path, node i lv a v b)
  | path, bottom, _ => some (path, bottom)

/-- Set.FindGreaterThanOrEqual (set.go 277-284) of a set made by
`NewSetFunc(cmp)`. -/
def Set.FindGreaterThanOrEqualFunc (cmp : α → α → Int) (s : Set α) (x : α) : Option (Loc α) :=
  match s.root with
  | bottom => none
  | node i lv a v b => findGreaterThanOrEqualFunc cmp [] (node i lv a v b) x

/-- The function `cmp.Compare` of the Go standard library at type `int`, which
`set_test.go` passes to `NewSetFunc`: -1 below, +1 above, 0 on equal values. -/
def cmpCompare (x y : Int) : Int :=
  if x < y then -1 else if x > y then 1 else 0

/-- A call of one of the methods of a set; an item is given by its identity. -/
inductive Op (α : Type) where
  | Insert (x : α)
  | Delete (x : α)
  | Has (x : α)
  | FindGreaterThanOrEqual (x : α)
  | InsertNearby (si : Nat) (x : α)
  | Min
  | Max
  | All
  | Backward

/-- What a call returns. -/
inductive Res (α : Type) where
  | flag (b : Bool)
  | found (it : Option (Loc α))
  | added (it : Nat) (b : Bool)
  | value (v : α) (ok : Bool)
  | values (vs : Option (List α))

/-- One call on a set made by `NewSet`: the set afterwards and the result. -/
def Set.call [LinearOrder α] [Inhabited α] (s : Set α) : Op α → Set α × Res α
  | .Insert x => ((s.Insert x).1, .flag (s.Insert x).2)
  | .Delete x => ((s.Delete x).1, .flag (s.Delete x).2)
  | .Has x => (s, .flag (s.Has x))
  | .FindGreaterThanOrEqual x => (s, .found (s.FindGreaterThanOrEqual x))
  | .InsertNearby si x =>
      ((s.InsertNearby si x).1, .added (s.InsertNearby si x).2.1 (s.InsertNearby si x).2.2)
  | .Min => (s, .value s.Min.1 s.Min.2)
  | .Max => (s, .value s.Max.1 s.Max.2)
  | .All => (s, .values s.All)
  | .Backward => (s, .values s.Backward)

/-- One call on a set made by `NewSetFunc(cmp)`. -/
def Set.callFunc [Inhabited α] (cmp : α → α → Int) (s : Set α) : Op α → Set α × Res α
  | .Insert x => ((s.InsertFunc cmp x).1, .flag (s.InsertFunc cmp x).2)
  | .Delete x => ((s.DeleteFunc cmp x).1, .flag (s.DeleteFunc cmp x).2)
  | .Has x => (s, .flag (s.HasFunc cmp x))
  | .FindGreaterThanOrEqual x => (s, .found (s.FindGreaterThanOrEqualFunc cmp x))
  | .InsertNearby si x =>
      ((s.InsertNearbyFunc cmp si x).1,
        .added (s.InsertNearbyFunc cmp si x).2.1 (s.InsertNearbyFunc cmp si x).2.2)
  | .Min => (s, .value s.Min.1 s.Min.2)
  | .Max => (s, .value s.Max.1 s.Max.2)
  | .All => (s, .values s.All)
  | .Backward => (s, .values s.Backward)

/-- A sequence of calls on a set made by `NewSet`: after each call, the set and
the result of the call. -/
def run [LinearOrder α] [Inhabited α] (s : Set α) : List (Op α) → List (Set α × Res α)
  | [] => []
  | op :: ops => s.call op :: run (s.call op).1 ops

/-- A sequence of calls on a set made by `NewSetFunc(cmp)`. -/
def runFunc [Inhabited α] (cmp : α → α → Int) (s : Set α) : List (Op α) → List (Set α × Res α)
  | [] => []
  | op :: ops => s.callFunc cmp op :: runFunc cmp (s.callFunc cmp op).1 ops

/-- The walk of `Set.insert` continued through every ancestor up to the root:
the loop of set.go 240-252 without the test `n < 2`. -/
def insertLoopFull : Path α → SetItem α → SetItem α
  | [], t => (split (skew t)).1
  | f :: rest, t => insertLoopFull rest (f.attach (split (skew t)).1)

/-- The part of `Set.insert` after the call of `find`, with the walk continued
up to the root. -/
def insertAtFull (s : Set α) (x : α) : Found α → Set α × Nat × Bool
  | .present _ (node i _ _ _ _) => (s, i, false)
  | .present _ bottom => (s, 0, false)
  | .slot last path =>
      (⟨insertLoopFull path (last.attach (newItem s.nextId x)), s.size + 1, s.nextId + 1⟩,
        s.nextId, true)

/-- Set.insert with the walk continued up to the root. -/
def Set.insertFull [LinearOrder α] (s : Set α) (_hint : Nat) (x : α) : Set α × Nat × Bool :=
  insertAtFull s x (find [] s.root x)

/-- The node `last` of `Set.Delete` when its parent's slot is relinked (set.go
308-314), with its parent chain, after the substitution by the successor
(set.go 297-303).  The result is `none` when `Delete` returns before: the value
is not found, or it is found in a root of level 1 (set.go 304-307). -/
def splicedAt : Found α → Option (Loc α)
  | .slot _ _ => none
  | .present _ bottom => none
  | .present path (node i lv a x b) =>
      if lv > 1 then
        match leftmost [] b with
        | (_, bottom) => none
        | (sp, node j lj sl sv sr) => some (sp ++ Frame.inR i lv a sv :: path, node j lj sl sv sr)
      else
        match path with
        | [] => none
        | f :: rest => some (f :: rest, node i lv a x b)

/-- The node spliced out by `s.Delete(x)`. -/
def Set.spliced [LinearOrder α] (s : Set α) (x : α) : Option (Loc α) :=
  match s.root with
  | bottom => none
  | node i lv a v b => splicedAt (find [] (node i lv a v b) x)
/-- Set.insert of a set made by `NewSetFunc(cmp)` with the walk continued up to
the root. -/
def Set.insertFullFunc (cmp : α → α → Int) (s : Set α) (_hint : Nat) (x : α) :
    Set α × Nat × Bool :=
  insertAtFull s x (findFunc cmp [] s.root x)

end Sorted

namespace Bfs

/-- The interface `graph.Graph` (graph/interfaces.go 5-8): the method
`Adjacent`, a function from a vertex to the list of its neighbours. -/
abbrev Graph := Int → List Int

/-- The type `graph.AdjList` (graph/types.go 4-7) with its method `Adjacent`,
`l[v]`.  An index outside the list, on which the Go code stops, has no
neighbours here. -/
def AdjList (l : List (List Int)) : Graph :=
  fun v => if 0 ≤ v then l.getD v.toNat [] else []

/-- The interface `parent` (bfs.go 49-53), as the map `parentMap` (bfs.go
55-68): the vertex each visited vertex was reached from.  On a graph whose
vertices are `0 .. Size()-1` the variant `parentSlice` (bfs.go 70-90) stores
the same. -/
abbrev Parent := Int → Option Int

/-- Method `has` (bfs.go 57-60). -/
def Parent.has (m : Parent) (v : Int) : Bool := (m v).isSome

/-- Method `get` (bfs.go 62-64); a key that is not set yields the zero value. -/
def Parent.get (m : Parent) (v : Int) : Int := (m v).getD 0

/-- Method `set` (bfs.go 66-68). -/
def Parent.set (m : Parent) (c p : Int) : Parent :=
  fun v => if v = c then some p else m v

/-- The walk back `for w := v; w != from; w = parent.get(w)` (bfs.go 26-29),
which collects `reversed`.  The first argument bounds the number of tests of
the loop condition; the result is `none` when the bound is reached. -/
def reversed (parent : Parent) (src : Int) : Nat → Int → Option (List Int)
  | 0, _ => none
  | n + 1, w =>
      if w ≠ src then (reversed parent src n (Parent.get parent w)).map (fun r => w :: r)
      else some []

/-- Outcome of the loop over the neighbours of a vertex. -/
inductive Scan where
  | done (result : Option (List Int))
  | more (parent : Parent) (queue : List Int)

/-- The loop `for _, u := range g.Adjacent(v)` (bfs.go 24-44) over the
neighbours still to be looked at.  `done (some path)` is `return path` (bfs.go
30-37: `from`, then `reversed` backwards, then `dst`), `done none` means that
the walk back reached its bound, `more` is the state after the loop. -/
def scan (src dst v : Int) (fuel : Nat) : Parent → List Int → List Int → Scan
  | parent, queue, [] => .more parent queue
  | parent, queue, u :: us =>
      if u = dst then
        .done ((reversed parent src fuel v).map (fun r => src :: r.reverse ++ [dst]))
      else if Parent.has parent u then scan src dst v fuel parent queue us
      else scan src dst v fuel (Parent.set parent u v) (queue ++ [u]) us

/-- The loop `for len(queue) > 0` (bfs.go 21-45) followed by `return nil`.  The
second number bounds the iterations.  The result is `none` when a bound is
reached, `some none` for `nil` and `some (some path)` for a path. -/
def loop (g : Graph) (src dst : Int) (fuel : Nat) :
    Nat → Parent → List Int → Option (Option (List Int))
  | _, _, [] => some none
  | 0, _, _ :: _ => none
  | n + 1, parent, v :: queue =>
      match scan src dst v fuel parent queue (g v) with
      | .done (some path) => some (some path)
      | .done none => none
      | .more parent' queue' => loop g src dst fuel n parent' queue'

/-- Function `Path` (bfs.go 9-47), with a bound `fuel` on the iterations of
each of its loops. -/
def Path (fuel : Nat) (g : Graph) (src dst : Int) : Option (Option (List Int)) :=
  if src = dst then some (some [src])
  else loop g src dst fuel fuel (Parent.set (fun _ => none) src src) [src]

/-- A list of vertices is a path of `g` from `a` to `b`: it starts with `a`,
ends with `b`, and every vertex but the first is adjacent to the one before
it. -/
def IsPath (g : Graph) (a b : Int) (q : List Int) : Prop :=
  q.head? = some a ∧ q.getLast? = some b ∧ q.Chain' (fun x y => y ∈ g x)

/-- State of the search while the neighbours `us` of `v` remain to be looked
at: `d` is the number of edges on the way back from a visited vertex. -/
structure Scanning (g : Graph) (src dst : Int) (d : Int → Nat) (parent : Parent)
    (queue : List Int) (v : Int) (us : List Int) : Prop where
  root : parent src = some src
  d_root : d src = 0
  step : ∀ w pw, parent w = some pw → w ≠ src →
    (parent pw).isSome ∧ w ∈ g pw ∧ d w = d pw + 1
  least : ∀ w, (parent w).isSome → ∀ q, IsPath g src w q → d w + 1 ≤ q.length
  target : parent dst = none
  edge : ∀ x y, (parent x).isSome → y ∈ g x → parent y = none →
    x ∈ queue ∨ (x = v ∧ y ∈ us)
  queued : ∀ x ∈ queue, (parent x).isSome ∧ d v ≤ d x ∧ d x ≤ d v + 1
  sorted : queue.Pairwise (fun a b => d a ≤ d b)
  cur : (parent v).isSome
  sub : ∀ y ∈ us, y ∈ g v

/-- The result is a path from `src` to `dst` and no path between them is
shorter. -/
def Shortest (g : Graph) (src dst : Int) (p : List Int) : Prop :=
  IsPath g src dst p ∧ ∀ q, IsPath g src dst q → p.length ≤ q.length

/-- Vertex `b` can be reached from `a` by following `Adjacent` edges. -/
def Reach (g : Graph) (a b : Int) : Prop := ∃ q, IsPath g a b q

/-- The list `V` holds all vertices of a finite graph: every neighbour of a
vertex of `V` is in `V`. -/
def Closed (g : Graph) (V : List Int) : Prop := ∀ v ∈ V, ∀ u ∈ g v, u ∈ V

/-- Number of vertices of `V` that have not been visited. -/
def unvisited (parent : Parent) (V : List Int) : Nat :=
  V.countP (fun x => !Parent.has parent x)

end Bfs

namespace Maxflow

/-- The interface `maxflow.Graph` (maxflow.go 10-17) for a graph whose state
has type `σ`: `AddFlow` yields the state after the call, the other two methods
read the state. -/
structure Graph (σ : Type) where
  Adjacent : σ → Int → List Int
  AddFlow : σ → Int → Int → Int → σ
  ResidualCapacity : σ → Int → Int → Int

/-- Method `residualGraph.Adjacent` (maxflow.go 53-61): the neighbours with a
positive residual capacity. -/
def residualGraph {σ : Type} (G : Graph σ) (s : σ) : Bfs.Graph :=
  fun v => (G.Adjacent s v).filter (fun u => decide (G.ResidualCapacity s v u > 0))

/-- A Go `int` of 64 bits: the value an arithmetic result is stored as. -/
def wrap (x : Int) : Int := (x + 2 ^ 63) % 2 ^ 64 - 2 ^ 63

/-- The loop of maxflow.go 33-37 over the edges of the path after the first:
the least residual capacity seen, starting from `f`. -/
def minResidual {σ : Type} (G : Graph σ) (s : σ) : Int → List Int → Int
  | f, x :: y :: rest =>
      minResidual G s
        (if G.ResidualCapacity s x y < f then G.ResidualCapacity s x y else f) (y :: rest)
  | f, _ => f

/-- The loop of maxflow.go 41-43: `AddFlow` along the path.  The list keeps
the calls of `AddFlow` made so far, with their arguments. -/
def addFlows {σ : Type} (G : Graph σ) (f : Int) :
    σ → List (Int × Int × Int) → List Int → σ × List (Int × Int × Int)
  | s, calls, x :: y :: rest => addFlows G f (G.AddFlow s x y f) (calls ++ [(x, y, f)]) (y :: rest)
  | s, calls, _ => (s, calls)

/-- How a call of `EdmondsKarp` ends: with a return value or with a panic. -/
inductive Outcome where
  | ret (flow : Int)
  | panic (msg : String)
  deriving DecidableEq, Repr

/-- The state of the graph after a call of `EdmondsKarp`, the calls of
`AddFlow` it made, and how it ended. -/
structure Run (σ : Type) where
  state : σ
  calls : List (Int × Int × Int)
  outcome : Outcome

/-- The loop of `EdmondsKarp` (maxflow.go 24-45) and the `return flow` after
it.  The first number bounds the loops of `bfs.Path`, the second the
iterations of this loop; the result is `none` when a bound is reached. -/
def EdmondsKarpLoop {σ : Type} (G : Graph σ) (source sink : Int) (fuel : Nat) :
    Nat → σ → List (Int × Int × Int) → Int → Option (Run σ)
  | 0, _, _, _ => none
  | n + 1, s, calls, flow =>
      match Bfs.Path fuel (residualGraph G s) source sink with
      | none => none
      | some none => some ⟨s, calls, .ret flow⟩
      | some (some []) => some ⟨s, calls, .ret flow⟩
      | some (some [_]) => some ⟨s, calls, .panic "source == sink"⟩
      | some (some (a :: b :: rest)) =>
          if minResidual G s (G.ResidualCapacity s a b) (b :: rest) ≤ 0 then
            some ⟨s, calls, .panic "invalid graph"⟩
          else
            EdmondsKarpLoop G source sink fuel n
              (addFlows G (minResidual G s (G.ResidualCapacity s a b) (b :: rest)) s calls
                (a :: b :: rest)).1
              (addFlows G (minResidual G s (G.ResidualCapacity s a b) (b :: rest)) s calls
                (a :: b :: rest)).2
              (wrap (flow + minResidual G s (G.ResidualCapacity s a b) (b :: rest)))

/-- Function `EdmondsKarp` (maxflow.go 22-47), with a bound `fuel` on the
iterations of each loop that is not a loop over a slice. -/
def EdmondsKarp {σ : Type} (fuel : Nat) (G : Graph σ) (s : σ) (source sink : Int) :
    Option (Run σ) :=
  EdmondsKarpLoop G source sink fuel fuel s [] 0
/-- The type `testGraph` (maxflow_test.go 12-15).  The maps `capacity` and
`flow`, keyed by `edge{from, to}`, are functions of the two end points, zero
where the Go map has no entry. -/
structure TestGraph where
  edges : List (List Int)
  capacity : Int → Int → Int
  flow : Int → Int → Int

/-- Method `testGraph.Adjacent` (maxflow_test.go 17-19), `g.edges[v]`.  An
index outside the slice, on which the Go code stops, has no neighbours here. -/
def TestGraph.Adjacent (g : TestGraph) (v : Int) : List Int :=
  if 0 ≤ v then g.edges.getD v.toNat [] else []

/-- Method `testGraph.AddFlow` (maxflow_test.go 21-24): `g.flow[edge{v, u}] +=
amount`, then `g.flow[edge{u, v}] -= amount`. -/
def TestGraph.AddFlow (g : TestGraph) (v u amount : Int) : TestGraph :=
  { g with
    flow := fun a b =>
      if a = u ∧ b = v then
        wrap ((if a = v ∧ b = u then wrap (g.flow a b + amount) else g.flow a b) - amount)
      else if a = v ∧ b = u then wrap (g.flow a b + amount)
      else g.flow a b }

/-- Method `testGraph.ResidualCapacity` (maxflow_test.go 26-29). -/
def TestGraph.ResidualCapacity (g : TestGraph) (v u : Int) : Int :=
  wrap (g.capacity v u - g.flow v u)

/-- The type `testGraph` as an implementation of `maxflow.Graph`. -/
def testGraph : Graph TestGraph :=
  ⟨TestGraph.Adjacent, TestGraph.AddFlow, TestGraph.ResidualCapacity⟩

/-- The map `capacity` that the test builds from its table (maxflow_test.go
124-129): row `v` of the table lists the edges `{to, capacity}` leaving `v`,
and a later entry for the same edge replaces an earlier one. -/
def capacityOf (table : List (List (Int × Int))) (v u : Int) : Int :=
  if 0 ≤ v then
    (((table.getD v.toNat []).reverse.find? (fun e => decide (e.1 = u))).map (fun e => e.2)).getD 0
  else 0

/-- The graph that the test builds from its table (maxflow_test.go 119-129),
with no flow. -/
def mkGraph (table : List (List (Int × Int))) : TestGraph :=
  ⟨table.map (fun row => row.map (fun e => e.1)), capacityOf table, fun _ _ => 0⟩

/-- The flow on the edges `(v, u)` with `v`, `u` below `n`, row by row. -/
def flowTable (g : TestGraph) (n : Nat) : List (List Int) :=
  (List.range n).map fun v => (List.range n).map fun u => g.flow v u

/-- The vertices `0, ..., n-1` of a graph with `n` rows. -/
def vertices (n : Nat) : List Int := (List.range n).map Int.ofNat

/-- Net flow out of `v`: the sum of `f v u` over the vertices `u`. -/
def outflow (V : List Int) (f : Int → Int → Int) (v : Int) : Int :=
  (V.map (fun u => f v u)).sum

/-- A feasible flow: it respects the capacities, is antisymmetric, and is
conserved at every vertex other than the source and the sink. -/
structure Feasible (V : List Int) (cap : Int → Int → Int) (source sink : Int)
    (f : Int → Int → Int) : Prop where
  cap_le : ∀ v u, f v u ≤ cap v u
  antisymm : ∀ v u, f v u = -f u v
  conserve : ∀ v ∈ V, v ≠ source → v ≠ sink → outflow V f v = 0

/-- The table of the test describes a flow network: every edge leads to a
vertex and is listed in both directions, and no capacity is negative. -/
def Valid (table : List (List (Int × Int))) : Prop :=
  (∀ v ∈ vertices table.length, ∀ u ∈ (mkGraph table).Adjacent v,
    u ∈ vertices table.length ∧ v ∈ (mkGraph table).Adjacent u) ∧
  ∀ v ∈ vertices table.length, ∀ u ∈ vertices table.length, 0 ≤ capacityOf table v u

instance (table : List (List (Int × Int))) : Decidable (Valid table) := by
  unfold Valid; infer_instance

/-- The sum of all capacities of the table. -/
def totalCapacity (table : List (List (Int × Int))) : Int :=
  ((vertices table.length).map fun v =>
    ((vertices table.length).map fun u => capacityOf table v u).sum).sum
/-- A state of the graph of the test that the algorithm can be in: the edges
and capacities are those of the table, and the flow respects the capacities
and is antisymmetric. -/
structure Pre (table : List (List (Int × Int))) (s : TestGraph) : Prop where
  edges : s.edges = (mkGraph table).edges
  capacity : s.capacity = capacityOf table
  cap_le : ∀ v u, s.flow v u ≤ capacityOf table v u
  antisymm : ∀ v u, s.flow v u = -s.flow u v
/-- The state of the loop of `EdmondsKarp`: the flow in the graph is feasible
and the variable `flow` holds its value, the net flow out of the source. -/
structure Good (table : List (List (Int × Int))) (source sink : Int) (s : TestGraph)
    (flow : Int) : Prop where
  pre : Pre table s
  conserve : ∀ v ∈ vertices table.length, v ≠ source → v ≠ sink →
    outflow (vertices table.length) s.flow v = 0
  value : outflow (vertices table.length) s.flow source = flow
  nonneg : 0 ≤ flow

end Maxflow

namespace Heap

variable {α β γ : Type}

/-- A node `SetItem[T]` in memory.  A pointer is an address: `0` is `nil`.
The field `set` is left out: there is one set.  The level is not bounded
(an `int8` level of 127 needs a set of more than `2^127` elements). -/
structure Node (α : Type) where
  l : Nat
  r : Nat
  parent : Nat
  level : Int
  value : α

/-- The memory and the fields of a `Set[T]`: `mem` holds the nodes by address,
`next` is the address of the node allocated next. -/
structure Set (α : Type) where
  mem : Nat → Node α
  next : Nat
  root : Nat
  bottom : Nat
  size : Int

/-- How a piece of code ends: it returns `b`, it dereferences `nil`, or the
bound on the iterations of a loop is reached.  Each time with the memory as it
is at that moment. -/
inductive Res (α β : Type) where
  | ok (b : β) (s : Set α)
  | fault (s : Set α)
  | timeout (s : Set α)

/-- The memory at the end. -/
def Res.state : Res α β → Set α
  | .ok _ s => s
  | .fault s => s
  | .timeout s => s

/-- The value returned, if any. -/
def Res.value? : Res α β → Option β
  | .ok b _ => some b
  | .fault _ => none
  | .timeout _ => none

/-- Code that reads and writes the memory. -/
def M (α β : Type) : Type := Set α → Res α β

instance : Monad (M α) where
  pure b := fun s => .ok b s
  bind m f := fun s =>
    match m s with
    | .ok b s' => f b s'
    | .fault s' => .fault s'
    | .timeout s' => .timeout s'

/-- Read of a field `p.f`. -/
def load (p : Nat) (f : Node α → β) : M α β :=
  fun s => if p = 0 then .fault s else .ok (f (s.mem p)) s

/-- Write of a field of `*p`. -/
def store (p : Nat) (f : Node α → Node α) : M α Unit :=
  fun s => if p = 0 then .fault s
    else .ok () { s with mem := fun a => if a = p then f (s.mem p) else s.mem a }

def getRoot : M α Nat := fun s => .ok s.root s

def setRoot (v : Nat) : M α Unit := fun s => .ok () { s with root := v }

def getBottom : M α Nat := fun s => .ok s.bottom s

def addSize (d : Int) : M α Unit := fun s => .ok () { s with size := s.size + d }

/-- The bound on the iterations of a loop is reached. -/
def outOfFuel : M α β := fun s => .timeout s

/-- The function `newSet`: the sentinel is the node at address 1. -/
def newSet [Inhabited α] : Set α :=
  { mem := fun a => if a = 1 then ⟨1, 1, 0, 0, default⟩ else ⟨0, 0, 0, 0, default⟩
    next := 2
    root := 1
    bottom := 1
    size := 0 }

/-- The method `newItem`. -/
def newItem (x : α) (parent : Nat) : M α Nat :=
  fun s => .ok s.next
    { s with
      size := s.size + 1
      next := s.next + 1
      mem := fun a => if a = s.next then ⟨s.bottom, s.bottom, parent, 1, x⟩ else s.mem a }

/-- The statement `if p := t.parent; p == nil { s.root = c } else { if p.l == t
{ p.l = c } else { p.r = c } }` of `skew` and `split`, where `c` is the child of
`t` that takes its place. -/
def relink (t c : Nat) : M α Unit := do
  let p ← load t Node.parent
  if p = 0 then
    setRoot c
  else
    let pl ← load p Node.l
    if pl = t then
      store p (fun n => { n with l := c })
    else
      store p (fun n => { n with r := c })

/-- The method `skew`.  In the tuple assignment the operands `t.l`, `t.l.r`
and the right-hand sides are read first, then the five fields are written from
left to right.  The field `t.l` is read once: no write to it stands between
its reads. -/
def skew (t : Nat) : M α Nat := do
  let tl ← load t Node.l
  let a ← load tl Node.level
  let b ← load t Node.level
  if a = b then
    relink t tl
    let tlr ← load tl Node.r
    let p ← load t Node.parent
    store t (fun n => { n with l := tlr })
    store t (fun n => { n with parent := tl })
    store tl (fun n => { n with r := t })
    store tl (fun n => { n with parent := p })
    store tlr (fun n => { n with parent := t })
    pure tl
  else
    pure t

/-- The method `split`. -/
def split (t : Nat) : M α (Nat × Bool) := do
  let a ← load t Node.level
  let tr ← load t Node.r
  let trr ← load tr Node.r
  let b ← load trr Node.level
  if a = b then
    relink t tr
    let trl ← load tr Node.l
    let p ← load t Node.parent
    store t (fun n => { n with r := trl })
    store t (fun n => { n with parent := tr })
    store tr (fun n => { n with l := t })
    store tr (fun n => { n with parent := p })
    store trl (fun n => { n with parent := t })
    let lv ← load tr Node.level
    store tr (fun n => { n with level := lv + 1 })
    pure (tr, true)
  else
    pure (t, false)

/-- The result `target` of `find`: `nil`, `&a.l` or `&a.r`. -/
inductive Target where
  | null
  | l (a : Nat)
  | r (a : Nat)
  deriving DecidableEq

/-- The assignment `*target = v`. -/
def Target.assign : Target → Nat → M α Unit
  | .null, _ => fun s => .fault s
  | .l a, v => store a (fun n => { n with l := v })
  | .r a, v => store a (fun n => { n with r := v })

/-- The method `find` of `set[T]`. -/
def find [LinearOrder α] (x : α) : Nat → Nat → M α (Nat × Target)
  | 0, _ => outOfFuel
  | fuel + 1, root => do
    let v ← load root Node.value
    if v ≠ x then
      if x < v then
        let c ← load root Node.l
        let lv ← load c Node.level
        if lv = 0 then pure (root, .l root) else find x fuel c
      else
        let c ← load root Node.r
        let lv ← load c Node.level
        if lv = 0 then pure (root, .r root) else find x fuel c
    else
      pure (root, .null)

/-- The method `find` of `setFunc[T]`. -/
def findFunc (cmp : α → α → Int) (x : α) : Nat → Nat → M α (Nat × Target)
  | 0, _ => outOfFuel
  | fuel + 1, root => do
    let v ← load root Node.value
    if cmp x v < 0 then
      let c ← load root Node.l
      let lv ← load c Node.level
      if lv = 0 then pure (root, .l root) else findFunc cmp x fuel c
    else if cmp x v > 0 then
      let c ← load root Node.r
      let lv ← load c Node.level
      if lv = 0 then pure (root, .r root) else findFunc cmp x fuel c
    else
      pure (root, .null)

/-- The loop of `insert`. -/
def insertLoop : Nat → Nat → Nat → M α Unit
  | 0, _, _ => outOfFuel
  | fuel + 1, t, n =>
    if t ≠ 0 ∧ n < 2 then do
      let t ← skew t
      let (t, ok) ← split t
      let p ← load t Node.parent
      (if p = 0 then setRoot t else pure ())
      insertLoop fuel p (if ok then 0 else n + 1)
    else
      pure ()

/-- The method `insert`; its parameter `root` is not used, the search starts at
`s.root`.  The finder is a parameter. -/
def insert (fnd : α → Nat → Nat → M α (Nat × Target)) (fuel : Nat) (_root : Nat) (x : α) :
    M α (Nat × Bool) := do
  let root ← getRoot
  let (last, target) ← fnd x fuel root
  if target = .null then
    pure (last, false)
  else
    let result ← newItem x last
    target.assign result
    insertLoop fuel last 0
    pure (result, true)

/-- The method `Insert`. -/
def Insert (fnd : α → Nat → Nat → M α (Nat × Target)) (fuel : Nat) (x : α) : M α Bool := do
  let root ← getRoot
  let bottom ← getBottom
  if root = bottom then
    let item ← newItem x 0
    setRoot item
    pure true
  else
    let (_, added) ← insert fnd fuel root x
    pure added

/-- The method `decreaseLevel`.  In `t.r.r = s.skew(t.r.r)` the operand `t.r`
on the left is read before the call. -/
def decreaseLevel (t : Nat) : M α (Nat × Bool) := do
  let lv ← load t Node.level
  let tl ← load t Node.l
  let ll ← load tl Node.level
  let tr ← load t Node.r
  let lr ← load tr Node.level
  if lv > ll + 1 ∨ lv > lr + 1 then
    store t (fun n => { n with level := lv - 1 })
    (if lr > lv - 1 then store tr (fun n => { n with level := lv - 1 }) else pure ())
    let t ← skew t
    let tr ← load t Node.r
    let tr ← skew tr
    store t (fun n => { n with r := tr })
    let tr ← load t Node.r
    let trr ← load tr Node.r
    let trr ← skew trr
    store tr (fun n => { n with r := trr })
    let (t, _) ← split t
    let tr ← load t Node.r
    let lr ← load tr Node.level
    (if lr ≠ 0 then do
      let (tr, _) ← split tr
      store t (fun n => { n with r := tr })
    else
      pure ())
    pure (t, true)
  else
    pure (t, false)

/-- The loop `for successor.l != s.bottom` of `Delete`. -/
def successorLoop : Nat → Nat → M α Nat
  | 0, _ => outOfFuel
  | fuel + 1, successor => do
    let c ← load successor Node.l
    let bottom ← getBottom
    if c ≠ bottom then successorLoop fuel c else pure successor

/-- The last loop of `Delete`. -/
def deleteLoop : Nat → Nat → M α Unit
  | 0, _ => outOfFuel
  | fuel + 1, last => do
    let (last, ok) ← decreaseLevel last
    if ok then
      let p ← load last Node.parent
      if p = 0 then
        setRoot last
      else
        deleteLoop fuel p
    else
      pure ()

/-- The part of `Delete` from the splice on ("Level 1, not root"). -/
def spliceOut (fuel : Nat) (last : Nat) : M α Bool := do
  let lr ← load last Node.r
  let p ← load last Node.parent
  store lr (fun n => { n with parent := p })
  let p ← load last Node.parent
  let pl ← load p Node.l
  let lr ← load last Node.r
  (if pl = last then store p (fun n => { n with l := lr })
    else store p (fun n => { n with r := lr }))
  let p ← load last Node.parent
  deleteLoop fuel p
  pure true

/-- The body of `Delete`, without the deferred update of the size. -/
def deleteBody (fnd : α → Nat → Nat → M α (Nat × Target)) (fuel : Nat) (x : α) : M α Bool := do
  let root ← getRoot
  let bottom ← getBottom
  if root = bottom then
    pure false
  else
    let root ← getRoot
    let (last, target) ← fnd x fuel root
    if target ≠ .null then
      pure false
    else
      let lv ← load last Node.level
      if lv > 1 then
        let lr ← load last Node.r
        let successor ← successorLoop fuel lr
        let v ← load successor Node.value
        store last (fun n => { n with value := v })
        spliceOut fuel successor
      else
        let p ← load last Node.parent
        if p = 0 then
          let lr ← load last Node.r
          setRoot lr
          let root ← getRoot
          store root (fun n => { n with parent := 0 })
          pure true
        else
          spliceOut fuel last

/-- The method `Delete`. -/
def Delete (fnd : α → Nat → Nat → M α (Nat × Target)) (fuel : Nat) (x : α) : M α Bool := do
  let deleted ← deleteBody fnd fuel x
  (if deleted then addSize (-1) else pure ())
  pure deleted

/-- The first loop of `Next`. -/
def climbNext : Nat → Nat → M α Nat
  | 0, _ => outOfFuel
  | fuel + 1, si => do
    let p ← load si Node.parent
    if p ≠ 0 then
      let pr ← load p Node.r
      if si = pr then climbNext fuel p else pure si
    else
      pure si

/-- The loop `for si.l.level > 0`. -/
def descendLeft : Nat → Nat → M α Nat
  | 0, _ => outOfFuel
  | fuel + 1, si => do
    let c ← load si Node.l
    let lv ← load c Node.level
    if lv > 0 then descendLeft fuel c else pure si

/-- The method `Next`. -/
def Next (fuel : Nat) (si : Nat) : M α (Nat × Bool) := do
  let c ← load si Node.r
  let lv ← load c Node.level
  if lv = 0 then
    let si ← climbNext fuel si
    let p ← load si Node.parent
    pure (p, decide (p ≠ 0))
  else
    let si ← descendLeft fuel c
    pure (si, true)

/-- The first loop of `Prev`. -/
def climbPrev : Nat → Nat → M α Nat
  | 0, _ => outOfFuel
  | fuel + 1, si => do
    let p ← load si Node.parent
    if p ≠ 0 then
      let pl ← load p Node.l
      if si = pl then climbPrev fuel p else pure si
    else
      pure si

/-- The loop `for si.r.level > 0`. -/
def descendRight : Nat → Nat → M α Nat
  | 0, _ => outOfFuel
  | fuel + 1, si => do
    let c ← load si Node.r
    let lv ← load c Node.level
    if lv > 0 then descendRight fuel c else pure si

/-- The method `Prev`. -/
def Prev (fuel : Nat) (si : Nat) : M α (Nat × Bool) := do
  let c ← load si Node.l
  let lv ← load c Node.level
  if lv = 0 then
    let si ← climbPrev fuel si
    let p ← load si Node.parent
    pure (p, decide (p ≠ 0))
  else
    let si ← descendRight fuel c
    pure (si, true)

/-- The function `lower`. -/
def lower (a b : Nat) : M α Nat := do
  let la ← load a Node.level
  let lb ← load b Node.level
  if la < lb then
    pure a
  else if lb < la then
    pure b
  else
    let p ← load a Node.parent
    if p = b then pure b else pure a

/-- The method `insertNearby` of `set[T]`. -/
def insertNearby [LinearOrder α] (fuel : Nat) (si : Nat) (x : α) : M α (Nat × Bool) := do
  let v ← load si Node.value
  if v = x then
    pure (si, false)
  else if v < x then
    let (next, ok) ← Next fuel si
    if !ok then
      insert find fuel si x
    else
      let nv ← load next Node.value
      if nv = x then
        pure (next, false)
      else if nv > x then
        let start ← lower si next
        insert find fuel start x
      else
        let root ← getRoot
        insert find fuel root x
  else
    let (prev, ok) ← Prev fuel si
    if !ok then
      insert find fuel si x
    else
      let pv ← load prev Node.value
      if pv = x then
        pure (prev, false)
      else if pv < x then
        let start ← lower si prev
        insert find fuel start x
      else
        let root ← getRoot
        insert find fuel root x

/-- The method `insertNearby` of `setFunc[T]`. -/
def insertNearbyFunc (cmp : α → α → Int) (fuel : Nat) (si : Nat) (x : α) :
    M α (Nat × Bool) := do
  let v ← load si Node.value
  if cmp v x = 0 then
    pure (si, false)
  else if cmp v x < 0 then
    let (next, ok) ← Next fuel si
    if !ok then
      insert (findFunc cmp) fuel si x
    else
      let nv ← load next Node.value
      if cmp nv x = 0 then
        pure (next, false)
      else if cmp nv x > 0 then
        let start ← lower si next
        insert (findFunc cmp) fuel start x
      else
        let root ← getRoot
        insert (findFunc cmp) fuel root x
  else
    let (prev, ok) ← Prev fuel si
    if !ok then
      insert (findFunc cmp) fuel si x
    else
      let pv ← load prev Node.value
      if cmp pv x = 0 then
        pure (prev, false)
      else if cmp pv x < 0 then
        let start ← lower si prev
        insert (findFunc cmp) fuel start x
      else
        let root ← getRoot
        insert (findFunc cmp) fuel root x

/-- The method `findGreaterThanOrEqual` of `set[T]`.  The first number bounds
the loops of `Next`, the second one the loop of the method. -/
def findGreaterThanOrEqual [LinearOrder α] (x : α) (fuel : Nat) : Nat → Nat → M α (Nat × Bool)
  | 0, _ => outOfFuel
  | n + 1, root => do
    let v ← load root Node.value
    if v ≠ x then
      if x < v then
        let c ← load root Node.l
        let lv ← load c Node.level
        if lv = 0 then pure (root, true) else findGreaterThanOrEqual x fuel n c
      else
        let c ← load root Node.r
        let lv ← load c Node.level
        if lv = 0 then Next fuel root else findGreaterThanOrEqual x fuel n c
    else
      pure (root, true)

/-- The method `findGreaterThanOrEqual` of `setFunc[T]`. -/
def findGreaterThanOrEqualFunc (cmp : α → α → Int) (x : α) (fuel : Nat) :
    Nat → Nat → M α (Nat × Bool)
  | 0, _ => outOfFuel
  | n + 1, root => do
    let v ← load root Node.value
    if cmp x v < 0 then
      let c ← load root Node.l
      let lv ← load c Node.level
      if lv = 0 then pure (root, true) else findGreaterThanOrEqualFunc cmp x fuel n c
    else if cmp x v > 0 then
      let c ← load root Node.r
      let lv ← load c Node.level
      if lv = 0 then Next fuel root else findGreaterThanOrEqualFunc cmp x fuel n c
    else
      pure (root, true)

/-- The interface `finder[T]`. -/
structure Finder (α : Type) where
  find : α → Nat → Nat → M α (Nat × Target)
  findGreaterThanOrEqual : α → Nat → Nat → Nat → M α (Nat × Bool)
  insertNearby : Nat → Nat → α → M α (Nat × Bool)

/-- The finder `set[T]` of `NewSet`. -/
def setFinder [LinearOrder α] : Finder α := ⟨find, findGreaterThanOrEqual, insertNearby⟩

/-- The finder `setFunc[T]` of `NewSetFunc`. -/
def funcFinder (cmp : α → α → Int) : Finder α :=
  ⟨findFunc cmp, findGreaterThanOrEqualFunc cmp, insertNearbyFunc cmp⟩

/-- The method `Value`. -/
def Value (si : Nat) : M α α := load si Node.value

/-- The method `Len`. -/
def Len : M α Int := fun s => .ok s.size s

/-- The method `First`. -/
def First (fuel : Nat) : M α (Nat × Bool) := do
  let root ← getRoot
  let lv ← load root Node.level
  if lv = 0 then
    pure (0, false)
  else
    let v ← descendLeft fuel root
    pure (v, true)

/-- The values from `si` on in the order of `Next`. -/
def collect (fuel : Nat) : Nat → Nat → Bool → List α → M α (List α)
  | 0, _, _, _ => outOfFuel
  | n + 1, si, ok, acc =>
    if ok then do
      let v ← load si Node.value
      let (si, ok) ← Next fuel si
      collect fuel n si ok (acc ++ [v])
    else
      pure acc

/-- The values that `All` yields. -/
def All (fuel : Nat) : M α (List α) := do
  let (si, ok) ← First fuel
  collect fuel fuel si ok []

/-- The method `Last`. -/
def Last (fuel : Nat) : M α (Nat × Bool) := do
  let root ← getRoot
  let lv ← load root Node.level
  if lv = 0 then
    pure (0, false)
  else
    let v ← descendRight fuel root
    pure (v, true)

/-- The method `Min`. -/
def Min [Inhabited α] (fuel : Nat) : M α (α × Bool) := do
  let (si, ok) ← First fuel
  if !ok then
    pure (default, false)
  else
    let v ← load si Node.value
    pure (v, true)

/-- The method `Max`. -/
def Max [Inhabited α] (fuel : Nat) : M α (α × Bool) := do
  let (si, ok) ← Last fuel
  if !ok then
    pure (default, false)
  else
    let v ← load si Node.value
    pure (v, true)

/-- The values from `si` on in the order of `Prev`. -/
def collectBack (fuel : Nat) : Nat → Nat → Bool → List α → M α (List α)
  | 0, _, _, _ => outOfFuel
  | n + 1, si, ok, acc =>
    if ok then do
      let v ← load si Node.value
      let (si, ok) ← Prev fuel si
      collectBack fuel n si ok (acc ++ [v])
    else
      pure acc

/-- The values that `Backward` yields. -/
def Backward (fuel : Nat) : M α (List α) := do
  let (si, ok) ← Last fuel
  collectBack fuel fuel si ok []

/-- The method `Has`. -/
def Has (fnd : α → Nat → Nat → M α (Nat × Target)) (fuel : Nat) (x : α) : M α Bool := do
  let root ← getRoot
  let bottom ← getBottom
  if root = bottom then
    pure false
  else
    let root ← getRoot
    let (_, target) ← fnd x fuel root
    pure (decide (target = .null))

/-- The method `FindGreaterThanOrEqual`. -/
def FindGreaterThanOrEqual (fge : α → Nat → Nat → Nat → M α (Nat × Bool)) (fuel : Nat) (x : α) :
    M α (Nat × Bool) := do
  let root ← getRoot
  let bottom ← getBottom
  if root = bottom then
    pure (0, false)
  else
    let root ← getRoot
    fge x fuel fuel root

/-- The states of the memory that the public operations lead to from `newSet`,
whether they return or not.  `InsertNearby` is applied to an item of the set,
so the set is not empty.  `Next`, `Prev` and `Value` are applied to any
pointer. -/
inductive Reached [Inhabited α] (f : Finder α) : Set α → Prop where
  | new : Reached f newSet
  | Insert (s : Set α) (fuel : Nat) (x : α) :
      Reached f s → Reached f (Insert f.find fuel x s).state
  | Delete (s : Set α) (fuel : Nat) (x : α) :
      Reached f s → Reached f (Delete f.find fuel x s).state
  | InsertNearby (s : Set α) (fuel : Nat) (si : Nat) (x : α) :
      Reached f s → s.root ≠ s.bottom → Reached f (f.insertNearby fuel si x s).state
  | Len (s : Set α) : Reached f s → Reached f (Len s).state
  | First (s : Set α) (fuel : Nat) : Reached f s → Reached f (First fuel s).state
  | Last (s : Set α) (fuel : Nat) : Reached f s → Reached f (Last fuel s).state
  | Min (s : Set α) (fuel : Nat) : Reached f s → Reached f (Min fuel s).state
  | Max (s : Set α) (fuel : Nat) : Reached f s → Reached f (Max fuel s).state
  | All (s : Set α) (fuel : Nat) : Reached f s → Reached f (All fuel s).state
  | Backward (s : Set α) (fuel : Nat) : Reached f s → Reached f (Backward fuel s).state
  | Has (s : Set α) (fuel : Nat) (x : α) :
      Reached f s → Reached f (Has f.find fuel x s).state
  | FindGreaterThanOrEqual (s : Set α) (fuel : Nat) (x : α) :
      Reached f s →
      Reached f (FindGreaterThanOrEqual f.findGreaterThanOrEqual fuel x s).state
  | Next (s : Set α) (fuel : Nat) (si : Nat) : Reached f s → Reached f (Next fuel si s).state
  | Prev (s : Set α) (fuel : Nat) (si : Nat) : Reached f s → Reached f (Prev fuel si s).state
  | Value (s : Set α) (si : Nat) : Reached f s → Reached f (Value si s).state

/-- The typing of the memory that the operations keep: the sentinel at address
1 has itself as children, level 0 and the zero value; every other node has
level at least 1, children that are allocated nodes, and a parent that is `nil`
or an allocated node other than the sentinel. -/
structure Typed [Inhabited α] (s : Set α) : Prop where
  bottom : s.bottom = 1
  next : 2 ≤ s.next
  l : (s.mem 1).l = 1
  r : (s.mem 1).r = 1
  level : (s.mem 1).level = 0
  value : (s.mem 1).value = default
  parent : (s.mem 1).parent < s.next
  root : 1 ≤ s.root ∧ s.root < s.next
  node : ∀ a, 2 ≤ a → a < s.next →
    1 ≤ (s.mem a).l ∧ (s.mem a).l < s.next ∧ 1 ≤ (s.mem a).r ∧ (s.mem a).r < s.next ∧
    (s.mem a).parent ≠ 1 ∧ (s.mem a).parent < s.next ∧ 1 ≤ (s.mem a).level

/-- Code `m` run from a typed memory with `n` as next address ends in a typed
memory, and a value it returns satisfies `Q`. -/
def Keeps [Inhabited α] (n : Nat) (m : M α β) (Q : Nat → β → Prop) : Prop :=
  ∀ s, Typed s → s.next = n →
    match m s with
    | .ok b s' => Typed s' ∧ Q s'.next b
    | .fault s' => Typed s'
    | .timeout s' => Typed s'

/-- Code `m` does not write. -/
def ReadOnly (m : M α β) : Prop := ∀ s, (m s).state = s
/-- As `Keeps`, from a memory in which `s.root` is `r`. -/
def KeepsAt [Inhabited α] (n r : Nat) (m : M α β) (Q : Nat → β → Prop) : Prop :=
  ∀ s, Typed s → s.next = n → s.root = r →
    match m s with
    | .ok b s' => Typed s' ∧ Q s'.next b
    | .fault s' => Typed s'
    | .timeout s' => Typed s'

/-- What `find` returns from a node other than the sentinel: such a node, and
`nil` or the address of one of its children. -/
def FindKeeps [Inhabited α] (fnd : α → Nat → Nat → M α (Nat × Target)) : Prop :=
  ∀ (n : Nat) (x : α) (fuel root : Nat), 2 ≤ root → root < n →
    Keeps n (fnd x fuel root)
      (fun n' v => n' = n ∧ 2 ≤ v.1 ∧ v.1 < n ∧ (v.2 = .null ∨ v.2 = .l v.1 ∨ v.2 = .r v.1))
/-- The fields `l`, `r`, `level` and `value` of the sentinel. -/
def sentinelFields (s : Set α) : Nat × Nat × Int × α :=
  ((s.mem s.bottom).l, (s.mem s.bottom).r, (s.mem s.bottom).level, (s.mem s.bottom).value)

/-- The memory after `Insert` of the values of a list, one after the other. -/
def insertAll (fuel : Nat) (l : List Int) (s : Set Int) : Set Int :=
  l.foldl (fun s x => (Insert find fuel x s).state) s

/-- The memory after `Delete` of the values of a list, one after the other. -/
def deleteAll (fuel : Nat) (l : List Int) (s : Set Int) : Set Int :=
  l.foldl (fun s x => (Delete find fuel x s).state) s

end Heap

namespace Partition

/-- The local type `vertex` of `StronglyConnected`. -/
structure Vertex where
  onStack : Bool
  low : Nat
  index : Nat
  deriving DecidableEq, Repr

/-- The variables that the closure `dfs` shares: the slice `vs`, read as a
function on the indices below `g.Size()`, `nextIndex`, the stack, kept with its
top first, and the components found. -/
structure State where
  vs : Nat → Vertex
  nextIndex : Nat
  stack : List Nat
  components : List (List Nat)

/-- How a call ends: it returns, it panics (an index out of range), or the
bound on the depth of the recursion is reached. -/
inductive Out (α : Type) where
  | ok (a : α)
  | panic
  | timeout
  deriving DecidableEq, Repr

/-- The assignment `vs[v] = x`. -/
def setV (vs : Nat → Vertex) (v : Nat) (x : Vertex) : Nat → Vertex :=
  fun u => if u = v then x else vs u

/-- The first five statements of `dfs`. -/
def enter (v : Nat) (s : State) : State :=
  { s with
    vs := setV s.vs v ⟨true, s.nextIndex, s.nextIndex⟩
    nextIndex := s.nextIndex + 1
    stack := v :: s.stack }

/-- The statement `if l := vs[w].low; vs[v].low > l { vs[v].low = l }`. -/
def relax (v w : Nat) (s : State) : State :=
  if (s.vs v).low > (s.vs w).low then
    { s with vs := setV s.vs v { s.vs v with low := (s.vs w).low } }
  else s

/-- The loop `for _, w := range g.Adjacent(v)` of `dfs`; `call` is `dfs`, and
`n` the length of `vs`. -/
def scan (n : Nat) (call : Nat → State → Out State) (v : Nat) : List Nat → State → Out State
  | [], s => .ok s
  | w :: ws, s =>
    if w < n then
      if (s.vs w).index = 0 then
        match call w s with
        | .ok s' => scan n call v ws (relax v w s')
        | .panic => .panic
        | .timeout => .timeout
      else if (s.vs w).onStack then
        scan n call v ws (relax v w s)
      else
        scan n call v ws s
    else .panic

/-- The loop `for stack[i] != v { i-- }` and the two slices `stack[i:]`, in
the order of the slice, and `stack[:i]`; `none` when `v` is not on the stack
(the index runs out of range). -/
def popTo (v : Nat) : List Nat → Option (List Nat × List Nat)
  | [] => none
  | u :: rest =>
    if u = v then some ([u], rest)
    else
      match popTo v rest with
      | none => none
      | some (comp, rest') => some (comp ++ [u], rest')

/-- The loop `for _, u := range comp { vs[u].onStack = false }`. -/
def clearOnStack : List Nat → (Nat → Vertex) → (Nat → Vertex)
  | [], vs => vs
  | u :: comp, vs => clearOnStack comp (setV vs u { vs u with onStack := false })

/-- The last statement of `dfs`. -/
def finish (v : Nat) (s : State) : Out State :=
  if (s.vs v).low = (s.vs v).index then
    match popTo v s.stack with
    | none => .panic
    | some (comp, rest) =>
      .ok { s with
            vs := clearOnStack comp s.vs
            stack := rest
            components := s.components ++ [comp] }
  else .ok s

/-- The closure `dfs`; `fuel` bounds the depth of the recursion. -/
def dfs (g : List (List Nat)) : Nat → Nat → State → Out State
  | 0, _, _ => .timeout
  | fuel + 1, v, s =>
    if v < g.length then
      match scan g.length (dfs g fuel) v (g.getD v []) (enter v s) with
      | .ok s' => finish v s'
      | .panic => .panic
      | .timeout => .timeout
    else .panic

/-- The loop `for i := range vs` of `StronglyConnected`. -/
def roots (g : List (List Nat)) (fuel : Nat) : List Nat → State → Out State
  | [], s => .ok s
  | i :: rest, s =>
    if (s.vs i).index = 0 then
      match dfs g fuel i s with
      | .ok s' => roots g fuel rest s'
      | .panic => .panic
      | .timeout => .timeout
    else roots g fuel rest s

/-- The variables before the loop. -/
def init : State :=
  { vs := fun _ => ⟨false, 0, 0⟩, nextIndex := 1, stack := [], components := [] }

/-- The function `StronglyConnected` on a `graph.AdjList`, whose entries are
natural numbers here (a negative entry makes `vs[w]` panic). -/
def StronglyConnected (fuel : Nat) (g : List (List Nat)) : Out (List (List Nat)) :=
  match roots g fuel (List.range g.length) init with
  | .ok s => .ok s.components
  | .panic => .panic
  | .timeout => .timeout

/-- The method `Less` of `lexicographically` in the test. -/
def less : List Nat → List Nat → Bool
  | [], _ => false
  | _ :: _, [] => false
  | a :: as, b :: bs => if a < b then true else if a > b then false else less as bs

/-- The function `sortComponents` of the test. -/
def sortComponents (cs : List (List Nat)) : List (List Nat) :=
  (cs.map (fun c => c.insertionSort (fun a b => a ≤ b))).insertionSort (fun a b => less b a = false)

/-- The check of the test on one case. -/
def testCase (g : List (List Nat)) (want : List (List Nat)) : Bool :=
  match StronglyConnected (g.length + 1) g with
  | .ok got => decide (sortComponents got = sortComponents want)
  | _ => false

/-- There is an edge from `x` to `y`. -/
def Edge (g : List (List Nat)) (x y : Nat) : Prop := y ∈ g.getD x []

/-- Vertex `y` can be reached from `x`. -/
def Reach (g : List (List Nat)) : Nat → Nat → Prop := Relation.ReflTransGen (Edge g)

/-- All entries of the adjacency list are vertices. -/
def InRange (g : List (List Nat)) : Prop := ∀ x y, Edge g x y → y < g.length

/-- Number of vertices that have not been visited. -/
def unvisited (g : List (List Nat)) (s : State) : Nat :=
  (List.range g.length).countP (fun x => decide ((s.vs x).index = 0))

/-- The assignment `vs[v].low = l`. -/
def lowerLow (v l : Nat) (s : State) : State :=
  { s with vs := setV s.vs v { s.vs v with low := l } }

/-- The state of the variables between two statements of `dfs`, where `G` lists
the vertices whose call of `dfs` is running, the last one called first. -/
structure Inv (g : List (List Nat)) (G : List Nat) (s : State) : Prop where
  next_pos : 1 ≤ s.nextIndex
  index_lt : ∀ x, (s.vs x).index < s.nextIndex
  visited_lt : ∀ x, (s.vs x).index ≠ 0 → x < g.length
  onStack_iff : ∀ x, (s.vs x).onStack = true ↔ x ∈ s.stack
  stack_visited : ∀ x ∈ s.stack, (s.vs x).index ≠ 0
  stack_sorted : s.stack.Pairwise (fun a b => (s.vs b).index < (s.vs a).index)
  gray_sub : G.Sublist s.stack
  explored : ∀ x, (s.vs x).index ≠ 0 → x ∉ G → ∀ y, Edge g x y → (s.vs y).index ≠ 0
  low_le : ∀ x ∈ s.stack, (s.vs x).low ≤ (s.vs x).index
  low_wit : ∀ x ∈ s.stack, ∃ z ∈ s.stack, (s.vs z).index = (s.vs x).low ∧ Reach g x z
  stack_reach : ∀ x ∈ s.stack, ∀ y ∈ s.stack, (s.vs x).index ≤ (s.vs y).index → Reach g x y
  to_gray : ∀ y ∈ s.stack, ∃ z ∈ G, (s.vs z).index ≤ (s.vs y).index ∧ Reach g y z
  comps_done : ∀ x, (∃ c ∈ s.components, x ∈ c) ↔ ((s.vs x).index ≠ 0 ∧ x ∉ s.stack)
  comps_scc : ∀ c ∈ s.components, ∀ x ∈ c, ∀ y, y ∈ c ↔ (Reach g x y ∧ Reach g y x)
  comps_nodup : s.components.flatten.Nodup
  comps_ne : ∀ c ∈ s.components, c ≠ []
  done_closed : ∀ x, (s.vs x).index ≠ 0 → x ∉ s.stack → ∀ y, Edge g x y →
    ((s.vs y).index ≠ 0 ∧ y ∉ s.stack)

/-- State `s` comes after `s0`: the stack has grown by `seg`, whose vertices
were not visited in `s0`; what was visited keeps its index, and what was on
the stack is unchanged. -/
structure Ext (g : List (List Nat)) (s0 s : State) (seg : List Nat) : Prop where
  stack_eq : s.stack = seg ++ s0.stack
  seg_new : ∀ x ∈ seg, (s0.vs x).index = 0
  old_vs : ∀ x ∈ s0.stack, s.vs x = s0.vs x
  index_keep : ∀ x, (s0.vs x).index ≠ 0 → (s.vs x).index = (s0.vs x).index
  next_le : s0.nextIndex ≤ s.nextIndex
  new_ge : ∀ x, (s0.vs x).index = 0 → (s.vs x).index ≠ 0 → s0.nextIndex ≤ (s.vs x).index
  unv_le : unvisited g s ≤ unvisited g s0

/-- What a call `dfs(v)` from the state `s0` establishes in its final state
`s`. -/
structure Post (g : List (List Nat)) (G : List Nat) (v : Nat) (s0 s : State)
    (seg : List Nat) : Prop where
  inv : Inv g G s
  ext : Ext g s0 s seg
  visited : (s.vs v).index ≠ 0
  xedge : ∀ x ∈ seg, ∀ y ∈ s0.stack, Edge g x y → (s.vs v).low ≤ (s.vs y).index
  popped : v ∉ s.stack → (s.vs v).low = (s.vs v).index
  unv_lt : unvisited g s < unvisited g s0

/-- The state of the variables in the loop of `dfs(v)`, called from the state
`s0`: `seg` is what the calls made so far have left on the stack above `v`,
and `P` lists the neighbours looked at. -/
structure Body (g : List (List Nat)) (G : List Nat) (v : Nat) (s0 s : State)
    (seg P : List Nat) : Prop where
  inv : Inv g (v :: G) s
  ext : Ext g s0 s (seg ++ [v])
  gray0 : G.Sublist s0.stack
  xedge : ∀ x ∈ seg, ∀ y ∈ s0.stack, Edge g x y → (s.vs v).low ≤ (s.vs y).index
  proc_visited : ∀ w ∈ P, (s.vs w).index ≠ 0
  proc_low : ∀ w ∈ P, w ∈ s0.stack → (s.vs v).low ≤ (s.vs w).index
  unv_lt : unvisited g s < unvisited g s0
instance (g : List (List Nat)) : Decidable (InRange g) :=
  decidable_of_iff (∀ l ∈ g, ∀ y ∈ l, y < g.length) (by
    unfold InRange Edge
    constructor
    · intro h x y hy
      by_cases hx : x < g.length
      · rw [List.getD_eq_getElem g [] hx] at hy
        exact h _ (List.getElem_mem hx) y hy
      · rw [List.getD_eq_default g [] (Nat.le_of_not_lt hx)] at hy
        cases hy
    · intro h l hl y hy
      obtain ⟨i, hi, e⟩ := List.getElem_of_mem hl
      apply h i y
      rw [List.getD_eq_getElem g [] hi, e]
      exact hy)

end Partition

set_option linter.unnecessarySeqFocus false

namespace Sorted

open SetItem

variable {α : Type}

/-! ## Basic facts -/

@[simp] theorem level_bottom : (bottom : SetItem α).level = 0 := rfl

@[simp] theorem level_node (i lv : Nat) (a : SetItem α) (x : α) (b : SetItem α) :
    (node i lv a x b).level = lv := rfl

@[simp] theorem r_bottom : (bottom : SetItem α).r = bottom := rfl

@[simp] theorem r_node (i lv : Nat) (a : SetItem α) (x : α) (b : SetItem α) :
    (node i lv a x b).r = b := rfl

@[simp] theorem l_bottom : (bottom : SetItem α).l = bottom := rfl

@[simp] theorem l_node (i lv : Nat) (a : SetItem α) (x : α) (b : SetItem α) :
    (node i lv a x b).l = a := rfl

@[simp] theorem isBottom_bottom : (bottom : SetItem α).isBottom = true := rfl

@[simp] theorem isBottom_node (i lv : Nat) (a : SetItem α) (x : α) (b : SetItem α) :
    (node i lv a x b).isBottom = false := rfl

@[simp] theorem Inv_bottom : Inv (bottom : SetItem α) := trivial

@[simp] theorem AA_bottom : AA (bottom : SetItem α) := trivial

theorem Inv_node (i lv : Nat) (a : SetItem α) (x : α) (b : SetItem α) :
    Inv (node i lv a x b) ↔
      lv = a.level + 1 ∧ (lv = b.level + 1 ∨ (lv = b.level ∧ b.r.level < lv)) ∧ Inv a ∧ Inv b :=
  Iff.rfl

theorem isBottom_eq_true {t : SetItem α} : t.isBottom = true ↔ t = bottom := by
  cases t <;> simp

theorem isBottom_eq_false {t : SetItem α} : t.isBottom = false ↔ t ≠ bottom := by
  cases t <;> simp

theorem Inv.level_pos {t : SetItem α} (h : Inv t) (hb : t.isBottom = false) : 1 ≤ t.level := by
  cases t with
  | bottom => simp at hb
  | node i lv a x b => simp only [Inv_node] at h; simp; omega

theorem Inv.eq_bottom {t : SetItem α} (h : Inv t) (h0 : t.level = 0) : t = bottom := by
  cases t with
  | bottom => rfl
  | node i lv a x b => simp only [Inv_node] at h; simp at h0; omega

theorem Inv.r_level_le {t : SetItem α} (h : Inv t) : t.r.level ≤ t.level := by
  cases t with
  | bottom => simp
  | node i lv a x b => simp only [Inv_node] at h; simp; omega

theorem Inv.l_level_le {t : SetItem α} (h : Inv t) : t.l.level ≤ t.level := by
  cases t with
  | bottom => simp
  | node i lv a x b => simp only [Inv_node] at h; simp; omega

theorem AA.one_le_level {t : SetItem α} (h : AA t) (hb : t.isBottom = false) : 1 ≤ t.level := by
  induction t with
  | bottom => simp at hb
  | node i lv a x b iha ihb =>
    obtain ⟨h1, h2, h3, _, _, ha, hb'⟩ := h
    simp only [level_node]
    cases ha0 : a.isBottom with
    | false => have := h2 ha0; omega
    | true =>
      cases hb0 : b.isBottom with
      | false =>
        have := ihb hb' hb0
        have := h3 hb0
        omega
      | true => have := h1 ⟨ha0, hb0⟩; omega

theorem AA_iff_Inv (t : SetItem α) : AA t ↔ Inv t := by
  induction t with
  | bottom => simp
  | node i lv a x b iha ihb =>
    constructor
    · intro h
      have hpos := AA.one_le_level h rfl
      obtain ⟨h1, h2, h3, h4, h5, ha, hb⟩ := h
      simp only [level_node] at hpos
      refine ⟨?_, ?_, iha.1 ha, ihb.1 hb⟩
      · cases ha0 : a.isBottom with
        | false => have := h2 ha0; omega
        | true =>
          rw [isBottom_eq_true.1 ha0]
          simp only [level_bottom]
          by_contra hne
          have := h5 (by omega)
          simp [ha0] at this
      · cases hb0 : b.isBottom with
        | false =>
          rcases h3 hb0 with h | h
          · right
            refine ⟨h.symm, ?_⟩
            cases hbr : b.r.isBottom with
            | false => exact h4 hb0 hbr
            | true => rw [isBottom_eq_true.1 hbr]; simp; omega
          · left; omega
        | true =>
          rw [isBottom_eq_true.1 hb0]
          simp only [level_bottom]
          left
          by_contra hne
          have := h5 (by omega)
          simp [hb0] at this
    · intro h
      obtain ⟨h1, h2, ha, hb⟩ := h
      refine ⟨?_, ?_, ?_, ?_, ?_, iha.2 ha, ihb.2 hb⟩
      · rintro ⟨ha0, -⟩
        rw [isBottom_eq_true.1 ha0] at h1
        simpa using h1
      · intro _; omega
      · intro _; omega
      · intro hb0 _
        rcases h2 with h | h
        · have := hb.r_level_le; omega
        · exact h.2
      · intro hlv
        constructor
        · cases ha0 : a.isBottom with
          | false => rfl
          | true => rw [isBottom_eq_true.1 ha0] at h1; simp at h1; omega
        · cases hb0 : b.isBottom with
          | false => rfl
          | true => rw [isBottom_eq_true.1 hb0] at h2; simp at h2; omega

/-! ## Paths -/

theorem rebuild_append (p q : Path α) (t : SetItem α) :
    rebuild (p ++ q) t = rebuild q (rebuild p t) := by
  induction p generalizing t with
  | nil => rfl
  | cons f p ih => simp [rebuild, ih]

theorem Inv_of_attach {f : Frame α} {t : SetItem α} (h : Inv (f.attach t)) : Inv t := by
  cases f <;> simp only [Frame.attach, Inv_node] at h <;> tauto

theorem Inv_of_rebuild {p : Path α} {t : SetItem α} (h : Inv (rebuild p t)) : Inv t := by
  induction p generalizing t with
  | nil => exact h
  | cons f p ih => exact Inv_of_attach (ih h)

theorem Stable.attach {f : Frame α} {c0 c : SetItem α} (h0 : Inv (f.attach c0))
    (h : Stable c0 c) : Stable (f.attach c0) (f.attach c) := by
  obtain ⟨hi, hl, hs⟩ := h
  cases f with
  | inL i k x cR =>
    simp only [Frame.attach, Inv_node] at h0
    refine ⟨?_, rfl, fun h => h⟩
    simp only [Frame.attach, Inv_node]
    refine ⟨by omega, h0.2.1, hi, h0.2.2.2⟩
  | inR i k cL x =>
    simp only [Frame.attach, Inv_node] at h0
    refine ⟨?_, rfl, ?_⟩
    · simp only [Frame.attach, Inv_node]
      refine ⟨h0.1, ?_, h0.2.2.1, hi⟩
      rcases h0.2.1 with h | h
      · left; omega
      · right; exact ⟨by omega, by have := hs (by omega); omega⟩
    · simp only [Frame.attach, r_node, level_node]; omega

theorem Stable.rebuild {p : Path α} {c0 c : SetItem α} (h0 : Inv (rebuild p c0))
    (h : Stable c0 c) : Inv (rebuild p c) := by
  induction p generalizing c0 c with
  | nil => exact h.1
  | cons f p ih => exact ih h0 (h.attach (Inv_of_rebuild h0))

/-! ## Insertion keeps the invariants -/

theorem InsMode.inv_of_mode {n : Nat} {c0 c : SetItem α} (h : InsMode n c0 c) : Inv c := by
  match n, h with
  | 0, h => exact h.1
  | 1, h => exact h.1
  | _ + 2, h => exact h.1

theorem insert_step_up {f : Frame α} {c0 c : SetItem α} (h0 : Inv (f.attach c0))
    (h : InsMode 0 c0 c) :
    InsMode (if (split (skew (f.attach c))).2 then 0 else 1) (f.attach c0)
      (split (skew (f.attach c))).1 := by
  obtain ⟨hi, hl, hs, hn⟩ := h
  cases c with
  | bottom => simp at hl
  | node j lv a y b =>
    simp only [level_node, r_node, Inv_node] at hi hl hs
    obtain ⟨hca, hcb, hia, hib⟩ := hi
    cases f with
    | inL i k x cR =>
      simp only [Frame.attach, Inv_node] at h0
      obtain ⟨h0a, h0b, hic0, hicR⟩ := h0
      have hk : lv = k := by omega
      subst hk
      simp only [Frame.attach, skew, if_true, split]
      have hcR := hicR.r_level_le
      by_cases hsp : lv = cR.level
      · rw [if_pos hsp]
        simp only [if_true, InsMode, Inv_node, level_node, r_node, hia, hib, hicR, and_true,
          true_and] <;> omega
      · rw [if_neg hsp]
        simp only [Bool.false_eq_true, if_false, InsMode, Inv_node, level_node, r_node, hia, hib,
          hicR, and_true, true_and] <;> omega
    | inR i k cL x =>
      simp only [Frame.attach, Inv_node, level_node] at h0
      obtain ⟨h0a, h0b, hicL, hic0⟩ := h0
      have hk : lv = k := by omega
      subst hk
      have hsk : skew (node i lv cL x (node j lv a y b)) = node i lv cL x (node j lv a y b) := by
        cases cL with
        | bottom => rfl
        | node j2 lv2 a2 y2 b2 =>
          simp only [skew]
          rw [if_neg]
          simp only [level_node] at h0a
          omega
      simp only [Frame.attach, hsk, split]
      rw [if_neg (show ¬ lv = b.level by omega)]
      simp only [Bool.false_eq_true, if_false, InsMode, Inv_node, level_node, r_node, hia, hib,
          hicL, and_true, true_and] <;> omega

theorem skew_eq_self_of_inv {i k : Nat} {a : SetItem α} {x : α} {b : SetItem α}
    (h : k = a.level + 1) : skew (node i k a x b) = node i k a x b := by
  cases a with
  | bottom => rfl
  | node j lv a1 y b1 =>
    simp only [skew]
    rw [if_neg]
    simp only [level_node] at h
    omega

theorem insert_step_same {f : Frame α} {c0 c : SetItem α} (h0 : Inv (f.attach c0))
    (h : InsMode 1 c0 c) :
    InsMode (if (split (skew (f.attach c))).2 then 0 else 2) (f.attach c0)
      (split (skew (f.attach c))).1 := by
  obtain ⟨hi, hl⟩ := h
  cases f with
  | inL i k x cR =>
    simp only [Frame.attach, Inv_node] at h0
    obtain ⟨h0a, h0b, hic0, hicR⟩ := h0
    simp only [Frame.attach]
    have hsk : skew (node i k c x cR) = node i k c x cR := skew_eq_self_of_inv (by omega)
    simp only [hsk]
    cases cR with
    | bottom =>
      simp only [split, Bool.false_eq_true, if_false, InsMode, Stable, Inv_node, level_node,
        r_node, hi, Inv_bottom, and_true, true_and, level_bottom, r_bottom] at h0b ⊢ <;> omega
    | node j2 lv2 a2 y2 b2 =>
      have := hicR.r_level_le
      simp only [Inv_node, level_node, r_node] at hicR h0b this
      simp only [split]
      simp only [if_neg (show ¬ k = b2.level by omega)]
      simp only [Bool.false_eq_true, if_false, InsMode, Stable, Inv_node, level_node,
        r_node, hi, hicR, and_true, true_and, imp_self] <;> omega
  | inR i k cL x =>
    simp only [Frame.attach, Inv_node] at h0
    obtain ⟨h0a, h0b, hicL, hic0⟩ := h0
    simp only [Frame.attach]
    have hsk : skew (node i k cL x c) = node i k cL x c := skew_eq_self_of_inv h0a
    simp only [hsk]
    cases c with
    | bottom =>
      simp only [split, Bool.false_eq_true, if_false, InsMode, Stable, Inv_node, level_node,
        r_node, hicL, Inv_bottom, and_true, true_and, level_bottom, r_bottom] at hl h0b ⊢ <;> omega
    | node j lv a y b =>
      simp only [Inv_node, level_node, r_node] at hi hl
      obtain ⟨hca, hcb, hia, hib⟩ := hi
      simp only [split]
      by_cases hsp : k = b.level
      · simp only [if_pos hsp]
        simp only [if_true, InsMode, Inv_node, level_node, r_node, hia, hib, hicL, and_true,
          true_and] <;> omega
      · simp only [if_neg hsp]
        simp only [Bool.false_eq_true, if_false, InsMode, Stable, Inv_node, level_node,
          r_node, hia, hib, hicL, and_true, true_and] <;> omega

theorem insertLoop_inv (p : Path α) (f : Frame α) (c0 c : SetItem α) (n : Nat)
    (h0 : Inv (rebuild p (f.attach c0))) (h : InsMode n c0 c) :
    Inv (insertLoop p (f.attach c) n) := by
  induction p generalizing f c0 c n with
  | nil =>
    simp only [insertLoop]
    match n, h with
    | 0, h => exact (insert_step_up h0 h).inv_of_mode
    | 1, h => exact (insert_step_same h0 h).inv_of_mode
    | n + 2, h =>
      rw [if_neg (by omega)]
      exact (Stable.attach h0 h).1
  | cons g p ih =>
    simp only [insertLoop]
    have h0' := Inv_of_rebuild h0
    match n, h with
    | 0, h =>
      rw [if_pos (by omega)]
      exact ih g _ _ _ h0 (insert_step_up h0' h)
    | 1, h =>
      rw [if_pos (by omega)]
      exact ih g _ _ _ h0 (insert_step_same h0' h)
    | n + 2, h =>
      rw [if_neg (by omega)]
      exact Stable.rebuild (p := g :: p) h0 (Stable.attach h0' h)

/-! ## Search -/

theorem find_slot [LinearOrder α] {p : Path α} {t : SetItem α} {x : α} {last : Frame α}
    {q : Path α} (h : find p t x = .slot last q) :
    ∃ a : SetItem α, a.level = 0 ∧ rebuild q (last.attach a) = rebuild p t := by
  induction t generalizing p with
  | bottom => simp [find] at h
  | node i lv a v b iha ihb =>
    simp only [find] at h
    split_ifs at h with h1 h2 h3 h4
    · simp only [Found.slot.injEq] at h
      obtain ⟨rfl, rfl⟩ := h
      exact ⟨a, h3, rfl⟩
    · obtain ⟨c, hc, he⟩ := iha h
      exact ⟨c, hc, he⟩
    · simp only [Found.slot.injEq] at h
      obtain ⟨rfl, rfl⟩ := h
      exact ⟨b, h4, rfl⟩
    · obtain ⟨c, hc, he⟩ := ihb h
      exact ⟨c, hc, he⟩

theorem find_present [LinearOrder α] {p : Path α} {t : SetItem α} {x : α} {u : SetItem α}
    {q : Path α} (h : find p t x = .present q u) :
    rebuild q u = rebuild p t ∧ (t.isBottom = false → u.isBottom = false) := by
  induction t generalizing p with
  | bottom => simp only [find, Found.present.injEq] at h; obtain ⟨rfl, rfl⟩ := h; simp
  | node i lv a v b iha ihb =>
    simp only [find] at h
    split_ifs at h with h1 h2 h3 h4
    · obtain ⟨he, hn⟩ := iha h
      refine ⟨he, fun _ => hn ?_⟩
      cases a with
      | bottom => simp at h3
      | node _ _ _ _ _ => rfl
    · obtain ⟨he, hn⟩ := ihb h
      refine ⟨he, fun _ => hn ?_⟩
      cases b with
      | bottom => simp at h4
      | node _ _ _ _ _ => rfl
    · simp only [Found.present.injEq] at h
      obtain ⟨rfl, rfl⟩ := h
      exact ⟨rfl, fun _ => rfl⟩

theorem insertAt_inv (s : Set α) (x : α) (fd : Found α)
    (hfd : ∀ last q, fd = .slot last q →
      ∃ a : SetItem α, a.level = 0 ∧ rebuild q (last.attach a) = s.root)
    (h : Inv s.root) : Inv (insertAt s x fd).1.root := by
  cases fd with
  | present q u => cases u <;> exact h
  | slot last q =>
    obtain ⟨a, ha, he⟩ := hfd last q rfl
    simp only [insertAt]
    rw [← he] at h
    have ha' : a = bottom := (Inv_of_attach (Inv_of_rebuild h)).eq_bottom ha
    subst ha'
    refine insertLoop_inv q last bottom _ 0 h ?_
    simp [InsMode, newItem, Inv_node]

theorem insert_inv [LinearOrder α] (s : Set α) (k : Nat) (x : α) (h : Inv s.root) :
    Inv (s.insert k x).1.root :=
  insertAt_inv s x _ (fun _ _ hf => find_slot hf) h

theorem Insert_inv [LinearOrder α] (s : Set α) (x : α) (h : Inv s.root) :
    Inv (s.Insert x).1.root := by
  unfold Set.Insert
  split
  · simp [newItem, Inv_node]
  · exact insert_inv s _ x h

theorem insertNearby_cases [LinearOrder α] (s : Set α) (si : Loc α) (x : α) :
    (s.insertNearby si x).1 = s ∨ ∃ k, s.insertNearby si x = s.insert k x := by
  unfold Set.insertNearby
  split
  · exact Or.inl rfl
  · split_ifs
    · exact Or.inl rfl
    · split
      · exact Or.inr ⟨_, rfl⟩
      · split
        · exact Or.inr ⟨_, rfl⟩
        · split_ifs
          · exact Or.inl rfl
          · exact Or.inr ⟨_, rfl⟩
          · exact Or.inr ⟨_, rfl⟩
    · split
      · exact Or.inr ⟨_, rfl⟩
      · split
        · exact Or.inr ⟨_, rfl⟩
        · split_ifs
          · exact Or.inl rfl
          · exact Or.inr ⟨_, rfl⟩
          · exact Or.inr ⟨_, rfl⟩

theorem InsertNearby_cases [LinearOrder α] (s : Set α) (si : Nat) (x : α) :
    (s.InsertNearby si x).1 = s ∨ ∃ k, s.InsertNearby si x = s.insert k x := by
  unfold Set.InsertNearby
  split
  · exact insertNearby_cases s _ x
  · exact Or.inl rfl

theorem InsertNearby_inv [LinearOrder α] (s : Set α) (si : Nat) (x : α) (h : Inv s.root) :
    Inv (s.InsertNearby si x).1.root := by
  rcases InsertNearby_cases s si x with h1 | ⟨k, h1⟩
  · rw [h1]; exact h
  · rw [h1]; exact insert_inv s k x h

/-! ## Deletion keeps the invariants -/

theorem skew_node_bottom (i k : Nat) (x : α) (b : SetItem α) :
    skew (node i k bottom x b) = node i k bottom x b := rfl

theorem skew_node_node (i k j kl : Nat) (a : SetItem α) (y : α) (b : SetItem α) (x : α)
    (c : SetItem α) :
    skew (node i k (node j kl a y b) x c) =
      if kl = k then node j kl a y (node i k b x c) else node i k (node j kl a y b) x c := rfl

theorem skew_bottom : skew (bottom : SetItem α) = bottom := rfl

theorem split_node_bottom (i k : Nat) (a : SetItem α) (x : α) :
    split (node i k a x bottom) = (node i k a x bottom, false) := rfl

theorem split_node_node (i k j kr : Nat) (a : SetItem α) (x : α) (b : SetItem α) (y : α)
    (c : SetItem α) :
    split (node i k a x (node j kr b y c)) =
      if k = c.level then (node j (kr + 1) (node i k a x b) y c, true)
      else (node i k a x (node j kr b y c), false) := rfl

theorem mapR_node (f : SetItem α → SetItem α) (i k : Nat) (a : SetItem α) (x : α)
    (b : SetItem α) : mapR f (node i k a x b) = node i k a x (f b) := rfl

theorem mapR_bottom (f : SetItem α → SetItem α) : mapR f bottom = bottom := rfl

theorem setLevel_node (lv i k : Nat) (a : SetItem α) (x : α) (b : SetItem α) :
    setLevel lv (node i k a x b) = node i lv a x b := rfl

theorem setLevel_bottom (lv : Nat) : setLevel lv (bottom : SetItem α) = bottom := rfl

theorem decreaseLevel_node (i lv : Nat) (a : SetItem α) (x : α) (b : SetItem α) :
    decreaseLevel (node i lv a x b) =
      if lv > a.level + 1 ∨ lv > b.level + 1 then
        (rebalance (node i (lv - 1) a x (if b.level > lv - 1 then setLevel (lv - 1) b else b)),
          true)
      else (node i lv a x b, false) := rfl

theorem skew_inv {t : SetItem α} (h : Inv t) : skew t = t := by
  cases t with
  | bottom => rfl
  | node i k a x b => exact skew_eq_self_of_inv h.1

theorem split_inv {t : SetItem α} (h : Inv t) : split t = (t, false) := by
  cases t with
  | bottom => rfl
  | node i k a x b =>
    cases b with
    | bottom => rfl
    | node j lv b1 y b2 =>
      have := h.2.2.2.r_level_le
      simp only [Inv_node, level_node, r_node] at h this
      simp only [split]
      rw [if_neg]
      omega

theorem decreaseLevel_inv {t : SetItem α} (h : Inv t) : decreaseLevel t = (t, false) := by
  cases t with
  | bottom => rfl
  | node i k a x b =>
    have := h.2.2.2.r_level_le
    simp only [Inv_node] at h
    simp only [decreaseLevel]
    rw [if_neg]
    omega

theorem DelRel.inv_of_rel {c0 c : SetItem α} (h : DelRel c0 c) : Inv c := by
  rcases h with h | h
  · exact h.1
  · exact h.1

theorem Inv.l {t : SetItem α} (h : Inv t) : Inv t.l := by
  cases t with
  | bottom => exact h
  | node i k a x b => exact h.2.2.1

theorem Inv.r {t : SetItem α} (h : Inv t) : Inv t.r := by
  cases t with
  | bottom => exact h
  | node i k a x b => exact h.2.2.2

theorem skew_of_ne {i k : Nat} {a : SetItem α} {x : α} {b : SetItem α} (h : a.level ≠ k) :
    skew (node i k a x b) = node i k a x b := by
  cases a with
  | bottom => rfl
  | node j kl a1 y b1 => rw [skew_node_node]; exact if_neg h

theorem split_of_ne {i k : Nat} {a : SetItem α} {x : α} {b : SetItem α} (h : k ≠ b.r.level) :
    split (node i k a x b) = (node i k a x b, false) := by
  cases b with
  | bottom => rfl
  | node j kr b1 y c => rw [split_node_node]; exact if_neg h

theorem decreaseLevel_eq (i lv : Nat) (a : SetItem α) (x : α) (b : SetItem α) :
    decreaseLevel (node i lv a x b) =
      if lv > a.level + 1 ∨ lv > b.level + 1 then
        (finish (split (mapR (mapR skew) (mapR skew (skew (node i (lv - 1) a x
          (if b.level > lv - 1 then setLevel (lv - 1) b else b)))))).1, true)
      else (node i lv a x b, false) := by
  rw [decreaseLevel_node, rebalance]
  generalize (split (mapR (mapR skew) (mapR skew (skew (node i (lv - 1) a x
          (if b.level > lv - 1 then setLevel (lv - 1) b else b)))))).1 = t
  cases t <;> rfl

theorem finish_node (i k : Nat) (a : SetItem α) (x : α) (b : SetItem α) :
    finish (node i k a x b) = if b.level ≠ 0 then node i k a x (split b).1 else node i k a x b :=
  rfl

theorem delete_step_inR {i k : Nat} {cL : SetItem α} {x : α} {c0 c : SetItem α}
    (h0 : Inv (node i k cL x c0)) (hi : Inv c) (hl : c.level + 1 = c0.level) :
    DelRel (node i k cL x c0) (decreaseLevel (node i k cL x c)).1 ∧
      ((decreaseLevel (node i k cL x c)).2 = false →
        Stable (node i k cL x c0) (decreaseLevel (node i k cL x c)).1) := by
  obtain ⟨h1, h2, hcL, -⟩ := h0
  obtain ⟨m, rfl⟩ : ∃ m, k = m + 1 := ⟨k - 1, by omega⟩
  generalize he : decreaseLevel (node i (m + 1) cL x c) = res
  have hsc := skew_inv hi
  have hcr := hi.r_level_le
  rcases h2 with h2 | ⟨h2, h2'⟩
  · rcases cL with _ | ⟨jl, kl, la, z, lb⟩
    · simp only [level_bottom] at h1
      omega
    obtain ⟨p1, p2, pla, plb⟩ := hcL
    simp only [level_node] at h1
    rcases p2 with p2 | ⟨p2, p2'⟩
    · simp (disch := omega) only [decreaseLevel_eq, finish_node, Nat.add_sub_cancel, if_true,
        if_false, if_pos, if_neg, skew_of_ne, split_of_ne, split_node_node, skew_node_node,
        mapR_node, level_node, r_node, hsc] at he
      subst he
      simp only [DelRel, Stable, Inv_node, level_node, r_node, hi, pla, plb, and_true, true_and,
        reduceCtorEq, false_implies, implies_true]
      omega
    · rcases lb with _ | ⟨jb, kb, b1, w, b2⟩
      · simp only [level_bottom] at p2
        omega
      obtain ⟨q1, q2, qb1, qb2⟩ := plb
      simp only [level_node, r_node] at p2 p2'
      simp (disch := omega) only [decreaseLevel_eq, finish_node, Nat.add_sub_cancel, if_true,
        if_false, if_pos, if_neg, skew_of_ne, split_of_ne, split_node_node, skew_node_node,
        mapR_node, level_node, r_node, hsc] at he
      subst he
      simp only [DelRel, Stable, Inv_node, level_node, r_node, hi, pla, qb1, qb2, and_true,
        true_and, reduceCtorEq, false_implies, implies_true]
      omega
  · simp (disch := omega) only [decreaseLevel_eq, if_neg] at he
    subst he
    simp only [DelRel, Stable, Inv_node, level_node, r_node, hi, hcL, and_true, true_and]
    omega

theorem delete_step_inL {i k : Nat} {cR : SetItem α} {x : α} {c0 c : SetItem α}
    (h0 : Inv (node i k c0 x cR)) (hi : Inv c) (hl : c.level + 1 = c0.level) :
    DelRel (node i k c0 x cR) (decreaseLevel (node i k c x cR)).1 ∧
      ((decreaseLevel (node i k c x cR)).2 = false →
        Stable (node i k c0 x cR) (decreaseLevel (node i k c x cR)).1) := by
  obtain ⟨h1, h2, -, hcR⟩ := h0
  obtain ⟨m, rfl⟩ : ∃ m, k = m + 1 := ⟨k - 1, by omega⟩
  generalize he : decreaseLevel (node i (m + 1) c x cR) = res
  have hsR := skew_inv hcR
  have hpR := split_inv hcR
  rcases cR with _ | ⟨j, lr, ra, y, rb⟩
  · simp only [level_bottom, r_bottom] at h2
    omega
  obtain ⟨g1, g2, gra, grb⟩ := hcR
  have hsr := skew_inv grb
  have hpr := split_inv grb
  have hrr := grb.r_level_le
  simp only [level_node, r_node] at h2
  rcases h2 with h2 | ⟨h2, h2'⟩
  · -- the right child is one level below
    rcases g2 with g2 | ⟨g2, g2'⟩
    all_goals
      simp (disch := omega) only [decreaseLevel_eq, finish_node, Nat.add_sub_cancel, if_true, if_false, if_pos, if_neg, skew_of_ne,
        split_of_ne, split_node_node, mapR_node, level_node, r_node, hsr, hpr, hsR, hpR] at he
      subst he
      simp only [DelRel, Stable, Inv_node, level_node, r_node, hi, gra, grb, and_true, true_and,
        reduceCtorEq, false_implies, implies_true]
      omega
  · -- the right child is on the same level
    rcases ra with _ | ⟨ja, ka, raa, z, rab⟩
    · simp only [level_bottom] at g1
      omega
    obtain ⟨p1, p2, praa, prab⟩ := gra
    simp only [level_node, r_node] at g1
    rcases p2 with p2 | ⟨p2, p2'⟩
    · by_cases hw : rb.r.level = m
      · rcases rb with _ | ⟨jr, kr, rbl, yr, rbr⟩
        · simp only [level_bottom] at g2
          omega
        obtain ⟨q1, q2, qrbl, qrbr⟩ := grb
        simp only [level_node, r_node] at g2 h2' hw hrr
        simp (disch := omega) only [decreaseLevel_eq, finish_node, Nat.add_sub_cancel, if_true, if_false, if_pos, if_neg, skew_of_ne,
          split_of_ne, split_node_node, skew_node_node, mapR_node, setLevel_node, level_node,
          r_node] at he
        subst he
        simp only [DelRel, Stable, Inv_node, level_node, r_node, hi, praa, prab, qrbl, qrbr,
          and_true, true_and, reduceCtorEq, false_implies, implies_true]
        omega
      · simp (disch := omega) only [decreaseLevel_eq, finish_node, Nat.add_sub_cancel, if_true, if_false, if_pos, if_neg, skew_of_ne,
          split_of_ne, split_node_node, skew_node_node, mapR_node, setLevel_node, level_node,
          r_node] at he
        subst he
        simp only [DelRel, Stable, Inv_node, level_node, r_node, hi, praa, prab, grb,
          and_true, true_and, reduceCtorEq, false_implies, implies_true]
        omega
    · rcases rab with _ | ⟨jb, kb, b1, w, b2⟩
      · simp only [level_bottom] at p2
        omega
      obtain ⟨q1, q2, qb1, qb2⟩ := prab
      simp only [level_node, r_node] at p2 p2'
      simp (disch := omega) only [decreaseLevel_eq, finish_node, Nat.add_sub_cancel, if_true, if_false, if_pos, if_neg, skew_of_ne,
        split_of_ne, split_node_node, skew_node_node, mapR_node, setLevel_node, level_node,
        r_node] at he
      subst he
      simp only [DelRel, Stable, Inv_node, level_node, r_node, hi, praa, qb1, qb2, grb,
        and_true, true_and, reduceCtorEq, false_implies, implies_true]
      omega

theorem delete_step {f : Frame α} {c0 c : SetItem α} (h0 : Inv (f.attach c0))
    (h : DelRel c0 c) :
    DelRel (f.attach c0) (decreaseLevel (f.attach c)).1 ∧
      ((decreaseLevel (f.attach c)).2 = false →
        Stable (f.attach c0) (decreaseLevel (f.attach c)).1) := by
  rcases h with h | ⟨hi, hl⟩
  · have hs := Stable.attach h0 h
    rw [decreaseLevel_inv hs.1]
    exact ⟨Or.inl hs, fun _ => hs⟩
  · cases f with
    | inL i k x cR => exact delete_step_inL h0 hi hl
    | inR i k cL x => exact delete_step_inR h0 hi hl

theorem deleteLoop_inv (p : Path α) (f : Frame α) (c0 c : SetItem α)
    (h0 : Inv (rebuild p (f.attach c0))) (h : DelRel c0 c) :
    Inv (deleteLoop p (f.attach c)) := by
  induction p generalizing f c0 c with
  | nil => exact (delete_step h0 h).1.inv_of_rel
  | cons g p ih =>
    have hs := delete_step (Inv_of_rebuild h0) h
    simp only [deleteLoop]
    split_ifs with hb
    · exact ih g _ _ h0 hs.1
    · exact Stable.rebuild (p := g :: p) h0 (hs.2 (by simpa using hb))

theorem leftmost_spec (p : Path α) (t : SetItem α) :
    rebuild (leftmost p t).1 (leftmost p t).2 = rebuild p t ∧ (leftmost p t).2.l = bottom := by
  induction t generalizing p with
  | bottom => exact ⟨rfl, rfl⟩
  | node i lv a x b iha _ =>
    cases a with
    | bottom => exact ⟨rfl, rfl⟩
    | node j lvl a1 y b1 =>
      have := iha (.inL i lv x b :: p)
      simpa only [leftmost] using this

/-- Splicing out a node whose left child is the sentinel: its right child takes
its place. -/
theorem DelRel_splice {i k : Nat} {x : α} {b : SetItem α}
    (h : Inv (node i k bottom x b)) : DelRel (node i k bottom x b) b := by
  obtain ⟨h1, h2, -, hb⟩ := h
  have := hb.r_level_le
  simp only [level_bottom] at h1
  rcases h2 with h2 | ⟨h2, h2'⟩
  · right
    exact ⟨hb, by simp only [level_node]; omega⟩
  · left
    exact ⟨hb, by simp only [level_node]; omega, fun _ => by omega⟩

theorem Stable_value {i k : Nat} {a : SetItem α} {x y : α} {b : SetItem α}
    (h : Inv (node i k a x b)) : Stable (node i k a x b) (node i k a y b) :=
  ⟨h, rfl, fun h => h⟩

theorem deleteAt_inv (s : Set α) (fd : Found α)
    (hfd : ∀ q u, fd = .present q u → rebuild q u = s.root)
    (h : Inv s.root) : Inv (deleteAt s fd).1.root := by
  cases fd with
  | slot last q => exact h
  | present q u =>
    have he := hfd q u rfl
    cases u with
    | bottom => exact h
    | node i lv a v b =>
      rw [← he] at h
      have hu := Inv_of_rebuild h
      simp only [deleteAt]
      split_ifs with hlv
      · have hl := leftmost_spec [] b
        split
        · exact he ▸ h
        · rename_i sj sk sl sv sr heq
          rw [heq] at hl
          simp only [rebuild, l_node] at hl
          obtain ⟨hl1, hl2⟩ := hl
          subst hl2
          have h' : Inv (rebuild q (node i lv a sv b)) := Stable.rebuild h (Stable_value hu)
          rw [← hl1] at h'
          exact deleteLoop_inv q (.inR i lv a sv) _ sr h'
            (DelRel_splice (Inv_of_attach (f := .inR i lv a sv) (Inv_of_rebuild h')))
        · rename_i f sp sj sk sl sv sr heq
          rw [heq] at hl
          simp only [rebuild, l_node] at hl
          obtain ⟨hl1, hl2⟩ := hl
          subst hl2
          have h' : Inv (rebuild q (node i lv a sv b)) := Stable.rebuild h (Stable_value hu)
          rw [← hl1] at h'
          have h'' : Inv (rebuild (sp ++ Frame.inR i lv a sv :: q)
              (f.attach (node sj sk bottom sv sr))) := by
            rw [rebuild_append]; exact h'
          exact deleteLoop_inv _ f _ sr h'' (DelRel_splice (Inv_of_attach (Inv_of_rebuild h'')))
      · have hlv1 : a = bottom := by
          have h1 := hu.1
          exact hu.2.2.1.eq_bottom (by omega)
        subst hlv1
        split
        · exact hu.r
        · rename_i f rest
          exact deleteLoop_inv rest f _ b h (DelRel_splice (Inv_of_attach (Inv_of_rebuild h)))

theorem Delete_inv [LinearOrder α] (s : Set α) (x : α) (h : Inv s.root) :
    Inv (s.Delete x).1.root := by
  unfold Set.Delete
  split
  · exact h
  · rename_i i lv a v b heq
    rw [← heq]
    exact deleteAt_inv s _ (fun q u hf => (find_present hf).1) h

/-! ## In-order sequences -/

theorem toList_rebuild (p : Path α) (t : SetItem α) :
    (rebuild p t).toList = before p ++ t.toList ++ after p := by
  induction p generalizing t with
  | nil => simp [rebuild, before, after]
  | cons f p ih =>
    cases f <;> simp [rebuild, before, after, ih, Frame.attach, toList]

theorem count_eq_length (t : SetItem α) : t.count = t.toList.length := by
  induction t with
  | bottom => rfl
  | node i k a x b iha ihb => simp [count, toList, iha, ihb]; omega

theorem toList_skew (t : SetItem α) : (skew t).toList = t.toList := by
  cases t with
  | bottom => rfl
  | node i k a x b =>
    cases a with
    | bottom => rfl
    | node j kl a1 y b1 =>
      rw [skew_node_node]
      split_ifs <;> simp [toList]

theorem toList_split (t : SetItem α) : (split t).1.toList = t.toList := by
  cases t with
  | bottom => rfl
  | node i k a x b =>
    cases b with
    | bottom => rfl
    | node j kr b1 y c =>
      rw [split_node_node]
      split_ifs <;> simp [toList]

theorem toList_mapR {f : SetItem α → SetItem α} (hf : ∀ u, (f u).toList = u.toList)
    (t : SetItem α) : (mapR f t).toList = t.toList := by
  cases t with
  | bottom => rfl
  | node i k a x b => simp [mapR, toList, hf]

theorem toList_setLevel (lv : Nat) (t : SetItem α) : (setLevel lv t).toList = t.toList := by
  cases t <;> rfl

theorem toList_rebalance (t : SetItem α) : (rebalance t).toList = t.toList := by
  have h1 : ∀ u : SetItem α, (mapR skew u).toList = u.toList := toList_mapR toList_skew
  have h2 : ∀ u : SetItem α, (mapR (mapR skew) u).toList = u.toList := toList_mapR h1
  have h3 : ∀ u : SetItem α, (mapR (fun u => (split u).1) u).toList = u.toList :=
    toList_mapR toList_split
  unfold rebalance
  split_ifs <;> simp only [h3, toList_split, h2, h1, toList_skew]

theorem toList_decreaseLevel (t : SetItem α) : (decreaseLevel t).1.toList = t.toList := by
  cases t with
  | bottom => rfl
  | node i k a x b =>
    rw [decreaseLevel_node]
    by_cases h : k > a.level + 1 ∨ k > b.level + 1
    · rw [if_pos h]
      simp only [toList_rebalance]
      by_cases h' : b.level > k - 1
      · rw [if_pos h']; simp [toList, toList_setLevel]
      · rw [if_neg h']; simp [toList]
    · rw [if_neg h]

theorem toList_attach_congr (f : Frame α) {t u : SetItem α} (h : t.toList = u.toList) :
    (f.attach t).toList = (f.attach u).toList := by
  cases f <;> simp [Frame.attach, toList, h]

theorem toList_rebuild_congr (p : Path α) {t u : SetItem α} (h : t.toList = u.toList) :
    (rebuild p t).toList = (rebuild p u).toList := by
  rw [toList_rebuild, toList_rebuild, h]

theorem toList_insertLoop (p : Path α) (t : SetItem α) (n : Nat) :
    (insertLoop p t n).toList = (rebuild p t).toList := by
  induction p generalizing t n with
  | nil =>
    simp only [insertLoop, rebuild]
    by_cases hn : n < 2
    · rw [if_pos hn, toList_split, toList_skew]
    · rw [if_neg hn]
  | cons f p ih =>
    simp only [insertLoop]
    by_cases hn : n < 2
    · rw [if_pos hn, ih]
      simp only [rebuild]
      exact toList_rebuild_congr p (toList_attach_congr f (by rw [toList_split, toList_skew]))
    · rw [if_neg hn]

theorem toList_deleteLoop (p : Path α) (t : SetItem α) :
    (deleteLoop p t).toList = (rebuild p t).toList := by
  induction p generalizing t with
  | nil => simp only [deleteLoop, rebuild, toList_decreaseLevel]
  | cons f p ih =>
    simp only [deleteLoop]
    split_ifs
    · rw [ih]
      simp only [rebuild]
      exact toList_rebuild_congr p (toList_attach_congr f (toList_decreaseLevel t))
    · exact toList_rebuild_congr (f :: p) (toList_decreaseLevel t)

/-! ## Search in an ordered tree -/

theorem Around_nil [LinearOrder α] (x : α) : Around x ([] : Path α) := by
  simp [Around, before, after]

theorem sorted_node [LinearOrder α] {i k : Nat} {a : SetItem α} {v : α} {b : SetItem α}
    (h : (node i k a v b).toList.Sorted (· < ·)) :
    a.toList.Sorted (· < ·) ∧ b.toList.Sorted (· < ·) ∧ (∀ y ∈ a.toList, y < v) ∧
      (∀ y ∈ b.toList, v < y) := by
  simp only [toList, List.Sorted, List.pairwise_append, List.pairwise_cons, List.mem_cons] at h
  obtain ⟨h1, ⟨h2, h3⟩, h4⟩ := h
  exact ⟨h1, h3, fun y hy => h4 y hy v (Or.inl rfl), h2⟩

theorem find_slot_around [LinearOrder α] {p : Path α} {t : SetItem α} {x : α} {last : Frame α}
    {q : Path α} (hs : t.toList.Sorted (· < ·)) (hb : Around x p)
    (h : find p t x = .slot last q) : Around x (last :: q) := by
  induction t generalizing p with
  | bottom => simp [find] at h
  | node i lv a v b iha ihb =>
    obtain ⟨hsa, hsb, hav, hvb⟩ := sorted_node hs
    simp only [find] at h
    by_cases h1 : v ≠ x
    · rw [if_pos h1] at h
      by_cases h2 : x < v
      · rw [if_pos h2] at h
        have hb' : Around x (.inL i lv v b :: p) := by
          refine ⟨hb.1, ?_⟩
          intro y hy
          simp only [after, List.cons_append, List.mem_cons, List.mem_append] at hy
          rcases hy with rfl | hy | hy
          · exact h2
          · exact lt_trans h2 (hvb y hy)
          · exact hb.2 y hy
        by_cases h3 : a.level = 0
        · rw [if_pos h3] at h
          simp only [Found.slot.injEq] at h
          obtain ⟨rfl, rfl⟩ := h
          exact hb'
        · rw [if_neg h3] at h
          exact iha hsa hb' h
      · rw [if_neg h2] at h
        have h2' : v < x := lt_of_le_of_ne (not_lt.1 h2) h1
        have hb' : Around x (.inR i lv a v :: p) := by
          refine ⟨?_, hb.2⟩
          intro y hy
          simp only [before, List.mem_append, List.mem_singleton] at hy
          rcases hy with hy | hy | rfl
          · exact hb.1 y hy
          · exact lt_trans (hav y hy) h2'
          · exact h2'
        by_cases h3 : b.level = 0
        · rw [if_pos h3] at h
          simp only [Found.slot.injEq] at h
          obtain ⟨rfl, rfl⟩ := h
          exact hb'
        · rw [if_neg h3] at h
          exact ihb hsb hb' h
    · rw [if_neg h1] at h
      simp at h

theorem find_present_value [LinearOrder α] {p : Path α} {t : SetItem α} {x : α}
    {u : SetItem α} {q : Path α} (ht : t.isBottom = false) (h : find p t x = .present q u) :
    ∃ i lv a b, u = node i lv a x b := by
  induction t generalizing p with
  | bottom => simp at ht
  | node i lv a v b iha ihb =>
    simp only [find] at h
    by_cases h1 : v ≠ x
    · rw [if_pos h1] at h
      by_cases h2 : x < v
      · rw [if_pos h2] at h
        by_cases h3 : a.level = 0
        · rw [if_pos h3] at h; simp at h
        · rw [if_neg h3] at h
          refine iha ?_ h
          cases a with
          | bottom => simp at h3
          | node _ _ _ _ _ => rfl
      · rw [if_neg h2] at h
        by_cases h3 : b.level = 0
        · rw [if_pos h3] at h; simp at h
        · rw [if_neg h3] at h
          refine ihb ?_ h
          cases b with
          | bottom => simp at h3
          | node _ _ _ _ _ => rfl
    · rw [if_neg h1] at h
      simp only [Found.present.injEq] at h
      obtain ⟨rfl, rfl⟩ := h
      simp only [ne_eq, not_not] at h1
      exact ⟨i, lv, a, b, by rw [h1]⟩

theorem orderedInsert_between [LinearOrder α] (x : α) (l1 l2 : List α)
    (h1 : ∀ y ∈ l1, y < x) (h2 : ∀ y ∈ l2, x < y) :
    List.orderedInsert (· ≤ ·) x (l1 ++ l2) = l1 ++ x :: l2 := by
  induction l1 with
  | nil =>
    cases l2 with
    | nil => rfl
    | cons c l2 =>
      simp only [List.nil_append, List.orderedInsert]
      rw [if_pos (le_of_lt (h2 c (List.mem_cons_self _ _)))]
  | cons b l1 ih =>
    simp only [List.cons_append, List.orderedInsert]
    rw [if_neg (not_le.2 (h1 b (List.mem_cons_self _ _)))]
    exact congrArg (b :: ·) (ih (fun y hy => h1 y (List.mem_cons_of_mem _ hy)))

theorem erase_between [LinearOrder α] (x : α) (l1 l2 : List α) (h1 : ∀ y ∈ l1, y < x) :
    (l1 ++ x :: l2).erase x = l1 ++ l2 := by
  have hx : x ∉ l1 := fun h => lt_irrefl x (h1 x h)
  rw [List.erase_append_right _ hx, List.erase_cons_head]

theorem sorted_between [LinearOrder α] (x : α) (l1 l2 : List α)
    (hs : (l1 ++ l2).Sorted (· < ·))
    (h1 : ∀ y ∈ l1, y < x) (h2 : ∀ y ∈ l2, x < y) : (l1 ++ x :: l2).Sorted (· < ·) := by
  simp only [List.Sorted, List.pairwise_append, List.pairwise_cons, List.mem_cons] at hs ⊢
  obtain ⟨hs1, hs2, hs3⟩ := hs
  refine ⟨hs1, ⟨h2, hs2⟩, ?_⟩
  rintro a ha b (rfl | hb)
  · exact h1 a ha
  · exact hs3 a ha b hb

/-! ## Representation invariant and the effect of the operations -/

theorem WF_newSet [LinearOrder α] : WF (newSet : Set α) :=
  ⟨trivial, List.sorted_nil, rfl⟩

theorem toList_rebuild_cons (f : Frame α) (q : Path α) (t : SetItem α) :
    (rebuild q (f.attach t)).toList = before (f :: q) ++ t.toList ++ after (f :: q) :=
  toList_rebuild (f :: q) t

theorem not_mem_of_around [LinearOrder α] {x : α} {p : Path α} (h : Around x p) :
    x ∉ before p ++ after p := by
  intro hx
  rcases List.mem_append.1 hx with hx | hx
  · exact lt_irrefl x (h.1 x hx)
  · exact lt_irrefl x (h.2 x hx)

/-- Effect of `Set.insert` on a well-formed non-empty set. -/
theorem insert_spec [LinearOrder α] (s : Set α) (k : Nat) (x : α) (h : WF s)
    (hne : s.root.isBottom = false) :
    (x ∈ s.root.toList → (s.insert k x).1 = s ∧ (s.insert k x).2.2 = false) ∧
    (x ∉ s.root.toList →
      (s.insert k x).2.2 = true ∧
      (s.insert k x).1.root.toList = List.orderedInsert (· ≤ ·) x s.root.toList ∧
      (s.insert k x).1.size = s.size + 1) := by
  unfold Set.insert
  cases hf : find [] s.root x with
  | present q u =>
    obtain ⟨i, lv, a, b, rfl⟩ := find_present_value hne hf
    have hr := (find_present hf).1
    simp only [rebuild] at hr
    have hx : x ∈ s.root.toList := by
      rw [← hr, toList_rebuild]
      simp [toList]
    exact ⟨fun _ => ⟨rfl, rfl⟩, fun hn => absurd hx hn⟩
  | slot last q =>
    obtain ⟨a, ha, hr⟩ := find_slot hf
    simp only [rebuild] at hr
    have hinv := h.inv
    rw [← hr] at hinv
    have ha' : a = bottom := (Inv_of_attach (Inv_of_rebuild hinv)).eq_bottom ha
    subst ha'
    have har := find_slot_around h.sorted (Around_nil x) hf
    have hl : s.root.toList = before (last :: q) ++ after (last :: q) := by
      rw [← hr, toList_rebuild_cons]; simp [toList]
    have hx : x ∉ s.root.toList := hl ▸ not_mem_of_around har
    refine ⟨fun hm => absurd hm hx, fun _ => ⟨rfl, ?_, rfl⟩⟩
    simp only [insertAt]
    rw [toList_insertLoop, toList_rebuild_cons, hl, orderedInsert_between x _ _ har.1 har.2]
    simp [newItem, toList]

theorem leftmost_before (p : Path α) (t : SetItem α) :
    before (leftmost p t).1 = before p := by
  induction t generalizing p with
  | bottom => rfl
  | node i lv a x b iha _ =>
    cases a with
    | bottom => rfl
    | node j lvl a1 y b1 =>
      have := iha (.inL i lv x b :: p)
      simpa only [leftmost, before] using this

theorem leftmost_isBottom (p : Path α) (t : SetItem α) (ht : t.isBottom = false) :
    (leftmost p t).2.isBottom = false := by
  induction t generalizing p with
  | bottom => simp at ht
  | node i lv a x b iha _ =>
    cases a with
    | bottom => rfl
    | node j lvl a1 y b1 =>
      have := iha (.inL i lv x b :: p) rfl
      simpa only [leftmost] using this

/-- Effect of the part of `Set.Delete` after a successful `find`. -/
theorem deleteAt_present (s : Set α) (q : Path α) (i lv : Nat) (a : SetItem α) (x : α)
    (b : SetItem α) (hr : rebuild q (node i lv a x b) = s.root) (h : Inv s.root) :
    (deleteAt s (.present q (node i lv a x b))).2 = true ∧
    (deleteAt s (.present q (node i lv a x b))).1.root.toList =
      before q ++ a.toList ++ (b.toList ++ after q) ∧
    (deleteAt s (.present q (node i lv a x b))).1.size = s.size - 1 := by
  rw [← hr] at h
  have hu := Inv_of_rebuild h
  simp only [deleteAt]
  by_cases hlv : lv > 1
  · rw [if_pos hlv]
    have hb : b.isBottom = false := by
      cases b with
      | bottom => have := hu.2.1; simp only [level_bottom, r_bottom] at this; omega
      | node _ _ _ _ _ => rfl
    have hl := leftmost_spec [] b
    have hlb := leftmost_before [] b
    have hln := leftmost_isBottom [] b hb
    split
    · rename_i heq
      rw [heq] at hln
      simp at hln
    · rename_i sj sk sl sv sr heq
      rw [heq] at hl
      simp only [rebuild, l_node] at hl
      obtain ⟨hl1, hl2⟩ := hl
      subst hl2
      refine ⟨rfl, ?_, rfl⟩
      simp only []
      rw [toList_deleteLoop, toList_rebuild, ← hl1]
      simp [toList]
    · rename_i f sp sj sk sl sv sr heq
      rw [heq] at hl hlb
      simp only [rebuild, l_node] at hl
      obtain ⟨hl1, hl2⟩ := hl
      subst hl2
      refine ⟨rfl, ?_, rfl⟩
      simp only []
      simp only [before] at hlb
      rw [toList_deleteLoop, rebuild_append, toList_rebuild, ← hl1, toList_rebuild_cons,
        toList_rebuild_cons, hlb]
      simp [toList, before, after]
  · rw [if_neg hlv]
    have ha : a = bottom := by
      have h1 := hu.1
      exact hu.2.2.1.eq_bottom (by omega)
    subst ha
    split
    · refine ⟨rfl, ?_, rfl⟩
      simp [toList, before, after]
    · rename_i f rest
      refine ⟨rfl, ?_, rfl⟩
      simp only []
      rw [toList_deleteLoop, toList_rebuild_cons]
      simp [toList]

/-- Effect of `Set.Delete` on a well-formed set. -/
theorem Delete_spec [LinearOrder α] (s : Set α) (x : α) (h : WF s) :
    (x ∈ s.root.toList →
      (s.Delete x).2 = true ∧ (s.Delete x).1.root.toList = s.root.toList.erase x ∧
      (s.Delete x).1.size = s.size - 1) ∧
    (x ∉ s.root.toList → s.Delete x = (s, false)) := by
  unfold Set.Delete
  split
  · rename_i heq
    simp [heq, toList]
  · rename_i i lv a v b heq
    have hne : s.root.isBottom = false := by rw [heq]; rfl
    rw [← heq]
    cases hf : find [] s.root x with
    | present q u =>
      obtain ⟨i', lv', a', b', rfl⟩ := find_present_value hne hf
      have hr := (find_present hf).1
      simp only [rebuild] at hr
      have hl : s.root.toList = (before q ++ a'.toList) ++ x :: (b'.toList ++ after q) := by
        rw [← hr, toList_rebuild]
        simp [toList]
      have hx : x ∈ s.root.toList := by rw [hl]; simp
      refine ⟨fun _ => ?_, fun hn => absurd hx hn⟩
      obtain ⟨h1, h2, h3⟩ := deleteAt_present s q i' lv' a' x b' hr h.inv
      refine ⟨h1, ?_, h3⟩
      rw [h2, hl, erase_between]
      have hs := h.sorted
      rw [hl] at hs
      simp only [List.Sorted, List.pairwise_append, List.mem_cons] at hs
      intro y hy
      exact hs.2.2 y (by simpa using hy) x (Or.inl rfl)
    | slot last q =>
      obtain ⟨a', ha, hr⟩ := find_slot hf
      simp only [rebuild] at hr
      have hinv := h.inv
      rw [← hr] at hinv
      have ha' : a' = bottom := (Inv_of_attach (Inv_of_rebuild hinv)).eq_bottom ha
      subst ha'
      have har := find_slot_around h.sorted (Around_nil x) hf
      have hl : s.root.toList = before (last :: q) ++ after (last :: q) := by
        rw [← hr, toList_rebuild_cons]; simp [toList]
      have hx : x ∉ s.root.toList := hl ▸ not_mem_of_around har
      exact ⟨fun hm => absurd hm hx, fun _ => rfl⟩

/-! ## Traversal -/

theorem collect_fuel (step : Loc α → Option (Loc α)) {n : Nat} {o : Option (Loc α)}
    {vs : List α} (h : collect step n o = some vs) {m : Nat} (hm : n ≤ m) :
    collect step m o = some vs := by
  induction n generalizing o vs m with
  | zero =>
    cases o with
    | none => cases m <;> simpa [collect] using h
    | some loc => simp [collect] at h
  | succ n ih =>
    cases o with
    | none => cases m <;> simpa [collect] using h
    | some loc =>
      obtain ⟨p, t⟩ := loc
      cases m with
      | zero => omega
      | succ m =>
        cases t with
        | bottom => simp [collect] at h
        | node i lv a x b =>
          simp only [collect, Option.map_eq_some'] at h ⊢
          obtain ⟨ws, hws, rfl⟩ := h
          exact ⟨ws, ih hws (by omega), rfl⟩

theorem descendL_spec (p : Path α) (t : SetItem α) (ht : t.isBottom = false) (hi : Inv t) :
    rebuild (descendL p t).1 (descendL p t).2 = rebuild p t ∧
      before (descendL p t).1 = before p ∧ (descendL p t).2.isBottom = false ∧
      (descendL p t).2.l = bottom := by
  induction t generalizing p with
  | bottom => simp at ht
  | node i lv a x b iha _ =>
    cases a with
    | bottom => exact ⟨rfl, rfl, rfl, rfl⟩
    | node j lvl a1 y b1 =>
      have hpos := hi.2.2.1.level_pos rfl
      simp only [level_node] at hpos
      simp only [descendL]
      rw [if_pos (by omega)]
      exact iha (.inL i lv x b :: p) rfl hi.2.2.1

theorem descendR_spec (p : Path α) (t : SetItem α) (ht : t.isBottom = false) (hi : Inv t) :
    rebuild (descendR p t).1 (descendR p t).2 = rebuild p t ∧
      after (descendR p t).1 = after p ∧ (descendR p t).2.isBottom = false ∧
      (descendR p t).2.r = bottom := by
  induction t generalizing p with
  | bottom => simp at ht
  | node i lv a x b _ ihb =>
    cases b with
    | bottom => exact ⟨rfl, rfl, rfl, rfl⟩
    | node j lvr b1 y c =>
      have hpos := hi.2.2.2.level_pos rfl
      simp only [level_node] at hpos
      simp only [descendR]
      rw [if_pos (by omega)]
      exact ihb (.inR i lv a x :: p) rfl hi.2.2.2

theorem climbR_none {p : Path α} {t : SetItem α} (h : climbR p t = none) : after p = [] := by
  induction p generalizing t with
  | nil => rfl
  | cons f p ih =>
    cases f with
    | inL i lv x b => simp [climbR] at h
    | inR i lv a x => exact ih h

theorem climbR_some {p : Path α} {t : SetItem α} {q : Path α} {u : SetItem α}
    (h : climbR p t = some (q, u)) :
    rebuild q u = rebuild p t ∧
      ∃ j lvj a' y b', u = node j lvj a' y b' ∧ y :: b'.toList ++ after q = after p := by
  induction p generalizing t with
  | nil => simp [climbR] at h
  | cons f p ih =>
    cases f with
    | inL i lv x b =>
      simp only [climbR, Option.some.injEq, Prod.mk.injEq] at h
      obtain ⟨rfl, rfl⟩ := h
      exact ⟨rfl, _, _, _, _, _, rfl, by simp [after]⟩
    | inR i lv a x => exact ih h

theorem climbL_none {p : Path α} {t : SetItem α} (h : climbL p t = none) : before p = [] := by
  induction p generalizing t with
  | nil => rfl
  | cons f p ih =>
    cases f with
    | inR i lv a x => simp [climbL] at h
    | inL i lv x b => exact ih h

theorem climbL_some {p : Path α} {t : SetItem α} {q : Path α} {u : SetItem α}
    (h : climbL p t = some (q, u)) :
    rebuild q u = rebuild p t ∧
      ∃ j lvj a' y b', u = node j lvj a' y b' ∧ before q ++ (a'.toList ++ [y]) = before p := by
  induction p generalizing t with
  | nil => simp [climbL] at h
  | cons f p ih =>
    cases f with
    | inR i lv a x =>
      simp only [climbL, Option.some.injEq, Prod.mk.injEq] at h
      obtain ⟨rfl, rfl⟩ := h
      exact ⟨rfl, _, _, _, _, _, rfl, by simp [before]⟩
    | inL i lv x b => exact ih h

/-- From a node of a tree obeying the invariants, iterating `Next` yields the
value of the node, then its right subtree, then everything after it. -/
theorem collect_Next (n : Nat) (p : Path α) (i lv : Nat) (a : SetItem α) (x : α)
    (b : SetItem α) (hi : Inv (rebuild p (node i lv a x b)))
    (hn : (x :: b.toList ++ after p).length ≤ n) :
    collect Next n (some (p, node i lv a x b)) = some (x :: b.toList ++ after p) := by
  induction n generalizing p i lv a x b with
  | zero => simp at hn
  | succ n ih =>
    simp only [collect, Option.map_eq_some']
    refine ⟨b.toList ++ after p, ?_, by simp⟩
    have hu := Inv_of_rebuild hi
    simp only [Next]
    by_cases hb : b.level = 0
    · rw [if_pos hb]
      have hb' : b = bottom := hu.2.2.2.eq_bottom hb
      subst hb'
      cases hc : climbR p (node i lv a x bottom) with
      | none => simp [collect, toList, climbR_none hc]
      | some loc =>
        obtain ⟨q, u⟩ := loc
        obtain ⟨h1, j, lvj, a', y, b', rfl, h3⟩ := climbR_some hc
        have h3l := congrArg List.length h3
        simp only [List.length_cons, List.length_append, toList, List.length_nil] at hn h3l
        rw [ih q j lvj a' y b' (h1 ▸ hi)]
        · simp [toList, ← h3]
        · simp only [List.length_cons, List.length_append]
          omega
    · rw [if_neg hb]
      have hbn : b.isBottom = false := by
        cases b with
        | bottom => simp at hb
        | node _ _ _ _ _ => rfl
      obtain ⟨h1, h2, h3, h4⟩ := descendL_spec (.inR i lv a x :: p) b hbn hu.2.2.2
      generalize descendL (.inR i lv a x :: p) b = loc at h1 h2 h3 h4
      obtain ⟨q, u⟩ := loc
      cases u with
      | bottom => simp at h3
      | node j lvj a' y b' =>
        simp only [l_node] at h4
        subst h4
        have hl := congrArg toList h1
        simp only [toList_rebuild, h2, toList, List.nil_append, List.append_assoc] at hl
        have hl' := List.append_cancel_left hl
        simp only [after] at hl'
        have hll := congrArg List.length hl'
        simp only [List.length_cons, List.length_append] at hn hll
        rw [ih q j lvj bottom y b' (h1 ▸ hi)]
        · simp [hl']
        · simp only [List.length_cons, List.length_append]
          omega

/-- From a node of a tree obeying the invariants, iterating `Prev` yields the
value of the node, then its left subtree backwards, then everything before it
backwards. -/
theorem collect_Prev (n : Nat) (p : Path α) (i lv : Nat) (a : SetItem α) (x : α)
    (b : SetItem α) (hi : Inv (rebuild p (node i lv a x b)))
    (hn : (x :: a.toList.reverse ++ (before p).reverse).length ≤ n) :
    collect Prev n (some (p, node i lv a x b)) =
      some (x :: a.toList.reverse ++ (before p).reverse) := by
  induction n generalizing p i lv a x b with
  | zero => simp at hn
  | succ n ih =>
    simp only [collect, Option.map_eq_some']
    refine ⟨a.toList.reverse ++ (before p).reverse, ?_, by simp⟩
    have hu := Inv_of_rebuild hi
    simp only [Prev]
    by_cases ha : a.level = 0
    · rw [if_pos ha]
      have ha' : a = bottom := hu.2.2.1.eq_bottom ha
      subst ha'
      cases hc : climbL p (node i lv bottom x b) with
      | none => simp [collect, toList, climbL_none hc]
      | some loc =>
        obtain ⟨q, u⟩ := loc
        obtain ⟨h1, j, lvj, a', y, b', rfl, h3⟩ := climbL_some hc
        have h3l := congrArg List.length h3
        simp only [List.length_cons, List.length_append, toList, List.length_nil,
          List.length_reverse] at hn h3l
        rw [ih q j lvj a' y b' (h1 ▸ hi)]
        · simp [toList, ← h3]
        · simp only [List.length_cons, List.length_append, List.length_reverse]
          omega
    · rw [if_neg ha]
      have han : a.isBottom = false := by
        cases a with
        | bottom => simp at ha
        | node _ _ _ _ _ => rfl
      obtain ⟨h1, h2, h3, h4⟩ := descendR_spec (.inL i lv x b :: p) a han hu.2.2.1
      generalize descendR (.inL i lv x b :: p) a = loc at h1 h2 h3 h4
      obtain ⟨q, u⟩ := loc
      cases u with
      | bottom => simp at h3
      | node j lvj a' y b' =>
        simp only [r_node] at h4
        subst h4
        have hl := congrArg toList h1
        simp only [toList_rebuild, h2, toList, List.append_nil] at hl
        have hl' := List.append_cancel_right hl
        simp only [before] at hl'
        rw [ih q j lvj a' y bottom (h1 ▸ hi)]
        · have := congrArg List.reverse hl'
          simp only [List.reverse_append, List.reverse_cons, List.append_assoc,
            List.singleton_append] at this
          simp [← this]
        · have := congrArg List.length hl'
          simp only [List.length_cons, List.length_append, List.length_reverse] at hn this ⊢
          omega

theorem All_eq_toList (s : Set α) (h : Inv s.root) : s.All = some s.root.toList := by
  unfold Set.All Set.First
  by_cases h0 : s.root.level = 0
  · rw [if_pos h0, h.eq_bottom h0]
    rfl
  · rw [if_neg h0]
    have hn : s.root.isBottom = false := by
      cases hr : s.root with
      | bottom => rw [hr] at h0; simp at h0
      | node _ _ _ _ _ => rfl
    obtain ⟨h1, h2, h3, h4⟩ := descendL_spec [] s.root hn h
    generalize descendL [] s.root = loc at h1 h2 h3 h4
    obtain ⟨q, u⟩ := loc
    cases u with
    | bottom => simp at h3
    | node j lvj a' y b' =>
      simp only [l_node] at h4
      subst h4
      have hl := congrArg toList h1
      simp only [toList_rebuild, h2, toList, rebuild, before, after, List.nil_append,
        List.append_nil] at hl
      have hc : (y :: b'.toList ++ after q).length ≤ s.root.count := by
        rw [count_eq_length, ← hl]
      rw [collect_Next _ q j lvj bottom y b' (h1 ▸ h) hc, ← hl]

theorem Backward_eq_reverse (s : Set α) (h : Inv s.root) :
    s.Backward = some s.root.toList.reverse := by
  unfold Set.Backward Set.Last
  by_cases h0 : s.root.level = 0
  · rw [if_pos h0, h.eq_bottom h0]
    rfl
  · rw [if_neg h0]
    have hn : s.root.isBottom = false := by
      cases hr : s.root with
      | bottom => rw [hr] at h0; simp at h0
      | node _ _ _ _ _ => rfl
    obtain ⟨h1, h2, h3, h4⟩ := descendR_spec [] s.root hn h
    generalize descendR [] s.root = loc at h1 h2 h3 h4
    obtain ⟨q, u⟩ := loc
    cases u with
    | bottom => simp at h3
    | node j lvj a' y b' =>
      simp only [r_node] at h4
      subst h4
      have hl := congrArg toList h1
      simp only [toList_rebuild, h2, toList, rebuild, before, after, List.nil_append,
        List.append_nil] at hl
      have hc : (y :: a'.toList.reverse ++ (before q).reverse).length ≤ s.root.count := by
        rw [count_eq_length, ← hl]
        simp only [List.length_cons, List.length_append, List.length_reverse, List.length_nil]
        omega
      rw [collect_Prev _ q j lvj a' y bottom (h1 ▸ h) hc, ← hl]
      simp

/-! ## Well-formed and reachable sets -/

/-- Effect of `Set.Insert` on a well-formed set. -/
theorem Insert_spec [LinearOrder α] (s : Set α) (x : α) (h : WF s) :
    (x ∈ s.root.toList → s.Insert x = (s, false)) ∧
    (x ∉ s.root.toList →
      (s.Insert x).2 = true ∧
      (s.Insert x).1.root.toList = List.orderedInsert (· ≤ ·) x s.root.toList ∧
      (s.Insert x).1.size = s.size + 1) := by
  unfold Set.Insert
  split
  · rename_i heq
    simp [heq, toList, newItem]
  · rename_i i lv a v b heq
    have hne : s.root.isBottom = false := by rw [heq]; rfl
    obtain ⟨h1, h2⟩ := insert_spec s i x h hne
    refine ⟨fun hx => ?_, fun hx => h2 hx⟩
    obtain ⟨e1, e2⟩ := h1 hx
    exact Prod.ext e1 e2

theorem sorted_orderedInsert [LinearOrder α] {x : α} {l : List α} (hs : l.Sorted (· < ·))
    (hx : x ∉ l) : (List.orderedInsert (· ≤ ·) x l).Sorted (· < ·) := by
  have h1 : (List.orderedInsert (· ≤ ·) x l).Sorted (· ≤ ·) :=
    List.Sorted.orderedInsert x l hs.le_of_lt
  have h2 : (List.orderedInsert (· ≤ ·) x l).Nodup :=
    (List.perm_orderedInsert (· ≤ ·) x l).nodup_iff.2 (List.nodup_cons.2 ⟨hx, hs.nodup⟩)
  exact h1.lt_of_le h2

theorem Insert_WF [LinearOrder α] (s : Set α) (x : α) (h : WF s) : WF (s.Insert x).1 := by
  by_cases hx : x ∈ s.root.toList
  · rw [(Insert_spec s x h).1 hx]; exact h
  · obtain ⟨-, h2, h3⟩ := (Insert_spec s x h).2 hx
    refine ⟨Insert_inv s x h.inv, ?_, ?_⟩
    · rw [h2]; exact sorted_orderedInsert h.sorted hx
    · rw [h3, h2, List.orderedInsert_length, h.size]; simp

theorem Delete_WF [LinearOrder α] (s : Set α) (x : α) (h : WF s) : WF (s.Delete x).1 := by
  by_cases hx : x ∈ s.root.toList
  · obtain ⟨-, h2, h3⟩ := (Delete_spec s x h).1 hx
    refine ⟨Delete_inv s x h.inv, ?_, ?_⟩
    · rw [h2]; exact h.sorted.sublist (List.erase_sublist x _)
    · rw [h3, h2, List.length_erase_of_mem hx, h.size]
      have : 1 ≤ s.root.toList.length := List.length_pos_of_mem hx
      omega
  · rw [(Delete_spec s x h).2 hx]; exact h

theorem insert_eq_Insert [LinearOrder α] (s : Set α) (k : Nat) (x : α)
    (hne : s.root.isBottom = false) :
    (s.insert k x).1 = (s.Insert x).1 ∧ (s.insert k x).2.2 = (s.Insert x).2 := by
  unfold Set.Insert
  split
  · rename_i heq; rw [heq] at hne; simp at hne
  · exact ⟨rfl, rfl⟩

theorem locate_isBottom {p : Path α} {t : SetItem α} {k : Nat} {loc : Loc α}
    (h : locate p t k = some loc) :
    loc.2.isBottom = false ∧ rebuild loc.1 loc.2 = rebuild p t := by
  induction t generalizing p with
  | bottom => simp [locate] at h
  | node i lv a x b iha ihb =>
    simp only [locate] at h
    by_cases hk : i = k
    · rw [if_pos hk] at h
      simp only [Option.some.injEq] at h
      subst h
      exact ⟨rfl, rfl⟩
    · rw [if_neg hk] at h
      cases hl : locate (.inL i lv x b :: p) a k with
      | some l' =>
        rw [hl] at h
        simp only [Option.some.injEq] at h
        subst h
        exact iha hl
      | none =>
        rw [hl] at h
        exact ihb h

/-- The set after `InsertNearby` is the set itself or the set after `Insert`;
in the first case `x` is already stored. -/
theorem InsertNearby_eq [LinearOrder α] (s : Set α) (si : Nat) (x : α) :
    (s.InsertNearby si x).1 = s ∨ (s.InsertNearby si x).1 = (s.Insert x).1 := by
  unfold Set.InsertNearby
  cases hl : locate [] s.root si with
  | none => exact Or.inl rfl
  | some loc =>
    obtain ⟨h1, h2⟩ := locate_isBottom hl
    have hne : s.root.isBottom = false := by
      simp only [rebuild] at h2
      rw [← h2]
      obtain ⟨q, u⟩ := loc
      cases u with
      | bottom => simp at h1
      | node j lvj a y b =>
        clear hl h2 h1
        induction q generalizing j lvj a y b with
        | nil => rfl
        | cons f q ih => cases f <;> exact ih _ _ _ _ _
    simp only []
    rcases insertNearby_cases s loc x with h | ⟨k, h⟩
    · exact Or.inl h
    · right
      rw [h]
      exact (insert_eq_Insert s k x hne).1

theorem InsertNearby_WF [LinearOrder α] (s : Set α) (si : Nat) (x : α) (h : WF s) :
    WF (s.InsertNearby si x).1 := by
  rcases InsertNearby_eq s si x with h1 | h1
  · rw [h1]; exact h
  · rw [h1]; exact Insert_WF s x h

theorem Reachable.wf [LinearOrder α] {s : Set α} (h : Reachable s) : WF s := by
  induction h with
  | newSet => exact WF_newSet
  | Insert s x _ ih => exact Insert_WF s x ih
  | Delete s x _ ih => exact Delete_WF s x ih
  | InsertNearby s si x _ ih => exact InsertNearby_WF s si x ih

theorem WF.all [LinearOrder α] {s : Set α} (h : WF s) : s.All = some s.root.toList :=
  All_eq_toList s h.inv

/-- A tree obeying the invariants with root level `k` has at least `2^k - 1`
nodes. -/
theorem two_pow_level_le_count (t : SetItem α) (h : Inv t) : 2 ^ t.level ≤ t.count + 1 := by
  induction t with
  | bottom => simp [count]
  | node i k a x b iha ihb =>
    obtain ⟨h1, h2, ha, hb⟩ := h
    have ea := iha ha
    have eb := ihb hb
    have hbl : 2 ^ a.level ≤ 2 ^ b.level := Nat.pow_le_pow_right (by omega) (by omega)
    simp only [level_node, count]
    rw [h1, Nat.pow_succ]
    omega

theorem exampleSet_reachable : Reachable exampleSet :=
  .Insert _ 8 (.Insert _ 7 (.Insert _ 1 (.Insert _ 6 (.Insert _ 4 (.Insert _ 2 .newSet)))))

theorem exampleSet_All : exampleSet.All = some [1, 2, 4, 6, 7, 8] := by decide

/-! ## Batches of insertions -/

theorem mem_destutter_ne [DecidableEq α] (x a : α) (l : List α) (h : x ∈ a :: l) :
    x ∈ List.destutter' (· ≠ ·) a l := by
  induction l generalizing a with
  | nil => simpa using h
  | cons b l ih =>
    rw [List.destutter'_cons]
    rcases List.mem_cons.1 h with rfl | h
    · split_ifs
      · exact List.mem_cons_self _ _
      · exact List.mem_destutter' _ _ _
    · split_ifs with hab
      · exact List.mem_cons_of_mem _ (ih b h)
      · simp only [ne_eq, not_not] at hab
        subst hab
        exact ih a h

theorem mem_destutter_iff [DecidableEq α] (x : α) (l : List α) :
    x ∈ l.destutter (· ≠ ·) ↔ x ∈ l := by
  constructor
  · exact fun h => (List.destutter_sublist _ l).subset h
  · intro h
    cases l with
    | nil => simp at h
    | cons a l => exact mem_destutter_ne x a l h

theorem sorted_destutter [LinearOrder α] {l : List α} (h : l.Sorted (· ≤ ·)) :
    (l.destutter (· ≠ ·)).Sorted (· < ·) := by
  have h1 : (l.destutter (· ≠ ·)).Sorted (· ≤ ·) := h.sublist (List.destutter_sublist _ l)
  have h2 : (l.destutter (· ≠ ·)).Chain' (· ≠ ·) := List.destutter_is_chain' _ l
  have h3 : (l.destutter (· ≠ ·)).Chain' (· < ·) := by
    have h1' := List.Pairwise.chain' h1
    rw [List.chain'_iff_get] at h1' h2 ⊢
    intro i hi
    exact lt_of_le_of_ne (h1' i hi) (h2 i hi)
  exact List.chain'_iff_pairwise.1 h3

theorem sorted_lt_ext [LinearOrder α] {l1 l2 : List α} (h1 : l1.Sorted (· < ·))
    (h2 : l2.Sorted (· < ·)) (h : ∀ x, x ∈ l1 ↔ x ∈ l2) : l1 = l2 :=
  List.eq_of_perm_of_sorted ((List.perm_ext_iff_of_nodup h1.nodup h2.nodup).2 h) h1 h2

theorem insertAll_reachable [LinearOrder α] (s : Set α) (xs : List α) (h : Reachable s) :
    Reachable (insertAll s xs) := by
  induction xs generalizing s with
  | nil => exact h
  | cons x xs ih => exact ih _ (.Insert s x h)

theorem mem_Insert [LinearOrder α] (s : Set α) (x y : α) (h : WF s) :
    y ∈ (s.Insert x).1.root.toList ↔ y = x ∨ y ∈ s.root.toList := by
  by_cases hx : x ∈ s.root.toList
  · rw [(Insert_spec s x h).1 hx]
    constructor
    · exact Or.inr
    · rintro (rfl | h')
      · exact hx
      · exact h'
  · rw [((Insert_spec s x h).2 hx).2.1, List.mem_orderedInsert]

theorem mem_insertAll [LinearOrder α] (s : Set α) (xs : List α) (y : α) (h : WF s) :
    y ∈ (insertAll s xs).root.toList ↔ y ∈ s.root.toList ∨ y ∈ xs := by
  induction xs generalizing s with
  | nil => simp [insertAll]
  | cons x xs ih =>
    have := ih (s.Insert x).1 (Insert_WF s x h)
    simp only [insertAll, List.foldl_cons] at this ⊢
    rw [this, mem_Insert s x y h, List.mem_cons]
    tauto

/-! ## The comparator variant -/

theorem findFunc_slot {cmp : α → α → Int} {p : Path α} {t : SetItem α} {x : α}
    {last : Frame α} {q : Path α} (h : findFunc cmp p t x = .slot last q) :
    ∃ a : SetItem α, a.level = 0 ∧ rebuild q (last.attach a) = rebuild p t := by
  induction t generalizing p with
  | bottom => simp [findFunc] at h
  | node i lv a v b iha ihb =>
    simp only [findFunc] at h
    split_ifs at h with h1 h2 h3 h4
    · simp only [Found.slot.injEq] at h
      obtain ⟨rfl, rfl⟩ := h
      exact ⟨a, h2, rfl⟩
    · obtain ⟨c, hc, he⟩ := iha h
      exact ⟨c, hc, he⟩
    · simp only [Found.slot.injEq] at h
      obtain ⟨rfl, rfl⟩ := h
      exact ⟨b, h4, rfl⟩
    · obtain ⟨c, hc, he⟩ := ihb h
      exact ⟨c, hc, he⟩

theorem findFunc_present {cmp : α → α → Int} {p : Path α} {t : SetItem α} {x : α}
    {u : SetItem α} {q : Path α} (h : findFunc cmp p t x = .present q u) :
    rebuild q u = rebuild p t := by
  induction t generalizing p with
  | bottom => simp only [findFunc, Found.present.injEq] at h; obtain ⟨rfl, rfl⟩ := h; rfl
  | node i lv a v b iha ihb =>
    simp only [findFunc] at h
    split_ifs at h with h1 h2 h3 h4
    · exact iha h
    · exact ihb h
    · simp only [Found.present.injEq] at h
      obtain ⟨rfl, rfl⟩ := h
      rfl

theorem InsertFunc_inv (cmp : α → α → Int) (s : Set α) (x : α) (h : Inv s.root) :
    Inv (s.InsertFunc cmp x).1.root := by
  unfold Set.InsertFunc
  split
  · simp [newItem, Inv_node]
  · exact insertAt_inv s x _ (fun _ _ hf => findFunc_slot hf) h

theorem insertNearbyFunc_cases (cmp : α → α → Int) (s : Set α) (si : Loc α) (x : α) :
    (s.insertNearbyFunc cmp si x).1 = s ∨
      ∃ k, s.insertNearbyFunc cmp si x = s.insertFunc cmp k x := by
  unfold Set.insertNearbyFunc
  split
  · exact Or.inl rfl
  · split_ifs
    · exact Or.inl rfl
    · split
      · exact Or.inr ⟨_, rfl⟩
      · split
        · exact Or.inr ⟨_, rfl⟩
        · split_ifs
          · exact Or.inl rfl
          · exact Or.inr ⟨_, rfl⟩
          · exact Or.inr ⟨_, rfl⟩
    · split
      · exact Or.inr ⟨_, rfl⟩
      · split
        · exact Or.inr ⟨_, rfl⟩
        · split_ifs
          · exact Or.inl rfl
          · exact Or.inr ⟨_, rfl⟩
          · exact Or.inr ⟨_, rfl⟩

theorem InsertNearbyFunc_inv (cmp : α → α → Int) (s : Set α) (si : Nat) (x : α)
    (h : Inv s.root) : Inv (s.InsertNearbyFunc cmp si x).1.root := by
  unfold Set.InsertNearbyFunc
  split
  · rename_i loc _
    rcases insertNearbyFunc_cases cmp s loc x with h1 | ⟨k, h1⟩
    · rw [h1]; exact h
    · rw [h1]; exact insertAt_inv s x _ (fun _ _ hf => findFunc_slot hf) h
  · exact h

theorem DeleteFunc_inv (cmp : α → α → Int) (s : Set α) (x : α) (h : Inv s.root) :
    Inv (s.DeleteFunc cmp x).1.root := by
  unfold Set.DeleteFunc
  split
  · exact h
  · rename_i i lv a v b heq
    rw [← heq]
    exact deleteAt_inv s _ (fun q u hf => findFunc_present hf) h

theorem Agrees.eq_zero [LinearOrder α] {cmp : α → α → Int} (h : Agrees cmp) (x y : α) :
    cmp x y = 0 ↔ x = y := by
  obtain ⟨h1, h2⟩ := h x y
  constructor
  · intro h0
    have n1 : ¬ x < y := fun hl => by have := h1.2 hl; omega
    have n2 : ¬ y < x := fun hl => by have := h2.2 hl; omega
    exact le_antisymm (not_lt.1 n2) (not_lt.1 n1)
  · rintro rfl
    have n1 : ¬ cmp x x < 0 := fun hl => lt_irrefl x (h1.1 hl)
    have n2 : ¬ 0 < cmp x x := fun hl => lt_irrefl x (h2.1 hl)
    omega

/-- With a comparator that is the three-way comparison of the order, the two
`find` methods return the same result. -/
theorem findFunc_eq_find [LinearOrder α] {cmp : α → α → Int} (h : Agrees cmp) (p : Path α)
    (t : SetItem α) (x : α) : findFunc cmp p t x = find p t x := by
  induction t generalizing p with
  | bottom => rfl
  | node i lv a v b iha ihb =>
    obtain ⟨h1, h2⟩ := h x v
    simp only [findFunc, find]
    by_cases hlt : x < v
    · rw [if_pos (h1.2 hlt), if_pos (ne_of_gt hlt), if_pos hlt, iha]
    · rw [if_neg (fun hc => hlt (h1.1 hc))]
      by_cases hgt : v < x
      · rw [if_pos (h2.2 hgt), if_pos (ne_of_lt hgt), if_neg hlt, ihb]
      · rw [if_neg (fun hc => hgt (h2.1 hc)),
          if_neg (not_not.2 (le_antisymm (not_lt.1 hlt) (not_lt.1 hgt)))]

theorem InsertFunc_eq_Insert [LinearOrder α] {cmp : α → α → Int} (h : Agrees cmp) (s : Set α)
    (x : α) : s.InsertFunc cmp x = s.Insert x := by
  unfold Set.InsertFunc Set.Insert Set.insertFunc Set.insert
  simp only [findFunc_eq_find h]

theorem DeleteFunc_eq_Delete [LinearOrder α] {cmp : α → α → Int} (h : Agrees cmp) (s : Set α)
    (x : α) : s.DeleteFunc cmp x = s.Delete x := by
  unfold Set.DeleteFunc Set.Delete
  simp only [findFunc_eq_find h]

theorem insertNearbyFunc_eq [LinearOrder α] {cmp : α → α → Int} (h : Agrees cmp) (s : Set α)
    (si : Loc α) (x : α) : s.insertNearbyFunc cmp si x = s.insertNearby si x := by
  have hi : ∀ k, s.insertFunc cmp k x = s.insert k x := fun k => by
    unfold Set.insertFunc Set.insert
    rw [findFunc_eq_find h]
  have hz : ∀ v : α, cmp v x = 0 ↔ v = x := fun v => h.eq_zero v x
  have hl : ∀ v : α, cmp v x < 0 ↔ v < x := fun v => (h v x).1
  have hg : ∀ v : α, cmp v x > 0 ↔ v > x := fun v => (h v x).2
  unfold Set.insertNearbyFunc Set.insertNearby
  simp only [hi, hz, hl, hg]

theorem InsertNearbyFunc_eq_InsertNearby [LinearOrder α] {cmp : α → α → Int} (h : Agrees cmp)
    (s : Set α) (si : Nat) (x : α) : s.InsertNearbyFunc cmp si x = s.InsertNearby si x := by
  unfold Set.InsertNearbyFunc Set.InsertNearby
  simp only [insertNearbyFunc_eq h]

/-! ## Scenarios of `set_test.go` -/

/-- TestInsert: inserting 1, 1, 2, 3, 2, 3 returns true, false, true, true,
false, false. -/
theorem scenario_TestInsert :
    insertFlags (newSet : Set Nat) [1, 1, 2, 3, 2, 3] = [true, false, true, true, false, false] := by
  decide

/-- TestDelete: the rows of the table (inserted values, deleted value, result,
`All()` and `Len()` afterwards). -/
theorem scenario_TestDelete :
    ((newSet : Set Nat).Delete 42).2 = false ∧
    ((insertAll newSet [1]).Delete 2).2 = false ∧
    ((insertAll newSet [1]).Delete 2).1.All = some [1] ∧
    ((insertAll newSet [1]).Delete 1).2 = true ∧
    ((insertAll newSet [1]).Delete 1).1.All = some [] ∧
    ((insertAll newSet [1, 2]).Delete 1).1.All = some [2] ∧
    ((insertAll newSet [1, 2]).Delete 2).1.All = some [1] ∧
    ((insertAll newSet [1, 2]).Delete 3).1.All = some [1, 2] ∧
    ((insertAll newSet [2, 4, 6, 1, 7, 8]).Delete 3).1.All = some [1, 2, 4, 6, 7, 8] ∧
    ((insertAll newSet [2, 4, 6, 1, 7, 8]).Delete 1).1.All = some [2, 4, 6, 7, 8] ∧
    ((insertAll newSet [2, 4, 6, 1, 7, 8]).Delete 2).1.All = some [1, 4, 6, 7, 8] ∧
    ((insertAll newSet [2, 4, 6, 1, 7, 8]).Delete 4).1.All = some [1, 2, 6, 7, 8] ∧
    ((insertAll newSet [2, 4, 6, 1, 7, 8]).Delete 4).1.Len = 5 ∧
    ((insertAll newSet [2, 4, 6, 1, 7, 8]).Delete 6).1.All = some [1, 2, 4, 7, 8] ∧
    ((insertAll newSet [2, 4, 6, 1, 7, 8]).Delete 7).1.All = some [1, 2, 4, 6, 8] ∧
    ((insertAll newSet [2, 4, 6, 1, 7, 8]).Delete 8).1.All = some [1, 2, 4, 6, 7] ∧
    ((insertAll newSet [2, 4, 6, 1, 7, 8]).Delete 9).2 = false ∧
    ((insertAll newSet [2, 4, 6, 1, 7, 8]).Delete 9).1.All = some [1, 2, 4, 6, 7, 8] := by
  decide

/-- The comparator `cmp.Compare[int]` on natural numbers gives the same
results as the built-in order on the scenario of TestDelete. -/
theorem scenario_TestDelete_Func :
    ((insertAll newSet [2, 4, 6, 1, 7, 8]).DeleteFunc
        (fun x y : Nat => if x < y then -1 else if y < x then 1 else 0) 4).1.All =
      some [1, 2, 6, 7, 8] := by
  decide

/-! ## Node identities -/

theorem toList_eq_map (t : SetItem α) : t.toList = t.entries.map Prod.snd := by
  induction t with
  | bottom => rfl
  | node i k a x b iha ihb => simp [toList, entries, iha, ihb]

theorem ids_eq_map (t : SetItem α) : t.ids = t.entries.map Prod.fst := by
  induction t with
  | bottom => rfl
  | node i k a x b iha ihb => simp [ids, entries, iha, ihb]

theorem before_eq_map (p : Path α) : before p = (beforeE p).map Prod.snd := by
  induction p with
  | nil => rfl
  | cons f p ih => cases f <;> simp [before, beforeE, ih, toList_eq_map]

theorem after_eq_map (p : Path α) : after p = (afterE p).map Prod.snd := by
  induction p with
  | nil => rfl
  | cons f p ih => cases f <;> simp [after, afterE, ih, toList_eq_map]

theorem entries_rebuild (p : Path α) (t : SetItem α) :
    (rebuild p t).entries = beforeE p ++ t.entries ++ afterE p := by
  induction p generalizing t with
  | nil => simp [rebuild, beforeE, afterE]
  | cons f p ih =>
    cases f <;> simp [rebuild, beforeE, afterE, ih, Frame.attach, entries]

theorem entries_skew (t : SetItem α) : (skew t).entries = t.entries := by
  cases t with
  | bottom => rfl
  | node i k a x b =>
    cases a with
    | bottom => rfl
    | node j kl a1 y b1 =>
      rw [skew_node_node]
      split_ifs <;> simp [entries]

theorem entries_split (t : SetItem α) : (split t).1.entries = t.entries := by
  cases t with
  | bottom => rfl
  | node i k a x b =>
    cases b with
    | bottom => rfl
    | node j kr b1 y c =>
      rw [split_node_node]
      split_ifs <;> simp [entries]

theorem entries_mapR {f : SetItem α → SetItem α} (hf : ∀ u, (f u).entries = u.entries)
    (t : SetItem α) : (mapR f t).entries = t.entries := by
  cases t with
  | bottom => rfl
  | node i k a x b => simp [mapR, entries, hf]

theorem entries_setLevel (lv : Nat) (t : SetItem α) :
    (setLevel lv t).entries = t.entries := by
  cases t <;> rfl

theorem entries_rebalance (t : SetItem α) : (rebalance t).entries = t.entries := by
  have h1 : ∀ u : SetItem α, (mapR skew u).entries = u.entries := entries_mapR entries_skew
  have h2 : ∀ u : SetItem α, (mapR (mapR skew) u).entries = u.entries := entries_mapR h1
  have h3 : ∀ u : SetItem α, (mapR (fun u => (split u).1) u).entries = u.entries :=
    entries_mapR entries_split
  unfold rebalance
  split_ifs <;> simp only [h3, entries_split, h2, h1, entries_skew]

theorem entries_decreaseLevel (t : SetItem α) :
    (decreaseLevel t).1.entries = t.entries := by
  cases t with
  | bottom => rfl
  | node i k a x b =>
    rw [decreaseLevel_node]
    by_cases h : k > a.level + 1 ∨ k > b.level + 1
    · rw [if_pos h]
      simp only [entries_rebalance]
      by_cases h' : b.level > k - 1
      · rw [if_pos h']; simp [entries, entries_setLevel]
      · rw [if_neg h']; simp [entries]
    · rw [if_neg h]

theorem entries_rebuild_congr (p : Path α) {t u : SetItem α} (h : t.entries = u.entries) :
    (rebuild p t).entries = (rebuild p u).entries := by
  rw [entries_rebuild, entries_rebuild, h]

theorem entries_insertLoop (p : Path α) (t : SetItem α) (n : Nat) :
    (insertLoop p t n).entries = (rebuild p t).entries := by
  induction p generalizing t n with
  | nil =>
    simp only [insertLoop, rebuild]
    by_cases hn : n < 2
    · rw [if_pos hn, entries_split, entries_skew]
    · rw [if_neg hn]
  | cons f p ih =>
    simp only [insertLoop]
    by_cases hn : n < 2
    · rw [if_pos hn, ih]
      exact entries_rebuild_congr [f] (by rw [entries_split, entries_skew]) |>
        entries_rebuild_congr p
    · rw [if_neg hn]

theorem entries_deleteLoop (p : Path α) (t : SetItem α) :
    (deleteLoop p t).entries = (rebuild p t).entries := by
  induction p generalizing t with
  | nil => simp only [deleteLoop, rebuild, entries_decreaseLevel]
  | cons f p ih =>
    simp only [deleteLoop]
    split_ifs
    · rw [ih]
      exact entries_rebuild_congr [f] (entries_decreaseLevel t) |> entries_rebuild_congr p
    · exact entries_rebuild_congr (f :: p) (entries_decreaseLevel t)


theorem ids_rebuild (p : Path α) (t : SetItem α) :
    (rebuild p t).ids = (beforeE p).map Prod.fst ++ t.ids ++ (afterE p).map Prod.fst := by
  rw [ids_eq_map, entries_rebuild, ids_eq_map]
  simp

theorem locate_none {p : Path α} {t : SetItem α} {k : Nat} :
    locate p t k = none ↔ k ∉ t.ids := by
  induction t generalizing p with
  | bottom => simp [locate, ids]
  | node i lv a x b iha ihb =>
    simp only [locate, ids, List.mem_append, List.mem_cons, not_or]
    by_cases hk : i = k
    · rw [if_pos hk]
      simp [hk]
    · rw [if_neg hk]
      cases hl : locate (.inL i lv x b :: p) a k with
      | some l' =>
        have : ¬ (k ∉ a.ids) := fun hn => by rw [iha.2 hn] at hl; cases hl
        simp only [reduceCtorEq, false_iff]
        tauto
      | none =>
        have h1 := iha.1 hl
        simp only []
        rw [ihb]
        constructor
        · intro h2
          exact ⟨h1, fun h => hk h.symm, h2⟩
        · intro h2
          exact h2.2.2

theorem locate_id {p : Path α} {t : SetItem α} {k : Nat} {loc : Loc α}
    (h : locate p t k = some loc) : loc.2.id = k := by
  induction t generalizing p with
  | bottom => simp [locate] at h
  | node i lv a x b iha ihb =>
    simp only [locate] at h
    by_cases hk : i = k
    · rw [if_pos hk] at h
      simp only [Option.some.injEq] at h
      subst h
      exact hk
    · rw [if_neg hk] at h
      cases hl : locate (.inL i lv x b :: p) a k with
      | some l' =>
        rw [hl] at h
        simp only [Option.some.injEq] at h
        subst h
        exact iha hl
      | none =>
        rw [hl] at h
        exact ihb h

/-- Looking an identity up from the root passes through every ancestor of the
node that carries it. -/
theorem locate_rebuild (d : Path α) (u : SetItem α) (p0 : Path α) (k : Nat)
    (hn : (rebuild d u).ids.Nodup) (hk : k ∈ u.ids) :
    locate p0 (rebuild d u) k = locate (d ++ p0) u k := by
  induction d generalizing u with
  | nil => rfl
  | cons f d ih =>
    have hk' : k ∈ (f.attach u).ids := by
      cases f <;> simp [Frame.attach, ids, hk]
    have hn' : (f.attach u).ids.Nodup := by
      have := hn
      simp only [rebuild] at this
      rw [ids_rebuild] at this
      exact (List.nodup_append.1 (List.nodup_append.1 this).1).2.1
    simp only [rebuild]
    rw [ih (f.attach u) hn hk']
    have hsome : ∀ q : Path α, locate q u k ≠ none := fun q h => locate_none.1 h hk
    cases f with
    | inL i lv x b =>
      simp only [Frame.attach, ids, List.nodup_append, List.nodup_cons, List.mem_cons,
        List.mem_append] at hn'
      have hik : i ≠ k := by
        rintro rfl
        exact hn'.2.2 hk (List.mem_cons_self _ _)
      simp only [Frame.attach, locate, if_neg hik, List.cons_append]
      cases hl : locate (Frame.inL i lv x b :: (d ++ p0)) u k with
      | none => exact absurd hl (hsome _)
      | some l' => rfl
    | inR i lv a x =>
      simp only [Frame.attach, ids, List.nodup_append, List.nodup_cons, List.mem_cons,
        List.mem_append] at hn'
      have hik : i ≠ k := by
        rintro rfl
        exact hn'.2.1.1 hk
      have hka : k ∉ a.ids := fun h => hn'.2.2 h (List.mem_cons_of_mem _ hk)
      simp only [Frame.attach, locate, if_neg hik, List.cons_append]
      rw [locate_none.2 hka]

/-- A node of a tree with distinct identities is the one its identity leads
to. -/
theorem locate_loc {root : SetItem α} (hn : root.ids.Nodup) (q : Path α) (i lv : Nat)
    (a : SetItem α) (x : α) (b : SetItem α) (hr : rebuild q (node i lv a x b) = root) :
    locate [] root i = some (q, node i lv a x b) := by
  subst hr
  rw [locate_rebuild q _ [] i hn (by simp [ids])]
  simp [locate]


theorem entries_rebuild_cons (f : Frame α) (q : Path α) (t : SetItem α) :
    (rebuild q (f.attach t)).entries = beforeE (f :: q) ++ t.entries ++ afterE (f :: q) :=
  entries_rebuild (f :: q) t

/-- Effect of `Set.insert` on the nodes of a non-empty tree: either nothing
changes and the item returned holds `x`, or one node with the next free
identity and value `x` is added. -/
theorem insert_entries [LinearOrder α] (s : Set α) (k : Nat) (x : α) (h : Inv s.root)
    (hne : s.root.isBottom = false) :
    ((s.insert k x).1 = s ∧ (s.insert k x).2.2 = false ∧
      ((s.insert k x).2.1, x) ∈ s.root.entries) ∨
    ((s.insert k x).2.2 = true ∧ (s.insert k x).2.1 = s.nextId ∧
      (s.insert k x).1.nextId = s.nextId + 1 ∧
      ∃ L1 L2, s.root.entries = L1 ++ L2 ∧
        (s.insert k x).1.root.entries = L1 ++ (s.nextId, x) :: L2) := by
  unfold Set.insert
  cases hf : find [] s.root x with
  | present q u =>
    obtain ⟨i, lv, a, b, rfl⟩ := find_present_value hne hf
    have hr := (find_present hf).1
    simp only [rebuild] at hr
    left
    refine ⟨rfl, rfl, ?_⟩
    simp only [insertAt]
    rw [← hr, entries_rebuild]
    simp [entries]
  | slot last q =>
    obtain ⟨a, ha, hr⟩ := find_slot hf
    simp only [rebuild] at hr
    have hinv := h
    rw [← hr] at hinv
    have ha' : a = bottom := (Inv_of_attach (Inv_of_rebuild hinv)).eq_bottom ha
    subst ha'
    right
    refine ⟨rfl, rfl, rfl, beforeE (last :: q), afterE (last :: q), ?_, ?_⟩
    · rw [← hr, entries_rebuild_cons]; simp [entries]
    · simp only [insertAt]
      rw [entries_insertLoop, entries_rebuild_cons]
      simp [newItem, entries]

theorem Fresh_newSet : Fresh (newSet : Set α) :=
  ⟨List.nodup_nil, fun _ h => by simp [newSet, ids] at h⟩

theorem Fresh_of_added {s s' : Set α} (hf : Fresh s) {x : α} {L1 L2 : List (Nat × α)}
    (h1 : s.root.entries = L1 ++ L2) (h2 : s'.root.entries = L1 ++ (s.nextId, x) :: L2)
    (h3 : s'.nextId = s.nextId + 1) : Fresh s' := by
  obtain ⟨hn, hl⟩ := hf
  rw [ids_eq_map, h1] at hn hl
  simp only [List.map_append, List.mem_append, List.nodup_append] at hn hl
  constructor
  · rw [ids_eq_map, h2]
    simp only [List.map_append, List.map_cons, List.nodup_append, List.nodup_cons,
      List.mem_cons]
    refine ⟨hn.1, ⟨fun hm => ?_, hn.2.1⟩, ?_⟩
    · exact absurd (hl _ (Or.inr hm)) (lt_irrefl _)
    · rw [List.disjoint_cons_right]
      exact ⟨fun hm => absurd (hl _ (Or.inl hm)) (lt_irrefl _), hn.2.2⟩
  · intro i hi
    rw [ids_eq_map, h2] at hi
    simp only [List.map_append, List.map_cons, List.mem_append, List.mem_cons] at hi
    rw [h3]
    rcases hi with hi | rfl | hi
    · exact Nat.lt_succ_of_lt (hl _ (Or.inl hi))
    · exact Nat.lt_succ_self _
    · exact Nat.lt_succ_of_lt (hl _ (Or.inr hi))

theorem Insert_fresh [LinearOrder α] (s : Set α) (x : α) (h : Inv s.root) (hf : Fresh s) :
    Fresh (s.Insert x).1 := by
  cases hroot : s.root with
  | bottom =>
    have : (s.Insert x).1 = ⟨newItem s.nextId x, s.size + 1, s.nextId + 1⟩ := by
      unfold Set.Insert; rw [hroot]
    rw [this]
    exact ⟨by simp [newItem, ids], fun i hi => by
      simp [newItem, ids] at hi; subst hi; exact Nat.lt_succ_self _⟩
  | node i lv a v b =>
    have hne : s.root.isBottom = false := by rw [hroot]; rfl
    rw [← (insert_eq_Insert s i x hne).1]
    rcases insert_entries s i x h hne with h1 | ⟨_, _, h3, L1, L2, h4, h5⟩
    · rw [h1.1]; exact hf
    · exact Fresh_of_added hf h4 h5 h3

theorem leftmost_beforeE (p : Path α) (t : SetItem α) :
    beforeE (leftmost p t).1 = beforeE p := by
  induction t generalizing p with
  | bottom => rfl
  | node i lv a x b iha _ =>
    cases a with
    | bottom => rfl
    | node j lvl a1 y b1 =>
      have := iha (.inL i lv x b :: p)
      simpa only [leftmost, beforeE] using this

/-- The part of `Set.Delete` after a successful `find` takes one identity out of
the tree and hands out none. -/
theorem deleteAt_ids (s : Set α) (q : Path α) (i lv : Nat) (a : SetItem α) (x : α)
    (b : SetItem α) (hr : rebuild q (node i lv a x b) = s.root) (h : Inv s.root) :
    (deleteAt s (.present q (node i lv a x b))).1.root.ids.Sublist s.root.ids ∧
    (deleteAt s (.present q (node i lv a x b))).1.nextId = s.nextId := by
  have h0 := h
  rw [← hr] at h
  have hu := Inv_of_rebuild h
  have hroot : s.root.ids = (beforeE q).map Prod.fst ++ (a.ids ++ i :: b.ids) ++
      (afterE q).map Prod.fst := by
    rw [← hr, ids_rebuild]; rfl
  simp only [deleteAt]
  by_cases hlv : lv > 1
  · rw [if_pos hlv]
    have hb : b.isBottom = false := by
      cases b with
      | bottom => have := hu.2.1; simp only [level_bottom, r_bottom] at this; omega
      | node _ _ _ _ _ => rfl
    have hl := leftmost_spec [] b
    have hlb := leftmost_beforeE [] b
    have hln := leftmost_isBottom [] b hb
    split
    · exact ⟨List.Sublist.refl _, rfl⟩
    · rename_i sj sk sl sv sr heq
      rw [heq] at hl
      simp only [rebuild, l_node] at hl
      obtain ⟨hl1, hl2⟩ := hl
      subst hl2
      refine ⟨?_, rfl⟩
      simp only []
      rw [ids_eq_map, entries_deleteLoop, ← ids_eq_map, ids_rebuild, hroot, ← hl1]
      simp only [ids, List.nil_append, List.append_assoc, List.cons_append]
      exact List.Sublist.append_left (List.Sublist.append_left
        (List.Sublist.cons₂ _ (List.sublist_cons_self _ _)) _) _
    · rename_i f sp sj sk sl sv sr heq
      rw [heq] at hl hlb
      simp only [rebuild, l_node] at hl
      obtain ⟨hl1, hl2⟩ := hl
      subst hl2
      refine ⟨?_, rfl⟩
      simp only []
      simp only [beforeE] at hlb
      have hb' : b.ids = sj :: sr.ids ++ (afterE (f :: sp)).map Prod.fst := by
        rw [← hl1, ← rebuild, ids_rebuild, hlb]
        simp [ids]
      rw [ids_eq_map, entries_deleteLoop, ← ids_eq_map, rebuild_append, ids_rebuild,
        hroot, hb']
      have : (rebuild sp (f.attach sr)).ids = sr.ids ++ (afterE (f :: sp)).map Prod.fst := by
        rw [← rebuild, ids_rebuild, hlb]
        simp
      rw [this]
      simp only [beforeE, afterE, List.map_append, List.map_cons, List.map_nil, ← ids_eq_map,
        List.append_assoc, List.cons_append, List.nil_append, List.singleton_append]
      exact List.Sublist.append_left (List.Sublist.append_left
        (List.Sublist.cons₂ _ (List.sublist_cons_self _ _)) _) _
  · rw [if_neg hlv]
    have ha : a = bottom := by
      have h1 := hu.1
      exact hu.2.2.1.eq_bottom (by omega)
    subst ha
    split
    · refine ⟨?_, rfl⟩
      simp only [rebuild] at hr
      rw [← hr]
      simp only [ids, List.nil_append]
      exact List.sublist_cons_self _ _
    · rename_i f rest
      refine ⟨?_, rfl⟩
      simp only []
      rw [ids_eq_map, entries_deleteLoop, ← ids_eq_map, ← rebuild, ids_rebuild, hroot]
      simp only [ids, List.nil_append, List.append_assoc]
      exact List.Sublist.append_left (List.Sublist.append_right
        (List.sublist_cons_self _ _) _) _

theorem Delete_fresh [LinearOrder α] (s : Set α) (x : α) (h : Inv s.root) (hf : Fresh s) :
    Fresh (s.Delete x).1 := by
  have key : (s.Delete x).1.root.ids.Sublist s.root.ids ∧ (s.Delete x).1.nextId = s.nextId := by
    unfold Set.Delete
    split
    · exact ⟨List.Sublist.refl _, rfl⟩
    · rename_i i lv a v b heq
      have hne : s.root.isBottom = false := by rw [heq]; rfl
      rw [← heq]
      cases hfd : find [] s.root x with
      | present q u =>
        obtain ⟨i', lv', a', b', rfl⟩ := find_present_value hne hfd
        have hr := (find_present hfd).1
        simp only [rebuild] at hr
        exact deleteAt_ids s q i' lv' a' x b' hr h
      | slot last q => exact ⟨List.Sublist.refl _, rfl⟩
  exact ⟨hf.nodup.sublist key.1, fun i hi => key.2 ▸ hf.lt i (key.1.subset hi)⟩

theorem InsertNearby_fresh [LinearOrder α] (s : Set α) (si : Nat) (x : α) (h : Inv s.root)
    (hf : Fresh s) : Fresh (s.InsertNearby si x).1 := by
  rcases InsertNearby_eq s si x with h1 | h1
  · rw [h1]; exact hf
  · rw [h1]; exact Insert_fresh s x h hf

theorem Reachable.fresh [LinearOrder α] {s : Set α} (h : Reachable s) : Fresh s := by
  induction h with
  | newSet => exact Fresh_newSet
  | Insert s x hs ih => exact Insert_fresh s x hs.wf.inv ih
  | Delete s x hs ih => exact Delete_fresh s x hs.wf.inv ih
  | InsertNearby s si x hs ih => exact InsertNearby_fresh s si x hs.wf.inv ih



/-! ## Successor, predecessor and ceiling -/

theorem Next_none {p : Path α} {i lv : Nat} {a : SetItem α} {x : α} {b : SetItem α}
    (hi : Inv (rebuild p (node i lv a x b))) (h : Next (p, node i lv a x b) = none) :
    b.toList ++ after p = [] := by
  have hu := Inv_of_rebuild hi
  simp only [Next] at h
  by_cases hb : b.level = 0
  · rw [if_pos hb] at h
    have hb' : b = bottom := hu.2.2.2.eq_bottom hb
    subst hb'
    simp [toList, climbR_none h]
  · rw [if_neg hb] at h
    cases h

theorem Next_some {p : Path α} {i lv : Nat} {a : SetItem α} {x : α} {b : SetItem α}
    {q : Path α} {u : SetItem α}
    (hi : Inv (rebuild p (node i lv a x b))) (h : Next (p, node i lv a x b) = some (q, u)) :
    rebuild q u = rebuild p (node i lv a x b) ∧
      ∃ j lvj a' y b', u = node j lvj a' y b' ∧
        y :: b'.toList ++ after q = b.toList ++ after p ∧
        before q ++ a'.toList = before p ++ a.toList ++ [x] := by
  have hu := Inv_of_rebuild hi
  have key : rebuild q u = rebuild p (node i lv a x b) ∧
      ∃ j lvj a' y b', u = node j lvj a' y b' ∧
        y :: b'.toList ++ after q = b.toList ++ after p := by
    simp only [Next] at h
    by_cases hb : b.level = 0
    · rw [if_pos hb] at h
      have hb' : b = bottom := hu.2.2.2.eq_bottom hb
      subst hb'
      obtain ⟨h1, j, lvj, a', y, b', rfl, h3⟩ := climbR_some h
      exact ⟨h1, j, lvj, a', y, b', rfl, by simpa [toList] using h3⟩
    · rw [if_neg hb] at h
      have hbn : b.isBottom = false := by
        cases b with
        | bottom => simp at hb
        | node _ _ _ _ _ => rfl
      obtain ⟨h1, h2, h3, h4⟩ := descendL_spec (.inR i lv a x :: p) b hbn hu.2.2.2
      simp only [Option.some.injEq] at h
      rw [h] at h1 h2 h3 h4
      simp only [] at h1 h2 h3 h4
      cases u with
      | bottom => simp at h3
      | node j lvj a' y b' =>
        simp only [l_node] at h4
        subst h4
        refine ⟨h1, j, lvj, bottom, y, b', rfl, ?_⟩
        have hl := congrArg toList h1
        simp only [toList_rebuild, h2, toList, List.nil_append, List.append_assoc] at hl
        have hl' := List.append_cancel_left hl
        simpa only [after] using hl'
  obtain ⟨h1, j, lvj, a', y, b', rfl, h3⟩ := key
  refine ⟨h1, j, lvj, a', y, b', rfl, h3, ?_⟩
  have hl := congrArg toList h1
  simp only [toList_rebuild, toList] at hl
  have hl2 : (before q ++ a'.toList) ++ (y :: b'.toList ++ after q) =
      (before p ++ a.toList ++ [x]) ++ (b.toList ++ after p) := by
    simpa using hl
  rw [h3] at hl2
  exact List.append_cancel_right hl2

theorem Prev_none {p : Path α} {i lv : Nat} {a : SetItem α} {x : α} {b : SetItem α}
    (hi : Inv (rebuild p (node i lv a x b))) (h : Prev (p, node i lv a x b) = none) :
    before p ++ a.toList = [] := by
  have hu := Inv_of_rebuild hi
  simp only [Prev] at h
  by_cases ha : a.level = 0
  · rw [if_pos ha] at h
    have ha' : a = bottom := hu.2.2.1.eq_bottom ha
    subst ha'
    simp [toList, climbL_none h]
  · rw [if_neg ha] at h
    cases h

theorem Prev_some {p : Path α} {i lv : Nat} {a : SetItem α} {x : α} {b : SetItem α}
    {q : Path α} {u : SetItem α}
    (hi : Inv (rebuild p (node i lv a x b))) (h : Prev (p, node i lv a x b) = some (q, u)) :
    rebuild q u = rebuild p (node i lv a x b) ∧
      ∃ j lvj a' y b', u = node j lvj a' y b' ∧
        before q ++ (a'.toList ++ [y]) = before p ++ a.toList ∧
        b'.toList ++ after q = x :: b.toList ++ after p := by
  have hu := Inv_of_rebuild hi
  have key : rebuild q u = rebuild p (node i lv a x b) ∧
      ∃ j lvj a' y b', u = node j lvj a' y b' ∧
        before q ++ (a'.toList ++ [y]) = before p ++ a.toList := by
    simp only [Prev] at h
    by_cases ha : a.level = 0
    · rw [if_pos ha] at h
      have ha' : a = bottom := hu.2.2.1.eq_bottom ha
      subst ha'
      obtain ⟨h1, j, lvj, a', y, b', rfl, h3⟩ := climbL_some h
      exact ⟨h1, j, lvj, a', y, b', rfl, by simpa [toList] using h3⟩
    · rw [if_neg ha] at h
      have han : a.isBottom = false := by
        cases a with
        | bottom => simp at ha
        | node _ _ _ _ _ => rfl
      obtain ⟨h1, h2, h3, h4⟩ := descendR_spec (.inL i lv x b :: p) a han hu.2.2.1
      simp only [Option.some.injEq] at h
      rw [h] at h1 h2 h3 h4
      simp only [] at h1 h2 h3 h4
      cases u with
      | bottom => simp at h3
      | node j lvj a' y b' =>
        simp only [r_node] at h4
        subst h4
        refine ⟨h1, j, lvj, a', y, bottom, rfl, ?_⟩
        have hl := congrArg toList h1
        simp only [toList_rebuild, h2, toList, after] at hl
        have hl2 : (before q ++ (a'.toList ++ [y])) ++ (x :: b.toList ++ after p) =
            (before p ++ a.toList) ++ (x :: b.toList ++ after p) := by
          simpa [before] using hl
        exact List.append_cancel_right hl2
  obtain ⟨h1, j, lvj, a', y, b', rfl, h3⟩ := key
  refine ⟨h1, j, lvj, a', y, b', rfl, h3, ?_⟩
  have hl := congrArg toList h1
  simp only [toList_rebuild, toList] at hl
  have hl2 : (before q ++ (a'.toList ++ [y])) ++ (b'.toList ++ after q) =
      (before p ++ a.toList) ++ (x :: b.toList ++ after p) := by
    simpa using hl
  rw [h3] at hl2
  exact List.append_cancel_left hl2

/-- In a strictly increasing sequence the elements before a position are below
the element at that position and the elements after it are above. -/
theorem sorted_split [LinearOrder α] {L1 L2 : List α} {x : α}
    (hs : (L1 ++ x :: L2).Sorted (· < ·)) : (∀ z ∈ L1, z < x) ∧ (∀ z ∈ L2, x < z) := by
  simp only [List.Sorted, List.pairwise_append, List.pairwise_cons, List.mem_cons] at hs
  exact ⟨fun z hz => hs.2.2 z hz x (Or.inl rfl), hs.2.1.1⟩


theorem findGreaterThanOrEqual_spec [LinearOrder α] {p : Path α} {t : SetItem α} {x : α}
    (hs : t.toList.Sorted (· < ·)) (hb : Around x p) (hi : Inv (rebuild p t))
    (ht : t.isBottom = false) :
    (findGreaterThanOrEqual p t x = none → ∀ y ∈ t.toList ++ after p, y < x) ∧
    ∀ q u, findGreaterThanOrEqual p t x = some (q, u) →
      rebuild q u = rebuild p t ∧
      ∃ j lvj a' y b', u = node j lvj a' y b' ∧ x ≤ y ∧ ∀ z ∈ before q ++ a'.toList, z < x := by
  induction t generalizing p with
  | bottom => simp at ht
  | node i lv a v b iha ihb =>
    obtain ⟨hsa, hsb, hlt, hgt⟩ := sorted_node hs
    have hu := Inv_of_rebuild hi
    simp only [findGreaterThanOrEqual]
    by_cases hv : v = x
    · subst hv
      rw [if_neg (by simp)]
      refine ⟨fun h => (by cases h), fun q u h => ?_⟩
      simp only [Option.some.injEq, Prod.mk.injEq] at h
      obtain ⟨rfl, rfl⟩ := h
      refine ⟨rfl, i, lv, a, v, b, rfl, le_refl _, fun z hz => ?_⟩
      rcases List.mem_append.1 hz with hz | hz
      · exact hb.1 z hz
      · exact hlt z hz
    · rw [if_pos hv]
      by_cases hxv : x < v
      · rw [if_pos hxv]
        by_cases ha : a.level = 0
        · rw [if_pos ha]
          have ha' : a = bottom := hu.2.2.1.eq_bottom ha
          subst ha'
          refine ⟨fun h => (by cases h), fun q u h => ?_⟩
          simp only [Option.some.injEq, Prod.mk.injEq] at h
          obtain ⟨rfl, rfl⟩ := h
          refine ⟨rfl, i, lv, bottom, v, b, rfl, le_of_lt hxv, fun z hz => ?_⟩
          simp only [toList, List.append_nil] at hz
          exact hb.1 z hz
        · rw [if_neg ha]
          have han : a.isBottom = false := by
            cases a with
            | bottom => simp at ha
            | node _ _ _ _ _ => rfl
          have hb' : Around x (.inL i lv v b :: p) := by
            refine ⟨hb.1, fun y hy => ?_⟩
            simp only [after, List.cons_append, List.mem_cons, List.mem_append] at hy
            rcases hy with rfl | hy | hy
            · exact hxv
            · exact lt_trans hxv (hgt y hy)
            · exact hb.2 y hy
          obtain ⟨h1, h2⟩ := iha hsa hb' hi han
          refine ⟨fun h => ?_, fun q u h => h2 q u h⟩
          have := hb'.2 v (by simp [after])
          have := h1 h v (by simp [after])
          exact absurd this (not_lt_of_lt hxv)
      · rw [if_neg hxv]
        have hvx : v < x := lt_of_le_of_ne (not_lt.1 hxv) hv
        by_cases hbl : b.level = 0
        · rw [if_pos hbl]
          have hb' : b = bottom := hu.2.2.2.eq_bottom hbl
          subst hb'
          constructor
          · intro h
            have := Next_none hi h
            simp only [toList, List.nil_append] at this
            rw [this]
            intro y hy
            simp only [toList, List.append_nil, List.mem_append, List.mem_singleton,
              List.mem_cons, List.not_mem_nil, or_false] at hy
            rcases hy with hy | rfl
            · exact lt_trans (hlt y hy) hvx
            · exact hvx
          · intro q u h
            obtain ⟨h1, j, lvj, a', y, b', rfl, h3, h4⟩ := Next_some hi h
            refine ⟨h1, j, lvj, a', y, b', rfl, ?_, fun z hz => ?_⟩
            · simp only [toList, List.nil_append] at h3
              exact le_of_lt (hb.2 y (by rw [← h3]; simp))
            · rw [h4] at hz
              simp only [List.mem_append, List.mem_singleton] at hz
              rcases hz with (hz | hz) | rfl
              · exact hb.1 z hz
              · exact lt_trans (hlt z hz) hvx
              · exact hvx
        · rw [if_neg hbl]
          have hbn : b.isBottom = false := by
            cases b with
            | bottom => simp at hbl
            | node _ _ _ _ _ => rfl
          have hb' : Around x (.inR i lv a v :: p) := by
            refine ⟨fun y hy => ?_, hb.2⟩
            simp only [before, List.mem_append, List.mem_singleton] at hy
            rcases hy with hy | hy | rfl
            · exact hb.1 y hy
            · exact lt_trans (hlt y hy) hvx
            · exact hvx
          obtain ⟨h1, h2⟩ := ihb hsb hb' hi hbn
          refine ⟨fun h => ?_, fun q u h => h2 q u h⟩
          intro y hy
          simp only [toList, List.append_assoc, List.cons_append, List.mem_append,
            List.mem_cons] at hy
          rcases hy with hy | rfl | hy | hy
          · exact lt_trans (hlt y hy) hvx
          · exact hvx
          · exact h1 h y (by simp [after, hy])
          · exact h1 h y (by simp [after, hy])

/-- A position of the tree at a real node. -/
theorem mem_entries_of_rebuild (q : Path α) (i lv : Nat) (a : SetItem α) (x : α)
    (b : SetItem α) : (i, x) ∈ (rebuild q (node i lv a x b)).entries := by
  rw [entries_rebuild]
  simp [entries]

theorem mem_toList_of_rebuild (q : Path α) (i lv : Nat) (a : SetItem α) (x : α)
    (b : SetItem α) : x ∈ (rebuild q (node i lv a x b)).toList := by
  rw [toList_rebuild]
  simp [toList]

theorem mem_toList_of_entry {t : SetItem α} {k : Nat} {x : α} (h : (k, x) ∈ t.entries) :
    x ∈ t.toList := by
  rw [toList_eq_map]
  exact List.mem_map.2 ⟨(k, x), h, rfl⟩

theorem mem_ids_of_entry {t : SetItem α} {k : Nat} {x : α} (h : (k, x) ∈ t.entries) :
    k ∈ t.ids := by
  rw [ids_eq_map]
  exact List.mem_map.2 ⟨(k, x), h, rfl⟩

/-- Values are stored once: two nodes holding the same value are one node. -/
theorem entry_id_unique {t : SetItem α} (hn : t.toList.Nodup) {k i : Nat} {x : α}
    (h1 : (k, x) ∈ t.entries) (h2 : (i, x) ∈ t.entries) : k = i := by
  rw [toList_eq_map] at hn
  have := List.inj_on_of_nodup_map hn h1 h2 rfl
  exact congrArg Prod.fst this

/-- Identities are given once: a node is determined by its identity. -/
theorem entry_value_unique {t : SetItem α} (hn : t.ids.Nodup) {k : Nat} {x y : α}
    (h1 : (k, x) ∈ t.entries) (h2 : (k, y) ∈ t.entries) : x = y := by
  rw [ids_eq_map] at hn
  have := List.inj_on_of_nodup_map hn h1 h2 rfl
  exact congrArg Prod.snd this

theorem locate_cases {t : SetItem α} {k : Nat} {loc : Loc α} (h : locate [] t k = some loc) :
    ∃ p lv a x b, loc = (p, node k lv a x b) ∧ rebuild p (node k lv a x b) = t := by
  obtain ⟨h1, h2⟩ := locate_isBottom h
  have h3 := locate_id h
  obtain ⟨p, u⟩ := loc
  cases u with
  | bottom => simp at h1
  | node i lv a x b =>
    simp only [SetItem.id] at h3
    subst h3
    exact ⟨p, lv, a, x, b, rfl, h2⟩

/-- In a tree with distinct identities, an identity with a value among the
nodes leads to a node that holds this value. -/
theorem locate_entry {t : SetItem α} (hn : t.ids.Nodup) {k : Nat} {x : α}
    (h : (k, x) ∈ t.entries) : ∃ it, locate [] t k = some it ∧ it.2.Value = some x := by
  cases hl : locate [] t k with
  | none => exact absurd (mem_ids_of_entry h) (locate_none.1 hl)
  | some it =>
    obtain ⟨p, lv, a, y, b, rfl, hr⟩ := locate_cases hl
    have := mem_entries_of_rebuild p k lv a y b
    rw [hr] at this
    have hxy := entry_value_unique hn this h
    subst hxy
    exact ⟨_, rfl, rfl⟩

/-- Two positions of a tree with distinct values and distinct identities that
hold the same value are the same position. -/
theorem loc_unique {t : SetItem α} (hv : t.toList.Nodup) (hn : t.ids.Nodup)
    {p q : Path α} {i j lv lvj : Nat} {a a' b b' : SetItem α} {x : α}
    (h1 : rebuild p (node i lv a x b) = t) (h2 : rebuild q (node j lvj a' x b') = t) :
    (p, node i lv a x b) = (q, node j lvj a' x b') := by
  have e1 := mem_entries_of_rebuild p i lv a x b
  have e2 := mem_entries_of_rebuild q j lvj a' x b'
  rw [h1] at e1
  rw [h2] at e2
  have hij := entry_id_unique hv e1 e2
  subst hij
  have l1 := locate_loc hn p i lv a x b h1
  have l2 := locate_loc hn q i lvj a' x b' h2
  rw [l1] at l2
  exact Option.some.inj l2


theorem toList_eq_nil {t : SetItem α} : t.toList = [] ↔ t = bottom := by
  cases t <;> simp [toList]

theorem FindGreaterThanOrEqual_spec [LinearOrder α] (s : Set α) (x : α) (h : WF s)
    (hf : Fresh s) :
    (s.FindGreaterThanOrEqual x = none ↔ ∀ y ∈ s.root.toList, y < x) ∧
    ∀ loc, s.FindGreaterThanOrEqual x = some loc →
      ∃ v, loc.2.Value = some v ∧ locate [] s.root loc.2.id = some loc ∧
        v ∈ s.root.toList ∧ x ≤ v ∧ ∀ y ∈ s.root.toList, x ≤ y → v ≤ y := by
  have hsome : ∀ loc, s.FindGreaterThanOrEqual x = some loc →
      ∃ v, loc.2.Value = some v ∧ locate [] s.root loc.2.id = some loc ∧
        v ∈ s.root.toList ∧ x ≤ v ∧ ∀ y ∈ s.root.toList, x ≤ y → v ≤ y := by
    intro loc hl
    unfold Set.FindGreaterThanOrEqual at hl
    split at hl
    · cases hl
    · rename_i i lv a v b heq
      rw [← heq] at hl
      have hne : s.root.isBottom = false := by rw [heq]; rfl
      obtain ⟨q, u⟩ := loc
      obtain ⟨h1, j, lvj, a', y, b', rfl, h3, h4⟩ :=
        (findGreaterThanOrEqual_spec h.sorted (Around_nil x) h.inv hne).2 q u hl
      simp only [rebuild] at h1
      have hl' : s.root.toList = (before q ++ a'.toList) ++ y :: (b'.toList ++ after q) := by
        rw [← h1, toList_rebuild]; simp [toList]
      have hs := h.sorted
      rw [hl'] at hs
      obtain ⟨-, hs2⟩ := sorted_split hs
      refine ⟨y, rfl, locate_loc hf.nodup q j lvj a' y b' h1, ?_, h3, fun z hz hxz => ?_⟩
      · rw [hl']; simp
      · rw [hl'] at hz
        simp only [List.mem_append, List.mem_cons] at hz
        rcases hz with hz | rfl | hz
        · exact absurd (h4 z (List.mem_append.2 hz)) (not_lt_of_le hxz)
        · exact le_refl _
        · exact le_of_lt (hs2 z (List.mem_append.2 hz))
  refine ⟨⟨fun hn => ?_, fun hall => ?_⟩, hsome⟩
  · unfold Set.FindGreaterThanOrEqual at hn
    split at hn
    · rename_i heq
      simp [heq, toList]
    · rename_i i lv a v b heq
      rw [← heq] at hn
      have hne : s.root.isBottom = false := by rw [heq]; rfl
      have := (findGreaterThanOrEqual_spec h.sorted (Around_nil x) h.inv hne).1 hn
      simpa [after] using this
  · cases hc : s.FindGreaterThanOrEqual x with
    | none => rfl
    | some loc =>
      obtain ⟨v, -, -, hv, hxv, -⟩ := hsome loc hc
      exact absurd (hall v hv) (not_lt_of_le hxv)

theorem Has_iff [LinearOrder α] (s : Set α) (x : α) (h : WF s) :
    s.Has x = true ↔ x ∈ s.root.toList := by
  unfold Set.Has
  split
  · rename_i heq
    simp [heq, toList]
  · rename_i i lv a v b heq
    have hne : s.root.isBottom = false := by rw [heq]; rfl
    rw [← heq]
    cases hfd : find [] s.root x with
    | present q u =>
      obtain ⟨i', lv', a', b', rfl⟩ := find_present_value hne hfd
      have hr := (find_present hfd).1
      simp only [rebuild] at hr
      have := mem_toList_of_rebuild q i' lv' a' x b'
      rw [hr] at this
      simp [Found.isPresent, this]
    | slot last q =>
      obtain ⟨a', ha, hr⟩ := find_slot hfd
      simp only [rebuild] at hr
      have hinv := h.inv
      rw [← hr] at hinv
      have ha' : a' = bottom := (Inv_of_attach (Inv_of_rebuild hinv)).eq_bottom ha
      subst ha'
      have har := find_slot_around h.sorted (Around_nil x) hfd
      have hl : s.root.toList = before (last :: q) ++ after (last :: q) := by
        rw [← hr, toList_rebuild_cons]; simp [toList]
      have hx : x ∉ s.root.toList := hl ▸ not_mem_of_around har
      simp [Found.isPresent, hx]

theorem First_none_iff (s : Set α) (h : Inv s.root) : s.First = none ↔ s.root.toList = [] := by
  unfold Set.First
  rw [toList_eq_nil]
  constructor
  · intro hn
    by_cases hl : s.root.level = 0
    · exact h.eq_bottom hl
    · rw [if_neg hl] at hn; cases hn
  · intro hb
    rw [hb]
    rfl

theorem Last_none_iff (s : Set α) (h : Inv s.root) : s.Last = none ↔ s.root.toList = [] := by
  unfold Set.Last
  rw [toList_eq_nil]
  constructor
  · intro hn
    by_cases hl : s.root.level = 0
    · exact h.eq_bottom hl
    · rw [if_neg hl] at hn; cases hn
  · intro hb
    rw [hb]
    rfl

/-- The item returned by `First` is the leftmost node of the tree. -/
theorem First_some (s : Set α) (h : Inv s.root) {f : Loc α} (hf : s.First = some f) :
    ∃ q j lvj y b', f = (q, node j lvj bottom y b') ∧
      rebuild q (node j lvj bottom y b') = s.root ∧
      s.root.toList = y :: (b'.toList ++ after q) := by
  unfold Set.First at hf
  by_cases hl : s.root.level = 0
  · rw [if_pos hl] at hf; cases hf
  · rw [if_neg hl] at hf
    simp only [Option.some.injEq] at hf
    have hne : s.root.isBottom = false := by
      cases hr : s.root with
      | bottom => rw [hr] at hl; simp at hl
      | node _ _ _ _ _ => rfl
    obtain ⟨h1, h2, h3, h4⟩ := descendL_spec [] s.root hne h
    rw [hf] at h1 h2 h3 h4
    obtain ⟨q, u⟩ := f
    cases u with
    | bottom => simp at h3
    | node j lvj a' y b' =>
      simp only [l_node] at h4
      subst h4
      simp only [rebuild] at h1
      refine ⟨q, j, lvj, y, b', rfl, h1, ?_⟩
      simp only [before] at h2
      rw [← h1, toList_rebuild, h2]
      simp [toList]

/-- The item returned by `Last` is the rightmost node of the tree. -/
theorem Last_some (s : Set α) (h : Inv s.root) {f : Loc α} (hf : s.Last = some f) :
    ∃ q j lvj a' y, f = (q, node j lvj a' y bottom) ∧
      rebuild q (node j lvj a' y bottom) = s.root ∧
      s.root.toList = (before q ++ a'.toList) ++ [y] := by
  unfold Set.Last at hf
  by_cases hl : s.root.level = 0
  · rw [if_pos hl] at hf; cases hf
  · rw [if_neg hl] at hf
    simp only [Option.some.injEq] at hf
    have hne : s.root.isBottom = false := by
      cases hr : s.root with
      | bottom => rw [hr] at hl; simp at hl
      | node _ _ _ _ _ => rfl
    obtain ⟨h1, h2, h3, h4⟩ := descendR_spec [] s.root hne h
    rw [hf] at h1 h2 h3 h4
    obtain ⟨q, u⟩ := f
    cases u with
    | bottom => simp at h3
    | node j lvj a' y b' =>
      simp only [r_node] at h4
      subst h4
      simp only [rebuild] at h1
      refine ⟨q, j, lvj, a', y, rfl, h1, ?_⟩
      simp only [after] at h2
      rw [← h1, toList_rebuild, h2]
      simp [toList]


/-- From an item of a well-formed set, `Next` fails only at the largest value
and otherwise leads to the item with the next larger value. -/
theorem Next_item [LinearOrder α] {s : Set α} (h : WF s) {p : Path α} {i lv : Nat}
    {a : SetItem α} {v : α} {b : SetItem α} (hr : rebuild p (node i lv a v b) = s.root) :
    (Next (p, node i lv a v b) = none → ∀ y ∈ s.root.toList, y ≤ v) ∧
    ∀ n, Next (p, node i lv a v b) = some n →
      ∃ q j lvj a' w b', n = (q, node j lvj a' w b') ∧
        rebuild q (node j lvj a' w b') = s.root ∧ v < w ∧
        (∀ y ∈ s.root.toList, v < y → w ≤ y) ∧ (∀ y ∈ s.root.toList, y < w → y ≤ v) := by
  have hi : Inv (rebuild p (node i lv a v b)) := hr ▸ h.inv
  have hl : s.root.toList = (before p ++ a.toList) ++ v :: (b.toList ++ after p) := by
    rw [← hr, toList_rebuild]; simp [toList]
  have hs := h.sorted
  obtain ⟨d1, d2⟩ := sorted_split (hl ▸ hs)
  constructor
  · intro hn y hy
    rw [hl, Next_none hi hn] at hy
    simp only [List.mem_append, List.mem_cons, List.not_mem_nil, or_false] at hy
    rcases hy with hy | rfl
    · exact le_of_lt (d1 y (List.mem_append.2 hy))
    · exact le_refl _
  · intro n hn
    obtain ⟨q, u⟩ := n
    obtain ⟨h1, j, lvj, a', w, b', rfl, h3, h4⟩ := Next_some hi hn
    have hl2 : s.root.toList = (before q ++ a'.toList) ++ w :: (b'.toList ++ after q) := by
      rw [← hr, ← h1, toList_rebuild]; simp [toList]
    obtain ⟨e1, e2⟩ := sorted_split (hl2 ▸ hs)
    refine ⟨q, j, lvj, a', w, b', rfl, h1.trans hr, e1 v (by rw [h4]; simp), ?_, ?_⟩
    · intro y hy hvy
      rw [hl2] at hy
      simp only [List.mem_append, List.mem_cons] at hy
      rcases hy with hy | rfl | hy
      · have hy := List.mem_append.2 hy
        rw [h4] at hy
        simp only [List.mem_append, List.mem_singleton] at hy
        rcases hy with hy | rfl
        · exact absurd (d1 y (List.mem_append.2 hy)) (not_lt_of_lt hvy)
        · exact absurd hvy (lt_irrefl _)
      · exact le_refl _
      · exact le_of_lt (e2 y (List.mem_append.2 hy))
    · intro y hy hyw
      rw [hl] at hy
      simp only [List.mem_append, List.mem_cons] at hy
      rcases hy with hy | rfl | hy
      · exact le_of_lt (d1 y (List.mem_append.2 hy))
      · exact le_refl _
      · have : y ∈ w :: b'.toList ++ after q := by rw [h3]; exact List.mem_append.2 hy
        simp only [List.cons_append, List.mem_cons] at this
        rcases this with rfl | hy'
        · exact absurd hyw (lt_irrefl _)
        · exact absurd (e2 y hy') (not_lt_of_lt hyw)

/-- From an item of a well-formed set, `Prev` fails only at the smallest value
and otherwise leads to the item with the next smaller value. -/
theorem Prev_item [LinearOrder α] {s : Set α} (h : WF s) {p : Path α} {i lv : Nat}
    {a : SetItem α} {v : α} {b : SetItem α} (hr : rebuild p (node i lv a v b) = s.root) :
    (Prev (p, node i lv a v b) = none → ∀ y ∈ s.root.toList, v ≤ y) ∧
    ∀ n, Prev (p, node i lv a v b) = some n →
      ∃ q j lvj a' w b', n = (q, node j lvj a' w b') ∧
        rebuild q (node j lvj a' w b') = s.root ∧ w < v ∧
        (∀ y ∈ s.root.toList, y < v → y ≤ w) ∧ (∀ y ∈ s.root.toList, w < y → v ≤ y) := by
  have hi : Inv (rebuild p (node i lv a v b)) := hr ▸ h.inv
  have hl : s.root.toList = (before p ++ a.toList) ++ v :: (b.toList ++ after p) := by
    rw [← hr, toList_rebuild]; simp [toList]
  have hs := h.sorted
  obtain ⟨d1, d2⟩ := sorted_split (hl ▸ hs)
  constructor
  · intro hn y hy
    rw [hl, Prev_none hi hn] at hy
    simp only [List.nil_append, List.mem_cons] at hy
    rcases hy with rfl | hy
    · exact le_refl _
    · exact le_of_lt (d2 y hy)
  · intro n hn
    obtain ⟨q, u⟩ := n
    obtain ⟨h1, j, lvj, a', w, b', rfl, h3, h4⟩ := Prev_some hi hn
    have hl2 : s.root.toList = (before q ++ a'.toList) ++ w :: (b'.toList ++ after q) := by
      rw [← hr, ← h1, toList_rebuild]; simp [toList]
    obtain ⟨e1, e2⟩ := sorted_split (hl2 ▸ hs)
    refine ⟨q, j, lvj, a', w, b', rfl, h1.trans hr, e2 v (by rw [h4]; simp), ?_, ?_⟩
    · intro y hy hyv
      rw [hl2] at hy
      simp only [List.mem_append, List.mem_cons] at hy
      rcases hy with hy | rfl | hy
      · exact le_of_lt (e1 y (List.mem_append.2 hy))
      · exact le_refl _
      · have : y ∈ v :: b.toList ++ after p := by rw [← h4]; exact List.mem_append.2 hy
        simp only [List.cons_append, List.mem_cons] at this
        rcases this with rfl | hy'
        · exact absurd hyv (lt_irrefl _)
        · exact absurd (d2 y hy') (not_lt_of_lt hyv)
    · intro y hy hwy
      rw [hl] at hy
      simp only [List.mem_append, List.mem_cons] at hy
      rcases hy with hy | rfl | hy
      · have : y ∈ before q ++ (a'.toList ++ [w]) := by rw [h3]; exact List.mem_append.2 hy
        simp only [List.mem_append, List.mem_singleton] at this
        rcases this with hy' | hy' | rfl
        · exact absurd (e1 y (List.mem_append.2 (Or.inl hy'))) (not_lt_of_lt hwy)
        · exact absurd (e1 y (List.mem_append.2 (Or.inr hy'))) (not_lt_of_lt hwy)
        · exact absurd hwy (lt_irrefl _)
      · exact le_refl _
      · exact le_of_lt (d2 y (List.mem_append.2 hy))

/-- On the items of a well-formed set with distinct identities `Next` and
`Prev` are inverse to each other. -/
theorem Next_iff_Prev [LinearOrder α] {s : Set α} (h : WF s) (hf : Fresh s) {ka kb : Nat}
    {a b : Loc α} (ha : locate [] s.root ka = some a) (hb : locate [] s.root kb = some b) :
    Next a = some b ↔ Prev b = some a := by
  obtain ⟨p, lv, A, v, B, rfl, hra⟩ := locate_cases ha
  obtain ⟨q, lvj, A', w, B', rfl, hrb⟩ := locate_cases hb
  have hv : v ∈ s.root.toList := hra ▸ mem_toList_of_rebuild p ka lv A v B
  have hw : w ∈ s.root.toList := hrb ▸ mem_toList_of_rebuild q kb lvj A' w B'
  have hnd := h.sorted.nodup
  constructor
  · intro hn
    obtain ⟨q1, j1, l1, a1, w1, b1, e1, -, hvw, hmin, hgap⟩ := (Next_item h hra).2 _ hn
    simp only [Prod.mk.injEq, node.injEq] at e1
    obtain ⟨-, -, -, -, rfl, -⟩ := e1
    cases hp : Prev (q, node kb lvj A' w B') with
    | none =>
      exact absurd ((Prev_item h hrb).1 hp v hv) (not_le_of_lt hvw)
    | some n =>
      obtain ⟨r, k, lk, a2, z, b2, rfl, hrn, hzw, hmax, -⟩ := (Prev_item h hrb).2 _ hp
      have hz : z ∈ s.root.toList := hrn ▸ mem_toList_of_rebuild r k lk a2 z b2
      have hzv : z = v := le_antisymm (hgap z hz hzw) (hmax v hv hvw)
      subst hzv
      rw [loc_unique hnd hf.nodup hrn hra]
  · intro hp
    obtain ⟨q1, j1, l1, a1, v1, b1, e1, -, hvw, hmax, hgap⟩ := (Prev_item h hrb).2 _ hp
    simp only [Prod.mk.injEq, node.injEq] at e1
    obtain ⟨-, -, -, -, rfl, -⟩ := e1
    cases hn : Next (p, node ka lv A v B) with
    | none =>
      exact absurd ((Next_item h hra).1 hn w hw) (not_le_of_lt hvw)
    | some n =>
      obtain ⟨r, k, lk, a2, z, b2, rfl, hrn, hvz, hmin, -⟩ := (Next_item h hra).2 _ hn
      have hz : z ∈ s.root.toList := hrn ▸ mem_toList_of_rebuild r k lk a2 z b2
      have hzw : z = w := le_antisymm (hmin w hw hvw) (hgap z hz hvz)
      subst hzw
      rw [loc_unique hnd hf.nodup hrn hrb]



/-! ## Insertion next to an item -/

/-- The method `insertNearby` on an item of the set either returns an item that
holds `x` and leaves the set as it is, or it is a call of `insert`. -/
theorem insertNearby_result [LinearOrder α] (s : Set α) (p : Path α) (i lv : Nat)
    (a : SetItem α) (v : α) (b : SetItem α) (x : α)
    (hr : rebuild p (node i lv a v b) = s.root) (h : Inv s.root) :
    ((s.insertNearby (p, node i lv a v b) x).1 = s ∧
      (s.insertNearby (p, node i lv a v b) x).2.2 = false ∧
      ((s.insertNearby (p, node i lv a v b) x).2.1, x) ∈ s.root.entries) ∨
    ∃ k, s.insertNearby (p, node i lv a v b) x = s.insert k x := by
  have hi : Inv (rebuild p (node i lv a v b)) := hr ▸ h
  simp only [Set.insertNearby]
  split_ifs with hvx hlt
  · subst hvx
    exact Or.inl ⟨rfl, rfl, hr ▸ mem_entries_of_rebuild p i lv a v b⟩
  · split
    · exact Or.inr ⟨_, rfl⟩
    · rename_i next hnext
      split
      · exact Or.inr ⟨_, rfl⟩
      · rename_i j lj aj nv bj hj
        split_ifs with hnx
        · subst hnx
          left
          refine ⟨rfl, rfl, ?_⟩
          obtain ⟨q, u⟩ := next
          obtain ⟨h1, -⟩ := Next_some hi hnext
          simp only [] at hj
          subst hj
          rw [← hr, ← h1]
          exact mem_entries_of_rebuild q j lj aj nv bj
        · exact Or.inr ⟨_, rfl⟩
        · exact Or.inr ⟨_, rfl⟩
  · split
    · exact Or.inr ⟨_, rfl⟩
    · rename_i prev hprev
      split
      · exact Or.inr ⟨_, rfl⟩
      · rename_i j lj aj pv bj hj
        split_ifs with hpx
        · subst hpx
          left
          refine ⟨rfl, rfl, ?_⟩
          obtain ⟨q, u⟩ := prev
          obtain ⟨h1, -⟩ := Prev_some hi hprev
          simp only [] at hj
          subst hj
          rw [← hr, ← h1]
          exact mem_entries_of_rebuild q j lj aj pv bj
        · exact Or.inr ⟨_, rfl⟩
        · exact Or.inr ⟨_, rfl⟩

/-- Effect of `InsertNearby` on an item of a well-formed set: either the set is
unchanged and the returned item holds `x`, or a node with the next free
identity and value `x` was added as `Insert` adds it. -/
theorem InsertNearby_result [LinearOrder α] (s : Set α) (si : Nat) (x : α) (h : WF s)
    {loc : Loc α} (hl : locate [] s.root si = some loc) :
    ((s.InsertNearby si x).1 = s ∧ (s.InsertNearby si x).2.2 = false ∧
      ((s.InsertNearby si x).2.1, x) ∈ s.root.entries) ∨
    ((s.InsertNearby si x).1 = (s.Insert x).1 ∧ (s.InsertNearby si x).2.2 = true ∧
      (s.Insert x).2 = true ∧
      ((s.InsertNearby si x).2.1, x) ∈ (s.InsertNearby si x).1.root.entries ∧
      x ∉ s.root.toList) := by
  obtain ⟨p, lv, a, v, b, rfl, hr⟩ := locate_cases hl
  have hne : s.root.isBottom = false := by
    cases hroot : s.root with
    | bottom => rw [hroot] at hl; simp [locate] at hl
    | node _ _ _ _ _ => rfl
  have hI : s.InsertNearby si x = s.insertNearby (p, node si lv a v b) x := by
    unfold Set.InsertNearby
    rw [hl]
  rw [hI]
  rcases insertNearby_result s p si lv a v b x hr h.inv with h1 | ⟨k, h1⟩
  · exact Or.inl h1
  · rw [h1]
    rcases insert_entries s k x h.inv hne with h2 | ⟨h2, h3, h4, L1, L2, h5, h6⟩
    · exact Or.inl h2
    · right
      have hx : x ∉ s.root.toList := by
        intro hx
        have := ((insert_spec s k x h hne).1 hx).2
        rw [h2] at this
        cases this
      refine ⟨(insert_eq_Insert s k x hne).1, h2, ?_, ?_, hx⟩
      · rw [← (insert_eq_Insert s k x hne).2]; exact h2
      · rw [h6, h3]; simp

/-- On an item of a well-formed set `InsertNearby` leaves the set in the state
`Insert` leaves it in and reports the same flag. -/
theorem InsertNearby_eq_Insert [LinearOrder α] (s : Set α) (si : Nat) (x : α) (h : WF s)
    {loc : Loc α} (hl : locate [] s.root si = some loc) :
    (s.InsertNearby si x).1 = (s.Insert x).1 ∧ (s.InsertNearby si x).2.2 = (s.Insert x).2 := by
  rcases InsertNearby_result s si x h hl with ⟨h1, h2, h3⟩ | ⟨h1, h2, h3, -, -⟩
  · have := (Insert_spec s x h).1 (mem_toList_of_entry h3)
    rw [this, h1, h2]
    exact ⟨rfl, rfl⟩
  · rw [h1, h2, h3]
    exact ⟨rfl, rfl⟩

/-- The item `InsertNearby` returns is an item of the set after the call and
holds `x`. -/
theorem InsertNearby_item [LinearOrder α] (s : Set α) (si : Nat) (x : α) (h : WF s)
    (hf : Fresh s) {loc : Loc α} (hl : locate [] s.root si = some loc) :
    ∃ it, locate [] (s.InsertNearby si x).1.root (s.InsertNearby si x).2.1 = some it ∧
      it.2.Value = some x := by
  have hf' := InsertNearby_fresh s si x h.inv hf
  rcases InsertNearby_result s si x h hl with ⟨h1, -, h3⟩ | ⟨-, -, -, h4, -⟩
  · rw [h1]
    exact locate_entry hf.nodup h3
  · exact locate_entry hf'.nodup h4

theorem insertNearbyAll_eq [LinearOrder α] (xs : List α) (s : Set α) (si : Nat)
    (h : WF s) (hf : Fresh s) {loc : Loc α} (hl : locate [] s.root si = some loc) :
    (insertNearbyAll s si xs).1 = insertAll s xs := by
  induction xs generalizing s si loc with
  | nil => rfl
  | cons x xs ih =>
    obtain ⟨it, hit, -⟩ := InsertNearby_item s si x h hf hl
    simp only [insertNearbyAll, insertAll, List.foldl_cons]
    rw [ih _ _ (InsertNearby_WF s si x h) (InsertNearby_fresh s si x h.inv hf) hit,
      (InsertNearby_eq_Insert s si x h hl).1]
    rfl



/-! ## Filling and emptying a set -/

theorem insertFlags_fresh [LinearOrder α] (ys : List α) (s : Set α) (h : WF s)
    (hn : ys.Nodup) (hd : ∀ y ∈ ys, y ∉ s.root.toList) :
    insertFlags s ys = List.replicate ys.length true ∧
      (insertAll s ys).size = s.size + ys.length := by
  induction ys generalizing s with
  | nil => simp [insertFlags, insertAll]
  | cons y ys ih =>
    obtain ⟨hy, hn'⟩ := List.nodup_cons.1 hn
    obtain ⟨h1, -, h3⟩ := (Insert_spec s y h).2 (hd y (List.mem_cons_self _ _))
    have hd' : ∀ z ∈ ys, z ∉ (s.Insert y).1.root.toList := by
      intro z hz hm
      rcases (mem_Insert s y z h).1 hm with rfl | hm
      · exact hy hz
      · exact hd z (List.mem_cons_of_mem _ hz) hm
    obtain ⟨i1, i2⟩ := ih (s.Insert y).1 (Insert_WF s y h) hn' hd'
    constructor
    · simp only [insertFlags, h1, i1, List.length_cons, List.replicate_succ]
    · simp only [insertAll, List.foldl_cons] at i2 ⊢
      rw [i2, h3]
      simp only [List.length_cons, Nat.cast_add, Nat.cast_one]
      omega

theorem deleteAll_WF [LinearOrder α] (ys : List α) (s : Set α) (h : WF s) :
    WF (deleteAll s ys) := by
  induction ys generalizing s with
  | nil => exact h
  | cons y ys ih => exact ih _ (Delete_WF s y h)

theorem deleteFlags_all [LinearOrder α] (ys : List α) (s : Set α) (h : WF s)
    (hn : ys.Nodup) (hm : ∀ y, y ∈ s.root.toList ↔ y ∈ ys) :
    deleteFlags s ys = List.replicate ys.length true ∧ (deleteAll s ys).root = bottom := by
  induction ys generalizing s with
  | nil =>
    refine ⟨rfl, ?_⟩
    simp only [deleteAll, List.foldl_nil]
    apply toList_eq_nil.1
    apply List.eq_nil_iff_forall_not_mem.2
    intro y hy
    exact absurd ((hm y).1 hy) (List.not_mem_nil y)
  | cons y ys ih =>
    obtain ⟨hy, hn'⟩ := List.nodup_cons.1 hn
    obtain ⟨h1, h2, -⟩ := (Delete_spec s y h).1 ((hm y).2 (List.mem_cons_self _ _))
    have hm' : ∀ z, z ∈ (s.Delete y).1.root.toList ↔ z ∈ ys := by
      intro z
      rw [h2, h.sorted.nodup.mem_erase_iff, hm z, List.mem_cons]
      constructor
      · rintro ⟨hne, rfl | hz⟩
        · exact absurd rfl hne
        · exact hz
      · intro hz
        exact ⟨fun he => hy (he ▸ hz), Or.inr hz⟩
    obtain ⟨i1, i2⟩ := ih (s.Delete y).1 (Delete_WF s y h) hn' hm'
    constructor
    · simp only [deleteFlags, h1, i1, List.length_cons, List.replicate_succ]
    · simpa only [deleteAll, List.foldl_cons] using i2

/-! ## The two variants, call by call -/

theorem Agrees_cmpCompare : Agrees cmpCompare := by
  intro x y
  unfold cmpCompare
  constructor <;> split_ifs <;> omega

theorem findGreaterThanOrEqualFunc_eq [LinearOrder α] {cmp : α → α → Int} (h : Agrees cmp)
    (p : Path α) (t : SetItem α) (x : α) :
    findGreaterThanOrEqualFunc cmp p t x = findGreaterThanOrEqual p t x := by
  induction t generalizing p with
  | bottom => rfl
  | node i lv a v b iha ihb =>
    obtain ⟨h1, h2⟩ := h x v
    simp only [findGreaterThanOrEqualFunc, findGreaterThanOrEqual]
    by_cases hlt : x < v
    · rw [if_pos (h1.2 hlt), if_pos (ne_of_gt hlt), if_pos hlt, iha]
    · rw [if_neg (fun hc => hlt (h1.1 hc))]
      by_cases hgt : v < x
      · rw [if_pos (h2.2 hgt), if_pos (ne_of_lt hgt), if_neg hlt, ihb]
      · rw [if_neg (fun hc => hgt (h2.1 hc)),
          if_neg (not_not.2 (le_antisymm (not_lt.1 hlt) (not_lt.1 hgt)))]

theorem HasFunc_eq_Has [LinearOrder α] {cmp : α → α → Int} (h : Agrees cmp) (s : Set α)
    (x : α) : s.HasFunc cmp x = s.Has x := by
  unfold Set.HasFunc Set.Has
  cases s.root <;> simp only [findFunc_eq_find h]

theorem FindGreaterThanOrEqualFunc_eq [LinearOrder α] {cmp : α → α → Int} (h : Agrees cmp)
    (s : Set α) (x : α) : s.FindGreaterThanOrEqualFunc cmp x = s.FindGreaterThanOrEqual x := by
  unfold Set.FindGreaterThanOrEqualFunc Set.FindGreaterThanOrEqual
  cases s.root <;> simp only [findGreaterThanOrEqualFunc_eq h]

theorem callFunc_eq_call [LinearOrder α] [Inhabited α] {cmp : α → α → Int} (h : Agrees cmp)
    (s : Set α) (op : Op α) : s.callFunc cmp op = s.call op := by
  cases op with
  | Insert x => simp only [Set.callFunc, Set.call, InsertFunc_eq_Insert h]
  | Delete x => simp only [Set.callFunc, Set.call, DeleteFunc_eq_Delete h]
  | Has x =>
    simp only [Set.callFunc, Set.call, HasFunc_eq_Has h]
  | FindGreaterThanOrEqual x =>
    simp only [Set.callFunc, Set.call, FindGreaterThanOrEqualFunc_eq h]
  | InsertNearby si x =>
    simp only [Set.callFunc, Set.call, InsertNearbyFunc_eq_InsertNearby h]
  | Min => rfl
  | Max => rfl
  | All => rfl
  | Backward => rfl

theorem runFunc_eq_run [LinearOrder α] [Inhabited α] {cmp : α → α → Int} (h : Agrees cmp)
    (s : Set α) (ops : List (Op α)) : runFunc cmp s ops = run s ops := by
  induction ops generalizing s with
  | nil => rfl
  | cons op ops ih => simp only [runFunc, run, callFunc_eq_call h, ih]

/-! ## Further scenarios of `set_test.go` -/

/-- TestFindGreaterThanOrEqual: after inserting 2, 4, 6, 1, 7, 8 the values
found for 1, 2, 3, 5, 7, 8 are 1, 2, 4, 6, 7, 8 and nothing is found for 9;
nothing is found in the empty set, and in the set holding 1 the value 1 is
found for 0 and 1 and nothing for 2. -/
theorem scenario_TestFindGreaterThanOrEqual :
    ([1, 2, 3, 5, 7, 8, 9].map fun x =>
        (exampleSet.FindGreaterThanOrEqual x).map fun it => it.2.Value) =
      [some (some 1), some (some 2), some (some 4), some (some 6), some (some 7),
        some (some 8), none] ∧
    (newSet : Set Nat).FindGreaterThanOrEqual 1 = none ∧
    ([0, 1, 2].map fun x =>
        ((newSet.Insert 1).1.FindGreaterThanOrEqual x).map fun it => it.2.Value) =
      [some (some 1), some (some 1), none] := by
  decide

/-- TestHas: the nine cases of the test. -/
theorem scenario_TestHas :
    (newSet : Set Nat).Has 10 = false ∧
    (insertAll newSet [1]).Has 2 = false ∧
    (insertAll newSet [1, 2]).Has 2 = true ∧
    (insertAll newSet [1, 2]).Has 1 = true ∧
    (insertAll newSet [1, 2]).Has 3 = false ∧
    (insertAll newSet [1, 2]).Has 0 = false ∧
    (insertAll newSet [2, 3]).Has 1 = false ∧
    ((insertAll newSet [1, 2]).Delete 1).1.Has 2 = true ∧
    ((insertAll newSet [1, 2]).Delete 1).1.Has 1 = false := by
  decide

/-- TestInsertNearby, "Increasing": after `Insert(1)`, a chain of
`InsertNearby` calls from the first item with 2, ..., 10 makes `All()` yield
1, ..., 10, and every call returns true. -/
theorem scenario_TestInsertNearby :
    ((insertNearbyAll (newSet.Insert 1).1 1 [2, 3, 4, 5, 6, 7, 8, 9, 10]).1.All =
      some [1, 2, 3, 4, 5, 6, 7, 8, 9, 10]) ∧
    ((newSet.Insert 1).1.InsertNearby 1 2).2.2 = true ∧
    ((insertAll newSet [1, 3]).InsertNearby 1 2).2.2 = true ∧
    ((insertAll newSet [1, 3]).InsertNearby 2 2).2.2 = true := by
  decide

/-! ## The walk of `insert` and the splice of `Delete` -/

theorem split_skew_of_inv {t : SetItem α} (h : Inv t) : split (skew t) = (t, false) := by
  cases t with
  | bottom => rfl
  | node i k a x b =>
    simp only [Inv_node] at h
    obtain ⟨h1, h2, -, hb⟩ := h
    rw [skew_of_ne (by omega)]
    apply split_of_ne
    have := hb.r_level_le
    omega

/-- Above a stable subtree the walk changes nothing. -/
theorem insertLoopFull_stable (p : Path α) (f : Frame α) (c0 c : SetItem α)
    (h0 : Inv (rebuild p (f.attach c0))) (h : Stable c0 c) :
    insertLoopFull p (f.attach c) = rebuild p (f.attach c) := by
  induction p generalizing f c0 c with
  | nil =>
    simp only [insertLoopFull, rebuild]
    rw [split_skew_of_inv (Stable.attach h0 h).1]
  | cons g p ih =>
    have h0' := Inv_of_rebuild h0
    have hs := Stable.attach h0' h
    simp only [insertLoopFull, rebuild]
    rw [split_skew_of_inv hs.1]
    exact ih g _ _ h0 hs

/-- The walk that stops after two ancestors without a split builds the tree
that the walk through all ancestors builds. -/
theorem insertLoop_eq_full (p : Path α) (f : Frame α) (c0 c : SetItem α) (n : Nat)
    (h0 : Inv (rebuild p (f.attach c0))) (h : InsMode n c0 c) :
    insertLoop p (f.attach c) n = insertLoopFull p (f.attach c) := by
  induction p generalizing f c0 c n with
  | nil =>
    simp only [insertLoop, insertLoopFull]
    match n, h with
    | 0, h => rw [if_pos (by omega)]
    | 1, h => rw [if_pos (by omega)]
    | n + 2, h =>
      rw [if_neg (by omega), split_skew_of_inv (Stable.attach h0 h).1]
  | cons g p ih =>
    have h0' := Inv_of_rebuild h0
    simp only [insertLoop, insertLoopFull]
    match n, h with
    | 0, h =>
      rw [if_pos (by omega)]
      exact ih g _ _ _ h0 (insert_step_up h0' h)
    | 1, h =>
      rw [if_pos (by omega)]
      exact ih g _ _ _ h0 (insert_step_same h0' h)
    | n + 2, h =>
      rw [if_neg (by omega)]
      have hs := Stable.attach h0' h
      rw [split_skew_of_inv hs.1]
      exact (insertLoopFull_stable p g _ _ h0 hs).symm

theorem insert_eq_insertFull [LinearOrder α] (s : Set α) (k : Nat) (x : α) (h : Inv s.root) :
    s.insert k x = s.insertFull k x := by
  unfold Set.insert Set.insertFull
  cases hf : find [] s.root x with
  | present q u => cases u <;> rfl
  | slot last q =>
    obtain ⟨a, ha, he⟩ := find_slot hf
    simp only [rebuild] at he
    rw [← he] at h
    have ha' : a = bottom := (Inv_of_attach (Inv_of_rebuild h)).eq_bottom ha
    subst ha'
    simp only [insertAt, insertAtFull]
    rw [insertLoop_eq_full q last bottom _ 0 h (by simp [InsMode, newItem, Inv_node])]


/-- A node of level 1 in a tree obeying the invariants has no left child, and
its right child, if any, is a leaf of level 1. -/
theorem Inv.level_one {t : SetItem α} (h : Inv t) (h1 : t.level = 1) :
    t.l = bottom ∧ (t.r = bottom ∨ (t.r.level = 1 ∧ t.r.l = bottom ∧ t.r.r = bottom)) := by
  cases t with
  | bottom => simp at h1
  | node i k a x b =>
    simp only [level_node] at h1
    subst h1
    simp only [Inv_node] at h
    obtain ⟨ha, hb, hia, hib⟩ := h
    refine ⟨hia.eq_bottom (by omega), ?_⟩
    rcases hb with hb | ⟨hb1, hb2⟩
    · exact Or.inl (hib.eq_bottom (by omega))
    · right
      simp only [r_node, l_node]
      cases b with
      | bottom => simp at hb1
      | node j kb b1 y b2 =>
        simp only [level_node, r_node, l_node, Inv_node] at hb1 hb2 hib ⊢
        obtain ⟨hc1, -, hc3, hc4⟩ := hib
        exact ⟨hb1.symm, hc3.eq_bottom (by omega), hc4.eq_bottom (by omega)⟩

/-- The node spliced out by `Delete` has level 1 and no left child, its right
child is the sentinel or a leaf, and the slot of its parent receives this
right child. -/
theorem splicedAt_spec (s : Set α) (q : Path α) (i lv : Nat) (a : SetItem α) (x : α)
    (b : SetItem α) (hr : rebuild q (node i lv a x b) = s.root) (h : Inv s.root)
    {loc : Loc α} (hl : splicedAt (.present q (node i lv a x b)) = some loc) :
    loc.2.level = 1 ∧ loc.2.l = bottom ∧
      (loc.2.r = bottom ∨ (loc.2.r.level = 1 ∧ loc.2.r.l = bottom ∧ loc.2.r.r = bottom)) ∧
      ∃ f rest, loc.1 = f :: rest ∧
        deleteAt s (.present q (node i lv a x b)) =
          (⟨deleteLoop rest (f.attach loc.2.r), s.size - 1, s.nextId⟩, true) := by
  rw [← hr] at h
  have hu := Inv_of_rebuild h
  simp only [splicedAt] at hl
  simp only [deleteAt]
  by_cases hlv : lv > 1
  · rw [if_pos hlv] at hl ⊢
    have hl0 := leftmost_spec [] b
    split at hl
    · cases hl
    · rename_i sp j lj sl sv sr heq
      simp only [Option.some.injEq] at hl
      subst hl
      rw [heq] at hl0 ⊢
      simp only [rebuild, l_node] at hl0
      obtain ⟨hl1, hl2⟩ := hl0
      subst hl2
      have hib : Inv b := hu.2.2.2
      rw [← hl1] at hib
      have hn := Inv_of_rebuild hib
      have hlj : lj = 1 := by
        simp only [Inv_node, level_bottom] at hn
        omega
      have h1 := hn.level_one (by simp [hlj])
      refine ⟨by simp [hlj], rfl, h1.2, ?_⟩
      cases sp with
      | nil => exact ⟨_, _, rfl, rfl⟩
      | cons f sp => exact ⟨_, _, rfl, rfl⟩
  · rw [if_neg hlv] at hl ⊢
    have hlv1 : lv = 1 := by
      have := hu.1
      omega
    have h1 := hu.level_one (by simp [hlv1])
    cases q with
    | nil => simp at hl
    | cons f rest =>
      simp only [Option.some.injEq] at hl
      subst hl
      exact ⟨by simp [hlv1], h1.1, h1.2, f, rest, rfl, rfl⟩

/-- Effect of the part of `Set.Delete` after a successful `find` on the nodes:
a node of level above 1 stays and takes the value of the next node in order,
which is the leftmost node of its right subtree, has level 1 and leaves the
tree; a node of level 1 leaves the tree itself. -/
theorem deleteAt_entries (s : Set α) (q : Path α) (i lv : Nat) (a : SetItem α) (x : α)
    (b : SetItem α) (hr : rebuild q (node i lv a x b) = s.root) (h : Inv s.root) :
    (1 < lv → ∃ sp j sv sr, leftmost [] b = (sp, node j 1 bottom sv sr) ∧
      s.root.entries =
        (beforeE q ++ a.entries) ++ (i, x) :: (j, sv) :: (sr.entries ++ afterE sp ++ afterE q) ∧
      (deleteAt s (.present q (node i lv a x b))).1.root.entries =
        (beforeE q ++ a.entries) ++ (i, sv) :: (sr.entries ++ afterE sp ++ afterE q)) ∧
    (lv ≤ 1 →
      s.root.entries = beforeE q ++ (i, x) :: (b.entries ++ afterE q) ∧
      (deleteAt s (.present q (node i lv a x b))).1.root.entries =
        beforeE q ++ (b.entries ++ afterE q)) := by
  have h0 := h
  rw [← hr] at h
  have hu := Inv_of_rebuild h
  have hroot : s.root.entries = beforeE q ++ (a.entries ++ (i, x) :: b.entries) ++ afterE q := by
    rw [← hr, entries_rebuild]; rfl
  constructor
  · intro hlv
    simp only [deleteAt]
    rw [if_pos hlv]
    have hb : b.isBottom = false := by
      cases b with
      | bottom => have := hu.2.1; simp only [level_bottom, r_bottom] at this; omega
      | node _ _ _ _ _ => rfl
    have hl := leftmost_spec [] b
    have hlb := leftmost_beforeE [] b
    have hln := leftmost_isBottom [] b hb
    have hib : Inv b := hu.2.2.2
    split
    · rename_i heq
      rw [heq] at hln
      simp at hln
    · rename_i sj sk sl sv sr heq
      rw [heq] at hl
      simp only [rebuild, l_node] at hl
      obtain ⟨hl1, hl2⟩ := hl
      subst hl2
      have hk : sk = 1 := by
        rw [← hl1] at hib
        simp only [Inv_node, level_bottom] at hib
        omega
      subst hk
      refine ⟨[], sj, sv, sr, heq, ?_, ?_⟩
      · rw [hroot, ← hl1]
        simp [entries, afterE]
      · simp only []
        rw [entries_deleteLoop, entries_rebuild]
        simp [entries, afterE]
    · rename_i f sp sj sk sl sv sr heq
      rw [heq] at hl hlb
      simp only [rebuild, l_node] at hl
      obtain ⟨hl1, hl2⟩ := hl
      subst hl2
      simp only [beforeE] at hlb
      have hk : sk = 1 := by
        rw [← hl1, ← rebuild] at hib
        have := Inv_of_rebuild hib
        simp only [Inv_node, level_bottom] at this
        omega
      subst hk
      have hb' : b.entries = (sj, sv) :: sr.entries ++ afterE (f :: sp) := by
        rw [← hl1, ← rebuild, entries_rebuild, hlb]
        simp [entries]
      have hs' : (rebuild sp (f.attach sr)).entries = sr.entries ++ afterE (f :: sp) := by
        rw [← rebuild, entries_rebuild, hlb]
        simp
      refine ⟨f :: sp, sj, sv, sr, heq, ?_, ?_⟩
      · rw [hroot, hb']
        simp
      · simp only []
        rw [entries_deleteLoop, rebuild_append, entries_rebuild, hs']
        simp [beforeE, afterE]
  · intro hlv
    simp only [deleteAt]
    rw [if_neg (by omega)]
    have ha : a = bottom := by
      have h1 := hu.1
      exact hu.2.2.1.eq_bottom (by omega)
    subst ha
    constructor
    · rw [hroot]; simp [entries]
    · split
      · simp [beforeE, afterE]
      · rename_i f rest
        simp only []
        rw [entries_deleteLoop, ← rebuild, entries_rebuild]
        simp


theorem insertAt_eq_full (s : Set α) (x : α) (fd : Found α)
    (hfd : ∀ last q, fd = .slot last q →
      ∃ a : SetItem α, a.level = 0 ∧ rebuild q (last.attach a) = s.root)
    (h : Inv s.root) : insertAt s x fd = insertAtFull s x fd := by
  cases fd with
  | present q u => cases u <;> rfl
  | slot last q =>
    obtain ⟨a, ha, he⟩ := hfd last q rfl
    rw [← he] at h
    have ha' : a = bottom := (Inv_of_attach (Inv_of_rebuild h)).eq_bottom ha
    subst ha'
    simp only [insertAt, insertAtFull]
    rw [insertLoop_eq_full q last bottom _ 0 h (by simp [InsMode, newItem, Inv_node])]

/-- A node is not the parent of its parent. -/
theorem parentIs_asymm {t : SetItem α} (hn : t.ids.Nodup) {ka kb : Nat} {a b : Loc α}
    (ha : locate [] t ka = some a) (hb : locate [] t kb = some b)
    (hab : parentIs a b = true) : parentIs b a = false := by
  obtain ⟨pa, lva, la, xa, ra, rfl, hra⟩ := locate_cases ha
  obtain ⟨pb, lvb, lb, xb, rb, rfl, hrb⟩ := locate_cases hb
  have up : ∀ (f : Frame α) (rest : Path α) (u : SetItem α) (k : Nat) (c : Loc α),
      rebuild (f :: rest) u = t → locate [] t k = some c →
      parentIs (f :: rest, u) c = true → c.1 = rest := by
    intro f rest u k c hr hc hp
    obtain ⟨pc, lvc, lc, xc, rc, rfl, hrc⟩ := locate_cases hc
    cases f with
    | inL i lv x r =>
      simp only [parentIs, SetItem.id, beq_iff_eq] at hp
      subst hp
      have := locate_loc hn rest i lv u x r hr
      rw [hc] at this
      simp only [Option.some.injEq, Prod.mk.injEq] at this
      exact this.1
    | inR i lv l x =>
      simp only [parentIs, SetItem.id, beq_iff_eq] at hp
      subst hp
      have := locate_loc hn rest i lv l x u hr
      rw [hc] at this
      simp only [Option.some.injEq, Prod.mk.injEq] at this
      exact this.1
  cases hba : parentIs (pb, node kb lvb lb xb rb) (pa, node ka lva la xa ra) with
  | false => rfl
  | true =>
    cases pa with
    | nil => simp [parentIs] at hab
    | cons f rest =>
      cases pb with
      | nil => simp [parentIs] at hba
      | cons g rest' =>
        have h1 := up f rest _ kb _ hra hb hab
        have h2 := up g rest' _ ka _ hrb ha hba
        simp only [] at h1 h2
        have hl := congrArg List.length h1
        have hl' := congrArg List.length h2
        simp only [List.length_cons] at hl hl'
        omega


theorem spliced_Delete [LinearOrder α] (s : Set α) (x : α) (h : Inv s.root) {loc : Loc α}
    (hl : s.spliced x = some loc) :
    loc.2.level = 1 ∧ loc.2.l = bottom ∧
      (loc.2.r = bottom ∨ (loc.2.r.level = 1 ∧ loc.2.r.l = bottom ∧ loc.2.r.r = bottom)) ∧
      ∃ f rest, loc.1 = f :: rest ∧
        s.Delete x = (⟨deleteLoop rest (f.attach loc.2.r), s.size - 1, s.nextId⟩, true) := by
  have hne : s.root.isBottom = false := by
    cases hroot : s.root with
    | bottom =>
      unfold Set.spliced at hl
      rw [hroot] at hl
      cases hl
    | node _ _ _ _ _ => rfl
  have hS : s.spliced x = splicedAt (find [] s.root x) := by
    unfold Set.spliced
    split
    · rename_i heq; rw [heq] at hne; simp at hne
    · rename_i heq; rw [heq]
  have hD : s.Delete x = deleteAt s (find [] s.root x) := by
    unfold Set.Delete
    split
    · rename_i heq; rw [heq] at hne; simp at hne
    · rename_i heq; rw [heq]
  rw [hS] at hl
  rw [hD]
  cases hfd : find [] s.root x with
  | slot last q => rw [hfd] at hl; simp [splicedAt] at hl
  | present q u =>
    obtain ⟨i', lv', a', b', rfl⟩ := find_present_value hne hfd
    have hr := (find_present hfd).1
    simp only [rebuild] at hr
    rw [hfd] at hl
    exact splicedAt_spec s q i' lv' a' x b' hr h hl

/-- Effect of `Delete` of a stored value on the nodes of a well-formed set. -/
theorem Delete_entries [LinearOrder α] (s : Set α) (x : α) (h : WF s)
    (hx : x ∈ s.root.toList) :
    ∃ q i lv a b, find [] s.root x = .present q (node i lv a x b) ∧
      rebuild q (node i lv a x b) = s.root ∧
      (1 < lv → ∃ sp j sv sr L1 L2, leftmost [] b = (sp, node j 1 bottom sv sr) ∧
        s.root.entries = L1 ++ (i, x) :: (j, sv) :: L2 ∧
        (s.Delete x).1.root.entries = L1 ++ (i, sv) :: L2) ∧
      (lv ≤ 1 → ∃ L1 L2, s.root.entries = L1 ++ (i, x) :: L2 ∧
        (s.Delete x).1.root.entries = L1 ++ L2) := by
  have hne : s.root.isBottom = false := by
    cases hroot : s.root with
    | bottom => rw [hroot] at hx; simp [toList] at hx
    | node _ _ _ _ _ => rfl
  have hD : s.Delete x = deleteAt s (find [] s.root x) := by
    unfold Set.Delete
    split
    · rename_i heq; rw [heq] at hne; simp at hne
    · rename_i heq; rw [heq]
  cases hfd : find [] s.root x with
  | slot last q =>
    exfalso
    obtain ⟨a', ha, hr⟩ := find_slot hfd
    simp only [rebuild] at hr
    have hinv := h.inv
    rw [← hr] at hinv
    have ha' : a' = bottom := (Inv_of_attach (Inv_of_rebuild hinv)).eq_bottom ha
    subst ha'
    have har := find_slot_around h.sorted (Around_nil x) hfd
    have hl : s.root.toList = before (last :: q) ++ after (last :: q) := by
      rw [← hr, toList_rebuild_cons]; simp [toList]
    exact (hl ▸ not_mem_of_around har) hx
  | present q u =>
    obtain ⟨i, lv, a, b, rfl⟩ := find_present_value hne hfd
    have hr := (find_present hfd).1
    simp only [rebuild] at hr
    obtain ⟨h1, h2⟩ := deleteAt_entries s q i lv a x b hr h.inv
    rw [hD, hfd]
    refine ⟨q, i, lv, a, b, rfl, hr, fun hlv => ?_, fun hlv => ?_⟩
    · obtain ⟨sp, j, sv, sr, e1, e2, e3⟩ := h1 hlv
      exact ⟨sp, j, sv, sr, _, _, e1, e2, e3⟩
    · obtain ⟨e1, e2⟩ := h2 hlv
      exact ⟨_, _, e1, e2⟩

/-- TestDelete-like scenario for the splice: deleting 1 from the set holding
1, 2, 4, 6, 7, 8 splices out the node of 1, whose right child is the node of
2. -/
theorem scenario_splice :
    (exampleSet.spliced 1).map (fun loc => loc.2) =
      some (node 4 1 bottom 1 (node 1 1 bottom 2 bottom)) := by
  decide

/-! ## The claims -/

/-- C1: `Insert` and `InsertNearby` preserve the five AA-tree invariants: if
the tree of a set satisfies them, then so does the tree after `s.Insert(x)` and
the tree after `InsertNearby(x)` on any item of `s`, for every value `x`, for a
set made by `NewSet` and for a set made by `NewSetFunc` with any comparator;
the empty set satisfies them. -/
theorem Insert_preserves_AA [LinearOrder α] :
    AA (newSet : Set α).root ∧
      ∀ (s : Set α) (x : α), AA s.root →
        AA (s.Insert x).1.root ∧ (∀ si : Nat, AA (s.InsertNearby si x).1.root) ∧
        ∀ cmp : α → α → Int,
          AA (s.InsertFunc cmp x).1.root ∧ ∀ si : Nat, AA (s.InsertNearbyFunc cmp si x).1.root := by
  refine ⟨trivial, fun s x h => ?_⟩
  have hi := (AA_iff_Inv _).1 h
  exact ⟨(AA_iff_Inv _).2 (Insert_inv s x hi),
    fun si => (AA_iff_Inv _).2 (InsertNearby_inv s si x hi),
    fun cmp => ⟨(AA_iff_Inv _).2 (InsertFunc_inv cmp s x hi),
      fun si => (AA_iff_Inv _).2 (InsertNearbyFunc_inv cmp s si x hi)⟩⟩

theorem Insert_preserves_AA_witness :
    AA exampleSet.root ∧ AA (exampleSet.Insert 5).1.root ∧
      AA (exampleSet.InsertNearby 2 5).1.root :=
  ⟨by decide, ((@Insert_preserves_AA Nat _).2 exampleSet 5 (by decide)).1,
    ((@Insert_preserves_AA Nat _).2 exampleSet 5 (by decide)).2.1 2⟩

/-- C2: `Delete` preserves the five AA-tree invariants: if the tree of a set
satisfies them, then so does the tree after `s.Delete(x)`, for every value `x`
(stored in a leaf, in a level-1 node with a right child, in an internal node,
in the root, or not stored at all), for a set made by `NewSet` and for a set
made by `NewSetFunc` with any comparator. -/
theorem Delete_preserves_AA [LinearOrder α] (s : Set α) (x : α) (h : AA s.root) :
    AA (s.Delete x).1.root ∧ ∀ cmp : α → α → Int, AA (s.DeleteFunc cmp x).1.root :=
  ⟨(AA_iff_Inv _).2 (Delete_inv s x ((AA_iff_Inv _).1 h)),
    fun cmp => (AA_iff_Inv _).2 (DeleteFunc_inv cmp s x ((AA_iff_Inv _).1 h))⟩

theorem Delete_preserves_AA_witness :
    AA exampleSet.root ∧ AA (exampleSet.Delete 4).1.root :=
  ⟨by decide, (Delete_preserves_AA exampleSet 4 (by decide)).1⟩

/-- C3: in a reachable set, `Delete` of a stored value `x` returns true, the
sequence yielded by `All()` afterwards is the one yielded before with `x`
removed, and `Len()` is one less than before. -/
theorem Delete_present_removes [LinearOrder α] (s : Set α) (x : α) (h : Reachable s) :
    ∃ l, s.All = some l ∧
      (x ∈ l →
        (s.Delete x).2 = true ∧ (s.Delete x).1.All = some (l.erase x) ∧
          (s.Delete x).1.Len = s.Len - 1) := by
  refine ⟨s.root.toList, h.wf.all, fun hx => ?_⟩
  obtain ⟨h1, h2, h3⟩ := (Delete_spec s x h.wf).1 hx
  exact ⟨h1, by rw [(Delete_WF s x h.wf).all, h2], h3⟩

theorem Delete_present_removes_witness :
    (exampleSet.Delete 4).2 = true ∧ (exampleSet.Delete 4).1.All = some [1, 2, 6, 7, 8] ∧
      (exampleSet.Delete 4).1.Len = 5 := by
  obtain ⟨l, hl, h⟩ := Delete_present_removes exampleSet 4 exampleSet_reachable
  rw [exampleSet_All] at hl
  cases hl
  exact h (by decide)

/-- C4: in a reachable set (the empty set included), `Delete` of a value `x`
that is not stored returns false and leaves the tree, the sequence yielded by
`All()` and `Len()` as they were. -/
theorem Delete_absent_noop [LinearOrder α] (s : Set α) (x : α) (h : Reachable s) :
    ∃ l, s.All = some l ∧
      (x ∉ l →
        (s.Delete x).2 = false ∧ (s.Delete x).1.root = s.root ∧
          (s.Delete x).1.All = some l ∧ (s.Delete x).1.Len = s.Len) := by
  refine ⟨s.root.toList, h.wf.all, fun hx => ?_⟩
  rw [(Delete_spec s x h.wf).2 hx]
  exact ⟨rfl, rfl, h.wf.all, rfl⟩

theorem Delete_absent_noop_witness :
    (exampleSet.Delete 3).2 = false ∧ (exampleSet.Delete 3).1.root = exampleSet.root ∧
      (exampleSet.Delete 3).1.All = some [1, 2, 4, 6, 7, 8] ∧
      (exampleSet.Delete 3).1.Len = exampleSet.Len := by
  obtain ⟨l, hl, h⟩ := Delete_absent_noop exampleSet 3 exampleSet_reachable
  rw [exampleSet_All] at hl
  cases hl
  exact h (by decide)

/-- C5: in a reachable set, `Insert` of a value `x` that is not stored returns
true, the sequence yielded by `All()` afterwards is the one yielded before with
`x` put at its sorted position, and `Len()` is one more than before. -/
theorem Insert_absent_adds [LinearOrder α] (s : Set α) (x : α) (h : Reachable s) :
    ∃ l, s.All = some l ∧
      (x ∉ l →
        (s.Insert x).2 = true ∧
          (s.Insert x).1.All = some (List.orderedInsert (· ≤ ·) x l) ∧
          (s.Insert x).1.Len = s.Len + 1) := by
  refine ⟨s.root.toList, h.wf.all, fun hx => ?_⟩
  obtain ⟨h1, h2, h3⟩ := (Insert_spec s x h.wf).2 hx
  exact ⟨h1, by rw [(Insert_WF s x h.wf).all, h2], h3⟩

theorem Insert_absent_adds_witness :
    (exampleSet.Insert 5).2 = true ∧ (exampleSet.Insert 5).1.All = some [1, 2, 4, 5, 6, 7, 8] ∧
      (exampleSet.Insert 5).1.Len = 7 := by
  obtain ⟨l, hl, h⟩ := Insert_absent_adds exampleSet 5 exampleSet_reachable
  rw [exampleSet_All] at hl
  cases hl
  exact h (by decide)

/-- C6: in a reachable set, `Insert` of a value `x` that is already stored
returns false and changes neither the set, nor `Len()`, nor the sequence
yielded by `All()`; this is the case right after an `Insert(x)`; and after any
`Insert(x)` the value `x` occurs exactly once in the sequence yielded by
`All()`. -/
theorem Insert_idempotent [LinearOrder α] (s : Set α) (x : α) (h : Reachable s) :
    ∃ l, s.All = some l ∧
      (x ∈ l →
        (s.Insert x).2 = false ∧ (s.Insert x).1.All = some l ∧
          (s.Insert x).1.Len = s.Len) ∧
      ((s.Insert x).1.Insert x).2 = false ∧
      ((s.Insert x).1.Insert x).1.All = (s.Insert x).1.All ∧
      ((s.Insert x).1.Insert x).1.Len = (s.Insert x).1.Len ∧
      ∃ l', (s.Insert x).1.All = some l' ∧ l'.count x = 1 := by
  have hw := h.wf
  have hw' := Insert_WF s x hw
  have hx' : x ∈ (s.Insert x).1.root.toList := (mem_Insert s x x hw).2 (Or.inl rfl)
  refine ⟨s.root.toList, hw.all, fun hx => ?_, ?_, ?_, ?_, (s.Insert x).1.root.toList, hw'.all,
    ?_⟩
  · rw [(Insert_spec s x hw).1 hx]
    exact ⟨rfl, hw.all, rfl⟩
  · rw [(Insert_spec _ x hw').1 hx']
  · rw [(Insert_spec _ x hw').1 hx']
  · rw [(Insert_spec _ x hw').1 hx']
  · exact List.count_eq_one_of_mem hw'.sorted.nodup hx'

theorem Insert_idempotent_witness :
    (exampleSet.Insert 4).2 = false ∧ (exampleSet.Insert 4).1.All = some [1, 2, 4, 6, 7, 8] ∧
      (exampleSet.Insert 4).1.Len = exampleSet.Len := by
  obtain ⟨l, hl, h, -⟩ := Insert_idempotent exampleSet 4 exampleSet_reachable
  rw [exampleSet_All] at hl
  cases hl
  exact h (by decide)

/-- C7: in every reachable set the sequence yielded by `All()` is strictly
increasing, hence without duplicates. -/
theorem All_strictly_increasing [LinearOrder α] (s : Set α) (h : Reachable s) :
    ∃ l, s.All = some l ∧ l.Sorted (· < ·) ∧ l.Nodup :=
  ⟨s.root.toList, h.wf.all, h.wf.sorted, h.wf.sorted.nodup⟩

theorem All_strictly_increasing_witness :
    ∃ l, (exampleSet.Delete 4).1.All = some l ∧ l.Sorted (· < ·) ∧ l.Nodup :=
  All_strictly_increasing _ (.Delete _ 4 exampleSet_reachable)

/-- C8: inserting the elements of a list one by one with `Insert` into an
empty set makes `All()` yield the list sorted with adjacent duplicates
removed. -/
theorem All_after_inserts [LinearOrder α] (xs : List α) :
    (xs.foldl (fun s x => (s.Insert x).1) newSet).All =
      some ((xs.insertionSort (· ≤ ·)).destutter (· ≠ ·)) := by
  have hr : Reachable (insertAll newSet xs) := insertAll_reachable _ xs .newSet
  show (insertAll newSet xs).All = _
  rw [hr.wf.all]
  congr 1
  refine sorted_lt_ext hr.wf.sorted (sorted_destutter (List.sorted_insertionSort _ xs)) ?_
  intro y
  rw [mem_insertAll _ xs y WF_newSet, mem_destutter_iff, (List.perm_insertionSort _ xs).mem_iff]
  simp [newSet, toList]

/-- C9: in every reachable set the sequence yielded by `Backward()` is the
reverse of the sequence yielded by `All()`. -/
theorem Backward_reverse_All [LinearOrder α] (s : Set α) (h : Reachable s) :
    ∃ l, s.All = some l ∧ s.Backward = some l.reverse :=
  ⟨s.root.toList, h.wf.all, Backward_eq_reverse s h.wf.inv⟩

theorem Backward_reverse_All_witness :
    ∃ l, exampleSet.All = some l ∧ exampleSet.Backward = some l.reverse :=
  Backward_reverse_All exampleSet exampleSet_reachable

/-- C10: in every reachable set `Len()` is the number of values yielded by
`All()`, which is the number of real nodes of the tree. -/
theorem Len_eq_length_All [LinearOrder α] (s : Set α) (h : Reachable s) :
    ∃ l, s.All = some l ∧ s.Len = l.length ∧ l.length = s.root.count :=
  ⟨s.root.toList, h.wf.all, h.wf.size, (count_eq_length _).symm⟩

theorem Len_eq_length_All_witness :
    ∃ l, (exampleSet.Delete 4).1.All = some l ∧ (exampleSet.Delete 4).1.Len = l.length ∧
      l.length = (exampleSet.Delete 4).1.root.count :=
  Len_eq_length_All _ (.Delete _ 4 exampleSet_reachable)

/-- C11: in a reachable set `FindGreaterThanOrEqual(x)` returns `(nil, false)`
exactly when no stored value is at least `x` (in particular on the empty set);
otherwise it returns an item of the set whose value is the smallest stored
value that is at least `x`.  A set made by `NewSetFunc` with a comparator that
is the three-way comparison of the order returns the same. -/
theorem FindGreaterThanOrEqual_ceiling [LinearOrder α] (s : Set α) (x : α)
    (h : Reachable s) :
    ∃ l, s.All = some l ∧
      (s.FindGreaterThanOrEqual x = none ↔ ∀ y ∈ l, y < x) ∧
      (∀ loc, s.FindGreaterThanOrEqual x = some loc →
        ∃ v, loc.2.Value = some v ∧ locate [] s.root loc.2.id = some loc ∧
          v ∈ l ∧ x ≤ v ∧ ∀ y ∈ l, x ≤ y → v ≤ y) ∧
      ∀ cmp : α → α → Int, Agrees cmp →
        s.FindGreaterThanOrEqualFunc cmp x = s.FindGreaterThanOrEqual x := by
  obtain ⟨h1, h2⟩ := FindGreaterThanOrEqual_spec s x h.wf h.fresh
  exact ⟨s.root.toList, h.wf.all, h1, h2, fun cmp hc => FindGreaterThanOrEqualFunc_eq hc s x⟩

theorem FindGreaterThanOrEqual_ceiling_witness :
    ∃ l, exampleSet.All = some l ∧
      (exampleSet.FindGreaterThanOrEqual 5 = none ↔ ∀ y ∈ l, y < 5) ∧
      (∀ loc, exampleSet.FindGreaterThanOrEqual 5 = some loc →
        ∃ v, loc.2.Value = some v ∧ locate [] exampleSet.root loc.2.id = some loc ∧
          v ∈ l ∧ 5 ≤ v ∧ ∀ y ∈ l, 5 ≤ y → v ≤ y) ∧
      ∀ cmp : Nat → Nat → Int, Agrees cmp →
        exampleSet.FindGreaterThanOrEqualFunc cmp 5 = exampleSet.FindGreaterThanOrEqual 5 :=
  FindGreaterThanOrEqual_ceiling exampleSet 5 exampleSet_reachable

/-- C12: in a reachable set `Has(x)` returns true exactly when `x` is among the
values yielded by `All()`; on the empty set it returns false.  `Has` only reads
the tree: the model `Set.Has` is a function of the set and yields no new set.
A set made by `NewSetFunc` with a comparator that is the three-way comparison
of the order returns the same. -/
theorem Has_is_membership [LinearOrder α] (s : Set α) (x : α) (h : Reachable s) :
    ∃ l, s.All = some l ∧ (s.Has x = true ↔ x ∈ l) ∧ (newSet : Set α).Has x = false ∧
      ∀ cmp : α → α → Int, Agrees cmp → s.HasFunc cmp x = s.Has x :=
  ⟨s.root.toList, h.wf.all, Has_iff s x h.wf, rfl, fun _ hc => HasFunc_eq_Has hc s x⟩

theorem Has_is_membership_witness :
    ∃ l, exampleSet.All = some l ∧ (exampleSet.Has 6 = true ↔ 6 ∈ l) ∧
      (newSet : Set Nat).Has 6 = false ∧
      ∀ cmp : Nat → Nat → Int, Agrees cmp → exampleSet.HasFunc cmp 6 = exampleSet.Has 6 :=
  Has_is_membership exampleSet 6 exampleSet_reachable

/-- C13: in a reachable set, `InsertNearby(x)` on an item of the set returns an
item of the set after the call that holds `x`, together with a flag that is
true exactly when `x` was not stored before the call; when `x` was stored the
set is unchanged.  Nothing is assumed about the position of `x` relative to the
item.  A set made by `NewSetFunc` with a comparator that is the three-way
comparison of the order behaves the same. -/
theorem InsertNearby_contract [LinearOrder α] (s : Set α) (si : Nat) (x : α)
    (h : Reachable s) (loc : Loc α) (hl : locate [] s.root si = some loc) :
    ∃ l, s.All = some l ∧
      (∃ it, locate [] (s.InsertNearby si x).1.root (s.InsertNearby si x).2.1 = some it ∧
        it.2.Value = some x) ∧
      ((s.InsertNearby si x).2.2 = true ↔ x ∉ l) ∧
      (x ∈ l → (s.InsertNearby si x).1 = s) ∧
      ∀ cmp : α → α → Int, Agrees cmp → s.InsertNearbyFunc cmp si x = s.InsertNearby si x := by
  refine ⟨s.root.toList, h.wf.all, InsertNearby_item s si x h.wf h.fresh hl, ?_, ?_,
    fun cmp hc => InsertNearbyFunc_eq_InsertNearby hc s si x⟩
  · rcases InsertNearby_result s si x h.wf hl with ⟨-, h2, h3⟩ | ⟨-, h2, -, -, h5⟩
    · rw [h2]
      simp [mem_toList_of_entry h3]
    · rw [h2]
      simp [h5]
  · intro hx
    rcases InsertNearby_result s si x h.wf hl with ⟨h1, -, -⟩ | ⟨-, -, -, -, h5⟩
    · exact h1
    · exact absurd hx h5

theorem InsertNearby_contract_witness :
    ∃ loc, locate [] exampleSet.root 3 = some loc ∧
      ∃ l, exampleSet.All = some l ∧
        (∃ it, locate [] (exampleSet.InsertNearby 3 5).1.root (exampleSet.InsertNearby 3 5).2.1 =
            some it ∧ it.2.Value = some 5) ∧
        ((exampleSet.InsertNearby 3 5).2.2 = true ↔ 5 ∉ l) ∧
        (5 ∈ l → (exampleSet.InsertNearby 3 5).1 = exampleSet) ∧
        ∀ cmp : Nat → Nat → Int, Agrees cmp →
          exampleSet.InsertNearbyFunc cmp 3 5 = exampleSet.InsertNearby 3 5 :=
  ⟨_, rfl, InsertNearby_contract exampleSet 3 5 exampleSet_reachable _ rfl⟩

/-- C14: in a reachable set, `InsertNearby(x)` on an item of the set leaves the
set in exactly the state `Insert(x)` leaves it in (tree, size and next
identity) and returns the flag `Insert(x)` returns; hence a chain of
`InsertNearby` calls, each on the item returned by the previous call, ends in
the state that inserting the same values with `Insert` ends in, with the same
sequence yielded by `All()`. -/
theorem InsertNearby_equiv_Insert [LinearOrder α] (s : Set α) (si : Nat) (x : α)
    (h : Reachable s) (loc : Loc α) (hl : locate [] s.root si = some loc) :
    (s.InsertNearby si x).1 = (s.Insert x).1 ∧ (s.InsertNearby si x).2.2 = (s.Insert x).2 ∧
      ∀ xs : List α, (insertNearbyAll s si xs).1 = insertAll s xs ∧
        (insertNearbyAll s si xs).1.All = (insertAll s xs).All := by
  obtain ⟨h1, h2⟩ := InsertNearby_eq_Insert s si x h.wf hl
  refine ⟨h1, h2, fun xs => ?_⟩
  have := insertNearbyAll_eq xs s si h.wf h.fresh hl
  exact ⟨this, by rw [this]⟩

theorem InsertNearby_equiv_Insert_witness :
    ∃ loc, locate [] exampleSet.root 3 = some loc ∧
      (exampleSet.InsertNearby 3 5).1 = (exampleSet.Insert 5).1 ∧
      (exampleSet.InsertNearby 3 5).2.2 = (exampleSet.Insert 5).2 ∧
      ∀ xs : List Nat, (insertNearbyAll exampleSet 3 xs).1 = insertAll exampleSet xs ∧
        (insertNearbyAll exampleSet 3 xs).1.All = (insertAll exampleSet xs).All :=
  ⟨_, rfl, InsertNearby_equiv_Insert exampleSet 3 5 exampleSet_reachable _ rfl⟩

/-- C15: for an item of a reachable set, `Next()` returns `(nil, false)` exactly
when the item holds the largest stored value; otherwise it returns the item of
the set that holds the smallest stored value above the value of the item. -/
theorem Next_is_successor [LinearOrder α] (s : Set α) (si : Nat) (h : Reachable s)
    (loc : Loc α) (hl : locate [] s.root si = some loc) :
    ∃ l v, s.All = some l ∧ loc.2.Value = some v ∧ v ∈ l ∧
      (Next loc = none ↔ ∀ y ∈ l, y ≤ v) ∧
      ∀ n, Next loc = some n →
        ∃ w, n.2.Value = some w ∧ locate [] s.root n.2.id = some n ∧ w ∈ l ∧ v < w ∧
          ∀ y ∈ l, v < y → w ≤ y := by
  obtain ⟨p, lv, a, v, b, rfl, hr⟩ := locate_cases hl
  have hv : v ∈ s.root.toList := hr ▸ mem_toList_of_rebuild p si lv a v b
  obtain ⟨h1, h2⟩ := Next_item h.wf hr
  have hsome : ∀ n, Next (p, node si lv a v b) = some n →
      ∃ w, n.2.Value = some w ∧ locate [] s.root n.2.id = some n ∧ w ∈ s.root.toList ∧ v < w ∧
        ∀ y ∈ s.root.toList, v < y → w ≤ y := by
    intro n hn
    obtain ⟨q, j, lvj, a', w, b', rfl, hrn, hvw, hmin, -⟩ := h2 n hn
    exact ⟨w, rfl, locate_loc h.fresh.nodup q j lvj a' w b' hrn,
      hrn ▸ mem_toList_of_rebuild q j lvj a' w b', hvw, hmin⟩
  refine ⟨s.root.toList, v, h.wf.all, rfl, hv, ⟨h1, fun hall => ?_⟩, hsome⟩
  cases hn : Next (p, node si lv a v b) with
  | none => rfl
  | some n =>
    obtain ⟨w, -, -, hw, hvw, -⟩ := hsome n hn
    exact absurd (hall w hw) (not_le_of_lt hvw)

theorem Next_is_successor_witness :
    ∃ loc, locate [] exampleSet.root 3 = some loc ∧
      ∃ l v, exampleSet.All = some l ∧ loc.2.Value = some v ∧ v ∈ l ∧
        (Next loc = none ↔ ∀ y ∈ l, y ≤ v) ∧
        ∀ n, Next loc = some n →
          ∃ w, n.2.Value = some w ∧ locate [] exampleSet.root n.2.id = some n ∧ w ∈ l ∧
            v < w ∧ ∀ y ∈ l, v < y → w ≤ y :=
  ⟨_, rfl, Next_is_successor exampleSet 3 exampleSet_reachable _ rfl⟩

/-- C16: for an item of a reachable set, `Prev()` returns `(nil, false)` exactly
when the item holds the smallest stored value; otherwise it returns the item of
the set that holds the largest stored value below the value of the item.  For
two items `a` and `b` of the set, `a.Next()` returns `b` exactly when
`b.Prev()` returns `a`. -/
theorem Prev_is_predecessor [LinearOrder α] (s : Set α) (si : Nat) (h : Reachable s)
    (loc : Loc α) (hl : locate [] s.root si = some loc) :
    ∃ l v, s.All = some l ∧ loc.2.Value = some v ∧ v ∈ l ∧
      (Prev loc = none ↔ ∀ y ∈ l, v ≤ y) ∧
      (∀ n, Prev loc = some n →
        ∃ w, n.2.Value = some w ∧ locate [] s.root n.2.id = some n ∧ w ∈ l ∧ w < v ∧
          ∀ y ∈ l, y < v → y ≤ w) ∧
      ∀ (sj : Nat) (b : Loc α), locate [] s.root sj = some b →
        (Next loc = some b ↔ Prev b = some loc) := by
  have hiff : ∀ (sj : Nat) (b : Loc α), locate [] s.root sj = some b →
      (Next loc = some b ↔ Prev b = some loc) :=
    fun sj b hb => Next_iff_Prev h.wf h.fresh hl hb
  obtain ⟨p, lv, a, v, b, rfl, hr⟩ := locate_cases hl
  have hv : v ∈ s.root.toList := hr ▸ mem_toList_of_rebuild p si lv a v b
  obtain ⟨h1, h2⟩ := Prev_item h.wf hr
  have hsome : ∀ n, Prev (p, node si lv a v b) = some n →
      ∃ w, n.2.Value = some w ∧ locate [] s.root n.2.id = some n ∧ w ∈ s.root.toList ∧ w < v ∧
        ∀ y ∈ s.root.toList, y < v → y ≤ w := by
    intro n hn
    obtain ⟨q, j, lvj, a', w, b', rfl, hrn, hwv, hmax, -⟩ := h2 n hn
    exact ⟨w, rfl, locate_loc h.fresh.nodup q j lvj a' w b' hrn,
      hrn ▸ mem_toList_of_rebuild q j lvj a' w b', hwv, hmax⟩
  refine ⟨s.root.toList, v, h.wf.all, rfl, hv, ⟨h1, fun hall => ?_⟩, hsome, hiff⟩
  cases hn : Prev (p, node si lv a v b) with
  | none => rfl
  | some n =>
    obtain ⟨w, -, -, hw, hwv, -⟩ := hsome n hn
    exact absurd (hall w hw) (not_le_of_lt hwv)

theorem Prev_is_predecessor_witness :
    ∃ loc, locate [] exampleSet.root 3 = some loc ∧
      ∃ l v, exampleSet.All = some l ∧ loc.2.Value = some v ∧ v ∈ l ∧
        (Prev loc = none ↔ ∀ y ∈ l, v ≤ y) ∧
        (∀ n, Prev loc = some n →
          ∃ w, n.2.Value = some w ∧ locate [] exampleSet.root n.2.id = some n ∧ w ∈ l ∧
            w < v ∧ ∀ y ∈ l, y < v → y ≤ w) ∧
        ∀ (sj : Nat) (b : Loc Nat), locate [] exampleSet.root sj = some b →
          (Next loc = some b ↔ Prev b = some loc) :=
  ⟨_, rfl, Prev_is_predecessor exampleSet 3 exampleSet_reachable _ rfl⟩


/-- C17: in a reachable set `Min`, `Max`, `First` and `Last` report "not found"
exactly when the set is empty, `Min` and `Max` then returning the zero value;
otherwise `Min()` returns the first value yielded by `All()` and `First()` the
item of the set holding it, and `Max()` returns the last value yielded by
`All()` and `Last()` the item of the set holding it. -/
theorem Min_Max_First_Last [LinearOrder α] [Inhabited α] (s : Set α) (h : Reachable s) :
    ∃ l, s.All = some l ∧
      (s.First = none ↔ l = []) ∧ (s.Last = none ↔ l = []) ∧
      (s.Min.2 = false ↔ l = []) ∧ (s.Max.2 = false ↔ l = []) ∧
      (l = [] → s.Min = (default, false) ∧ s.Max = (default, false)) ∧
      (∀ v, l.head? = some v →
        s.Min = (v, true) ∧
        ∃ f, s.First = some f ∧ f.2.Value = some v ∧ locate [] s.root f.2.id = some f) ∧
      (∀ v, l.getLast? = some v →
        s.Max = (v, true) ∧
        ∃ f, s.Last = some f ∧ f.2.Value = some v ∧ locate [] s.root f.2.id = some f) := by
  have hF := First_none_iff s h.wf.inv
  have hL := Last_none_iff s h.wf.inv
  have hmin : ∀ v, s.root.toList.head? = some v →
      s.Min = (v, true) ∧
      ∃ f, s.First = some f ∧ f.2.Value = some v ∧ locate [] s.root f.2.id = some f := by
    intro v hv
    cases hf : s.First with
    | none => rw [hF.1 hf] at hv; cases hv
    | some f =>
      obtain ⟨q, j, lvj, y, b', rfl, hr, hl⟩ := First_some s h.wf.inv hf
      rw [hl] at hv
      simp only [List.head?_cons, Option.some.injEq] at hv
      subst hv
      refine ⟨?_, _, rfl, rfl, locate_loc h.fresh.nodup q j lvj bottom y b' hr⟩
      unfold Set.Min
      rw [hf]
  have hmax : ∀ v, s.root.toList.getLast? = some v →
      s.Max = (v, true) ∧
      ∃ f, s.Last = some f ∧ f.2.Value = some v ∧ locate [] s.root f.2.id = some f := by
    intro v hv
    cases hf : s.Last with
    | none => rw [hL.1 hf] at hv; cases hv
    | some f =>
      obtain ⟨q, j, lvj, a', y, rfl, hr, hl⟩ := Last_some s h.wf.inv hf
      rw [hl] at hv
      rw [List.getLast?_concat] at hv
      simp only [Option.some.injEq] at hv
      subst hv
      refine ⟨?_, _, rfl, rfl, locate_loc h.fresh.nodup q j lvj a' y bottom hr⟩
      unfold Set.Max
      rw [hf]
  have hmin0 : s.root.toList = [] → s.Min = (default, false) := by
    intro hl
    unfold Set.Min
    rw [hF.2 hl]
  have hmax0 : s.root.toList = [] → s.Max = (default, false) := by
    intro hl
    unfold Set.Max
    rw [hL.2 hl]
  refine ⟨s.root.toList, h.wf.all, hF, hL, ⟨fun hm => ?_, fun hl => ?_⟩,
    ⟨fun hm => ?_, fun hl => ?_⟩, fun hl => ⟨hmin0 hl, hmax0 hl⟩, hmin, hmax⟩
  · cases hl : s.root.toList with
    | nil => rfl
    | cons y ys =>
      have := (hmin y (by rw [hl]; rfl)).1
      rw [this] at hm
      cases hm
  · rw [hmin0 hl]
  · cases hl : s.root.toList with
    | nil => rfl
    | cons y ys =>
      obtain ⟨v, hv⟩ : ∃ v, s.root.toList.getLast? = some v := by
        rw [hl]
        exact ⟨_, List.getLast?_eq_getLast _ (List.cons_ne_nil y ys)⟩
      have := (hmax v hv).1
      rw [this] at hm
      cases hm
  · rw [hmax0 hl]

theorem Min_Max_First_Last_witness :
    ∃ l, exampleSet.All = some l ∧
      (exampleSet.First = none ↔ l = []) ∧ (exampleSet.Last = none ↔ l = []) ∧
      (exampleSet.Min.2 = false ↔ l = []) ∧ (exampleSet.Max.2 = false ↔ l = []) ∧
      (l = [] → exampleSet.Min = (default, false) ∧ exampleSet.Max = (default, false)) ∧
      (∀ v, l.head? = some v →
        exampleSet.Min = (v, true) ∧
        ∃ f, exampleSet.First = some f ∧ f.2.Value = some v ∧
          locate [] exampleSet.root f.2.id = some f) ∧
      (∀ v, l.getLast? = some v →
        exampleSet.Max = (v, true) ∧
        ∃ f, exampleSet.Last = some f ∧ f.2.Value = some v ∧
          locate [] exampleSet.root f.2.id = some f) :=
  Min_Max_First_Last exampleSet exampleSet_reachable

/-- C18: for a list of distinct values and two arrangements `p1` and `p2` of
it, inserting the values in the order `p1` into an empty set makes every
`Insert` return true and `Len()` the number of values; deleting them afterwards
in the order `p2` makes every `Delete` return true and leaves `Len()` 0, `All()`
empty and the root the sentinel. -/
theorem round_trip_to_empty [LinearOrder α] (xs p1 p2 : List α) (hn : xs.Nodup)
    (h1 : p1.Perm xs) (h2 : p2.Perm xs) :
    insertFlags newSet p1 = List.replicate xs.length true ∧
      (insertAll newSet p1).Len = xs.length ∧
      deleteFlags (insertAll newSet p1) p2 = List.replicate xs.length true ∧
      (deleteAll (insertAll newSet p1) p2).Len = 0 ∧
      (deleteAll (insertAll newSet p1) p2).All = some [] ∧
      (deleteAll (insertAll newSet p1) p2).root = bottom := by
  have hw : WF (insertAll (newSet : Set α) p1) :=
    (insertAll_reachable _ p1 .newSet).wf
  obtain ⟨i1, i2⟩ := insertFlags_fresh p1 (newSet : Set α) WF_newSet (h1.nodup_iff.2 hn)
    (fun y _ hy => by simp [newSet, toList] at hy)
  have hm : ∀ y, y ∈ (insertAll (newSet : Set α) p1).root.toList ↔ y ∈ p2 := by
    intro y
    rw [mem_insertAll _ p1 y WF_newSet, h1.mem_iff, h2.mem_iff]
    simp [newSet, toList]
  obtain ⟨d1, d2⟩ := deleteFlags_all p2 _ hw (h2.nodup_iff.2 hn) hm
  have hw' := deleteAll_WF p2 _ hw
  refine ⟨?_, ?_, ?_, ?_, ?_, d2⟩
  · rw [i1, h1.length_eq]
  · show (insertAll newSet p1).size = _
    rw [i2, h1.length_eq]
    simp [newSet]
  · rw [d1, h2.length_eq]
  · show (deleteAll (insertAll newSet p1) p2).size = 0
    rw [hw'.size, d2]
    rfl
  · rw [hw'.all, d2]
    rfl

theorem round_trip_to_empty_witness :
    insertFlags (newSet : Set Nat) [2, 3, 1] = List.replicate 3 true ∧
      (insertAll (newSet : Set Nat) [2, 3, 1]).Len = 3 ∧
      deleteFlags (insertAll (newSet : Set Nat) [2, 3, 1]) [3, 1, 2] = List.replicate 3 true ∧
      (deleteAll (insertAll (newSet : Set Nat) [2, 3, 1]) [3, 1, 2]).Len = 0 ∧
      (deleteAll (insertAll (newSet : Set Nat) [2, 3, 1]) [3, 1, 2]).All = some [] ∧
      (deleteAll (insertAll (newSet : Set Nat) [2, 3, 1]) [3, 1, 2]).root = bottom :=
  round_trip_to_empty [1, 2, 3] [2, 3, 1] [3, 1, 2] (by decide) (by decide) (by decide)

/-- C19: for every sequence of calls of `Insert`, `Delete`, `Has`,
`FindGreaterThanOrEqual`, `InsertNearby`, `Min`, `Max`, `All` and `Backward` on
integer values, a set made by `NewSetFunc(cmp.Compare[int])` and a set made by
`NewSet[int]()` return the same result at every call and hold the same tree
(shape, levels, values and identities) after every call. -/
theorem variants_agree (ops : List (Op Int)) :
    runFunc cmpCompare newSet ops = run newSet ops :=
  runFunc_eq_run Agrees_cmpCompare newSet ops

/-- C25: for a set satisfying the AA-tree invariants, `Set.insert`, whose walk
up the tree stops after two consecutive ancestors without a split, returns the
same item and flag and leaves the same set (tree with shape, levels and
identities, size) as the same walk continued through every ancestor up to the
root; this holds for both ways of searching the slot. -/
theorem insert_early_exit_sound [LinearOrder α] (s : Set α) (k : Nat) (x : α)
    (h : AA s.root) :
    s.insert k x = s.insertFull k x ∧
      ∀ cmp : α → α → Int, s.insertFunc cmp k x = s.insertFullFunc cmp k x :=
  ⟨insertAt_eq_full s x _ (fun _ _ hf => find_slot hf) ((AA_iff_Inv _).1 h),
    fun _ => insertAt_eq_full s x _ (fun _ _ hf => findFunc_slot hf) ((AA_iff_Inv _).1 h)⟩

theorem insert_early_exit_sound_witness :
    AA exampleSet.root ∧ exampleSet.insert 2 5 = exampleSet.insertFull 2 5 :=
  ⟨by decide, (insert_early_exit_sound exampleSet 2 5 (by decide)).1⟩

/-- C27, as the code has it: the node that `Delete` splices out has level 1
and the sentinel as its left child; its right child is the sentinel or a leaf
of level 1, and this right child is what the slot of the parent receives
before the walk of `decreaseLevel` starts at the parent. -/
theorem Delete_splice_node [LinearOrder α] (s : Set α) (x : α) (loc : Loc α)
    (h : AA s.root) (hl : s.spliced x = some loc) :
    loc.2.level = 1 ∧ loc.2.l = bottom ∧
      (loc.2.r = bottom ∨ (loc.2.r.level = 1 ∧ loc.2.r.l = bottom ∧ loc.2.r.r = bottom)) ∧
      ∃ f rest, loc.1 = f :: rest ∧
        s.Delete x = (⟨deleteLoop rest (f.attach loc.2.r), s.size - 1, s.nextId⟩, true) :=
  spliced_Delete s x ((AA_iff_Inv _).1 h) hl

theorem Delete_splice_node_witness :
    ∃ loc, exampleSet.spliced 1 = some loc ∧ loc.2.level = 1 ∧ loc.2.l = bottom ∧
      (loc.2.r = bottom ∨ (loc.2.r.level = 1 ∧ loc.2.r.l = bottom ∧ loc.2.r.r = bottom)) ∧
      ∃ f rest, loc.1 = f :: rest ∧
        exampleSet.Delete 1 =
          (⟨deleteLoop rest (f.attach loc.2.r), exampleSet.size - 1, exampleSet.nextId⟩, true) :=
  ⟨_, rfl, Delete_splice_node exampleSet 1 _ (by decide) rfl⟩

/-- C27, counterexample: the set holding 1, 2, 4, 6, 7, 8 (built by inserting
2, 4, 6, 1, 7, 8) satisfies the AA-tree invariants and stores 1 in a node of
level 1 that is not the root; `Delete(1)` reaches the splice with this node,
and its right child is the node of 2, not the sentinel. -/
theorem Delete_splice_right_child_real :
    AA exampleSet.root ∧ exampleSet.Has 1 = true ∧
      (exampleSet.spliced 1).map (fun loc => loc.2.r.isBottom) = some false ∧
      (exampleSet.spliced 1).map (fun loc => loc.2.r.Value) = some (some 2) := by
  decide

/-- C28: in a well-formed set with distinct node identities, `Delete(x)` of a
value stored in a node `d` of level above 1 keeps the node `d` and gives it the
value of the next node in order, which is the leftmost node of the right
subtree of `d`, has level 1 and is the node that leaves the tree; no other node
changes its value.  When `d` has level 1, `d` is the node that leaves the tree
and no value changes. -/
theorem Delete_successor_substitution [LinearOrder α] (s : Set α) (x : α) (h : WF s)
    (hf : Fresh s) (hx : x ∈ s.root.toList) :
    ∃ q i lv a b, find [] s.root x = .present q (node i lv a x b) ∧
      locate [] s.root i = some (q, node i lv a x b) ∧
      (1 < lv → ∃ sp j sv sr L1 L2, leftmost [] b = (sp, node j 1 bottom sv sr) ∧
        s.root.entries = L1 ++ (i, x) :: (j, sv) :: L2 ∧
        (s.Delete x).1.root.entries = L1 ++ (i, sv) :: L2 ∧
        j ∉ (s.Delete x).1.root.ids) ∧
      (lv ≤ 1 → ∃ L1 L2, s.root.entries = L1 ++ (i, x) :: L2 ∧
        (s.Delete x).1.root.entries = L1 ++ L2 ∧ i ∉ (s.Delete x).1.root.ids) := by
  obtain ⟨q, i, lv, a, b, h1, h2, h3, h4⟩ := Delete_entries s x h hx
  have hn := hf.nodup
  refine ⟨q, i, lv, a, b, h1, locate_loc hn q i lv a x b h2, fun hlv => ?_, fun hlv => ?_⟩
  · obtain ⟨sp, j, sv, sr, L1, L2, e1, e2, e3⟩ := h3 hlv
    refine ⟨sp, j, sv, sr, L1, L2, e1, e2, e3, ?_⟩
    rw [ids_eq_map, e2] at hn
    rw [ids_eq_map, e3]
    simp only [List.map_append, List.map_cons, List.nodup_append, List.nodup_cons,
      List.mem_cons, List.mem_append, List.disjoint_cons_right, not_or] at hn ⊢
    exact ⟨hn.2.2.2.1, fun e => hn.2.1.1.1 e.symm, hn.2.1.2.1⟩
  · obtain ⟨L1, L2, e2, e3⟩ := h4 hlv
    refine ⟨L1, L2, e2, e3, ?_⟩
    rw [ids_eq_map, e2] at hn
    rw [ids_eq_map, e3]
    simp only [List.map_append, List.map_cons, List.nodup_append, List.nodup_cons,
      List.mem_append, List.disjoint_cons_right, not_or] at hn ⊢
    exact ⟨hn.2.2.1, hn.2.1.1⟩

theorem Delete_successor_substitution_witness :
    4 ∈ exampleSet.root.toList ∧
    ∃ q i lv a b, find [] exampleSet.root 4 = .present q (node i lv a 4 b) ∧
      locate [] exampleSet.root i = some (q, node i lv a 4 b) ∧
      (1 < lv → ∃ sp j sv sr L1 L2, leftmost [] b = (sp, node j 1 bottom sv sr) ∧
        exampleSet.root.entries = L1 ++ (i, 4) :: (j, sv) :: L2 ∧
        (exampleSet.Delete 4).1.root.entries = L1 ++ (i, sv) :: L2 ∧
        j ∉ (exampleSet.Delete 4).1.root.ids) ∧
      (lv ≤ 1 → ∃ L1 L2, exampleSet.root.entries = L1 ++ (i, 4) :: L2 ∧
        (exampleSet.Delete 4).1.root.entries = L1 ++ L2 ∧
        i ∉ (exampleSet.Delete 4).1.root.ids) :=
  ⟨by decide, Delete_successor_substitution exampleSet 4 exampleSet_reachable.wf
    exampleSet_reachable.fresh (by decide)⟩


/-- C29, as the code has it: `lower(a, b)` returns the node with the strictly
lower level; when the levels are equal it returns `b` if `b` is the parent of
`a`, and `a` otherwise.  So for two items of a reachable set with equal levels,
one of which is the parent of the other, it returns the parent, whichever
argument that is. -/
theorem lower_returns_parent_on_tie [LinearOrder α] (a b : Loc α) :
    (a.2.level < b.2.level → lower a b = a) ∧
    (b.2.level < a.2.level → lower a b = b) ∧
    (a.2.level = b.2.level → parentIs a b = true → lower a b = b) ∧
    (a.2.level = b.2.level → parentIs a b = false → lower a b = a) ∧
    ∀ (s : Set α) (ka kb : Nat), Reachable s → locate [] s.root ka = some a →
      locate [] s.root kb = some b → a.2.level = b.2.level → parentIs b a = true →
        lower a b = a := by
  refine ⟨fun h => ?_, fun h => ?_, fun h hp => ?_, fun h hp => ?_,
    fun s ka kb hs ha hb h hp => ?_⟩
  · simp only [lower, if_pos h]
  · simp only [lower, if_neg (Nat.lt_asymm h), if_pos h]
  · simp only [lower, h, lt_irrefl, if_false, hp, if_true]
  · simp only [lower, h, lt_irrefl, if_false, hp, Bool.false_eq_true]
  · have hp' := parentIs_asymm hs.fresh.nodup hb ha hp
    simp only [lower, h, lt_irrefl, if_false, hp', Bool.false_eq_true]

theorem lower_returns_parent_on_tie_witness :
    ∃ a b : Loc Nat, locate [] exampleSet.root 1 = some a ∧
      locate [] exampleSet.root 4 = some b ∧ a.2.level = b.2.level ∧
      parentIs a b = true ∧ lower a b = b ∧ lower b a = b :=
  ⟨_, _, rfl, rfl, rfl, rfl,
    (lower_returns_parent_on_tie _ _).2.2.1 rfl rfl,
    (lower_returns_parent_on_tie _ _).2.2.2.2 exampleSet 4 1 exampleSet_reachable rfl rfl
      rfl rfl⟩

/-- C29, counterexample: in the set built by inserting 2, 4, 6, 1, 7, 8 the
item `a` holding 2 and the item `b` holding 1 both have level 1 and `b` is the
parent of `a`; `lower(a, b)` and `lower(b, a)` both return the item holding 1,
the parent, not the child. -/
theorem lower_tie_not_child :
    ((locate [] exampleSet.root 1).bind fun a =>
      (locate [] exampleSet.root 4).map fun b =>
        (a.2.Value, b.2.Value, a.2.level, b.2.level, parentIs a b,
          (lower a b).2.Value, (lower b a).2.Value)) =
      some (some 2, some 1, 1, 1, true, some 1, some 1) :=
  rfl

/-- C30: the start node given to the private `insert` has no effect: with any
two start nodes `insert` returns the same item and flag and leaves the same
set, for both ways of searching, because the search descends from `s.root`;
hence what `insertNearby` does is either to leave the set as it is or what
`insert` does from any start node. -/
theorem insert_start_node_irrelevant [LinearOrder α] (s : Set α) (r1 r2 : Nat) (x : α) :
    s.insert r1 x = s.insert r2 x ∧
    (∀ cmp : α → α → Int, s.insertFunc cmp r1 x = s.insertFunc cmp r2 x) ∧
    (∀ si : Loc α, (s.insertNearby si x).1 = s ∨ s.insertNearby si x = s.insert r1 x) ∧
    ∀ (cmp : α → α → Int) (si : Loc α),
      (s.insertNearbyFunc cmp si x).1 = s ∨ s.insertNearbyFunc cmp si x = s.insertFunc cmp r1 x := by
  refine ⟨rfl, fun _ => rfl, fun si => ?_, fun cmp si => ?_⟩
  · rcases insertNearby_cases s si x with h | ⟨k, h⟩
    · exact Or.inl h
    · exact Or.inr h
  · rcases insertNearbyFunc_cases cmp s si x with h | ⟨k, h⟩
    · exact Or.inl h
    · exact Or.inr h

end Sorted

namespace Bfs

/-! ## Breadth-first search -/

/-- A path from a vertex with a property to one without it has an edge that
leaves the property. -/
theorem crossing (g : Graph) (P : Int → Prop) (q : List Int)
    (hc : q.Chain' (fun x y => y ∈ g x)) (a b : Int) (ha : q.head? = some a)
    (hb : q.getLast? = some b) (hPa : P a) (hPb : ¬ P b) :
    ∃ q1 x y q2, q = q1 ++ x :: y :: q2 ∧ P x ∧ ¬ P y := by
  induction q generalizing a with
  | nil => simp at ha
  | cons c q ih =>
    simp only [List.head?_cons, Option.some.injEq] at ha
    subst ha
    cases q with
    | nil =>
      simp only [List.getLast?_singleton, Option.some.injEq] at hb
      subst hb
      exact absurd hPa hPb
    | cons e q =>
      by_cases hPe : P e
      · obtain ⟨q1, x, y, q2, hq, hx, hy⟩ :=
          ih (List.chain'_cons.1 hc).2 e rfl (by simpa using hb) hPe
        exact ⟨c :: q1, x, y, q2, by rw [hq]; rfl, hx, hy⟩
      · exact ⟨[], c, e, q, rfl, hPa, hPe⟩

theorem Parent.set_same (m : Parent) (c p : Int) : Parent.set m c p c = some p := by
  simp [Parent.set]

theorem Parent.set_other (m : Parent) (c p : Int) {v : Int} (h : v ≠ c) :
    Parent.set m c p v = m v := by
  simp [Parent.set, h]

/-- While the neighbours of `v` are looked at, every path from `src` to a
vertex that is not visited has at least `d v + 2` vertices. -/
theorem Scanning.far {g : Graph} {src dst : Int} {d : Int → Nat} {parent : Parent}
    {queue : List Int} {v : Int} {us : List Int} (h : Scanning g src dst d parent queue v us)
    (t : Int) (ht : parent t = none) (q : List Int) (hq : IsPath g src t q) :
    d v + 2 ≤ q.length := by
  obtain ⟨h1, h2, h3⟩ := hq
  obtain ⟨q1, x, y, q2, rfl, hx, hy⟩ :=
    crossing g (fun z => (parent z).isSome) q h3 src t h1 h2 (by simp [h.root]) (by simp [ht])
  have hy' : parent y = none := by simpa using hy
  have hsplit := List.chain'_split.1 h3
  have hxy : y ∈ g x := (List.chain'_cons.1 hsplit.2).1
  have hpre : IsPath g src x (q1 ++ [x]) := by
    refine ⟨?_, by simp, hsplit.1⟩
    cases q1 with
    | nil => simpa using h1
    | cons c q1 => simpa using h1
  have hl := h.least x hx _ hpre
  have hdx : d v ≤ d x := by
    rcases h.edge x y hx hxy hy' with hm | ⟨rfl, -⟩
    · exact (h.queued x hm).2.1
    · exact le_refl _
  simp only [List.length_append, List.length_cons, List.length_nil] at hl ⊢
  omega

/-- The walk back from a visited vertex yields the way from `src` to it. -/
theorem Scanning.walk_back {g : Graph} {src dst : Int} {d : Int → Nat} {parent : Parent}
    {queue : List Int} {v : Int} {us : List Int} (h : Scanning g src dst d parent queue v us)
    (n : Nat) (w : Int) (hw : (parent w).isSome) (r : List Int)
    (hr : reversed parent src n w = some r) :
    IsPath g src w (src :: r.reverse) ∧ r.length = d w := by
  induction n generalizing w r with
  | zero => simp [reversed] at hr
  | succ n ih =>
    simp only [reversed] at hr
    by_cases hws : w = src
    · subst hws
      simp only [ne_eq, not_true_eq_false, if_false, Option.some.injEq] at hr
      subst hr
      exact ⟨⟨rfl, rfl, List.chain'_singleton _⟩, h.d_root.symm⟩
    · rw [if_pos hws] at hr
      obtain ⟨pw, hpw⟩ := Option.isSome_iff_exists.1 hw
      obtain ⟨s1, s2, s3⟩ := h.step w pw hpw hws
      have hget : Parent.get parent w = pw := by simp [Parent.get, hpw]
      rw [hget] at hr
      obtain ⟨r', hr', rfl⟩ := Option.map_eq_some'.1 hr
      obtain ⟨⟨p1, p2, p3⟩, hlen⟩ := ih pw s1 r' hr'
      have : src :: (w :: r').reverse = (src :: r'.reverse) ++ [w] := by simp
      rw [this]
      refine ⟨⟨rfl, List.getLast?_concat _, ?_⟩, by simp [hlen, s3]⟩
      refine List.Chain'.append p3 (List.chain'_singleton _) ?_
      intro x hx y hy
      rw [p2] at hx
      simp only [Option.mem_def, Option.some.injEq, List.head?_cons] at hx hy
      subst hx hy
      exact s2

/-- Looking at a neighbour that was visited before. -/
theorem Scanning.skip {g : Graph} {src dst : Int} {d : Int → Nat} {parent : Parent}
    {queue : List Int} {v u : Int} {us : List Int}
    (h : Scanning g src dst d parent queue v (u :: us)) (hu : (parent u).isSome) :
    Scanning g src dst d parent queue v us where
  root := h.root
  d_root := h.d_root
  step := h.step
  least := h.least
  target := h.target
  edge := by
    intro x y hx hxy hy
    rcases h.edge x y hx hxy hy with hm | ⟨rfl, hm⟩
    · exact Or.inl hm
    · rcases List.mem_cons.1 hm with rfl | hm
      · rw [hy] at hu; cases hu
      · exact Or.inr ⟨rfl, hm⟩
  queued := h.queued
  sorted := h.sorted
  cur := h.cur
  sub := fun y hy => h.sub y (List.mem_cons_of_mem _ hy)

/-- Looking at a neighbour `u` that is new: it is given the parent `v` and put
at the end of the queue. -/
theorem Scanning.visit {g : Graph} {src dst : Int} {d : Int → Nat} {parent : Parent}
    {queue : List Int} {v u : Int} {us : List Int}
    (h : Scanning g src dst d parent queue v (u :: us)) (hu : parent u = none)
    (hud : u ≠ dst) :
    Scanning g src dst (Function.update d u (d v + 1)) (Parent.set parent u v)
      (queue ++ [u]) v us := by
  have hus : u ≠ src := fun e => by rw [e, h.root] at hu; cases hu
  have hvu : v ≠ u := fun e => by have := h.cur; rw [e, hu] at this; cases this
  have hd : ∀ x, (parent x).isSome → Function.update d u (d v + 1) x = d x := by
    intro x hx
    have : x ≠ u := fun e => by rw [e, hu] at hx; cases hx
    exact Function.update_noteq this _ _
  have hdu : Function.update d u (d v + 1) u = d v + 1 := Function.update_same _ _ _
  have hp : ∀ x, (parent x).isSome → (Parent.set parent u v x).isSome := by
    intro x hx
    have : x ≠ u := fun e => by rw [e, hu] at hx; cases hx
    rw [Parent.set_other _ _ _ this]
    exact hx
  have hp' : ∀ x, x ≠ u → Parent.set parent u v x = parent x :=
    fun x hx => Parent.set_other _ _ _ hx
  have hdv := hd v h.cur
  constructor
  · rw [hp' src hus.symm]; exact h.root
  · rw [hd src (by simp [h.root])]; exact h.d_root
  · intro w pw hw hws
    by_cases hwu : w = u
    · subst hwu
      rw [Parent.set_same] at hw
      simp only [Option.some.injEq] at hw
      subst hw
      exact ⟨hp _ h.cur, h.sub w (List.mem_cons_self _ _), by rw [hdu, hdv]⟩
    · rw [hp' w hwu] at hw
      obtain ⟨s1, s2, s3⟩ := h.step w pw hw hws
      exact ⟨hp _ s1, s2, by rw [hd w (by simp [hw]), hd pw s1, s3]⟩
  · intro w hw q hq
    by_cases hwu : w = u
    · subst hwu
      rw [hdu]
      exact h.far w hu q hq
    · rw [hp' w hwu] at hw
      rw [hd w hw]
      exact h.least w hw q hq
  · rw [hp' dst hud.symm]; exact h.target
  · intro x y hx hxy hy
    by_cases hxu : x = u
    · left
      rw [hxu]
      simp
    · rw [hp' x hxu] at hx
      have hyu : y ≠ u := fun e => by rw [e, Parent.set_same] at hy; cases hy
      rw [hp' y hyu] at hy
      rcases h.edge x y hx hxy hy with hm | ⟨rfl, hm⟩
      · exact Or.inl (List.mem_append_left _ hm)
      · rcases List.mem_cons.1 hm with rfl | hm
        · exact absurd rfl hyu
        · exact Or.inr ⟨rfl, hm⟩
  · intro x hx
    rcases List.mem_append.1 hx with hm | hm
    · obtain ⟨q1, q2, q3⟩ := h.queued x hm
      exact ⟨hp x q1, by rw [hd x q1, hdv]; exact q2, by rw [hd x q1, hdv]; exact q3⟩
    · simp only [List.mem_singleton] at hm
      subst hm
      refine ⟨by rw [Parent.set_same]; rfl, ?_, ?_⟩ <;> rw [hdu, hdv] <;> omega
  · rw [List.pairwise_append]
    refine ⟨?_, List.pairwise_singleton _ _, ?_⟩
    · refine h.sorted.imp_of_mem ?_
      intro a b ha hb hab
      rw [hd a (h.queued a ha).1, hd b (h.queued b hb).1]
      exact hab
    · intro a ha b hb
      simp only [List.mem_singleton] at hb
      subst hb
      rw [hd a (h.queued a ha).1, hdu]
      exact (h.queued a ha).2.2
  · exact hp v h.cur
  · exact fun y hy => h.sub y (List.mem_cons_of_mem _ hy)

/-- Taking the next vertex from the queue. -/
theorem Scanning.pop {g : Graph} {src dst : Int} {d : Int → Nat} {parent : Parent}
    {queue : List Int} {v v' : Int}
    (h : Scanning g src dst d parent (v' :: queue) v []) :
    Scanning g src dst d parent queue v' (g v') where
  root := h.root
  d_root := h.d_root
  step := h.step
  least := h.least
  target := h.target
  edge := by
    intro x y hx hxy hy
    rcases h.edge x y hx hxy hy with hm | ⟨-, hm⟩
    · rcases List.mem_cons.1 hm with rfl | hm
      · exact Or.inr ⟨rfl, hxy⟩
      · exact Or.inl hm
    · cases hm
  queued := by
    intro x hx
    obtain ⟨q1, -, q3⟩ := h.queued x (List.mem_cons_of_mem _ hx)
    have h1 := (List.pairwise_cons.1 h.sorted).1 x hx
    have h2 := (h.queued v' (List.mem_cons_self _ _)).2.1
    exact ⟨q1, h1, by omega⟩
  sorted := (List.pairwise_cons.1 h.sorted).2
  cur := (h.queued v' (List.mem_cons_self _ _)).1
  sub := fun y hy => hy

/-- The state before the first iteration. -/
theorem Scanning.init (g : Graph) {src dst : Int} (hne : src ≠ dst) :
    Scanning g src dst (fun _ => 0) (Parent.set (fun _ => none) src src) [src] src [] where
  root := Parent.set_same _ _ _
  d_root := rfl
  step := by
    intro w pw hw hws
    rw [Parent.set_other _ _ _ hws] at hw
    cases hw
  least := by
    intro w _ q hq
    cases q with
    | nil => have := hq.1; simp at this
    | cons c q => simp
  target := Parent.set_other _ _ _ (Ne.symm hne)
  edge := by
    intro x y hx _ _
    left
    by_cases hxs : x = src
    · simp [hxs]
    · rw [Parent.set_other _ _ _ hxs] at hx
      cases hx
  queued := by
    intro x hx
    simp only [List.mem_singleton] at hx
    subst hx
    exact ⟨by rw [Parent.set_same]; rfl, le_refl _, Nat.le_succ _⟩
  sorted := List.pairwise_singleton _ _
  cur := by rw [Parent.set_same]; rfl
  sub := fun y hy => by cases hy

theorem reversed_fuel (parent : Parent) (src : Int) {n m : Nat} (hnm : n ≤ m) (w : Int)
    (r : List Int) (h : reversed parent src n w = some r) :
    reversed parent src m w = some r := by
  induction n generalizing m w r with
  | zero => simp [reversed] at h
  | succ n ih =>
    obtain ⟨m, rfl⟩ : ∃ k, m = k + 1 := ⟨m - 1, by omega⟩
    simp only [reversed] at h ⊢
    by_cases hw : w = src
    · simpa [hw] using h
    · rw [if_pos hw] at h ⊢
      obtain ⟨r', hr', rfl⟩ := Option.map_eq_some'.1 h
      rw [ih (by omega) _ r' hr']
      rfl

theorem scan_fuel (src dst v : Int) {n m : Nat} (hnm : n ≤ m) (us : List Int)
    (parent : Parent) (queue : List Int) :
    (∀ p, scan src dst v n parent queue us = .done (some p) →
      scan src dst v m parent queue us = .done (some p)) ∧
    ∀ parent' queue', scan src dst v n parent queue us = .more parent' queue' →
      scan src dst v m parent queue us = .more parent' queue' := by
  induction us generalizing parent queue with
  | nil => simp [scan]
  | cons u us ih =>
    simp only [scan]
    by_cases hud : u = dst
    · rw [if_pos hud, if_pos hud]
      refine ⟨fun p hp => ?_, fun parent' queue' hs => (by cases hs)⟩
      simp only [Scan.done.injEq] at hp
      obtain ⟨r, hr, rfl⟩ := Option.map_eq_some'.1 hp
      rw [reversed_fuel parent src hnm v r hr]
      rfl
    · rw [if_neg hud, if_neg hud]
      by_cases hu : Parent.has parent u = true
      · rw [if_pos hu, if_pos hu]
        exact ih parent queue
      · rw [if_neg hu, if_neg hu]
        exact ih _ _

theorem loop_fuel (g : Graph) (src dst : Int) {f f' : Nat} (hf : f ≤ f') {n m : Nat}
    (hnm : n ≤ m) (parent : Parent) (queue : List Int) (r : Option (List Int))
    (h : loop g src dst f n parent queue = some r) :
    loop g src dst f' m parent queue = some r := by
  induction n generalizing m parent queue with
  | zero =>
    cases queue with
    | nil => cases m <;> simpa [loop] using h
    | cons v queue => simp [loop] at h
  | succ n ih =>
    cases queue with
    | nil => cases m <;> simpa [loop] using h
    | cons v queue =>
      obtain ⟨m, rfl⟩ : ∃ k, m = k + 1 := ⟨m - 1, by omega⟩
      simp only [loop] at h ⊢
      obtain ⟨h1, h2⟩ := scan_fuel src dst v hf (g v) parent queue
      cases hs : scan src dst v f parent queue (g v) with
      | done res =>
        rw [hs] at h
        cases res with
        | none => cases h
        | some p =>
          rw [h1 p hs]
          exact h
      | more parent' queue' =>
        rw [hs] at h
        rw [h2 _ _ hs]
        exact ih (by omega) _ _ h

/-- A result reached within a bound is the result with every larger bound. -/
theorem Path_fuel (g : Graph) (src dst : Int) {n m : Nat} (hnm : n ≤ m)
    (r : Option (List Int)) (h : Path n g src dst = some r) : Path m g src dst = some r := by
  unfold Path at h ⊢
  by_cases hsd : src = dst
  · rw [if_pos hsd] at h ⊢
    exact h
  · rw [if_neg hsd] at h ⊢
    exact loop_fuel g src dst hnm hnm _ _ r h

/-- The loop over the neighbours of `v` either returns a shortest path or
leaves a state in which all neighbours of `v` have been looked at. -/
theorem scan_spec {g : Graph} {src dst : Int} (fuel : Nat) {v : Int} (us : List Int)
    {d : Int → Nat} {parent : Parent} {queue : List Int}
    (h : Scanning g src dst d parent queue v us) :
    (∀ p, scan src dst v fuel parent queue us = .done (some p) → Shortest g src dst p) ∧
    ∀ parent' queue', scan src dst v fuel parent queue us = .more parent' queue' →
      ∃ d', Scanning g src dst d' parent' queue' v [] := by
  induction us generalizing d parent queue with
  | nil =>
    simp only [scan]
    refine ⟨fun p hp => (by cases hp), fun parent' queue' hs => ?_⟩
    simp only [Scan.more.injEq] at hs
    obtain ⟨rfl, rfl⟩ := hs
    exact ⟨d, h⟩
  | cons u us ih =>
    simp only [scan]
    by_cases hud : u = dst
    · subst hud
      rw [if_pos rfl]
      refine ⟨fun p hp => ?_, fun parent' queue' hs => by cases hs⟩
      simp only [Scan.done.injEq] at hp
      obtain ⟨r, hr, rfl⟩ := Option.map_eq_some'.1 hp
      obtain ⟨⟨p1, p2, p3⟩, hlen⟩ := h.walk_back fuel v h.cur r hr
      have hpath : IsPath g src u (src :: r.reverse ++ [u]) := by
        refine ⟨rfl, List.getLast?_concat _, ?_⟩
        refine List.Chain'.append p3 (List.chain'_singleton _) ?_
        intro x hx y hy
        rw [p2] at hx
        simp only [Option.mem_def, Option.some.injEq, List.head?_cons] at hx hy
        subst hx hy
        exact h.sub _ (List.mem_cons_self _ _)
      refine ⟨hpath, fun q hq => ?_⟩
      have := h.far u h.target q hq
      simp only [List.length_append, List.length_cons, List.length_reverse, List.length_nil,
        hlen]
      omega
    · rw [if_neg hud]
      by_cases hu : Parent.has parent u = true
      · rw [if_pos hu]
        exact ih (h.skip hu)
      · rw [if_neg hu]
        have hu' : parent u = none := by
          simpa [Parent.has] using hu
        exact ih (h.visit hu' hud)

/-- Whatever the bounds, a path the search returns is a shortest path. -/
theorem loop_spec {g : Graph} {src dst : Int} (fuel n : Nat) {d : Int → Nat}
    {parent : Parent} {queue : List Int} {v : Int}
    (h : Scanning g src dst d parent queue v []) (p : List Int)
    (hp : loop g src dst fuel n parent queue = some (some p)) : Shortest g src dst p := by
  induction n generalizing d parent queue v with
  | zero =>
    cases queue with
    | nil => simp [loop] at hp
    | cons v' queue => simp [loop] at hp
  | succ n ih =>
    cases queue with
    | nil => simp [loop] at hp
    | cons v' queue =>
      simp only [loop] at hp
      obtain ⟨h1, h2⟩ := scan_spec fuel (g v') h.pop
      cases hs : scan src dst v' fuel parent queue (g v') with
      | done res =>
        rw [hs] at hp
        cases res with
        | none => cases hp
        | some p' =>
          simp only [Option.some.injEq] at hp
          subst hp
          exact h1 _ hs
      | more parent' queue' =>
        rw [hs] at hp
        obtain ⟨d', h'⟩ := h2 parent' queue' hs
        exact ih h' hp

theorem Path_spec (fuel : Nat) (g : Graph) (src dst : Int) (p : List Int)
    (hp : Path fuel g src dst = some (some p)) : Shortest g src dst p := by
  unfold Path at hp
  by_cases hsd : src = dst
  · subst hsd
    rw [if_pos rfl] at hp
    simp only [Option.some.injEq] at hp
    subst hp
    refine ⟨⟨rfl, rfl, List.chain'_singleton _⟩, fun q hq => ?_⟩
    cases q with
    | nil => have := hq.1; simp at this
    | cons c q => simp
  · rw [if_neg hsd] at hp
    exact loop_spec fuel fuel (Scanning.init g hsd) p hp

/-! ## Scenarios of `bfs_test.go` -/

/-- TestPath: the six cases of the test. -/
theorem scenario_TestPath :
    Path 0 (AdjList []) 0 0 = some (some [0]) ∧
    Path 2 (AdjList [[1], []]) 0 1 = some (some [0, 1]) ∧
    Path 2 (AdjList [[1], []]) 0 0 = some (some [0]) ∧
    Path 2 (AdjList [[1], []]) 1 1 = some (some [1]) ∧
    Path 4 (AdjList [[1], [2], [3], [0]]) 2 1 = some (some [2, 3, 0, 1]) ∧
    Path 5 (AdjList [[1, 2], [1, 3], [4], [1, 2, 4], [1, 0, 4, 2, 3]]) 0 4 =
      some (some [0, 2, 4]) := by
  decide

/-! ## Termination and completeness of the search -/

theorem countP_lt_of_mem {p q : Int → Bool} (hpq : ∀ x, p x = true → q x = true)
    (V : List Int) (u : Int) (hu : u ∈ V) (hq : q u = true) (hp : p u = false) :
    V.countP p < V.countP q := by
  induction V with
  | nil => cases hu
  | cons a V ih =>
    simp only [List.countP_cons]
    rcases List.mem_cons.1 hu with rfl | hu'
    · have := List.countP_mono_left (l := V) (fun x _ => hpq x)
      simp only [hq, hp, if_true, Bool.false_eq_true, if_false]
      omega
    · have := ih hu'
      by_cases hpa : p a = true
      · simp only [hpa, hpq a hpa, if_true]
        omega
      · rw [if_neg hpa]
        split_ifs <;> omega

theorem unvisited_set (parent : Parent) (V : List Int) (u v : Int) (hu : u ∈ V)
    (hn : parent u = none) :
    unvisited (Parent.set parent u v) V + 1 ≤ unvisited parent V := by
  unfold unvisited
  apply countP_lt_of_mem _ V u hu
  · simp [Parent.has, hn]
  · simp [Parent.has, Parent.set]
  · intro x hx
    by_cases hxu : x = u
    · simp [hxu, Parent.has, Parent.set] at hx
    · simpa [Parent.has, Parent.set, hxu] using hx

theorem unvisited_le_length (parent : Parent) (V : List Int) : unvisited parent V ≤ V.length :=
  List.countP_le_length _

/-- With a bound above the depth of a visited vertex the walk back from it
ends. -/
theorem Scanning.walk_back_some {g : Graph} {src dst : Int} {d : Int → Nat}
    {parent : Parent} {queue : List Int} {v : Int} {us : List Int}
    (h : Scanning g src dst d parent queue v us) (n : Nat) (w : Int)
    (hw : (parent w).isSome) (hn : d w + 1 ≤ n) : ∃ r, reversed parent src n w = some r := by
  induction n generalizing w with
  | zero => omega
  | succ n ih =>
    simp only [reversed]
    by_cases hws : w = src
    · exact ⟨[], by simp [hws]⟩
    · rw [if_pos hws]
      obtain ⟨pw, hpw⟩ := Option.isSome_iff_exists.1 hw
      obtain ⟨s1, -, s3⟩ := h.step w pw hpw hws
      have hget : Parent.get parent w = pw := by simp [Parent.get, hpw]
      rw [hget]
      obtain ⟨r, hr⟩ := ih pw s1 (by omega)
      exact ⟨w :: r, by rw [hr]; rfl⟩


/-- The loop over the neighbours of `v`, on a finite graph and with a bound
above the depth of `v`: the walk back does not reach the bound, and the state
after the loop has no more work left than the state before. -/
theorem scan_more {g : Graph} {src dst : Int} (fuel : Nat) {v : Int} (V : List Int)
    (us : List Int) {d : Int → Nat} {parent : Parent} {queue : List Int} (B : Nat)
    (h : Scanning g src dst d parent queue v us)
    (hB : ∀ x, (parent x).isSome → d x ≤ B + 1) (hv : d v ≤ B) (hF : B + 1 ≤ fuel)
    (hVis : ∀ x, (parent x).isSome → x ∈ V) (hus : ∀ y ∈ us, y ∈ V) :
    scan src dst v fuel parent queue us ≠ .done none ∧
    ∀ parent' queue', scan src dst v fuel parent queue us = .more parent' queue' →
      ∃ d', Scanning g src dst d' parent' queue' v [] ∧
        (∀ x, (parent' x).isSome → d' x ≤ B + 1) ∧
        (∀ x, (parent' x).isSome → x ∈ V) ∧
        2 * unvisited parent' V + queue'.length ≤ 2 * unvisited parent V + queue.length := by
  induction us generalizing d parent queue with
  | nil =>
    simp only [scan]
    refine ⟨fun hc => (by cases hc), fun parent' queue' hs => ?_⟩
    simp only [Scan.more.injEq] at hs
    obtain ⟨rfl, rfl⟩ := hs
    exact ⟨d, h, hB, hVis, le_refl _⟩
  | cons u us ih =>
    simp only [scan]
    by_cases hud : u = dst
    · rw [if_pos hud]
      obtain ⟨r, hr⟩ := h.walk_back_some fuel v h.cur (by omega)
      rw [hr]
      exact ⟨fun hc => (by cases hc), fun parent' queue' hs => (by cases hs)⟩
    · rw [if_neg hud]
      have hus' : ∀ y ∈ us, y ∈ V := fun y hy => hus y (List.mem_cons_of_mem _ hy)
      by_cases hu : Parent.has parent u = true
      · rw [if_pos hu]
        exact ih (h.skip hu) hB hv hVis hus'
      · rw [if_neg hu]
        have hu' : parent u = none := by simpa [Parent.has] using hu
        have hvu : v ≠ u := fun e => by have := h.cur; rw [e, hu'] at this; cases this
        have hdv : Function.update d u (d v + 1) v = d v := Function.update_noteq hvu _ _
        have hB' : ∀ x, (Parent.set parent u v x).isSome →
            Function.update d u (d v + 1) x ≤ B + 1 := by
          intro x hx
          by_cases hxu : x = u
          · subst hxu
            rw [Function.update_same]
            omega
          · rw [Function.update_noteq hxu]
            rw [Parent.set_other _ _ _ hxu] at hx
            exact hB x hx
        have hVis' : ∀ x, (Parent.set parent u v x).isSome → x ∈ V := by
          intro x hx
          by_cases hxu : x = u
          · subst hxu
            exact hus x (List.mem_cons_self _ _)
          · rw [Parent.set_other _ _ _ hxu] at hx
            exact hVis x hx
        obtain ⟨i1, i2⟩ := ih (h.visit hu' hud) hB' (by rw [hdv]; exact hv) hVis' hus'
        refine ⟨i1, fun parent' queue' hs => ?_⟩
        obtain ⟨d', e1, e2, e3, e4⟩ := i2 parent' queue' hs
        refine ⟨d', e1, e2, e3, ?_⟩
        have := unvisited_set parent V u v (hus u (List.mem_cons_self _ _)) hu'
        simp only [List.length_append, List.length_cons, List.length_nil] at e4
        omega

/-- On a finite graph the loop over the queue ends within a bound that covers
the work left. -/
theorem loop_returns {g : Graph} {src dst : Int} (V : List Int) (hV : Closed g V) (F : Nat)
    (n : Nat) {d : Int → Nat} {parent : Parent} {queue : List Int} {v : Int} (B : Nat)
    (h : Scanning g src dst d parent queue v [])
    (hB : ∀ x, (parent x).isSome → d x ≤ B) (hF : B + n ≤ F)
    (hVis : ∀ x, (parent x).isSome → x ∈ V)
    (hn : 2 * unvisited parent V + queue.length ≤ n) :
    ∃ r, loop g src dst F n parent queue = some r := by
  induction n generalizing d parent queue v B with
  | zero =>
    cases queue with
    | nil => exact ⟨none, rfl⟩
    | cons v' queue => simp at hn
  | succ n ih =>
    cases queue with
    | nil => exact ⟨none, rfl⟩
    | cons v' queue =>
      simp only [loop]
      have hq := h.queued v' (List.mem_cons_self _ _)
      have hv'V : v' ∈ V := hVis v' hq.1
      obtain ⟨h1, h2⟩ := scan_more F V (g v') B h.pop
        (fun x hx => Nat.le_succ_of_le (hB x hx)) (hB v' hq.1) (by omega) hVis
        (fun y hy => hV v' hv'V y hy)
      cases hs : scan src dst v' F parent queue (g v') with
      | done res =>
        cases res with
        | none => exact absurd hs h1
        | some p => exact ⟨some p, rfl⟩
      | more parent' queue' =>
        obtain ⟨d', e1, e2, e3, e4⟩ := h2 parent' queue' hs
        simp only [List.length_cons] at hn
        exact ih (B + 1) e1 e2 (by omega) e3 (by omega)

/-- When the loop over the queue ends with `nil`, the visited vertices are
closed under `Adjacent` and do not contain `dst`. -/
theorem loop_nil {g : Graph} {src dst : Int} (fuel n : Nat) {d : Int → Nat}
    {parent : Parent} {queue : List Int} {v : Int}
    (h : Scanning g src dst d parent queue v [])
    (hp : loop g src dst fuel n parent queue = some none) : ¬ Reach g src dst := by
  induction n generalizing d parent queue v with
  | zero =>
    cases queue with
    | nil =>
      rintro ⟨q, hq⟩
      have := h.far dst h.target q hq
      obtain ⟨q1, q2, q3⟩ := hq
      obtain ⟨p1, x, y, p2, rfl, hx, hy⟩ :=
        crossing g (fun z => (parent z).isSome) q q3 src dst q1 q2 (by simp [h.root])
          (by simp [h.target])
      have hy' : parent y = none := by simpa using hy
      have hxy : y ∈ g x := (List.chain'_cons.1 (List.chain'_split.1 q3).2).1
      rcases h.edge x y hx hxy hy' with hm | ⟨-, hm⟩
      · cases hm
      · cases hm
    | cons v' queue => simp [loop] at hp
  | succ n ih =>
    cases queue with
    | nil =>
      rintro ⟨q, hq⟩
      obtain ⟨q1, q2, q3⟩ := hq
      obtain ⟨p1, x, y, p2, rfl, hx, hy⟩ :=
        crossing g (fun z => (parent z).isSome) q q3 src dst q1 q2 (by simp [h.root])
          (by simp [h.target])
      have hy' : parent y = none := by simpa using hy
      have hxy : y ∈ g x := (List.chain'_cons.1 (List.chain'_split.1 q3).2).1
      rcases h.edge x y hx hxy hy' with hm | ⟨-, hm⟩
      · cases hm
      · cases hm
    | cons v' queue =>
      simp only [loop] at hp
      obtain ⟨-, h2⟩ := scan_spec fuel (g v') h.pop
      cases hs : scan src dst v' fuel parent queue (g v') with
      | done res =>
        rw [hs] at hp
        cases res <;> simp at hp
      | more parent' queue' =>
        rw [hs] at hp
        obtain ⟨d', h'⟩ := h2 parent' queue' hs
        exact ih h' hp

/-- On a finite graph `Path` returns within the bound `2 * V.length + 1`. -/
theorem Path_returns (g : Graph) (V : List Int) (src dst : Int) (hV : Closed g V)
    (hs : src ∈ V) : ∃ r, Path (2 * V.length + 1) g src dst = some r := by
  unfold Path
  by_cases hsd : src = dst
  · exact ⟨_, if_pos hsd⟩
  · rw [if_neg hsd]
    have hi := Scanning.init g hsd
    refine loop_returns V hV _ _ 0 hi ?_ (by omega) ?_ ?_
    · intro x _
      exact le_refl _
    · intro x hx
      by_cases hxs : x = src
      · rw [hxs]; exact hs
      · rw [Parent.set_other _ _ _ hxs] at hx
        cases hx
    · have := unvisited_le_length (Parent.set (fun _ => none) src src) V
      have h1 := unvisited_set (fun _ => none) V src src hs rfl
      have h2 := unvisited_le_length (fun _ => none) V
      simp only [List.length_cons, List.length_nil]
      omega

/-- A result `nil` means that `dst` cannot be reached. -/
theorem Path_nil (fuel : Nat) (g : Graph) (src dst : Int)
    (hp : Path fuel g src dst = some none) : ¬ Reach g src dst := by
  unfold Path at hp
  by_cases hsd : src = dst
  · rw [if_pos hsd] at hp
    cases hp
  · rw [if_neg hsd] at hp
    exact loop_nil fuel fuel (Scanning.init g hsd) hp

/-! ## The claims on `bfs.Path` -/

/-- C20: when `bfs.Path(g, from, to)` returns a path `p`, then `p` starts with
`from`, ends with `to`, each of its vertices but the first is adjacent to the
one before it, and no path of `g` from `from` to `to` has fewer vertices; this
holds on every graph and with any bound on the iterations, and a result
reached within a bound is the result with every larger bound.  When
`from == to` the result is `[from]`. -/
theorem Path_returns_shortest :
    (∀ (fuel : Nat) (g : Graph) (v : Int), Path fuel g v v = some (some [v])) ∧
    (∀ (fuel : Nat) (g : Graph) (src dst : Int) (p : List Int),
      Path fuel g src dst = some (some p) →
        p.head? = some src ∧ p.getLast? = some dst ∧ p.Chain' (fun x y => y ∈ g x) ∧
        ∀ q : List Int, q.head? = some src → q.getLast? = some dst →
          q.Chain' (fun x y => y ∈ g x) → p.length ≤ q.length) ∧
    ∀ (fuel fuel' : Nat) (g : Graph) (src dst : Int) (r : Option (List Int)),
      Path fuel g src dst = some r → fuel ≤ fuel' → Path fuel' g src dst = some r := by
  refine ⟨fun fuel g v => by simp [Path], fun fuel g src dst p hp => ?_,
    fun fuel fuel' g src dst r hr hle => Path_fuel g src dst hle r hr⟩
  obtain ⟨⟨h1, h2, h3⟩, h4⟩ := Path_spec fuel g src dst p hp
  exact ⟨h1, h2, h3, fun q q1 q2 q3 => h4 q ⟨q1, q2, q3⟩⟩

theorem Path_returns_shortest_witness :
    Path 5 (AdjList [[1, 2], [1, 3], [4], [1, 2, 4], [1, 0, 4, 2, 3]]) 0 4 =
        some (some [0, 2, 4]) ∧
      ∀ q : List Int, q.head? = some 0 → q.getLast? = some 4 →
        q.Chain' (fun x y => y ∈ AdjList [[1, 2], [1, 3], [4], [1, 2, 4], [1, 0, 4, 2, 3]] x) →
        [(0 : Int), 2, 4].length ≤ q.length :=
  ⟨by decide, (Path_returns_shortest.2.1 5 _ 0 4 [0, 2, 4] (by decide)).2.2.2⟩

/-- C21: on a finite graph, given by a list `V` of vertices that contains
`from` and every neighbour of each of its vertices, `bfs.Path` returns: with
the bound `2 * V.length + 1` on its loops, and with every larger bound, it
yields the same result, cycles and self-loops included.  The result is `nil`
exactly when `to` cannot be reached from `from` along `Adjacent` edges (which
implies `from != to`). -/
theorem Path_nil_iff_unreachable (g : Graph) (V : List Int) (src dst : Int)
    (hV : Closed g V) (hs : src ∈ V) :
    ∃ r, Path (2 * V.length + 1) g src dst = some r ∧
      (∀ fuel, 2 * V.length + 1 ≤ fuel → Path fuel g src dst = some r) ∧
      (r = none ↔ ¬ Reach g src dst) ∧ (r = none → src ≠ dst) := by
  obtain ⟨r, hr⟩ := Path_returns g V src dst hV hs
  have hiff : r = none ↔ ¬ Reach g src dst := by
    constructor
    · intro hn
      subst hn
      exact Path_nil _ g src dst hr
    · intro hn
      cases r with
      | none => rfl
      | some p => exact absurd ⟨p, (Path_spec _ g src dst p hr).1⟩ hn
  refine ⟨r, hr, fun fuel hf => Path_fuel g src dst hf r hr, hiff, fun hn hsd => ?_⟩
  exact hiff.1 hn ⟨[src], rfl, by rw [hsd]; rfl, List.chain'_singleton _⟩

theorem Path_nil_iff_unreachable_witness :
    Closed (AdjList [[1, 0], [2], [0], [1]]) [0, 1, 2, 3] ∧ (0 : Int) ∈ [(0 : Int), 1, 2, 3] ∧
    ∃ r, Path 9 (AdjList [[1, 0], [2], [0], [1]]) 0 3 = some r ∧
      (∀ fuel, 9 ≤ fuel → Path fuel (AdjList [[1, 0], [2], [0], [1]]) 0 3 = some r) ∧
      (r = none ↔ ¬ Reach (AdjList [[1, 0], [2], [0], [1]]) 0 3) ∧ (r = none → (0 : Int) ≠ 3) :=
  ⟨by unfold Closed; decide, by decide,
    Path_nil_iff_unreachable (AdjList [[1, 0], [2], [0], [1]]) [0, 1, 2, 3] 0 3
      (by unfold Closed; decide) (by decide)⟩

end Bfs

namespace Maxflow

/-! ## Edmonds-Karp: the panic -/

/-- For distinct end points `bfs.Path` does not return a path of one vertex. -/
theorem Path_ne_singleton (fuel : Nat) (g : Bfs.Graph) (src dst x : Int) (h : src ≠ dst) :
    Bfs.Path fuel g src dst ≠ some (some [x]) := by
  intro hp
  obtain ⟨⟨h1, h2, -⟩, -⟩ := Bfs.Path_spec fuel g src dst [x] hp
  simp only [List.head?_cons, List.getLast?_singleton, Option.some.injEq] at h1 h2
  exact h (h1.symm.trans h2)

theorem EdmondsKarpLoop_no_panic {σ : Type} (G : Graph σ) (source sink : Int)
    (h : source ≠ sink) (fuel n : Nat) (s : σ) (calls : List (Int × Int × Int)) (flow : Int)
    (r : Run σ) (hr : EdmondsKarpLoop G source sink fuel n s calls flow = some r) :
    r.outcome ≠ .panic "source == sink" := by
  induction n generalizing s calls flow with
  | zero => simp [EdmondsKarpLoop] at hr
  | succ n ih =>
    simp only [EdmondsKarpLoop] at hr
    have hne := Path_ne_singleton fuel (residualGraph G s) source sink
    split at hr
    · cases hr
    · simp only [Option.some.injEq] at hr
      subst hr
      simp
    · simp only [Option.some.injEq] at hr
      subst hr
      simp
    · rename_i x heq
      exact absurd heq (hne x h)
    · split_ifs at hr
      · simp only [Option.some.injEq] at hr
        subst hr
        simp
      · exact ih _ _ _ hr

/-! ## Scenarios of `maxflow_test.go` -/

/-- TestEdmondsKarp, "trivial": the result is 4, with flow 4 from 0 to 1. -/
theorem scenario_TestEdmondsKarp_trivial :
    (EdmondsKarp 5 testGraph (mkGraph [[(1, 4)], [(0, 0)]]) 0 1).map
        (fun r => (r.outcome, flowTable r.state 2)) =
      some (.ret 4, [[0, 4], [-4, 0]]) := by
  decide


/-- TestEdmondsKarp, second case (six vertices, from 0 to 3): the result is 5
and the flow is the one the test expects. -/
theorem scenario_TestEdmondsKarp_six :
    (EdmondsKarp 13 testGraph
        (mkGraph [[(1, 3), (4, 3)], [(0, 0), (4, 2), (2, 3)], [(1, 0), (5, 4), (3, 2)],
          [(2, 0), (5, 0)], [(0, 0), (1, 0), (5, 2)], [(4, 0), (2, 0), (3, 3)]]) 0 3).map
        (fun r => (r.outcome, flowTable r.state 6)) =
      some (.ret 5, [[0, 3, 0, 0, 2, 0], [-3, 0, 3, 0, 0, 0], [0, -3, 0, 2, 0, 1],
        [0, 0, -2, 0, 0, -3], [-2, 0, 0, 0, 0, 2], [0, 0, -1, 3, -2, 0]]) := by
  decide

/-- TestEdmondsKarp, third case (seven vertices, from 0 to 6): the result is 5
and the flow is the one the test expects. -/
theorem scenario_TestEdmondsKarp_seven :
    (EdmondsKarp 15 testGraph
        (mkGraph [[(1, 3), (2, 0), (3, 3)], [(0, 0), (2, 4), (4, 0)],
          [(0, 3), (1, 0), (3, 1), (4, 2)], [(0, 0), (2, 0), (4, 2), (5, 6)],
          [(1, 1), (2, 0), (3, 0), (6, 1)], [(3, 0), (6, 9)], [(4, 0), (5, 0)]]) 0 6).map
        (fun r => (r.outcome, flowTable r.state 7)) =
      some (.ret 5, [[0, 2, 0, 3, 0, 0, 0], [-2, 0, 2, 0, 0, 0, 0], [0, -2, 0, 1, 1, 0, 0],
        [-3, 0, -1, 0, 0, 4, 0], [0, 0, -1, 0, 0, 0, 1], [0, 0, 0, -4, 0, 0, 4],
        [0, 0, 0, 0, -1, -4, 0]]) := by
  decide

/-! ## Edmonds-Karp: flows -/

theorem wrap_eq {x : Int} (h1 : -2 ^ 63 ≤ x) (h2 : x < 2 ^ 63) : wrap x = x := by
  unfold wrap
  omega

theorem mem_vertices {n : Nat} {v : Int} : v ∈ vertices n ↔ 0 ≤ v ∧ v < n := by
  unfold vertices
  simp only [List.mem_map, List.mem_range]
  constructor
  · rintro ⟨i, hi, rfl⟩
    simp only [Int.ofNat_eq_coe]
    omega
  · intro h
    exact ⟨v.toNat, by omega, by simp only [Int.ofNat_eq_coe]; omega⟩

theorem vertices_nodup (n : Nat) : (vertices n).Nodup := by
  unfold vertices
  exact (List.nodup_range n).map (fun a b h => Int.ofNat.inj h)

theorem Adjacent_mkGraph (table : List (List (Int × Int))) (v : Int) :
    (mkGraph table).Adjacent v =
      if 0 ≤ v then (table.getD v.toNat []).map (fun e => e.1) else [] := by
  unfold TestGraph.Adjacent mkGraph
  simp only
  split_ifs with h
  · simp only [List.getD_eq_getElem?_getD, List.getElem?_map]
    cases table[v.toNat]? <;> rfl
  · rfl

/-- A capacity that is not zero belongs to a listed edge. -/
theorem capacityOf_ne_zero {table : List (List (Int × Int))} {v u : Int}
    (h : capacityOf table v u ≠ 0) : u ∈ (mkGraph table).Adjacent v := by
  rw [Adjacent_mkGraph]
  unfold capacityOf at h
  split_ifs at h ⊢ with hv
  · cases hf : (table.getD v.toNat []).reverse.find? (fun e => decide (e.1 = u)) with
    | none => rw [hf] at h; simp at h
    | some e =>
      have h1 := List.find?_some hf
      have h2 := List.mem_of_find?_eq_some hf
      simp only [decide_eq_true_eq] at h1
      simp only [List.mem_reverse] at h2
      exact List.mem_map.2 ⟨e, h2, h1⟩
  · exact absurd rfl h

theorem Adjacent_eq_nil {table : List (List (Int × Int))} {v : Int}
    (hv : v ∉ vertices table.length) : (mkGraph table).Adjacent v = [] := by
  rw [Adjacent_mkGraph]
  split_ifs with h
  · rw [mem_vertices] at hv
    have : table.length ≤ v.toNat := by omega
    simp [List.getD_eq_getElem?_getD, List.getElem?_eq_none this]
  · rfl

theorem Valid.cap_nonneg {table : List (List (Int × Int))} (h : Valid table) (v u : Int) :
    0 ≤ capacityOf table v u := by
  by_contra hc
  have hne : capacityOf table v u ≠ 0 := by omega
  have hm := capacityOf_ne_zero hne
  by_cases hv : v ∈ vertices table.length
  · exact hc (h.2 v hv u (h.1 v hv u hm).1)
  · rw [Adjacent_eq_nil hv] at hm
    cases hm

/-- Where no edge is listed the capacity is zero in both directions. -/
theorem Valid.cap_zero {table : List (List (Int × Int))} (h : Valid table) {v u : Int}
    (hn : u ∉ (mkGraph table).Adjacent v) :
    capacityOf table v u = 0 ∧ capacityOf table u v = 0 := by
  constructor
  · by_contra hc
    exact hn (capacityOf_ne_zero hc)
  · by_contra hc
    have hm := capacityOf_ne_zero hc
    by_cases hu : u ∈ vertices table.length
    · exact hn (h.1 u hu v hm).2
    · rw [Adjacent_eq_nil hu] at hm
      cases hm


theorem sum_map_eq_finset (V : List Int) (hV : V.Nodup) (f : Int → Int) :
    (V.map f).sum = ∑ x in V.toFinset, f x :=
  (List.sum_toFinset f hV).symm

theorem outflow_eq_finset (V : List Int) (hV : V.Nodup) (f : Int → Int → Int) (v : Int) :
    outflow V f v = ∑ u in V.toFinset, f v u :=
  sum_map_eq_finset V hV _

theorem totalCapacity_eq (table : List (List (Int × Int))) :
    totalCapacity table =
      ∑ p in (vertices table.length).toFinset ×ˢ (vertices table.length).toFinset,
        capacityOf table p.1 p.2 := by
  unfold totalCapacity
  rw [sum_map_eq_finset _ (vertices_nodup _), Finset.sum_product]
  refine Finset.sum_congr rfl fun v _ => ?_
  rw [sum_map_eq_finset _ (vertices_nodup _)]

/-- A capacity is at most the sum of all capacities. -/
theorem Valid.cap_le_total {table : List (List (Int × Int))} (h : Valid table) (v u : Int) :
    capacityOf table v u ≤ totalCapacity table := by
  have hnn : ∀ p ∈ (vertices table.length).toFinset ×ˢ (vertices table.length).toFinset,
      0 ≤ capacityOf table p.1 p.2 := fun p _ => h.cap_nonneg _ _
  by_cases hm : v ∈ vertices table.length ∧ u ∈ vertices table.length
  · rw [totalCapacity_eq]
    exact Finset.single_le_sum (f := fun p : Int × Int => capacityOf table p.1 p.2) hnn
      (a := (v, u)) (by simp [hm.1, hm.2])
  · have h0 : capacityOf table v u = 0 := by
      by_contra hc
      have hadj := capacityOf_ne_zero hc
      by_cases hv : v ∈ vertices table.length
      · exact hm ⟨hv, (h.1 v hv u hadj).1⟩
      · rw [Adjacent_eq_nil hv] at hadj
        cases hadj
    rw [h0, totalCapacity_eq]
    exact Finset.sum_nonneg hnn

/-- The capacities of an edge and of its reverse together are at most the sum
of all capacities. -/
theorem Valid.cap_add_le_total {table : List (List (Int × Int))} (h : Valid table)
    {v u : Int} (hvu : v ≠ u) :
    capacityOf table v u + capacityOf table u v ≤ totalCapacity table := by
  have hnn : ∀ p ∈ (vertices table.length).toFinset ×ˢ (vertices table.length).toFinset,
      0 ≤ capacityOf table p.1 p.2 := fun p _ => h.cap_nonneg _ _
  by_cases hm : v ∈ vertices table.length ∧ u ∈ vertices table.length
  · rw [totalCapacity_eq]
    have hsub : ({(v, u), (u, v)} : Finset (Int × Int)) ⊆
        (vertices table.length).toFinset ×ˢ (vertices table.length).toFinset := by
      intro p hp
      simp only [Finset.mem_insert, Finset.mem_singleton] at hp
      rcases hp with rfl | rfl <;> simp [hm.1, hm.2]
    have := Finset.sum_le_sum_of_subset_of_nonneg
      (f := fun p : Int × Int => capacityOf table p.1 p.2) hsub (fun p hp _ => hnn p hp)
    rw [Finset.sum_pair (by
      intro he
      exact hvu (congrArg Prod.fst he))] at this
    exact this
  · have h0 : capacityOf table v u = 0 ∧ capacityOf table u v = 0 := by
      apply h.cap_zero
      intro hadj
      by_cases hv : v ∈ vertices table.length
      · exact hm ⟨hv, (h.1 v hv u hadj).1⟩
      · rw [Adjacent_eq_nil hv] at hadj
        cases hadj
    rw [h0.1, h0.2, totalCapacity_eq]
    simpa using Finset.sum_nonneg hnn

/-- The capacities of the edges leaving a vertex together are at most the sum
of all capacities. -/
theorem Valid.out_le_total {table : List (List (Int × Int))} (h : Valid table) (v : Int)
    (hv : v ∈ vertices table.length) :
    outflow (vertices table.length) (capacityOf table) v ≤ totalCapacity table := by
  rw [outflow_eq_finset _ (vertices_nodup _), totalCapacity_eq, Finset.sum_product]
  exact Finset.single_le_sum
    (f := fun v => ∑ u in (vertices table.length).toFinset, capacityOf table v u)
    (fun v _ => Finset.sum_nonneg fun u _ => h.cap_nonneg v u)
    (List.mem_toFinset.2 hv)

/-- Changing one term of a sum. -/
theorem sum_map_update (V : List Int) (hV : V.Nodup) (y : Int) (hy : y ∈ V) (f g : Int → Int)
    (c : Int) (hy' : g y = f y + c) (ho : ∀ u, u ≠ y → g u = f u) :
    (V.map g).sum = (V.map f).sum + c := by
  induction V with
  | nil => cases hy
  | cons a V ih =>
    obtain ⟨ha, hV'⟩ := List.nodup_cons.1 hV
    simp only [List.map_cons, List.sum_cons]
    rcases List.mem_cons.1 hy with rfl | hy''
    · have : V.map g = V.map f := List.map_congr_left fun u hu => ho u (fun e => ha (e ▸ hu))
      rw [this, hy']
      ring
    · rw [ih hV' hy'', ho a (fun e => ha (e ▸ hy''))]
      ring

theorem sum_map_same (V : List Int) (f g : Int → Int) (ho : ∀ u, g u = f u) :
    (V.map g).sum = (V.map f).sum := by
  rw [List.map_congr_left fun u _ => ho u]


theorem Pre.flow_self {table : List (List (Int × Int))} {s : TestGraph} (h : Pre table s)
    (v : Int) : s.flow v v = 0 := by
  have := h.antisymm v v
  omega

theorem Pre.Adjacent_eq {table : List (List (Int × Int))} {s : TestGraph} (h : Pre table s)
    (v : Int) : s.Adjacent v = (mkGraph table).Adjacent v := by
  unfold TestGraph.Adjacent
  rw [h.edges]

/-- Within the capacities the subtraction of `ResidualCapacity` does not wrap
around. -/
theorem Pre.residual_eq {table : List (List (Int × Int))} {s : TestGraph} (h : Pre table s)
    (hT : Valid table) (hM : totalCapacity table < 2 ^ 63) (v u : Int) :
    s.ResidualCapacity v u = capacityOf table v u - s.flow v u ∧
      0 ≤ capacityOf table v u - s.flow v u := by
  have h1 := h.cap_le v u
  have h2 := h.cap_le u v
  have h3 := h.antisymm v u
  have h4 := hT.cap_le_total v u
  have h5 := hT.cap_nonneg v u
  refine ⟨?_, by omega⟩
  unfold TestGraph.ResidualCapacity
  rw [h.capacity]
  apply wrap_eq
  · omega
  · by_cases hvu : v = u
    · subst hvu
      have := h.flow_self v
      omega
    · have := hT.cap_add_le_total hvu
      omega

/-- The flow after one call of `AddFlow` within the residual capacity. -/
theorem Pre.AddFlow_flow {table : List (List (Int × Int))} {s : TestGraph} (h : Pre table s)
    (hT : Valid table) (hM : totalCapacity table < 2 ^ 63) {v u a : Int} (hvu : v ≠ u)
    (ha : 0 ≤ a) (hr : a ≤ capacityOf table v u - s.flow v u) :
    (s.AddFlow v u a).flow v u = s.flow v u + a ∧
    (s.AddFlow v u a).flow u v = s.flow u v - a ∧
    ∀ x y, ¬ (x = v ∧ y = u) → ¬ (x = u ∧ y = v) → (s.AddFlow v u a).flow x y = s.flow x y := by
  have h1 := h.cap_le v u
  have h2 := h.cap_le u v
  have h3 := h.antisymm v u
  have h4 := hT.cap_le_total v u
  have h5 := hT.cap_le_total u v
  have h6 := hT.cap_nonneg v u
  have h7 := hT.cap_nonneg u v
  have w1 : wrap (s.flow v u + a) = s.flow v u + a := wrap_eq (by omega) (by omega)
  have w2 : wrap (s.flow u v - a) = s.flow u v - a := wrap_eq (by omega) (by omega)
  refine ⟨?_, ?_, fun x y n1 n2 => ?_⟩
  · show (if v = u ∧ u = v then
        wrap ((if v = v ∧ u = u then wrap (s.flow v u + a) else s.flow v u) - a)
      else if v = v ∧ u = u then wrap (s.flow v u + a) else s.flow v u) = _
    rw [if_neg (fun hc => hvu hc.1), if_pos ⟨rfl, rfl⟩, w1]
  · show (if u = u ∧ v = v then
        wrap ((if u = v ∧ v = u then wrap (s.flow u v + a) else s.flow u v) - a)
      else if u = v ∧ v = u then wrap (s.flow u v + a) else s.flow u v) = _
    rw [if_pos ⟨rfl, rfl⟩, if_neg (fun hc => hvu hc.1.symm), w2]
  · simp only [TestGraph.AddFlow]
    rw [if_neg n2, if_neg n1]

theorem Pre.AddFlow_pre {table : List (List (Int × Int))} {s : TestGraph} (h : Pre table s)
    (hT : Valid table) (hM : totalCapacity table < 2 ^ 63) {v u a : Int} (hvu : v ≠ u)
    (ha : 0 ≤ a) (hr : a ≤ capacityOf table v u - s.flow v u) :
    Pre table (s.AddFlow v u a) := by
  obtain ⟨e1, e2, e3⟩ := h.AddFlow_flow hT hM hvu ha hr
  refine ⟨h.edges, h.capacity, fun x y => ?_, fun x y => ?_⟩
  · by_cases c1 : x = v ∧ y = u
    · obtain ⟨rfl, rfl⟩ := c1
      rw [e1]
      omega
    · by_cases c2 : x = u ∧ y = v
      · obtain ⟨rfl, rfl⟩ := c2
        rw [e2]
        have := h.cap_le x y
        omega
      · rw [e3 x y c1 c2]
        exact h.cap_le x y
  · by_cases c1 : x = v ∧ y = u
    · obtain ⟨rfl, rfl⟩ := c1
      rw [e1, e2]
      have := h.antisymm x y
      omega
    · by_cases c2 : x = u ∧ y = v
      · obtain ⟨rfl, rfl⟩ := c2
        rw [e1, e2]
        have := h.antisymm x y
        omega
      · rw [e3 x y c1 c2, e3 y x (fun hc => c2 ⟨hc.2, hc.1⟩) (fun hc => c1 ⟨hc.2, hc.1⟩)]
        exact h.antisymm x y

/-- The net flow out of each vertex after one call of `AddFlow`. -/
theorem Pre.AddFlow_outflow {table : List (List (Int × Int))} {s : TestGraph}
    (h : Pre table s) (hT : Valid table) (hM : totalCapacity table < 2 ^ 63) {v u a : Int}
    (hvu : v ≠ u) (ha : 0 ≤ a) (hr : a ≤ capacityOf table v u - s.flow v u)
    (V : List Int) (hV : V.Nodup) (hv : v ∈ V) (hu : u ∈ V) (w : Int) :
    outflow V (s.AddFlow v u a).flow w =
      outflow V s.flow w + (if w = v then a else 0) - (if w = u then a else 0) := by
  obtain ⟨e1, e2, e3⟩ := h.AddFlow_flow hT hM hvu ha hr
  unfold outflow
  by_cases c1 : w = v
  · subst c1
    rw [if_pos rfl, if_neg hvu]
    rw [sum_map_update V hV u hu (fun y => s.flow w y) _ a e1
      (fun y hy => e3 w y (fun hc => hy hc.2) (fun hc => hvu hc.1))]
    ring
  · by_cases c2 : w = u
    · subst c2
      rw [if_neg c1, if_pos rfl]
      rw [sum_map_update V hV v hv (fun y => s.flow w y) _ (-a) (by rw [e2]; ring)
        (fun y hy => e3 w y (fun hc => c1 hc.1) (fun hc => hy hc.2))]
      ring
    · rw [if_neg c1, if_neg c2]
      rw [sum_map_same V (fun y => s.flow w y) _
        (fun y => e3 w y (fun hc => c1 hc.1) (fun hc => c2 hc.1))]
      ring

/-- The least residual capacity along a path. -/
theorem minResidual_spec {σ : Type} (G : Graph σ) (s : σ) (l : List Int) (f0 : Int) :
    minResidual G s f0 l ≤ f0 ∧
      l.Chain' (fun x y => minResidual G s f0 l ≤ G.ResidualCapacity s x y) ∧
      (0 < f0 → l.Chain' (fun x y => 0 < G.ResidualCapacity s x y) →
        0 < minResidual G s f0 l) := by
  induction l generalizing f0 with
  | nil => simp [minResidual]
  | cons x l ih =>
    cases l with
    | nil => simp [minResidual]
    | cons y rest =>
      simp only [minResidual]
      obtain ⟨i1, i2, i3⟩ := ih
        (if G.ResidualCapacity s x y < f0 then G.ResidualCapacity s x y else f0)
      have hle : (if G.ResidualCapacity s x y < f0 then G.ResidualCapacity s x y else f0) ≤ f0 ∧
          (if G.ResidualCapacity s x y < f0 then G.ResidualCapacity s x y else f0) ≤
            G.ResidualCapacity s x y := by
        split_ifs <;> constructor <;> omega
      refine ⟨le_trans i1 hle.1, List.chain'_cons.2 ⟨le_trans i1 hle.2, i2⟩, fun h0 hc => ?_⟩
      obtain ⟨c1, c2⟩ := List.chain'_cons.1 hc
      exact i3 (by split_ifs <;> omega) c2


theorem exists_repeat (p : List Int) (h : ¬ p.Nodup) :
    ∃ l1 x m1 m2, p = l1 ++ x :: (m1 ++ x :: m2) := by
  induction p with
  | nil => exact absurd List.nodup_nil h
  | cons a t ih =>
    by_cases ha : a ∈ t
    · obtain ⟨m1, m2, rfl⟩ := List.append_of_mem ha
      exact ⟨[], a, m1, m2, rfl⟩
    · have ht : ¬ t.Nodup := fun hn => h (List.nodup_cons.2 ⟨ha, hn⟩)
      obtain ⟨l1, x, m1, m2, rfl⟩ := ih ht
      exact ⟨a :: l1, x, m1, m2, rfl⟩

/-- A shortest path visits no vertex twice. -/
theorem shortest_nodup {g : Bfs.Graph} {src dst : Int} {p : List Int}
    (h : Bfs.Shortest g src dst p) : p.Nodup := by
  by_contra hn
  obtain ⟨l1, x, m1, m2, rfl⟩ := exists_repeat p hn
  obtain ⟨⟨h1, h2, h3⟩, hmin⟩ := h
  have hq : Bfs.IsPath g src dst (l1 ++ x :: m2) := by
    refine ⟨?_, ?_, ?_⟩
    · cases l1 with
      | nil => simpa using h1
      | cons a l => simpa using h1
    · rw [List.getLast?_append_of_ne_nil _ (by simp)] at h2 ⊢
      rw [show x :: (m1 ++ x :: m2) = (x :: m1) ++ x :: m2 from rfl,
        List.getLast?_append_of_ne_nil _ (by simp)] at h2
      exact h2
    · have a1 := (List.chain'_split.1 h3).1
      have a2 := (List.chain'_split.1 h3).2
      rw [show x :: (m1 ++ x :: m2) = (x :: m1) ++ x :: m2 from rfl] at a2
      exact List.chain'_split.2 ⟨a1, (List.chain'_split.1 a2).2⟩
  have := hmin _ hq
  simp only [List.length_append, List.length_cons] at this
  omega

/-- The effect of the calls of `AddFlow` along a path without repetition on
which every edge has at least the residual capacity `a`: the state stays
within the capacities, the first vertex of the path sends `a` more and the
last one `a` less. -/
theorem addFlows_spec {table : List (List (Int × Int))} (hT : Valid table)
    (hM : totalCapacity table < 2 ^ 63) (V : List Int) (hV : V.Nodup) (a : Int) (ha : 0 ≤ a)
    (l : List Int) (s : TestGraph) (calls : List (Int × Int × Int)) (h : Pre table s)
    (hl : l.Nodup) (hlV : ∀ x ∈ l, x ∈ V)
    (hc : l.Chain' (fun x y => a ≤ capacityOf table x y - s.flow x y)) :
    Pre table (addFlows testGraph a s calls l).1 ∧
      ∀ w, outflow V (addFlows testGraph a s calls l).1.flow w =
        outflow V s.flow w + (if l.head? = some w then a else 0)
          - (if l.getLast? = some w then a else 0) := by
  induction l generalizing s calls with
  | nil => simp [addFlows, h]
  | cons x l ih =>
    cases l with
    | nil =>
      refine ⟨by simpa [addFlows] using h, fun w => ?_⟩
      simp only [addFlows, List.head?_cons, List.getLast?_singleton]
      ring
    | cons y rest =>
      simp only [addFlows]
      obtain ⟨c1, c2⟩ := List.chain'_cons.1 hc
      obtain ⟨n1, n2⟩ := List.nodup_cons.1 hl
      have hxy : x ≠ y := fun e => n1 (e ▸ List.mem_cons_self _ _)
      have hx : x ∈ V := hlV x (List.mem_cons_self _ _)
      have hy : y ∈ V := hlV y (List.mem_cons_of_mem _ (List.mem_cons_self _ _))
      obtain ⟨e1, e2, e3⟩ := h.AddFlow_flow hT hM hxy ha c1
      have hpre := h.AddFlow_pre hT hM hxy ha c1
      have hout := h.AddFlow_outflow hT hM hxy ha c1 V hV hx hy
      have hc' : (y :: rest).Chain'
          (fun u v => a ≤ capacityOf table u v - (testGraph.AddFlow s x y a).flow u v) := by
        have hmem : ∀ u v, u ∈ y :: rest → v ∈ y :: rest →
            (testGraph.AddFlow s x y a).flow u v = s.flow u v := by
          intro u v hu hv
          apply e3
          · rintro ⟨rfl, -⟩
            exact n1 hu
          · rintro ⟨-, rfl⟩
            exact n1 hv
        have hsub : ∀ (t : List Int), (∀ u ∈ t, u ∈ y :: rest) →
            t.Chain' (fun u v => a ≤ capacityOf table u v - s.flow u v) →
            t.Chain' (fun u v => a ≤ capacityOf table u v -
              (testGraph.AddFlow s x y a).flow u v) := by
          intro t
          induction t with
          | nil => intro _ _; exact List.chain'_nil
          | cons u t iht =>
            intro hm hch
            cases t with
            | nil => exact List.chain'_singleton _
            | cons v t =>
              obtain ⟨d1, d2⟩ := List.chain'_cons.1 hch
              refine List.chain'_cons.2 ⟨?_, iht (fun z hz => hm z (List.mem_cons_of_mem _ hz)) d2⟩
              rw [hmem u v (hm u (List.mem_cons_self _ _))
                (hm v (List.mem_cons_of_mem _ (List.mem_cons_self _ _)))]
              exact d1
        exact hsub _ (fun u hu => hu) c2
      obtain ⟨i1, i2⟩ := ih (testGraph.AddFlow s x y a) (calls ++ [(x, y, a)]) hpre n2
        (fun z hz => hlV z (List.mem_cons_of_mem _ hz)) hc'
      refine ⟨i1, fun w => ?_⟩
      rw [i2 w]
      have hw := hout w
      change outflow V (TestGraph.AddFlow s x y a).flow w = _ at hw
      change outflow V (TestGraph.AddFlow s x y a).flow w + _ - _ = _
      rw [hw]
      have hlast : (x :: y :: rest).getLast? = (y :: rest).getLast? := by
        simp [List.getLast?_cons_cons]
      rw [hlast]
      simp only [List.head?_cons, Option.some.injEq]
      by_cases k1 : w = x
      · subst k1
        have : ¬ (y = w) := fun e => hxy e.symm
        simp [this, hxy]
      · by_cases k2 : w = y
        · subst k2
          have : ¬ (x = w) := fun e => k1 e.symm
          simp [this, k1]
        · have t1 : ¬ (x = w) := fun e => k1 e.symm
          have t2 : ¬ (y = w) := fun e => k2 e.symm
          simp [t1, t2, k1, k2]


theorem chain_mem {g : Bfs.Graph} {V : List Int} (hV : Bfs.Closed g V) (l : List Int)
    (hc : l.Chain' (fun x y => y ∈ g x)) (hh : ∀ x, l.head? = some x → x ∈ V) :
    ∀ x ∈ l, x ∈ V := by
  induction l with
  | nil => intro x hx; cases hx
  | cons a l ih =>
    have ha : a ∈ V := hh a rfl
    cases l with
    | nil =>
      intro x hx
      simp only [List.mem_singleton] at hx
      exact hx ▸ ha
    | cons b l =>
      obtain ⟨c1, c2⟩ := List.chain'_cons.1 hc
      have hb : b ∈ V := hV a ha b c1
      have := ih c2 (fun x hx => by
        simp only [List.head?_cons, Option.some.injEq] at hx
        exact hx ▸ hb)
      intro x hx
      rcases List.mem_cons.1 hx with rfl | hx
      · exact ha
      · exact this x hx

theorem mem_residualGraph {σ : Type} (G : Graph σ) (s : σ) (v u : Int) :
    u ∈ residualGraph G s v ↔ u ∈ G.Adjacent s v ∧ 0 < G.ResidualCapacity s v u := by
  unfold residualGraph
  simp [List.mem_filter]

theorem Pre.residual_closed {table : List (List (Int × Int))} {s : TestGraph}
    (h : Pre table s) (hT : Valid table) :
    Bfs.Closed (residualGraph testGraph s) (vertices table.length) := by
  intro v hv u hu
  rw [mem_residualGraph] at hu
  have h1 : u ∈ s.Adjacent v := hu.1
  rw [h.Adjacent_eq] at h1
  exact (hT.1 v hv u h1).1

theorem length_vertices (n : Nat) : (vertices n).length = n := by
  simp [vertices]

theorem outflow_mono (V : List Int) (f g : Int → Int → Int) (v : Int)
    (h : ∀ u, f v u ≤ g v u) : outflow V f v ≤ outflow V g v := by
  unfold outflow
  induction V with
  | nil => simp
  | cons a V ih =>
    simp only [List.map_cons, List.sum_cons]
    have := h a
    omega

/-- One pass of the loop: the flow is increased along the path found. -/
theorem Good.augment {table : List (List (Int × Int))} {source sink : Int} {s : TestGraph}
    {flow : Int} (hg : Good table source sink s flow) (hT : Valid table)
    (hM : totalCapacity table < 2 ^ 63) (hne : source ≠ sink)
    (hs : source ∈ vertices table.length) (a b : Int) (rest : List Int)
    (hp : Bfs.Shortest (residualGraph testGraph s) source sink (a :: b :: rest))
    (calls : List (Int × Int × Int)) :
    0 < minResidual testGraph s (testGraph.ResidualCapacity s a b) (b :: rest) ∧
    Good table source sink
      (addFlows testGraph (minResidual testGraph s (testGraph.ResidualCapacity s a b) (b :: rest))
        s calls (a :: b :: rest)).1
      (flow + minResidual testGraph s (testGraph.ResidualCapacity s a b) (b :: rest)) ∧
    flow + minResidual testGraph s (testGraph.ResidualCapacity s a b) (b :: rest) ≤
      totalCapacity table := by
  have hnd := shortest_nodup hp
  obtain ⟨⟨h1, h2, h3⟩, -⟩ := hp
  have hmem := chain_mem (hg.pre.residual_closed hT) _ h3 (fun x hx => by
    rw [h1] at hx
    exact (Option.some.inj hx) ▸ hs)
  have hpos : (a :: b :: rest).Chain' (fun x y => 0 < testGraph.ResidualCapacity s x y) :=
    h3.imp (fun {x y} hxy => ((mem_residualGraph testGraph s x y).1 hxy).2)
  obtain ⟨p1, p2⟩ := List.chain'_cons.1 hpos
  obtain ⟨m1, m2, m3⟩ := minResidual_spec testGraph s (b :: rest) (testGraph.ResidualCapacity s a b)
  have hf := m3 p1 p2
  generalize minResidual testGraph s (testGraph.ResidualCapacity s a b) (b :: rest) = f
    at m1 m2 hf ⊢
  have hch : (a :: b :: rest).Chain' (fun x y => f ≤ capacityOf table x y - s.flow x y) := by
    have e : ∀ x y, testGraph.ResidualCapacity s x y = capacityOf table x y - s.flow x y :=
      fun x y => (hg.pre.residual_eq hT hM x y).1
    refine List.chain'_cons.2 ⟨?_, m2.imp (fun {x y} hxy => ?_)⟩
    · rw [← e]; exact m1
    · rw [← e]; exact hxy
  obtain ⟨q1, q2⟩ := addFlows_spec hT hM (vertices table.length) (vertices_nodup _) f
    (le_of_lt hf) (a :: b :: rest) s calls hg.pre hnd hmem hch
  have hsrc : (a :: b :: rest).head? = some source := h1
  have hval : outflow (vertices table.length)
      (addFlows testGraph f s calls (a :: b :: rest)).1.flow source = flow + f := by
    rw [q2 source, hg.value, if_pos h1, if_neg (by rw [h2]; intro e; exact hne (Option.some.inj e).symm)]
    ring
  refine ⟨hf, ⟨q1, fun v hv n1 n2 => ?_, hval, by have := hg.nonneg; omega⟩, ?_⟩
  · rw [q2 v, hg.conserve v hv n1 n2, if_neg (by rw [h1]; intro e; exact n1 (Option.some.inj e).symm),
      if_neg (by rw [h2]; intro e; exact n2 (Option.some.inj e).symm)]
    ring
  · rw [← hval]
    exact le_trans (outflow_mono _ _ _ _ (fun u => q1.cap_le source u)) (hT.out_le_total source hs)

/-- The loop of `EdmondsKarp` ends with a feasible flow in whose residual graph
the sink cannot be reached, and returns the value of that flow. -/
theorem EdmondsKarpLoop_good {table : List (List (Int × Int))} (hT : Valid table)
    (hM : totalCapacity table < 2 ^ 63) {source sink : Int} (hne : source ≠ sink)
    (hs : source ∈ vertices table.length) (fuel : Nat) (hfuel : 2 * table.length + 1 ≤ fuel)
    (n : Nat) (s : TestGraph) (calls : List (Int × Int × Int)) (flow : Int)
    (hg : Good table source sink s flow) (hn : (totalCapacity table - flow).toNat < n) :
    ∃ r value, EdmondsKarpLoop testGraph source sink fuel n s calls flow = some r ∧
      r.outcome = .ret value ∧ Good table source sink r.state value ∧
      ¬ Bfs.Reach (residualGraph testGraph r.state) source sink := by
  induction n generalizing s calls flow with
  | zero => omega
  | succ n ih =>
    obtain ⟨pr, hpr⟩ := Bfs.Path_returns (residualGraph testGraph s) (vertices table.length)
      source sink (hg.pre.residual_closed hT) hs
    rw [length_vertices] at hpr
    have hpr' := Bfs.Path_fuel _ source sink hfuel pr hpr
    simp only [EdmondsKarpLoop, hpr']
    cases pr with
    | none =>
      exact ⟨_, flow, rfl, rfl, hg, Bfs.Path_nil _ _ _ _ hpr'⟩
    | some p =>
      have hsh := Bfs.Path_spec _ _ _ _ p hpr'
      match p, hsh, hpr' with
      | [], hsh, _ => exact absurd hsh.1.1 (by simp)
      | [x], _, hpr' => exact absurd hpr' (Path_ne_singleton _ _ _ _ x hne)
      | a :: b :: rest, hsh, _ =>
        obtain ⟨k1, k2, k3⟩ := hg.augment hT hM hne hs a b rest hsh calls
        simp only
        rw [if_neg (by omega)]
        have hw : wrap (flow + minResidual testGraph s (testGraph.ResidualCapacity s a b)
            (b :: rest)) = flow + minResidual testGraph s (testGraph.ResidualCapacity s a b)
            (b :: rest) := wrap_eq (by have := hg.nonneg; omega) (by omega)
        rw [hw]
        exact ih _ _ _ k2 (by omega)

/-- A result of the loop of `EdmondsKarp` is its result with every larger
bound on the iterations. -/
theorem EdmondsKarpLoop_fuel {σ : Type} (G : Graph σ) (source sink : Int) {f f' : Nat}
    (hf : f ≤ f') {n n' : Nat} (hn : n ≤ n') (s : σ) (calls : List (Int × Int × Int))
    (flow : Int) (r : Run σ) (h : EdmondsKarpLoop G source sink f n s calls flow = some r) :
    EdmondsKarpLoop G source sink f' n' s calls flow = some r := by
  induction n generalizing n' s calls flow with
  | zero => simp [EdmondsKarpLoop] at h
  | succ n ih =>
    obtain ⟨m, rfl⟩ : ∃ m, n' = m + 1 := ⟨n' - 1, by omega⟩
    simp only [EdmondsKarpLoop] at h ⊢
    cases hp : Bfs.Path f (residualGraph G s) source sink with
    | none => rw [hp] at h; cases h
    | some pr =>
      rw [hp] at h
      rw [Bfs.Path_fuel _ source sink hf pr hp]
      match pr, h with
      | none, h => exact h
      | some [], h => exact h
      | some [x], h => exact h
      | some (a :: b :: rest), h =>
        simp only at h ⊢
        split_ifs at h ⊢ with hc
        · exact h
        · exact ih (by omega) _ _ _ h


/-- The value of a flow is what crosses a cut between the source and the
sink. -/
theorem cut_value (V : List Int) (hV : V.Nodup) (f : Int → Int → Int) (source sink : Int)
    (hanti : ∀ v u, f v u = -f u v)
    (hcons : ∀ v ∈ V, v ≠ source → v ≠ sink → outflow V f v = 0)
    (S : Finset Int) (hS : S ⊆ V.toFinset) (hs : source ∈ S) (hk : sink ∉ S) :
    outflow V f source = ∑ v in S, ∑ u in V.toFinset \ S, f v u := by
  have A : ∑ v in S, outflow V f v = outflow V f source :=
    Finset.sum_eq_single_of_mem source hs (fun b hb hne =>
      hcons b (List.mem_toFinset.1 (hS hb)) hne (fun e => hk (e ▸ hb)))
  have B : ∀ v, outflow V f v = ∑ u in S, f v u + ∑ u in V.toFinset \ S, f v u := by
    intro v
    rw [outflow_eq_finset V hV, ← Finset.sum_sdiff hS]
    ring
  have C : ∑ v in S, ∑ u in S, f v u = 0 := by
    have h1 : ∑ v in S, ∑ u in S, f v u = -∑ v in S, ∑ u in S, f v u := by
      conv_lhs => rw [Finset.sum_comm]
      rw [← Finset.sum_neg_distrib]
      refine Finset.sum_congr rfl fun v _ => ?_
      rw [← Finset.sum_neg_distrib]
      exact Finset.sum_congr rfl fun u _ => hanti u v
    omega
  rw [← A, Finset.sum_congr rfl (fun v _ => B v), Finset.sum_add_distrib, C, zero_add]

theorem reach_refl (g : Bfs.Graph) (a : Int) : Bfs.Reach g a a :=
  ⟨[a], rfl, rfl, List.chain'_singleton _⟩

theorem reach_step {g : Bfs.Graph} {a v u : Int} (h : Bfs.Reach g a v) (hu : u ∈ g v) :
    Bfs.Reach g a u := by
  obtain ⟨q, h1, h2, h3⟩ := h
  refine ⟨q ++ [u], ?_, by simp, ?_⟩
  · cases q with
    | nil => cases h1
    | cons c q => simpa using h1
  · refine List.chain'_append.2 ⟨h3, List.chain'_singleton _, fun x hx y hy => ?_⟩
    rw [h2] at hx
    simp only [Option.mem_def, Option.some.injEq, List.head?_cons] at hx hy
    subst hx hy
    exact hu

/-- When the sink cannot be reached in the residual graph no feasible flow has
a greater value. -/
theorem Good.maximal {table : List (List (Int × Int))} {source sink : Int} {s : TestGraph}
    {flow : Int} (hg : Good table source sink s flow) (hT : Valid table)
    (hM : totalCapacity table < 2 ^ 63) (hs : source ∈ vertices table.length)
    (hnr : ¬ Bfs.Reach (residualGraph testGraph s) source sink) (f' : Int → Int → Int)
    (hf' : Feasible (vertices table.length) (capacityOf table) source sink f') :
    outflow (vertices table.length) f' source ≤ flow := by
  classical
  have hV := vertices_nodup table.length
  have hsub : (vertices table.length).toFinset.filter
      (fun v => Bfs.Reach (residualGraph testGraph s) source v) ⊆
      (vertices table.length).toFinset := Finset.filter_subset _ _
  have hsrc : source ∈ (vertices table.length).toFinset.filter
      (fun v => Bfs.Reach (residualGraph testGraph s) source v) :=
    Finset.mem_filter.2 ⟨List.mem_toFinset.2 hs, reach_refl _ _⟩
  have hsnk : sink ∉ (vertices table.length).toFinset.filter
      (fun v => Bfs.Reach (residualGraph testGraph s) source v) :=
    fun h => hnr (Finset.mem_filter.1 h).2
  rw [← hg.value, cut_value _ hV f' source sink hf'.antisymm hf'.conserve _ hsub hsrc hsnk,
    cut_value _ hV s.flow source sink hg.pre.antisymm hg.conserve _ hsub hsrc hsnk]
  refine Finset.sum_le_sum fun v hv => Finset.sum_le_sum fun u hu => ?_
  refine le_trans (hf'.cap_le v u) (le_of_eq ?_)
  obtain ⟨hvV, hvr⟩ := Finset.mem_filter.1 hv
  obtain ⟨huV, hun⟩ := Finset.mem_sdiff.1 hu
  have hur : ¬ Bfs.Reach (residualGraph testGraph s) source u :=
    fun h => hun (Finset.mem_filter.2 ⟨huV, h⟩)
  obtain ⟨e1, e2⟩ := hg.pre.residual_eq hT hM v u
  by_cases hadj : u ∈ (mkGraph table).Adjacent v
  · by_contra hlt
    have hpos : 0 < testGraph.ResidualCapacity s v u := by
      change 0 < s.ResidualCapacity v u
      rw [e1]
      have := hg.pre.cap_le v u
      omega
    have hmem : u ∈ residualGraph testGraph s v := by
      rw [mem_residualGraph]
      refine ⟨?_, hpos⟩
      change u ∈ s.Adjacent v
      rw [hg.pre.Adjacent_eq]
      exact hadj
    exact hur (reach_step hvr hmem)
  · obtain ⟨z1, z2⟩ := hT.cap_zero hadj
    have a1 := hg.pre.cap_le v u
    have a2 := hg.pre.cap_le u v
    have a3 := hg.pre.antisymm v u
    omega

theorem outflow_zero (V : List Int) (v : Int) : outflow V (fun _ _ => 0) v = 0 := by
  unfold outflow
  simp

theorem Good.start {table : List (List (Int × Int))} (hT : Valid table) (source sink : Int) :
    Good table source sink (mkGraph table) 0 :=
  ⟨⟨rfl, rfl, fun v u => hT.cap_nonneg v u, fun _ _ => rfl⟩,
    fun v _ _ _ => outflow_zero _ v, outflow_zero _ source, le_refl _⟩

/-! ## The claims on `maxflow.EdmondsKarp` -/

/-- C23: for every graph and every vertex `v`, `EdmondsKarp(g, v, v)` panics
with "source == sink" in its first iteration, without a call of `AddFlow` and
with the graph unchanged; with `source != sink` a call that ends does not end
with this panic. -/
theorem EdmondsKarp_panics_iff_same :
    (∀ (σ : Type) (G : Graph σ) (s : σ) (v : Int) (fuel : Nat),
      EdmondsKarp (fuel + 1) G s v v = some ⟨s, [], .panic "source == sink"⟩) ∧
    ∀ (σ : Type) (G : Graph σ) (s : σ) (source sink : Int) (fuel : Nat) (r : Run σ),
      source ≠ sink → EdmondsKarp fuel G s source sink = some r →
        r.outcome ≠ .panic "source == sink" := by
  refine ⟨fun σ G s v fuel => ?_, fun σ G s source sink fuel r h hr => ?_⟩
  · simp [EdmondsKarp, EdmondsKarpLoop, Bfs.Path]
  · exact EdmondsKarpLoop_no_panic G source sink h fuel fuel s [] 0 r hr


theorem EdmondsKarp_panics_iff_same_witness :
    (0 : Int) ≠ 1 ∧
      (EdmondsKarp 5 testGraph (mkGraph [[(1, 4)], [(0, 0)]]) 0 1).isSome = true ∧
      ∀ r, EdmondsKarp 5 testGraph (mkGraph [[(1, 4)], [(0, 0)]]) 0 1 = some r →
        r.outcome ≠ .panic "source == sink" :=
  ⟨by decide, by decide, fun r hr =>
    EdmondsKarp_panics_iff_same.2 TestGraph testGraph (mkGraph [[(1, 4)], [(0, 0)]]) 0 1 5 r
      (by decide) hr⟩

/-- C22, counterexample to the claim as worded: in the network with the edges
`0 → 1 → 3` and `0 → 2 → 3`, each of capacity `2^62`, the flow left in the
graph has the value `2^63`, and `EdmondsKarp` returns `-2^63`: the sum of the
two augmentations wraps around in the 64-bit `int` that holds the result. -/
theorem EdmondsKarp_overflow :
    Valid [[(1, 2 ^ 62), (2, 2 ^ 62)], [(0, 0), (3, 2 ^ 62)], [(0, 0), (3, 2 ^ 62)],
      [(1, 0), (2, 0)]] ∧
    ∃ r, EdmondsKarp 9 testGraph (mkGraph [[(1, 2 ^ 62), (2, 2 ^ 62)], [(0, 0), (3, 2 ^ 62)],
        [(0, 0), (3, 2 ^ 62)], [(1, 0), (2, 0)]]) 0 3 = some r ∧
      r.outcome = .ret (-2 ^ 63) ∧ outflow (vertices 4) r.state.flow 0 = 2 ^ 63 := by
  refine ⟨by decide, _, rfl, by decide, by decide⟩

/-- C22 (amended): on every flow network of the kind used in the test (edges
listed in both directions, capacities that are not negative, flow zero at the
start) whose capacities add up to less than `2^63`, and for every vertex
`source` and every `sink` other than it, `EdmondsKarp` returns, with every
large enough bound on the iterations, a value; the flow left in the graph is
feasible (within the capacities, antisymmetric, conserved at every vertex other
than `source` and `sink`), has this value, and no feasible flow has a greater
value.  The edges and the capacities of the graph are left as they were. -/
theorem EdmondsKarp_max_flow (table : List (List (Int × Int))) (source sink : Int)
    (hT : Valid table) (hM : totalCapacity table < 2 ^ 63)
    (hs : source ∈ vertices table.length) (hne : source ≠ sink) :
    ∃ r value,
      (∀ fuel, 2 * table.length + 1 + (totalCapacity table).toNat ≤ fuel →
        EdmondsKarp fuel testGraph (mkGraph table) source sink = some r) ∧
      r.outcome = .ret value ∧
      r.state.edges = (mkGraph table).edges ∧ r.state.capacity = capacityOf table ∧
      Feasible (vertices table.length) (capacityOf table) source sink r.state.flow ∧
      outflow (vertices table.length) r.state.flow source = value ∧
      ∀ f', Feasible (vertices table.length) (capacityOf table) source sink f' →
        outflow (vertices table.length) f' source ≤ value := by
  obtain ⟨r, value, h1, h2, h3, h4⟩ := EdmondsKarpLoop_good hT hM hne hs
    (2 * table.length + 1 + (totalCapacity table).toNat) (by omega)
    (2 * table.length + 1 + (totalCapacity table).toNat) (mkGraph table) [] 0
    (Good.start hT source sink) (by simp only [sub_zero]; omega)
  refine ⟨r, value, fun fuel hfuel => ?_, h2, h3.pre.edges, h3.pre.capacity,
    ⟨h3.pre.cap_le, h3.pre.antisymm, h3.conserve⟩, h3.value,
    fun f' hf' => h3.maximal hT hM hs h4 f' hf'⟩
  exact EdmondsKarpLoop_fuel testGraph source sink hfuel hfuel _ _ _ r h1

theorem EdmondsKarp_max_flow_witness :
    Valid [[(1, 3), (2, 2)], [(0, 0), (2, 1), (3, 2)], [(0, 0), (1, 0), (3, 3)],
      [(1, 0), (2, 0)]] ∧
    ∃ r value,
      (∀ fuel, 2 * 4 + 1 + (11 : Int).toNat ≤ fuel →
        EdmondsKarp fuel testGraph (mkGraph [[(1, 3), (2, 2)], [(0, 0), (2, 1), (3, 2)],
          [(0, 0), (1, 0), (3, 3)], [(1, 0), (2, 0)]]) 0 3 = some r) ∧
      r.outcome = .ret value ∧
      ∀ f', Feasible (vertices 4) (capacityOf [[(1, 3), (2, 2)], [(0, 0), (2, 1), (3, 2)],
          [(0, 0), (1, 0), (3, 3)], [(1, 0), (2, 0)]]) 0 3 f' →
        outflow (vertices 4) f' 0 ≤ value :=
  ⟨by decide,
    (EdmondsKarp_max_flow [[(1, 3), (2, 2)], [(0, 0), (2, 1), (3, 2)],
      [(0, 0), (1, 0), (3, 3)], [(1, 0), (2, 0)]] 0 3 (by decide) (by decide) (by decide)
      (by decide)).imp fun _ h => h.imp fun _ h => ⟨h.1, h.2.1, h.2.2.2.2.2.2⟩⟩

end Maxflow

namespace Heap

variable {α β γ : Type}

/-! ## The sentinel in memory -/

theorem Keeps.pure [Inhabited α] {n : Nat} {Q : Nat → β → Prop} {b : β} (h : Q n b) :
    Keeps n (Pure.pure b : M α β) Q := by
  intro s hs hn
  exact ⟨hs, hn ▸ h⟩

theorem Keeps.bind [Inhabited α] {n : Nat} {m : M α β} {f : β → M α γ} {R : Nat → β → Prop}
    {Q : Nat → γ → Prop} (hm : Keeps n m R) (hf : ∀ n' b, R n' b → Keeps n' (f b) Q) :
    Keeps n (m >>= f) Q := by
  intro s hs hn
  have h1 := hm s hs hn
  show match (match m s with
    | .ok b s' => f b s'
    | .fault s' => .fault s'
    | .timeout s' => .timeout s') with
    | .ok b s' => Typed s' ∧ Q s'.next b
    | .fault s' => Typed s'
    | .timeout s' => Typed s'
  cases hms : m s with
  | ok b s' =>
    rw [hms] at h1
    exact hf _ b h1.2 s' h1.1 rfl
  | fault s' =>
    rw [hms] at h1
    exact h1
  | timeout s' =>
    rw [hms] at h1
    exact h1

theorem Keeps.mono [Inhabited α] {n : Nat} {m : M α β} {Q Q' : Nat → β → Prop}
    (hm : Keeps n m Q) (h : ∀ n' b, Q n' b → Q' n' b) : Keeps n m Q' := by
  intro s hs hn
  have h1 := hm s hs hn
  cases hms : m s with
  | ok b s' =>
    rw [hms] at h1
    exact ⟨h1.1, h _ _ h1.2⟩
  | fault s' =>
    rw [hms] at h1
    exact h1
  | timeout s' =>
    rw [hms] at h1
    exact h1

theorem Keeps.outOfFuel [Inhabited α] {n : Nat} {Q : Nat → β → Prop} :
    Keeps n (outOfFuel : M α β) Q := by
  intro s hs _
  exact hs

theorem Typed.fields [Inhabited α] {s : Set α} (h : Typed s) (p : Nat) (hp : p < s.next)
    (h0 : p ≠ 0) :
    1 ≤ (s.mem p).l ∧ (s.mem p).l < s.next ∧ 1 ≤ (s.mem p).r ∧ (s.mem p).r < s.next ∧
    (s.mem p).parent < s.next ∧ (2 ≤ p → (s.mem p).parent ≠ 1) ∧
    (p = 1 → (s.mem p).l = 1 ∧ (s.mem p).r = 1 ∧ (s.mem p).level = 0) ∧
    (2 ≤ p → 1 ≤ (s.mem p).level) := by
  have hn := h.next
  by_cases h1 : p = 1
  · subst h1
    have := h.l
    have := h.r
    have := h.level
    have := h.parent
    refine ⟨?_, ?_, ?_, ?_, ?_, ?_, ?_, ?_⟩ <;> omega
  · have := h.node p (by omega) hp
    refine ⟨?_, ?_, ?_, ?_, ?_, ?_, ?_, ?_⟩ <;> omega

theorem Keeps.load_l [Inhabited α] {n : Nat} (p : Nat) (hp : p < n) :
    Keeps n (load p Node.l : M α Nat)
      (fun n' v => n' = n ∧ 1 ≤ v ∧ v < n ∧ (p = 1 → v = 1)) := by
  intro s hs hn
  unfold load
  split_ifs with h0
  · exact hs
  · have := hs.fields p (by omega) h0
    exact ⟨hs, hn, by omega, by omega, by omega⟩

theorem Keeps.load_r [Inhabited α] {n : Nat} (p : Nat) (hp : p < n) :
    Keeps n (load p Node.r : M α Nat)
      (fun n' v => n' = n ∧ 1 ≤ v ∧ v < n ∧ (p = 1 → v = 1)) := by
  intro s hs hn
  unfold load
  split_ifs with h0
  · exact hs
  · have := hs.fields p (by omega) h0
    exact ⟨hs, hn, by omega, by omega, by omega⟩

theorem Keeps.load_parent [Inhabited α] {n : Nat} (p : Nat) (hp : p < n) :
    Keeps n (load p Node.parent : M α Nat)
      (fun n' v => n' = n ∧ v < n ∧ (2 ≤ p → v ≠ 1)) := by
  intro s hs hn
  unfold load
  split_ifs with h0
  · exact hs
  · have := hs.fields p (by omega) h0
    exact ⟨hs, hn, by omega, by omega⟩

theorem Keeps.load_level [Inhabited α] {n : Nat} (p : Nat) (hp : p < n) :
    Keeps n (load p Node.level : M α Int)
      (fun n' v => n' = n ∧ (p = 1 → v = 0) ∧ (2 ≤ p → 1 ≤ v)) := by
  intro s hs hn
  unfold load
  split_ifs with h0
  · exact hs
  · have := hs.fields p (by omega) h0
    exact ⟨hs, hn, by omega, by omega⟩

theorem Keeps.load_value [Inhabited α] {n : Nat} (p : Nat) :
    Keeps n (load p Node.value : M α α) (fun n' _ => n' = n) := by
  intro s hs hn
  unfold load
  split_ifs with h0
  · exact hs
  · exact ⟨hs, hn⟩

theorem Keeps.getRoot [Inhabited α] {n : Nat} :
    Keeps n (getRoot : M α Nat) (fun n' v => n' = n ∧ 1 ≤ v ∧ v < n) := by
  intro s hs hn
  have := hs.root
  exact ⟨hs, hn, by omega, by omega⟩

theorem Keeps.getBottom [Inhabited α] {n : Nat} :
    Keeps n (getBottom : M α Nat) (fun n' v => n' = n ∧ v = 1) := by
  intro s hs hn
  exact ⟨hs, hn, hs.bottom⟩

theorem Keeps.setRoot [Inhabited α] {n : Nat} (v : Nat) (h1 : 1 ≤ v) (h2 : v < n) :
    Keeps n (setRoot v : M α Unit) (fun n' _ => n' = n) := by
  intro s hs hn
  refine ⟨⟨hs.bottom, hs.next, hs.l, hs.r, hs.level, hs.value, hs.parent, ?_, hs.node⟩, hn⟩
  show 1 ≤ v ∧ v < s.next
  omega

theorem Keeps.addSize [Inhabited α] {n : Nat} (d : Int) :
    Keeps n (addSize d : M α Unit) (fun n' _ => n' = n) := by
  intro s hs hn
  exact ⟨⟨hs.bottom, hs.next, hs.l, hs.r, hs.level, hs.value, hs.parent, hs.root, hs.node⟩, hn⟩

/-- A write keeps the typing when the node written is well typed afterwards. -/
theorem Keeps.store [Inhabited α] {n : Nat} (p : Nat) (hp : p < n) (f : Node α → Node α)
    (h1 : p = 1 → ∀ x : Node α, x.l = 1 → x.r = 1 → x.level = 0 → x.value = default →
      x.parent < n → (f x).l = 1 ∧ (f x).r = 1 ∧ (f x).level = 0 ∧ (f x).value = default ∧
        (f x).parent < n)
    (h2 : 2 ≤ p → ∀ x : Node α, 1 ≤ x.l → x.l < n → 1 ≤ x.r → x.r < n → x.parent ≠ 1 →
      x.parent < n → 1 ≤ x.level →
      1 ≤ (f x).l ∧ (f x).l < n ∧ 1 ≤ (f x).r ∧ (f x).r < n ∧ (f x).parent ≠ 1 ∧
        (f x).parent < n ∧ 1 ≤ (f x).level) :
    Keeps n (store p f : M α Unit) (fun n' _ => n' = n) := by
  intro s hs hn
  unfold Heap.store
  split_ifs with h0
  · exact hs
  · subst hn
    refine ⟨⟨hs.bottom, hs.next, ?_, ?_, ?_, ?_, ?_, hs.root, ?_⟩, rfl⟩
    all_goals simp only
    · split_ifs with e
      · exact (h1 e.symm _ (e ▸ hs.l) (e ▸ hs.r) (e ▸ hs.level) (e ▸ hs.value) (e ▸ hs.parent)).1
      · exact hs.l
    · split_ifs with e
      · exact (h1 e.symm _ (e ▸ hs.l) (e ▸ hs.r) (e ▸ hs.level) (e ▸ hs.value) (e ▸ hs.parent)).2.1
      · exact hs.r
    · split_ifs with e
      · exact (h1 e.symm _ (e ▸ hs.l) (e ▸ hs.r) (e ▸ hs.level) (e ▸ hs.value)
          (e ▸ hs.parent)).2.2.1
      · exact hs.level
    · split_ifs with e
      · exact (h1 e.symm _ (e ▸ hs.l) (e ▸ hs.r) (e ▸ hs.level) (e ▸ hs.value)
          (e ▸ hs.parent)).2.2.2.1
      · exact hs.value
    · split_ifs with e
      · exact (h1 e.symm _ (e ▸ hs.l) (e ▸ hs.r) (e ▸ hs.level) (e ▸ hs.value)
          (e ▸ hs.parent)).2.2.2.2
      · exact hs.parent
    · intro a ha1 ha2
      split_ifs with e
      · subst e
        have := hs.node a ha1 ha2
        exact h2 ha1 _ this.1 this.2.1 this.2.2.1 this.2.2.2.1 this.2.2.2.2.1 this.2.2.2.2.2.1
          this.2.2.2.2.2.2
      · exact hs.node a ha1 ha2

theorem Keeps.store_l [Inhabited α] {n : Nat} (p v : Nat) (hp : p < n) (h1 : 1 ≤ v)
    (h2 : v < n) (h3 : p = 1 → v = 1) :
    Keeps n (Heap.store p (fun x => { x with l := v }) : M α Unit) (fun n' _ => n' = n) := by
  apply Keeps.store p hp
  · intro e x a b c d f
    exact ⟨h3 e, b, c, d, f⟩
  · intro e x a b c d f g i
    exact ⟨h1, h2, c, d, f, g, i⟩

theorem Keeps.store_r [Inhabited α] {n : Nat} (p v : Nat) (hp : p < n) (h1 : 1 ≤ v)
    (h2 : v < n) (h3 : p = 1 → v = 1) :
    Keeps n (Heap.store p (fun x => { x with r := v }) : M α Unit) (fun n' _ => n' = n) := by
  apply Keeps.store p hp
  · intro e x a b c d f
    exact ⟨a, h3 e, c, d, f⟩
  · intro e x a b c d f g i
    exact ⟨a, b, h1, h2, f, g, i⟩

theorem Keeps.store_parent [Inhabited α] {n : Nat} (p v : Nat) (hp : p < n) (h2 : v < n)
    (h3 : 2 ≤ p → v ≠ 1) :
    Keeps n (Heap.store p (fun x => { x with parent := v }) : M α Unit) (fun n' _ => n' = n) := by
  apply Keeps.store p hp
  · intro e x a b c d f
    exact ⟨a, b, c, d, h2⟩
  · intro e x a b c d f g i
    exact ⟨a, b, c, d, h3 e, h2, i⟩

theorem Keeps.store_level [Inhabited α] {n : Nat} (p : Nat) (v : Int) (hp : p < n)
    (h1 : p ≠ 1) (h2 : 1 ≤ v) :
    Keeps n (Heap.store p (fun x => { x with level := v }) : M α Unit) (fun n' _ => n' = n) := by
  apply Keeps.store p hp
  · intro e
    exact absurd e h1
  · intro e x a b c d f g i
    exact ⟨a, b, c, d, f, g, h2⟩

theorem Keeps.store_value [Inhabited α] {n : Nat} (p : Nat) (v : α) (hp : p < n)
    (h1 : p ≠ 1) :
    Keeps n (Heap.store p (fun x => { x with value := v }) : M α Unit) (fun n' _ => n' = n) := by
  apply Keeps.store p hp
  · intro e
    exact absurd e h1
  · intro e x a b c d f g i
    exact ⟨a, b, c, d, f, g, i⟩

theorem Keeps.newItem [Inhabited α] {n : Nat} (x : α) (parent : Nat) (h1 : parent ≠ 1)
    (h2 : parent < n) :
    Keeps n (newItem x parent : M α Nat) (fun n' v => n' = n + 1 ∧ v = n) := by
  intro s hs hn
  subst hn
  have hb := hs.bottom
  have hnx := hs.next
  have hr := hs.root
  have hp := hs.parent
  refine ⟨⟨hs.bottom, ?_, ?_, ?_, ?_, ?_, ?_, ?_, ?_⟩, rfl, rfl⟩
  all_goals simp only [Heap.newItem]
  · omega
  · rw [if_neg (by omega)]; exact hs.l
  · rw [if_neg (by omega)]; exact hs.r
  · rw [if_neg (by omega)]; exact hs.level
  · rw [if_neg (by omega)]; exact hs.value
  · rw [if_neg (by omega)]; omega
  · omega
  · intro a ha1 ha2
    split_ifs with e
    · simp only [hb]
      omega
    · have := hs.node a ha1 (by omega)
      omega


theorem relink_keeps [Inhabited α] {n : Nat} (t c : Nat) (h1 : 1 ≤ t) (h2 : t < n)
    (c1 : 1 ≤ c) (c2 : c < n) (h : t = 1 → c = 1) :
    Keeps n (relink t c : M α Unit) (fun n' _ => n' = n) := by
  unfold relink
  refine Keeps.bind (Keeps.load_parent t h2) fun n' p h => ?_
  obtain ⟨rfl, d1, d2⟩ := h
  split_ifs with hp
  · exact Keeps.setRoot c c1 c2
  · refine Keeps.bind (Keeps.load_l p d1) fun n' pl h => ?_
    obtain ⟨rfl, f1, f2, f3⟩ := h
    split_ifs with hpl
    · exact Keeps.store_l p c d1 c1 c2 (by omega)
    · exact Keeps.store_r p c d1 c1 c2 (by omega)

/-- The method `skew` keeps the typing; from a node other than the sentinel
it returns such a node, from the sentinel the sentinel. -/
theorem skew_keeps [Inhabited α] {n : Nat} (t : Nat) (h1 : 1 ≤ t) (h2 : t < n) :
    Keeps n (skew t : M α Nat)
      (fun n' v => n' = n ∧ 1 ≤ v ∧ v < n ∧ (2 ≤ t → 2 ≤ v) ∧ (t = 1 → v = 1)) := by
  unfold skew
  refine Keeps.bind (Keeps.load_l t h2) fun n' tl h => ?_
  obtain ⟨rfl, a1, a2, a3⟩ := h
  refine Keeps.bind (Keeps.load_level tl a2) fun n' a h => ?_
  obtain ⟨rfl, b1, b2⟩ := h
  refine Keeps.bind (Keeps.load_level t h2) fun n' b h => ?_
  obtain ⟨rfl, c1, c2⟩ := h
  split_ifs with hab
  · have htl : 2 ≤ t → 2 ≤ tl := by omega
    refine Keeps.bind (relink_keeps t tl h1 h2 a1 a2 a3) fun n' _ h => ?_
    subst h
    refine Keeps.bind (Keeps.load_r tl a2) fun n' tlr h => ?_
    obtain ⟨rfl, e1, e2, e3⟩ := h
    refine Keeps.bind (Keeps.load_parent t h2) fun n' p h => ?_
    obtain ⟨rfl, d1, d2⟩ := h
    refine Keeps.bind (Keeps.store_l t tlr h2 e1 e2 (by omega)) fun n' _ h => ?_
    subst h
    refine Keeps.bind (Keeps.store_parent t tl h2 a2 (by omega)) fun n' _ h => ?_
    subst h
    refine Keeps.bind (Keeps.store_r tl t a2 h1 h2 (by omega)) fun n' _ h => ?_
    subst h
    refine Keeps.bind (Keeps.store_parent tl p a2 d1 (by omega)) fun n' _ h => ?_
    subst h
    refine Keeps.bind (Keeps.store_parent tlr t e2 h2 (by omega)) fun n' _ h => ?_
    subst h
    exact Keeps.pure ⟨rfl, a1, a2, htl, a3⟩
  · exact Keeps.pure ⟨rfl, h1, h2, fun h => h, fun h => h⟩

/-- The method `split`, applied to a node other than the sentinel, keeps the
typing and returns such a node. -/
theorem split_keeps [Inhabited α] {n : Nat} (t : Nat) (h1 : 2 ≤ t) (h2 : t < n) :
    Keeps n (split t : M α (Nat × Bool)) (fun n' v => n' = n ∧ 2 ≤ v.1 ∧ v.1 < n) := by
  unfold split
  refine Keeps.bind (Keeps.load_level t h2) fun n' a h => ?_
  obtain ⟨rfl, c1, c2⟩ := h
  refine Keeps.bind (Keeps.load_r t h2) fun n' tr h => ?_
  obtain ⟨rfl, a1, a2, a3⟩ := h
  refine Keeps.bind (Keeps.load_r tr a2) fun n' trr h => ?_
  obtain ⟨rfl, r1, r2, r3⟩ := h
  refine Keeps.bind (Keeps.load_level trr r2) fun n' b h => ?_
  obtain ⟨rfl, b1, b2⟩ := h
  split_ifs with hab
  · have htr : 2 ≤ tr := by
      by_contra hc
      have e1 : tr = 1 := by omega
      have := r3 e1
      have := b1 this
      have := c2 h1
      omega
    refine Keeps.bind (relink_keeps t tr (by omega) h2 a1 a2 (by omega)) fun n' _ h => ?_
    subst h
    refine Keeps.bind (Keeps.load_l tr a2) fun n' trl h => ?_
    obtain ⟨rfl, e1, e2, e3⟩ := h
    refine Keeps.bind (Keeps.load_parent t h2) fun n' p h => ?_
    obtain ⟨rfl, d1, d2⟩ := h
    refine Keeps.bind (Keeps.store_r t trl h2 e1 e2 (by omega)) fun n' _ h => ?_
    subst h
    refine Keeps.bind (Keeps.store_parent t tr h2 a2 (by omega)) fun n' _ h => ?_
    subst h
    refine Keeps.bind (Keeps.store_l tr t a2 (by omega) h2 (by omega)) fun n' _ h => ?_
    subst h
    refine Keeps.bind (Keeps.store_parent tr p a2 d1 (by omega)) fun n' _ h => ?_
    subst h
    refine Keeps.bind (Keeps.store_parent trl t e2 h2 (by omega)) fun n' _ h => ?_
    subst h
    refine Keeps.bind (Keeps.load_level tr a2) fun n' lv h => ?_
    obtain ⟨rfl, l1, l2⟩ := h
    refine Keeps.bind (Keeps.store_level tr (lv + 1) a2 (by omega) (by have := l2 htr; omega))
      fun n' _ h => ?_
    subst h
    exact Keeps.pure ⟨rfl, htr, a2⟩
  · exact Keeps.pure ⟨rfl, h1, h2⟩


theorem KeepsAt.of_keeps [Inhabited α] {n r : Nat} {m : M α β} {Q : Nat → β → Prop}
    (h : Keeps n m Q) : KeepsAt n r m Q :=
  fun s hs hn _ => h s hs hn

theorem KeepsAt.getRoot_bind [Inhabited α] {n r : Nat} {f : Nat → M α γ}
    {Q : Nat → γ → Prop} (h : KeepsAt n r (f r) Q) : KeepsAt n r (getRoot >>= f) Q := by
  intro s hs hn hr
  have := h s hs hn hr
  rw [← hr] at this
  exact this

theorem KeepsAt.getBottom_bind [Inhabited α] {n r : Nat} {f : Nat → M α γ}
    {Q : Nat → γ → Prop} (h : KeepsAt n r (f 1) Q) : KeepsAt n r (getBottom >>= f) Q := by
  intro s hs hn hr
  have := h s hs hn hr
  rw [← hs.bottom] at this
  exact this

theorem KeepsAt.seq [Inhabited α] {n r : Nat} {m : M α β} {f : β → M α γ}
    {R : Nat → β → Prop} {Q : Nat → γ → Prop} (hm : KeepsAt n r m R)
    (hf : ∀ n' b, R n' b → Keeps n' (f b) Q) : KeepsAt n r (m >>= f) Q := by
  intro s hs hn hr
  have h1 := hm s hs hn hr
  show match (match m s with
    | .ok b s' => f b s'
    | .fault s' => .fault s'
    | .timeout s' => .timeout s') with
    | .ok b s' => Typed s' ∧ Q s'.next b
    | .fault s' => Typed s'
    | .timeout s' => Typed s'
  cases hms : m s with
  | ok b s' =>
    rw [hms] at h1
    exact hf _ b h1.2 s' h1.1 rfl
  | fault s' =>
    rw [hms] at h1
    exact h1
  | timeout s' =>
    rw [hms] at h1
    exact h1

theorem KeepsAt.read_bind [Inhabited α] {n r : Nat} {m : M α β} {f : β → M α γ}
    {Q : Nat → γ → Prop} (hm : ReadOnly m) (hf : ∀ b, KeepsAt n r (f b) Q) :
    KeepsAt n r (m >>= f) Q := by
  intro s hs hn hr
  have h1 := hm s
  show match (match m s with
    | .ok b s' => f b s'
    | .fault s' => .fault s'
    | .timeout s' => .timeout s') with
    | .ok b s' => Typed s' ∧ Q s'.next b
    | .fault s' => Typed s'
    | .timeout s' => Typed s'
  cases hms : m s with
  | ok b s' =>
    rw [hms] at h1
    simp only [Res.state] at h1
    subst h1
    exact hf b s' hs hn hr
  | fault s' =>
    rw [hms] at h1
    simp only [Res.state] at h1
    subst h1
    exact hs
  | timeout s' =>
    rw [hms] at h1
    simp only [Res.state] at h1
    subst h1
    exact hs

theorem KeepsAt.state_typed [Inhabited α] {n r : Nat} {m : M α β} {Q : Nat → β → Prop}
    (h : KeepsAt n r m Q) (s : Set α) (hs : Typed s) (hn : s.next = n) (hr : s.root = r) :
    Typed (m s).state := by
  have h1 := h s hs hn hr
  cases hms : m s with
  | ok b s' =>
    rw [hms] at h1
    exact h1.1
  | fault s' =>
    rw [hms] at h1
    exact h1
  | timeout s' =>
    rw [hms] at h1
    exact h1

theorem find_keeps [Inhabited α] [LinearOrder α] : FindKeeps (find : α → Nat → Nat → M α _) := by
  intro n x fuel
  induction fuel with
  | zero =>
    intro root _ _
    exact Keeps.outOfFuel
  | succ fuel ih =>
    intro root h1 h2
    unfold find
    refine Keeps.bind (Keeps.load_value root) fun n' v h => ?_
    subst h
    split_ifs with hv hlt
    · refine Keeps.bind (Keeps.load_l root h2) fun n' c h => ?_
      obtain ⟨rfl, a1, a2, a3⟩ := h
      refine Keeps.bind (Keeps.load_level c a2) fun n' lv h => ?_
      obtain ⟨rfl, b1, b2⟩ := h
      split_ifs with hl
      · exact Keeps.pure ⟨rfl, h1, h2, Or.inr (Or.inl rfl)⟩
      · exact ih c (by omega) a2
    · refine Keeps.bind (Keeps.load_r root h2) fun n' c h => ?_
      obtain ⟨rfl, a1, a2, a3⟩ := h
      refine Keeps.bind (Keeps.load_level c a2) fun n' lv h => ?_
      obtain ⟨rfl, b1, b2⟩ := h
      split_ifs with hl
      · exact Keeps.pure ⟨rfl, h1, h2, Or.inr (Or.inr rfl)⟩
      · exact ih c (by omega) a2
    · exact Keeps.pure ⟨rfl, h1, h2, Or.inl rfl⟩

theorem findFunc_keeps [Inhabited α] (cmp : α → α → Int) : FindKeeps (findFunc cmp) := by
  intro n x fuel
  induction fuel with
  | zero =>
    intro root _ _
    exact Keeps.outOfFuel
  | succ fuel ih =>
    intro root h1 h2
    unfold findFunc
    refine Keeps.bind (Keeps.load_value root) fun n' v h => ?_
    subst h
    split_ifs with hv hlt
    · refine Keeps.bind (Keeps.load_l root h2) fun n' c h => ?_
      obtain ⟨rfl, a1, a2, a3⟩ := h
      refine Keeps.bind (Keeps.load_level c a2) fun n' lv h => ?_
      obtain ⟨rfl, b1, b2⟩ := h
      split_ifs with hl
      · exact Keeps.pure ⟨rfl, h1, h2, Or.inr (Or.inl rfl)⟩
      · exact ih c (by omega) a2
    · refine Keeps.bind (Keeps.load_r root h2) fun n' c h => ?_
      obtain ⟨rfl, a1, a2, a3⟩ := h
      refine Keeps.bind (Keeps.load_level c a2) fun n' lv h => ?_
      obtain ⟨rfl, b1, b2⟩ := h
      split_ifs with hl
      · exact Keeps.pure ⟨rfl, h1, h2, Or.inr (Or.inr rfl)⟩
      · exact ih c (by omega) a2
    · exact Keeps.pure ⟨rfl, h1, h2, Or.inl rfl⟩

theorem insertLoop_keeps [Inhabited α] {n : Nat} (fuel t k : Nat) (h1 : t ≠ 1) (h2 : t < n) :
    Keeps n (insertLoop fuel t k : M α Unit) (fun n' _ => n' = n) := by
  induction fuel generalizing t k with
  | zero => exact Keeps.outOfFuel
  | succ fuel ih =>
    unfold insertLoop
    split_ifs with hc
    · refine Keeps.bind (skew_keeps t (by omega) h2) fun n' t1 h => ?_
      obtain ⟨rfl, a1, a2, a3, -⟩ := h
      refine Keeps.bind (split_keeps t1 (by omega) a2) fun n' r h => ?_
      obtain ⟨t2, ok⟩ := r
      obtain ⟨rfl, b1, b2⟩ := h
      simp only at b1 b2 ⊢
      refine Keeps.bind (Keeps.load_parent t2 b2) fun n' p h => ?_
      obtain ⟨rfl, d1, d2⟩ := h
      refine Keeps.bind (?_ : Keeps n' _ (fun n'' _ => n'' = n')) fun n' _ h => ?_
      · split_ifs
        · exact Keeps.setRoot t2 (by omega) b2
        · exact Keeps.pure rfl
      · subst h
        exact ih p _ (d2 b1) d1
    · exact Keeps.pure rfl

theorem assign_keeps [Inhabited α] {n : Nat} (target : Target) (a v : Nat) (h1 : 2 ≤ a)
    (h2 : a < n) (h3 : 1 ≤ v) (h4 : v < n) (h : target = .l a ∨ target = .r a) :
    Keeps n (target.assign v : M α Unit) (fun n' _ => n' = n) := by
  rcases h with rfl | rfl
  · exact Keeps.store_l a v h2 h3 h4 (by omega)
  · exact Keeps.store_r a v h2 h3 h4 (by omega)

/-- The method `insert` keeps the typing when the set is not empty. -/
theorem insert_keeps [Inhabited α] {fnd : α → Nat → Nat → M α (Nat × Target)}
    (hf : FindKeeps fnd) {n r : Nat} (h1 : 2 ≤ r) (h2 : r < n) (fuel root : Nat) (x : α) :
    KeepsAt n r (insert fnd fuel root x) (fun n' _ => n ≤ n') := by
  unfold insert
  refine KeepsAt.getRoot_bind (KeepsAt.of_keeps ?_)
  refine Keeps.bind (hf n x fuel r h1 h2) fun n' v h => ?_
  obtain ⟨last, target⟩ := v
  obtain ⟨rfl, a1, a2, a3⟩ := h
  simp only at a1 a2 a3 ⊢
  split_ifs with ht
  · exact Keeps.pure (le_refl _)
  · refine Keeps.bind (Keeps.newItem x last (by omega) a2) fun n'' item h => ?_
    obtain ⟨rfl, hi⟩ := h
    refine Keeps.bind (assign_keeps target last item a1 (by omega) (by omega) (by omega)
      (by tauto)) fun n'' _ h => ?_
    subst h
    refine Keeps.bind (insertLoop_keeps fuel last 0 (by omega) (by omega)) fun n'' _ h => ?_
    subst h
    exact Keeps.pure (by omega)

/-- The method `Insert` keeps the typing. -/
theorem Insert_keeps [Inhabited α] {fnd : α → Nat → Nat → M α (Nat × Target)}
    (hf : FindKeeps fnd) {n r : Nat} (h1 : 1 ≤ r) (h2 : r < n) (fuel : Nat) (x : α) :
    KeepsAt n r (Insert fnd fuel x) (fun n' _ => n ≤ n') := by
  unfold Insert
  refine KeepsAt.getRoot_bind (KeepsAt.getBottom_bind ?_)
  split_ifs with hr
  · refine KeepsAt.of_keeps ?_
    refine Keeps.bind (Keeps.newItem x 0 (by omega) (by omega)) fun n'' item h => ?_
    obtain ⟨rfl, hi⟩ := h
    refine Keeps.bind (Keeps.setRoot item (by omega) (by omega)) fun n'' _ h => ?_
    subst h
    exact Keeps.pure (by omega)
  · refine KeepsAt.seq (insert_keeps hf (by omega) h2 fuel r x) fun n' v h => ?_
    exact Keeps.pure h


/-- The method `decreaseLevel` keeps the typing; applied to the sentinel it
writes nothing. -/
theorem decreaseLevel_keeps [Inhabited α] {n : Nat} (t : Nat) (h1 : 1 ≤ t) (h2 : t < n) :
    Keeps n (decreaseLevel t : M α (Nat × Bool))
      (fun n' v => n' = n ∧ 1 ≤ v.1 ∧ v.1 < n ∧ (2 ≤ t → 2 ≤ v.1)) := by
  unfold decreaseLevel
  refine Keeps.bind (Keeps.load_level t h2) fun n' lv h => ?_
  obtain ⟨rfl, c1, c2⟩ := h
  refine Keeps.bind (Keeps.load_l t h2) fun n' tl h => ?_
  obtain ⟨rfl, a1, a2, a3⟩ := h
  refine Keeps.bind (Keeps.load_level tl a2) fun n' ll h => ?_
  obtain ⟨rfl, d1, d2⟩ := h
  refine Keeps.bind (Keeps.load_r t h2) fun n' tr h => ?_
  obtain ⟨rfl, r1, r2, r3⟩ := h
  refine Keeps.bind (Keeps.load_level tr r2) fun n' lr h => ?_
  obtain ⟨rfl, e1, e2⟩ := h
  by_cases hc : lv > ll + 1 ∨ lv > lr + 1
  · rw [if_pos hc]
    have ht : 2 ≤ t := by
      by_contra hn
      have e : t = 1 := by omega
      have := c1 e
      have := d1 (a3 e)
      have := e1 (r3 e)
      omega
    have hll : 0 ≤ ll := by
      rcases Nat.lt_or_ge tl 2 with h | h
      · have := d1 (by omega); omega
      · have := d2 h; omega
    have hlr : 0 ≤ lr := by
      rcases Nat.lt_or_ge tr 2 with h | h
      · have := e1 (by omega); omega
      · have := e2 h; omega
    refine Keeps.bind (Keeps.store_level t (lv - 1) h2 (by omega) (by omega)) fun n' _ h => ?_
    subst h
    refine Keeps.bind (?_ : Keeps n' _ (fun n'' _ => n'' = n')) fun n' _ h => ?_
    · split_ifs with hgt
      · refine Keeps.store_level tr (lv - 1) r2 ?_ (by omega)
        intro e
        have := e1 e
        omega
      · exact Keeps.pure rfl
    subst h
    refine Keeps.bind (skew_keeps t h1 h2) fun n' t1 h => ?_
    obtain ⟨rfl, f1, f2, f3, -⟩ := h
    have ht1 := f3 ht
    refine Keeps.bind (Keeps.load_r t1 f2) fun n' tr1 h => ?_
    obtain ⟨rfl, g1, g2, -⟩ := h
    refine Keeps.bind (skew_keeps tr1 g1 g2) fun n' tr2 h => ?_
    obtain ⟨rfl, i1, i2, -, -⟩ := h
    refine Keeps.bind (Keeps.store_r t1 tr2 f2 i1 i2 (by omega)) fun n' _ h => ?_
    subst h
    refine Keeps.bind (Keeps.load_r t1 f2) fun n' tr3 h => ?_
    obtain ⟨rfl, j1, j2, -⟩ := h
    refine Keeps.bind (Keeps.load_r tr3 j2) fun n' trr h => ?_
    obtain ⟨rfl, k1, k2, k3⟩ := h
    refine Keeps.bind (skew_keeps trr k1 k2) fun n' trr1 h => ?_
    obtain ⟨rfl, l1, l2, -, l4⟩ := h
    refine Keeps.bind (Keeps.store_r tr3 trr1 j2 l1 l2 (fun e => l4 (k3 e))) fun n' _ h => ?_
    subst h
    refine Keeps.bind (split_keeps t1 ht1 f2) fun n' v h => ?_
    obtain ⟨t2, ok⟩ := v
    obtain ⟨rfl, m1, m2⟩ := h
    simp only at m1 m2 ⊢
    refine Keeps.bind (Keeps.load_r t2 m2) fun n' tr4 h => ?_
    obtain ⟨rfl, o1, o2, -⟩ := h
    refine Keeps.bind (Keeps.load_level tr4 o2) fun n' lr4 h => ?_
    obtain ⟨rfl, p1, p2⟩ := h
    refine Keeps.bind (?_ : Keeps n' _ (fun n'' _ => n'' = n')) fun n' _ h => ?_
    · split_ifs with hne
      · have htr4 : 2 ≤ tr4 := by
          by_contra hn
          exact hne (p1 (by omega))
        refine Keeps.bind (split_keeps tr4 htr4 o2) fun n' v h => ?_
        obtain ⟨tr5, ok5⟩ := v
        obtain ⟨rfl, q1, q2⟩ := h
        simp only at q1 q2 ⊢
        exact Keeps.store_r t2 tr5 m2 (by omega) q2 (by omega)
      · exact Keeps.pure rfl
    subst h
    exact Keeps.pure ⟨rfl, by simp only; omega, m2, fun _ => m1⟩
  · rw [if_neg hc]
    exact Keeps.pure ⟨rfl, h1, h2, fun h => h⟩

theorem successorLoop_keeps [Inhabited α] {n : Nat} (fuel t : Nat) (h1 : 1 ≤ t) (h2 : t < n) :
    Keeps n (successorLoop fuel t : M α Nat) (fun n' v => n' = n ∧ 1 ≤ v ∧ v < n) := by
  induction fuel generalizing t with
  | zero => exact Keeps.outOfFuel
  | succ fuel ih =>
    unfold successorLoop
    refine Keeps.bind (Keeps.load_l t h2) fun n' c h => ?_
    obtain ⟨rfl, a1, a2, -⟩ := h
    refine Keeps.bind Keeps.getBottom fun n' b h => ?_
    obtain ⟨rfl, rfl⟩ := h
    split_ifs with hc
    · exact ih c a1 a2
    · exact Keeps.pure ⟨rfl, h1, h2⟩

theorem deleteLoop_keeps [Inhabited α] {n : Nat} (fuel t : Nat) (h1 : 1 ≤ t) (h2 : t < n) :
    Keeps n (deleteLoop fuel t : M α Unit) (fun n' _ => n' = n) := by
  induction fuel generalizing t with
  | zero => exact Keeps.outOfFuel
  | succ fuel ih =>
    unfold deleteLoop
    refine Keeps.bind (decreaseLevel_keeps t h1 h2) fun n' v h => ?_
    obtain ⟨last, ok⟩ := v
    obtain ⟨rfl, a1, a2, -⟩ := h
    simp only at a1 a2 ⊢
    split_ifs with hok
    · refine Keeps.bind (Keeps.load_parent last a2) fun n' p h => ?_
      obtain ⟨rfl, d1, d2⟩ := h
      split_ifs with hp
      · exact Keeps.setRoot last a1 a2
      · exact ih p (by omega) d1
    · exact Keeps.pure rfl

/-- The splice of `Delete` and what follows keep the typing, whatever node
`last` is. -/
theorem spliceOut_keeps [Inhabited α] {n : Nat} (fuel last : Nat) (h1 : 1 ≤ last)
    (h2 : last < n) :
    Keeps n (spliceOut fuel last : M α Bool) (fun n' _ => n' = n) := by
  unfold spliceOut
  refine Keeps.bind (Keeps.load_r last h2) fun n' lr h => ?_
  obtain ⟨rfl, a1, a2, a3⟩ := h
  refine Keeps.bind (Keeps.load_parent last h2) fun n' p h => ?_
  obtain ⟨rfl, d1, d2⟩ := h
  refine Keeps.bind (Keeps.store_parent lr p a2 d1 (by omega)) fun n' _ h => ?_
  subst h
  refine Keeps.bind (Keeps.load_parent last h2) fun n' p1 h => ?_
  obtain ⟨rfl, e1, e2⟩ := h
  refine Keeps.bind (Keeps.load_l p1 e1) fun n' pl h => ?_
  obtain ⟨rfl, -, -, -⟩ := h
  refine Keeps.bind (Keeps.load_r last h2) fun n' lr1 h => ?_
  obtain ⟨rfl, b1, b2, b3⟩ := h
  refine Keeps.bind (?_ : Keeps n' _ (fun n'' _ => n'' = n')) fun n' _ h => ?_
  · split_ifs with hpl
    · exact Keeps.store_l p1 lr1 e1 b1 b2 (by omega)
    · exact Keeps.store_r p1 lr1 e1 b1 b2 (by omega)
  subst h
  refine Keeps.bind (Keeps.load_parent last h2) fun n' p2 h => ?_
  obtain ⟨rfl, f1, f2⟩ := h
  by_cases hp2 : p2 = 0
  · subst hp2
    refine Keeps.bind (?_ : Keeps n' _ (fun n'' _ => n'' = n')) fun n' _ h => ?_
    · cases fuel with
      | zero => exact Keeps.outOfFuel
      | succ fuel =>
        unfold deleteLoop decreaseLevel
        intro s hs hn
        exact hs
    subst h
    exact Keeps.pure rfl
  · refine Keeps.bind (deleteLoop_keeps fuel p2 (by omega) f1) fun n' _ h => ?_
    subst h
    exact Keeps.pure rfl


/-- The body of `Delete` keeps the typing. -/
theorem deleteBody_keeps [Inhabited α] {fnd : α → Nat → Nat → M α (Nat × Target)}
    (hf : FindKeeps fnd) {n r : Nat} (h1 : 1 ≤ r) (h2 : r < n) (fuel : Nat) (x : α) :
    KeepsAt n r (deleteBody fnd fuel x) (fun n' _ => n' = n) := by
  unfold deleteBody
  refine KeepsAt.getRoot_bind (KeepsAt.getBottom_bind ?_)
  split_ifs with hr
  · exact KeepsAt.of_keeps (Keeps.pure rfl)
  · refine KeepsAt.getRoot_bind (KeepsAt.of_keeps ?_)
    refine Keeps.bind (hf n x fuel r (by omega) h2) fun n' v h => ?_
    obtain ⟨last, target⟩ := v
    obtain ⟨rfl, a1, a2, a3⟩ := h
    simp only at a1 a2 a3 ⊢
    split_ifs with ht
    · exact Keeps.pure rfl
    · refine Keeps.bind (Keeps.load_level last a2) fun n' lv h => ?_
      obtain ⟨rfl, -, -⟩ := h
      split_ifs with hlv
      · refine Keeps.bind (Keeps.load_r last a2) fun n' lr h => ?_
        obtain ⟨rfl, b1, b2, -⟩ := h
        refine Keeps.bind (successorLoop_keeps fuel lr b1 b2) fun n' su h => ?_
        obtain ⟨rfl, c1, c2⟩ := h
        refine Keeps.bind (Keeps.load_value su) fun n' v h => ?_
        subst h
        refine Keeps.bind (Keeps.store_value last v a2 (by omega)) fun n' _ h => ?_
        subst h
        exact spliceOut_keeps fuel su c1 c2
      · refine Keeps.bind (Keeps.load_parent last a2) fun n' p h => ?_
        obtain ⟨rfl, d1, d2⟩ := h
        split_ifs with hp
        · refine Keeps.bind (Keeps.load_r last a2) fun n' lr h => ?_
          obtain ⟨rfl, b1, b2, -⟩ := h
          refine Keeps.bind (Keeps.setRoot lr b1 b2) fun n' _ h => ?_
          subst h
          refine Keeps.bind Keeps.getRoot fun n' root h => ?_
          obtain ⟨rfl, e1, e2⟩ := h
          refine Keeps.bind (Keeps.store_parent root 0 e2 (by omega) (by omega)) fun n' _ h => ?_
          subst h
          exact Keeps.pure rfl
        · exact spliceOut_keeps fuel last (by omega) a2

/-- The method `Delete` keeps the typing. -/
theorem Delete_keeps [Inhabited α] {fnd : α → Nat → Nat → M α (Nat × Target)}
    (hf : FindKeeps fnd) {n r : Nat} (h1 : 1 ≤ r) (h2 : r < n) (fuel : Nat) (x : α) :
    KeepsAt n r (Delete fnd fuel x) (fun n' _ => n' = n) := by
  unfold Delete
  refine KeepsAt.seq (deleteBody_keeps hf h1 h2 fuel x) fun n' d h => ?_
  subst h
  refine Keeps.bind (?_ : Keeps n' _ (fun n'' _ => n'' = n')) fun n' _ h => ?_
  · split_ifs
    · exact Keeps.addSize _
    · exact Keeps.pure rfl
  · subst h
    exact Keeps.pure rfl

theorem ReadOnly.of_pure (b : β) : ReadOnly (Pure.pure b : M α β) := fun _ => rfl

theorem ReadOnly.of_bind {m : M α β} {f : β → M α γ} (hm : ReadOnly m)
    (hf : ∀ b, ReadOnly (f b)) : ReadOnly (m >>= f) := by
  intro s
  have h1 := hm s
  show (match m s with
    | .ok b s' => f b s'
    | .fault s' => .fault s'
    | .timeout s' => .timeout s').state = s
  cases hms : m s with
  | ok b s' =>
    rw [hms] at h1
    simp only [Res.state] at h1
    subst h1
    exact hf b s'
  | fault s' =>
    rw [hms] at h1
    exact h1
  | timeout s' =>
    rw [hms] at h1
    exact h1

theorem ReadOnly.of_load (p : Nat) (f : Node α → β) : ReadOnly (Heap.load p f : M α β) := by
  intro s
  unfold Heap.load
  split_ifs <;> rfl

theorem ReadOnly.of_getRoot : ReadOnly (Heap.getRoot : M α Nat) := fun _ => rfl

theorem ReadOnly.of_outOfFuel : ReadOnly (Heap.outOfFuel : M α β) := fun _ => rfl

theorem climbNext_readOnly (fuel si : Nat) : ReadOnly (climbNext fuel si : M α Nat) := by
  induction fuel generalizing si with
  | zero => exact ReadOnly.of_outOfFuel
  | succ fuel ih =>
    unfold climbNext
    refine ReadOnly.of_bind (ReadOnly.of_load _ _) fun p => ?_
    split_ifs
    · refine ReadOnly.of_bind (ReadOnly.of_load _ _) fun pr => ?_
      split_ifs
      · exact ih p
      · exact ReadOnly.of_pure _
    · exact ReadOnly.of_pure _

theorem climbPrev_readOnly (fuel si : Nat) : ReadOnly (climbPrev fuel si : M α Nat) := by
  induction fuel generalizing si with
  | zero => exact ReadOnly.of_outOfFuel
  | succ fuel ih =>
    unfold climbPrev
    refine ReadOnly.of_bind (ReadOnly.of_load _ _) fun p => ?_
    split_ifs
    · refine ReadOnly.of_bind (ReadOnly.of_load _ _) fun pr => ?_
      split_ifs
      · exact ih p
      · exact ReadOnly.of_pure _
    · exact ReadOnly.of_pure _

theorem descendLeft_readOnly (fuel si : Nat) : ReadOnly (descendLeft fuel si : M α Nat) := by
  induction fuel generalizing si with
  | zero => exact ReadOnly.of_outOfFuel
  | succ fuel ih =>
    unfold descendLeft
    refine ReadOnly.of_bind (ReadOnly.of_load _ _) fun c => ?_
    refine ReadOnly.of_bind (ReadOnly.of_load _ _) fun lv => ?_
    split_ifs
    · exact ih c
    · exact ReadOnly.of_pure _

theorem descendRight_readOnly (fuel si : Nat) : ReadOnly (descendRight fuel si : M α Nat) := by
  induction fuel generalizing si with
  | zero => exact ReadOnly.of_outOfFuel
  | succ fuel ih =>
    unfold descendRight
    refine ReadOnly.of_bind (ReadOnly.of_load _ _) fun c => ?_
    refine ReadOnly.of_bind (ReadOnly.of_load _ _) fun lv => ?_
    split_ifs
    · exact ih c
    · exact ReadOnly.of_pure _

/-- The method `Next` does not write. -/
theorem Next_readOnly (fuel si : Nat) : ReadOnly (Next fuel si : M α (Nat × Bool)) := by
  unfold Next
  refine ReadOnly.of_bind (ReadOnly.of_load _ _) fun c => ?_
  refine ReadOnly.of_bind (ReadOnly.of_load _ _) fun lv => ?_
  split_ifs
  · refine ReadOnly.of_bind (climbNext_readOnly _ _) fun si => ?_
    refine ReadOnly.of_bind (ReadOnly.of_load _ _) fun p => ?_
    exact ReadOnly.of_pure _
  · refine ReadOnly.of_bind (descendLeft_readOnly _ _) fun si => ?_
    exact ReadOnly.of_pure _

/-- The method `Prev` does not write. -/
theorem Prev_readOnly (fuel si : Nat) : ReadOnly (Prev fuel si : M α (Nat × Bool)) := by
  unfold Prev
  refine ReadOnly.of_bind (ReadOnly.of_load _ _) fun c => ?_
  refine ReadOnly.of_bind (ReadOnly.of_load _ _) fun lv => ?_
  split_ifs
  · refine ReadOnly.of_bind (climbPrev_readOnly _ _) fun si => ?_
    refine ReadOnly.of_bind (ReadOnly.of_load _ _) fun p => ?_
    exact ReadOnly.of_pure _
  · refine ReadOnly.of_bind (descendRight_readOnly _ _) fun si => ?_
    exact ReadOnly.of_pure _

theorem lower_readOnly (a b : Nat) : ReadOnly (lower a b : M α Nat) := by
  unfold lower
  refine ReadOnly.of_bind (ReadOnly.of_load _ _) fun la => ?_
  refine ReadOnly.of_bind (ReadOnly.of_load _ _) fun lb => ?_
  split_ifs
  · exact ReadOnly.of_pure _
  · exact ReadOnly.of_pure _
  · refine ReadOnly.of_bind (ReadOnly.of_load _ _) fun p => ?_
    split_ifs <;> exact ReadOnly.of_pure _

/-- The method `First` does not write. -/
theorem First_readOnly (fuel : Nat) : ReadOnly (First fuel : M α (Nat × Bool)) := by
  unfold First
  refine ReadOnly.of_bind ReadOnly.of_getRoot fun r => ?_
  refine ReadOnly.of_bind (ReadOnly.of_load _ _) fun lv => ?_
  split_ifs
  · exact ReadOnly.of_pure _
  · exact ReadOnly.of_bind (descendLeft_readOnly _ _) fun si => ReadOnly.of_pure _

theorem collect_readOnly (fuel n si : Nat) (ok : Bool) (acc : List α) :
    ReadOnly (collect fuel n si ok acc : M α (List α)) := by
  induction n generalizing si ok acc with
  | zero => exact ReadOnly.of_outOfFuel
  | succ n ih =>
    unfold collect
    split_ifs
    · refine ReadOnly.of_bind (ReadOnly.of_load _ _) fun v => ?_
      refine ReadOnly.of_bind (Next_readOnly _ _) fun r => ?_
      exact ih _ _ _
    · exact ReadOnly.of_pure _

/-- The iteration of `All` does not write. -/
theorem All_readOnly (fuel : Nat) : ReadOnly (All fuel : M α (List α)) := by
  unfold All
  exact ReadOnly.of_bind (First_readOnly _) fun r => collect_readOnly _ _ _ _ _

theorem ReadOnly.of_getBottom : ReadOnly (Heap.getBottom : M α Nat) := fun _ => rfl

/-- The method `find` of `set[T]` does not write. -/
theorem find_readOnly [LinearOrder α] (x : α) (fuel root : Nat) :
    ReadOnly (find x fuel root : M α (Nat × Target)) := by
  induction fuel generalizing root with
  | zero => exact ReadOnly.of_outOfFuel
  | succ fuel ih =>
    unfold find
    refine ReadOnly.of_bind (ReadOnly.of_load _ _) fun v => ?_
    split_ifs
    · refine ReadOnly.of_bind (ReadOnly.of_load _ _) fun c => ?_
      refine ReadOnly.of_bind (ReadOnly.of_load _ _) fun lv => ?_
      split_ifs
      · exact ReadOnly.of_pure _
      · exact ih c
    · refine ReadOnly.of_bind (ReadOnly.of_load _ _) fun c => ?_
      refine ReadOnly.of_bind (ReadOnly.of_load _ _) fun lv => ?_
      split_ifs
      · exact ReadOnly.of_pure _
      · exact ih c
    · exact ReadOnly.of_pure _

/-- The method `find` of `setFunc[T]` does not write. -/
theorem findFunc_readOnly (cmp : α → α → Int) (x : α) (fuel root : Nat) :
    ReadOnly (findFunc cmp x fuel root : M α (Nat × Target)) := by
  induction fuel generalizing root with
  | zero => exact ReadOnly.of_outOfFuel
  | succ fuel ih =>
    unfold findFunc
    refine ReadOnly.of_bind (ReadOnly.of_load _ _) fun v => ?_
    split_ifs
    · refine ReadOnly.of_bind (ReadOnly.of_load _ _) fun c => ?_
      refine ReadOnly.of_bind (ReadOnly.of_load _ _) fun lv => ?_
      split_ifs
      · exact ReadOnly.of_pure _
      · exact ih c
    · refine ReadOnly.of_bind (ReadOnly.of_load _ _) fun c => ?_
      refine ReadOnly.of_bind (ReadOnly.of_load _ _) fun lv => ?_
      split_ifs
      · exact ReadOnly.of_pure _
      · exact ih c
    · exact ReadOnly.of_pure _

/-- The method `findGreaterThanOrEqual` of `set[T]` does not write. -/
theorem findGreaterThanOrEqual_readOnly [LinearOrder α] (x : α) (fuel n root : Nat) :
    ReadOnly (findGreaterThanOrEqual x fuel n root : M α (Nat × Bool)) := by
  induction n generalizing root with
  | zero => exact ReadOnly.of_outOfFuel
  | succ n ih =>
    unfold findGreaterThanOrEqual
    refine ReadOnly.of_bind (ReadOnly.of_load _ _) fun v => ?_
    split_ifs
    · refine ReadOnly.of_bind (ReadOnly.of_load _ _) fun c => ?_
      refine ReadOnly.of_bind (ReadOnly.of_load _ _) fun lv => ?_
      split_ifs
      · exact ReadOnly.of_pure _
      · exact ih c
    · refine ReadOnly.of_bind (ReadOnly.of_load _ _) fun c => ?_
      refine ReadOnly.of_bind (ReadOnly.of_load _ _) fun lv => ?_
      split_ifs
      · exact Next_readOnly _ _
      · exact ih c
    · exact ReadOnly.of_pure _

/-- The method `findGreaterThanOrEqual` of `setFunc[T]` does not write. -/
theorem findGreaterThanOrEqualFunc_readOnly (cmp : α → α → Int) (x : α) (fuel n root : Nat) :
    ReadOnly (findGreaterThanOrEqualFunc cmp x fuel n root : M α (Nat × Bool)) := by
  induction n generalizing root with
  | zero => exact ReadOnly.of_outOfFuel
  | succ n ih =>
    unfold findGreaterThanOrEqualFunc
    refine ReadOnly.of_bind (ReadOnly.of_load _ _) fun v => ?_
    split_ifs
    · refine ReadOnly.of_bind (ReadOnly.of_load _ _) fun c => ?_
      refine ReadOnly.of_bind (ReadOnly.of_load _ _) fun lv => ?_
      split_ifs
      · exact ReadOnly.of_pure _
      · exact ih c
    · refine ReadOnly.of_bind (ReadOnly.of_load _ _) fun c => ?_
      refine ReadOnly.of_bind (ReadOnly.of_load _ _) fun lv => ?_
      split_ifs
      · exact Next_readOnly _ _
      · exact ih c
    · exact ReadOnly.of_pure _

/-- The method `Value` does not write. -/
theorem Value_readOnly (si : Nat) : ReadOnly (Value si : M α α) :=
  ReadOnly.of_load _ _

/-- The method `Len` does not write. -/
theorem Len_readOnly : ReadOnly (Len : M α Int) := fun _ => rfl

/-- The method `Last` does not write. -/
theorem Last_readOnly (fuel : Nat) : ReadOnly (Last fuel : M α (Nat × Bool)) := by
  unfold Last
  refine ReadOnly.of_bind ReadOnly.of_getRoot fun r => ?_
  refine ReadOnly.of_bind (ReadOnly.of_load _ _) fun lv => ?_
  split_ifs
  · exact ReadOnly.of_pure _
  · exact ReadOnly.of_bind (descendRight_readOnly _ _) fun si => ReadOnly.of_pure _

/-- The method `Min` does not write. -/
theorem Min_readOnly [Inhabited α] (fuel : Nat) : ReadOnly (Min fuel : M α (α × Bool)) := by
  unfold Min
  refine ReadOnly.of_bind (First_readOnly _) fun p => ?_
  obtain ⟨si, ok⟩ := p
  simp only
  split_ifs
  · exact ReadOnly.of_pure _
  · exact ReadOnly.of_bind (ReadOnly.of_load _ _) fun v => ReadOnly.of_pure _

/-- The method `Max` does not write. -/
theorem Max_readOnly [Inhabited α] (fuel : Nat) : ReadOnly (Max fuel : M α (α × Bool)) := by
  unfold Max
  refine ReadOnly.of_bind (Last_readOnly _) fun p => ?_
  obtain ⟨si, ok⟩ := p
  simp only
  split_ifs
  · exact ReadOnly.of_pure _
  · exact ReadOnly.of_bind (ReadOnly.of_load _ _) fun v => ReadOnly.of_pure _

theorem collectBack_readOnly (fuel n si : Nat) (ok : Bool) (acc : List α) :
    ReadOnly (collectBack fuel n si ok acc : M α (List α)) := by
  induction n generalizing si ok acc with
  | zero => exact ReadOnly.of_outOfFuel
  | succ n ih =>
    unfold collectBack
    split_ifs
    · refine ReadOnly.of_bind (ReadOnly.of_load _ _) fun v => ?_
      refine ReadOnly.of_bind (Prev_readOnly _ _) fun r => ?_
      exact ih _ _ _
    · exact ReadOnly.of_pure _

/-- The iteration of `Backward` does not write. -/
theorem Backward_readOnly (fuel : Nat) : ReadOnly (Backward fuel : M α (List α)) := by
  unfold Backward
  exact ReadOnly.of_bind (Last_readOnly _) fun r => collectBack_readOnly _ _ _ _ _

/-- The method `Has` does not write when `find` does not. -/
theorem Has_readOnly {fnd : α → Nat → Nat → M α (Nat × Target)}
    (hf : ∀ x fuel root, ReadOnly (fnd x fuel root)) (fuel : Nat) (x : α) :
    ReadOnly (Has fnd fuel x) := by
  unfold Has
  refine ReadOnly.of_bind ReadOnly.of_getRoot fun r => ?_
  refine ReadOnly.of_bind ReadOnly.of_getBottom fun b => ?_
  split_ifs
  · exact ReadOnly.of_pure _
  · refine ReadOnly.of_bind ReadOnly.of_getRoot fun r => ?_
    refine ReadOnly.of_bind (hf _ _ _) fun p => ?_
    exact ReadOnly.of_pure _

/-- The method `FindGreaterThanOrEqual` does not write when
`findGreaterThanOrEqual` does not. -/
theorem FindGreaterThanOrEqual_readOnly {fge : α → Nat → Nat → Nat → M α (Nat × Bool)}
    (hg : ∀ x fuel n root, ReadOnly (fge x fuel n root)) (fuel : Nat) (x : α) :
    ReadOnly (FindGreaterThanOrEqual fge fuel x) := by
  unfold FindGreaterThanOrEqual
  refine ReadOnly.of_bind ReadOnly.of_getRoot fun r => ?_
  refine ReadOnly.of_bind ReadOnly.of_getBottom fun b => ?_
  split_ifs
  · exact ReadOnly.of_pure _
  · exact ReadOnly.of_bind ReadOnly.of_getRoot fun r => hg _ _ _ _

/-- The method `insertNearby` of `set[T]` keeps the typing when the set is not
empty. -/
theorem insertNearby_keeps [Inhabited α] [LinearOrder α] {n r : Nat} (h1 : 2 ≤ r) (h2 : r < n)
    (fuel si : Nat) (x : α) :
    KeepsAt n r (insertNearby fuel si x) (fun n' _ => n ≤ n') := by
  have hi : ∀ root, KeepsAt n r (insert find fuel root x) (fun n' _ => n ≤ n') :=
    fun root => insert_keeps find_keeps h1 h2 fuel root x
  unfold insertNearby
  refine KeepsAt.read_bind (ReadOnly.of_load _ _) fun v => ?_
  split_ifs
  · exact KeepsAt.of_keeps (Keeps.pure (le_refl _))
  · refine KeepsAt.read_bind (Next_readOnly _ _) fun p => ?_
    obtain ⟨next, ok⟩ := p
    simp only
    split_ifs
    · exact hi _
    · refine KeepsAt.read_bind (ReadOnly.of_load _ _) fun nv => ?_
      split_ifs
      · exact KeepsAt.of_keeps (Keeps.pure (le_refl _))
      · exact KeepsAt.read_bind (lower_readOnly _ _) fun start => hi _
      · exact KeepsAt.getRoot_bind (hi _)
  · refine KeepsAt.read_bind (Prev_readOnly _ _) fun p => ?_
    obtain ⟨prev, ok⟩ := p
    simp only
    split_ifs
    · exact hi _
    · refine KeepsAt.read_bind (ReadOnly.of_load _ _) fun nv => ?_
      split_ifs
      · exact KeepsAt.of_keeps (Keeps.pure (le_refl _))
      · exact KeepsAt.read_bind (lower_readOnly _ _) fun start => hi _
      · exact KeepsAt.getRoot_bind (hi _)

/-- The method `insertNearby` of `setFunc[T]` keeps the typing when the set is
not empty. -/
theorem insertNearbyFunc_keeps [Inhabited α] (cmp : α → α → Int) {n r : Nat} (h1 : 2 ≤ r)
    (h2 : r < n) (fuel si : Nat) (x : α) :
    KeepsAt n r (insertNearbyFunc cmp fuel si x) (fun n' _ => n ≤ n') := by
  have hi : ∀ root, KeepsAt n r (insert (findFunc cmp) fuel root x) (fun n' _ => n ≤ n') :=
    fun root => insert_keeps (findFunc_keeps cmp) h1 h2 fuel root x
  unfold insertNearbyFunc
  refine KeepsAt.read_bind (ReadOnly.of_load _ _) fun v => ?_
  split_ifs
  · exact KeepsAt.of_keeps (Keeps.pure (le_refl _))
  · refine KeepsAt.read_bind (Next_readOnly _ _) fun p => ?_
    obtain ⟨next, ok⟩ := p
    simp only
    split_ifs
    · exact hi _
    · refine KeepsAt.read_bind (ReadOnly.of_load _ _) fun nv => ?_
      split_ifs
      · exact KeepsAt.of_keeps (Keeps.pure (le_refl _))
      · exact KeepsAt.read_bind (lower_readOnly _ _) fun start => hi _
      · exact KeepsAt.getRoot_bind (hi _)
  · refine KeepsAt.read_bind (Prev_readOnly _ _) fun p => ?_
    obtain ⟨prev, ok⟩ := p
    simp only
    split_ifs
    · exact hi _
    · refine KeepsAt.read_bind (ReadOnly.of_load _ _) fun nv => ?_
      split_ifs
      · exact KeepsAt.of_keeps (Keeps.pure (le_refl _))
      · exact KeepsAt.read_bind (lower_readOnly _ _) fun start => hi _
      · exact KeepsAt.getRoot_bind (hi _)

theorem newSet_typed [Inhabited α] : Typed (newSet : Set α) :=
  ⟨rfl, le_refl _, rfl, rfl, rfl, rfl, Nat.zero_lt_two, ⟨le_refl _, Nat.one_lt_two⟩,
    fun a h1 h2 => absurd h2 (by simp only [newSet]; omega)⟩

/-- Every state of the memory that the operations lead to is typed. -/
theorem Reached.typed [Inhabited α] {f : Finder α} (hf : FindKeeps f.find)
    (hn : ∀ n r fuel si x, 2 ≤ r → r < n →
      KeepsAt n r (f.insertNearby fuel si x) (fun n' _ => n ≤ n'))
    (hfr : ∀ x fuel root, ReadOnly (f.find x fuel root))
    (hgr : ∀ x fuel n root, ReadOnly (f.findGreaterThanOrEqual x fuel n root))
    {s : Set α} (h : Reached f s) : Typed s := by
  induction h with
  | new => exact newSet_typed
  | Insert s fuel x _ ih =>
    exact (Insert_keeps hf ih.root.1 ih.root.2 fuel x).state_typed s ih rfl rfl
  | Delete s fuel x _ ih =>
    exact (Delete_keeps hf ih.root.1 ih.root.2 fuel x).state_typed s ih rfl rfl
  | InsertNearby s fuel si x _ hr ih =>
    have h1 := ih.root
    have h2 := ih.bottom
    exact (hn s.next s.root fuel si x (by omega) (by omega)).state_typed s ih rfl rfl
  | Len s _ ih => rw [Len_readOnly s]; exact ih
  | First s fuel _ ih => rw [First_readOnly fuel s]; exact ih
  | Last s fuel _ ih => rw [Last_readOnly fuel s]; exact ih
  | Min s fuel _ ih => rw [Min_readOnly fuel s]; exact ih
  | Max s fuel _ ih => rw [Max_readOnly fuel s]; exact ih
  | All s fuel _ ih => rw [All_readOnly fuel s]; exact ih
  | Backward s fuel _ ih => rw [Backward_readOnly fuel s]; exact ih
  | Has s fuel x _ ih => rw [Has_readOnly hfr fuel x s]; exact ih
  | FindGreaterThanOrEqual s fuel x _ ih =>
    rw [FindGreaterThanOrEqual_readOnly hgr fuel x s]; exact ih
  | Next s fuel si _ ih => rw [Next_readOnly fuel si s]; exact ih
  | Prev s fuel si _ ih => rw [Prev_readOnly fuel si s]; exact ih
  | Value s si _ ih => rw [Value_readOnly si s]; exact ih


/-- In the memory the operations work as on the tree: the values come out in
order. -/
theorem scenario_heap_insert :
    (All 10 (insertAll 10 [2, 4, 6, 1, 7, 8] newSet)).value? = some [1, 2, 4, 6, 7, 8] := by
  decide!

theorem scenario_heap_delete :
    (All 20 (deleteAll 20 [4, 1, 10, 3, 12, 9, 8, 7]
      (insertAll 20 [2, 4, 6, 1, 7, 8, 10, 9, 3, 5, 12, 11] newSet))).value? =
      some [2, 5, 6, 11] ∧
    (deleteAll 20 [4, 1, 10, 3, 12, 9, 8, 7]
      (insertAll 20 [2, 4, 6, 1, 7, 8, 10, 9, 3, 5, 12, 11] newSet)).size = 4 := by
  decide!

theorem scenario_heap_insertNearby :
    (All 10 (insertNearby 10 3 5 (insertAll 10 [2, 4, 6] newSet)).state).value? =
      some [2, 4, 5, 6] ∧
    (insertNearby 10 3 5 (insertAll 10 [2, 4, 6] newSet)).value? = some (5, true) ∧
    (insertNearby 10 3 6 (insertAll 10 [2, 4, 6] newSet)).value? = some (4, false) := by
  decide!

/-- The queries in the memory, on the set of 1, 2, 4, 6, 7, 8 (the node of 6
is at address 4) and on the empty set. -/
theorem scenario_heap_queries :
    (Has find 10 4 (insertAll 10 [2, 4, 6, 1, 7, 8] newSet)).value? = some true ∧
    (Has find 10 5 (insertAll 10 [2, 4, 6, 1, 7, 8] newSet)).value? = some false ∧
    (FindGreaterThanOrEqual findGreaterThanOrEqual 10 5
      (insertAll 10 [2, 4, 6, 1, 7, 8] newSet)).value? = some (4, true) ∧
    (FindGreaterThanOrEqual findGreaterThanOrEqual 10 9
      (insertAll 10 [2, 4, 6, 1, 7, 8] newSet)).value? = some (0, false) ∧
    (Min 10 (insertAll 10 [2, 4, 6, 1, 7, 8] newSet)).value? = some (1, true) ∧
    (Max 10 (insertAll 10 [2, 4, 6, 1, 7, 8] newSet)).value? = some (8, true) ∧
    (Backward 10 (insertAll 10 [2, 4, 6, 1, 7, 8] newSet)).value? = some [8, 7, 6, 4, 2, 1] ∧
    (Len (insertAll 10 [2, 4, 6, 1, 7, 8] newSet)).value? = some 6 ∧
    (Has find 10 4 (newSet : Set Int)).value? = some false ∧
    (Max 10 (newSet : Set Int)).value? = some (0, false) := by
  decide!

/-- In `skew` applied to the sentinel the fields `l` and `r` of the sentinel
are written with the sentinel itself, and its field `parent` is set to the
sentinel. -/
theorem scenario_skew_bottom :
    sentinelFields (skew 1 (newSet : Set Int)).state = sentinelFields (newSet : Set Int) ∧
    ((skew 1 (newSet : Set Int)).state.mem 1).parent = 1 := by
  decide!

/-! ## The claim on the sentinel -/

/-- C26, counterexample to the claim as worded: after `NewSet`, `Insert(2)`,
`Insert(1)` the field `parent` of the sentinel is no longer `nil`: `skew`
writes `t.l.r.parent = t` where `t.l.r` is the sentinel. -/
theorem sentinel_parent_written :
    ∃ s : Set Int, Reached setFinder s ∧
      (s.mem s.bottom).parent ≠ ((newSet : Set Int).mem (newSet : Set Int).bottom).parent ∧
      (s.mem s.bottom).parent = 2 :=
  ⟨_, Reached.Insert _ 3 1 (Reached.Insert _ 3 2 Reached.new), by decide!, by decide!⟩

/-- C26 (amended): the fields `l`, `r`, `level` and `value` of the sentinel,
and the pointer `bottom` of the set, are the same after every sequence of
public operations (`Insert`, `Delete`, `InsertNearby` on a set that is not
empty, and the queries `Len`, `First`, `Last`, `Min`, `Max`, `All`, `Backward`,
`Has`, `FindGreaterThanOrEqual`, `Next`, `Prev`, `Value`) as when `newSet`
returned, with either finder (`NewSet`, `NewSetFunc`), also when an operation
is cut off by a bound on the iterations of its loops or by a `nil`
dereference; and the queries write no field at all: from every memory, the
memory after a query is the memory before it. -/
theorem sentinel_fields_kept [Inhabited α] :
    (∀ (ord : LinearOrder α) (s : Set α), Reached (@setFinder α ord) s →
      s.bottom = (newSet : Set α).bottom ∧
      sentinelFields s = sentinelFields (newSet : Set α)) ∧
    (∀ (cmp : α → α → Int) (s : Set α), Reached (funcFinder cmp) s →
      s.bottom = (newSet : Set α).bottom ∧
      sentinelFields s = sentinelFields (newSet : Set α)) ∧
    (∀ (fuel si : Nat),
      ReadOnly (Len : M α Int) ∧ ReadOnly (First fuel : M α (Nat × Bool)) ∧
      ReadOnly (Last fuel : M α (Nat × Bool)) ∧ ReadOnly (Min fuel : M α (α × Bool)) ∧
      ReadOnly (Max fuel : M α (α × Bool)) ∧ ReadOnly (All fuel : M α (List α)) ∧
      ReadOnly (Backward fuel : M α (List α)) ∧ ReadOnly (Next fuel si : M α (Nat × Bool)) ∧
      ReadOnly (Prev fuel si : M α (Nat × Bool)) ∧ ReadOnly (Value si : M α α)) ∧
    (∀ (ord : LinearOrder α) (fuel : Nat) (x : α),
      ReadOnly (Has (@setFinder α ord).find fuel x) ∧
      ReadOnly (FindGreaterThanOrEqual (@setFinder α ord).findGreaterThanOrEqual fuel x)) ∧
    (∀ (cmp : α → α → Int) (fuel : Nat) (x : α),
      ReadOnly (Has (funcFinder cmp).find fuel x) ∧
      ReadOnly (FindGreaterThanOrEqual (funcFinder cmp).findGreaterThanOrEqual fuel x)) := by
  have key : ∀ s : Set α, Typed s → s.bottom = (newSet : Set α).bottom ∧
      sentinelFields s = sentinelFields (newSet : Set α) := by
    intro s hs
    refine ⟨hs.bottom, ?_⟩
    unfold sentinelFields
    rw [hs.bottom, hs.l, hs.r, hs.level, hs.value]
    rfl
  refine ⟨fun ord s h => key s ?_, fun cmp s h => key s ?_, ?_, ?_, ?_⟩
  · exact Reached.typed find_keeps
      (fun n r fuel si x h1 h2 => insertNearby_keeps h1 h2 fuel si x)
      (fun x fuel root => find_readOnly x fuel root)
      (fun x fuel n root => findGreaterThanOrEqual_readOnly x fuel n root) h
  · exact Reached.typed (findFunc_keeps cmp)
      (fun n r fuel si x h1 h2 => insertNearbyFunc_keeps cmp h1 h2 fuel si x)
      (fun x fuel root => findFunc_readOnly cmp x fuel root)
      (fun x fuel n root => findGreaterThanOrEqualFunc_readOnly cmp x fuel n root) h
  · intro fuel si
    exact ⟨Len_readOnly, First_readOnly fuel, Last_readOnly fuel, Min_readOnly fuel,
      Max_readOnly fuel, All_readOnly fuel, Backward_readOnly fuel, Next_readOnly fuel si,
      Prev_readOnly fuel si, Value_readOnly si⟩
  · intro ord fuel x
    exact ⟨Has_readOnly (fun x fuel root => find_readOnly x fuel root) fuel x,
      FindGreaterThanOrEqual_readOnly
        (fun x fuel n root => findGreaterThanOrEqual_readOnly x fuel n root) fuel x⟩
  · intro cmp fuel x
    exact ⟨Has_readOnly (fun x fuel root => findFunc_readOnly cmp x fuel root) fuel x,
      FindGreaterThanOrEqual_readOnly
        (fun x fuel n root => findGreaterThanOrEqualFunc_readOnly cmp x fuel n root) fuel x⟩

theorem sentinel_fields_kept_witness :
    Reached setFinder (Delete setFinder.find 5 2 (Insert setFinder.find 5 1
      (Insert setFinder.find 5 2 (newSet : Set Int)).state).state).state ∧
    (Delete setFinder.find 5 2 (Insert setFinder.find 5 1
      (Insert setFinder.find 5 2 (newSet : Set Int)).state).state).state.bottom =
      (newSet : Set Int).bottom ∧
    sentinelFields (Delete setFinder.find 5 2 (Insert setFinder.find 5 1
      (Insert setFinder.find 5 2 (newSet : Set Int)).state).state).state =
      sentinelFields (newSet : Set Int) :=
  ⟨Reached.Delete _ 5 2 (Reached.Insert _ 5 1 (Reached.Insert _ 5 2 Reached.new)),
    (@sentinel_fields_kept Int _).1 _ _
      (Reached.Delete _ 5 2 (Reached.Insert _ 5 1 (Reached.Insert _ 5 2 Reached.new)))⟩

end Heap

namespace Partition

/-! ## Strongly connected components -/

/-- The cases of `TestStronglyConnected`. -/
theorem scenario_TestStronglyConnected :
    testCase [] [] = true ∧
    testCase [[]] [[0]] = true ∧
    testCase [[0]] [[0]] = true ∧
    testCase [[1], []] [[0], [1]] = true ∧
    testCase [[1], [0]] [[0, 1]] = true ∧
    testCase [[1, 2], [2], []] [[0], [1], [2]] = true ∧
    testCase [[1, 2], [2], [0]] [[0, 1, 2]] = true ∧
    testCase [[1], [2], [0]] [[0, 1, 2]] = true ∧
    testCase [[2], [2], [0]] [[0, 2], [1]] = true ∧
    testCase [[1], [2], [3], [1, 4], []] [[0], [1, 2, 3], [4]] = true ∧
    testCase [[1], [2], [3], [1, 4], [0]] [[0, 1, 2, 3, 4]] = true := by
  decide!

theorem scenario_order :
    StronglyConnected 6 [[1], [2], [3], [1, 4], []] = .ok [[4], [1, 2, 3], [0]] := by
  decide!

theorem setV_same (vs : Nat → Vertex) (v : Nat) (x : Vertex) : setV vs v x v = x := by
  simp [setV]

theorem setV_other (vs : Nat → Vertex) (v : Nat) (x : Vertex) {u : Nat} (h : u ≠ v) :
    setV vs v x u = vs u := by
  simp [setV, h]

theorem relax_eq (v w : Nat) (s : State) :
    relax v w s = s ∨
      ((s.vs w).low < (s.vs v).low ∧ relax v w s = lowerLow v (s.vs w).low s) := by
  unfold relax lowerLow
  split_ifs with h
  · exact Or.inr ⟨h, rfl⟩
  · exact Or.inl rfl

theorem relax_low_le (v w : Nat) (s : State) :
    ((relax v w s).vs v).low ≤ (s.vs v).low ∧ ((relax v w s).vs v).low ≤ (s.vs w).low := by
  unfold relax
  split_ifs with h
  · simp only [setV_same]
    omega
  · omega

theorem clearOnStack_apply (comp : List Nat) (vs : Nat → Vertex) (x : Nat) :
    clearOnStack comp vs x = if x ∈ comp then { vs x with onStack := false } else vs x := by
  induction comp generalizing vs with
  | nil => simp [clearOnStack]
  | cons u comp ih =>
    simp only [clearOnStack, ih, List.mem_cons]
    by_cases hxu : x = u
    · subst hxu
      simp only [setV_same, true_or, if_true]
      split_ifs <;> rfl
    · simp only [setV_other _ _ _ hxu, hxu, false_or]

theorem popTo_append (v : Nat) (seg old : List Nat) (h : v ∉ seg) :
    popTo v (seg ++ v :: old) = some ((seg ++ [v]).reverse, old) := by
  induction seg with
  | nil => simp [popTo]
  | cons u seg ih =>
    have hu : u ≠ v := fun e => h (e ▸ List.mem_cons_self _ _)
    have := ih (fun hm => h (List.mem_cons_of_mem _ hm))
    show popTo v (u :: (seg ++ v :: old)) = _
    rw [popTo, if_neg hu, this]
    simp only [List.cons_append, List.reverse_cons]

theorem countP_lt_of_visit {p q : Nat → Bool} (hpq : ∀ x, p x = true → q x = true)
    (V : List Nat) (u : Nat) (hu : u ∈ V) (hq : q u = true) (hp : p u = false) :
    V.countP p < V.countP q := by
  induction V with
  | nil => cases hu
  | cons a V ih =>
    simp only [List.countP_cons]
    rcases List.mem_cons.1 hu with rfl | hu'
    · have := List.countP_mono_left (l := V) (fun x _ => hpq x)
      simp only [hq, hp, if_true, Bool.false_eq_true, if_false]
      omega
    · have := ih hu'
      by_cases hpa : p a = true
      · rw [if_pos hpa, if_pos (hpq a hpa)]
        omega
      · rw [if_neg hpa]
        split_ifs <;> omega

theorem unvisited_mono (g : List (List Nat)) (s0 s : State)
    (h : ∀ x, (s0.vs x).index ≠ 0 → (s.vs x).index ≠ 0) : unvisited g s ≤ unvisited g s0 := by
  unfold unvisited
  apply List.countP_mono_left
  intro x _ hx
  simp only [decide_eq_true_eq] at hx ⊢
  by_contra hc
  exact h x hc hx

theorem unvisited_lt (g : List (List Nat)) (s0 s : State)
    (h : ∀ x, (s0.vs x).index ≠ 0 → (s.vs x).index ≠ 0) (v : Nat) (hv : v < g.length)
    (h0 : (s0.vs v).index = 0) (h1 : (s.vs v).index ≠ 0) : unvisited g s < unvisited g s0 := by
  unfold unvisited
  apply countP_lt_of_visit _ _ v (List.mem_range.2 hv)
  · simpa using h0
  · simpa using h1
  · intro x hx
    simp only [decide_eq_true_eq] at hx ⊢
    by_contra hc
    exact h x hc hx

theorem Reach.refl (g : List (List Nat)) (x : Nat) : Reach g x x :=
  Relation.ReflTransGen.refl

theorem Reach.trans {g : List (List Nat)} {x y z : Nat} (h1 : Reach g x y) (h2 : Reach g y z) :
    Reach g x z :=
  Relation.ReflTransGen.trans h1 h2

theorem Reach.edge {g : List (List Nat)} {x y : Nat} (h : Edge g x y) : Reach g x y :=
  Relation.ReflTransGen.single h

theorem Inv.stack_nodup {g : List (List Nat)} {G : List Nat} {s : State} (h : Inv g G s) :
    s.stack.Nodup :=
  h.stack_sorted.imp (fun {a b} hab => fun e => by subst e; omega)

/-- The vertices whose call is running are in the order of their indices. -/
theorem Inv.gray_sorted {g : List (List Nat)} {G : List Nat} {s : State} (h : Inv g G s) :
    G.Pairwise (fun a b => (s.vs b).index < (s.vs a).index) :=
  h.stack_sorted.sublist h.gray_sub

/-- With no call running the stack is empty. -/
theorem Inv.stack_nil {g : List (List Nat)} {s : State} (h : Inv g [] s) : s.stack = [] := by
  cases hs : s.stack with
  | nil => rfl
  | cons a t =>
    obtain ⟨z, hz, -⟩ := h.to_gray a (hs ▸ List.mem_cons_self _ _)
    cases hz


theorem enter_vs_same (v : Nat) (s : State) :
    (enter v s).vs v = ⟨true, s.nextIndex, s.nextIndex⟩ := by
  simp [enter, setV]

theorem enter_vs_other (v : Nat) (s : State) {x : Nat} (h : x ≠ v) :
    (enter v s).vs x = s.vs x := by
  simp [enter, setV, h]

/-- The first statements of `dfs(v)` establish the invariant of its loop. -/
theorem enter_body {g : List (List Nat)} {G : List Nat} {v : Nat} {s0 : State}
    (h : Inv g G s0) (hv : v < g.length) (h0 : (s0.vs v).index = 0)
    (hr : ∀ x ∈ s0.stack, Reach g x v) : Body g G v s0 (enter v s0) [] [] := by
  have hvs : v ∉ s0.stack := fun hm => h.stack_visited v hm h0
  have hne : ∀ x ∈ s0.stack, x ≠ v := fun x hx e => hvs (e ▸ hx)
  have hsame := enter_vs_same v s0
  have hother : ∀ x, x ≠ v → (enter v s0).vs x = s0.vs x := fun x hx => enter_vs_other v s0 hx
  have hstack : (enter v s0).stack = v :: s0.stack := rfl
  have hnext : (enter v s0).nextIndex = s0.nextIndex + 1 := rfl
  have hcomp : (enter v s0).components = s0.components := rfl
  have hidx : ∀ x, (s0.vs x).index ≠ 0 → (enter v s0).vs x = s0.vs x := by
    intro x hx
    exact hother x (fun e => hx (e ▸ h0))
  have hmono : ∀ x, (s0.vs x).index ≠ 0 → ((enter v s0).vs x).index ≠ 0 := by
    intro x hx
    rw [hidx x hx]
    exact hx
  have hnp := h.next_pos
  have hvis : ((enter v s0).vs v).index ≠ 0 := by
    rw [hsame]
    show s0.nextIndex ≠ 0
    omega
  refine ⟨?_, ?_, h.gray_sub, ?_, ?_, ?_, ?_⟩
  · constructor
    · rw [hnext]; omega
    · intro x
      rw [hnext]
      by_cases hx : x = v
      · rw [hx, hsame]
        show s0.nextIndex < s0.nextIndex + 1
        omega
      · rw [hother x hx]
        have := h.index_lt x
        omega
    · intro x hx
      by_cases hxv : x = v
      · rw [hxv]; exact hv
      · rw [hother x hxv] at hx
        exact h.visited_lt x hx
    · intro x
      rw [hstack]
      by_cases hxv : x = v
      · rw [hxv, hsame]
        simp
      · rw [hother x hxv, h.onStack_iff x]
        simp [hxv]
    · intro x hx
      rw [hstack] at hx
      rcases List.mem_cons.1 hx with rfl | hx
      · exact hvis
      · exact hmono x (h.stack_visited x hx)
    · rw [hstack]
      refine List.pairwise_cons.2 ⟨?_, ?_⟩
      · intro b hb
        rw [hsame, hother b (hne b hb)]
        exact h.index_lt b
      · refine h.stack_sorted.imp_of_mem ?_
        intro a b ha hb hab
        rw [hother a (hne a ha), hother b (hne b hb)]
        exact hab
    · rw [hstack]
      exact h.gray_sub.cons₂ v
    · intro x hx hxG y hy
      have hxv : x ≠ v := fun e => hxG (e ▸ List.mem_cons_self _ _)
      rw [hother x hxv] at hx
      exact hmono y (h.explored x hx (fun hm => hxG (List.mem_cons_of_mem _ hm)) y hy)
    · intro x hx
      rw [hstack] at hx
      rcases List.mem_cons.1 hx with rfl | hx
      · rw [hsame]
      · rw [hother x (hne x hx)]
        exact h.low_le x hx
    · intro x hx
      rw [hstack] at hx ⊢
      rcases List.mem_cons.1 hx with rfl | hx
      · exact ⟨x, List.mem_cons_self _ _, by rw [hsame], Reach.refl g x⟩
      · obtain ⟨z, hz, e, r⟩ := h.low_wit x hx
        refine ⟨z, List.mem_cons_of_mem _ hz, ?_, r⟩
        rw [hother z (hne z hz), hother x (hne x hx)]
        exact e
    · intro x hx y hy hxy
      rw [hstack] at hx hy
      rcases List.mem_cons.1 hy with ey | hy'
      · rcases List.mem_cons.1 hx with ex | hx'
        · rw [ex, ey]
          exact Reach.refl g _
        · rw [ey]
          exact hr x hx'
      · rcases List.mem_cons.1 hx with ex | hx'
        · rw [ex, hsame, hother y (hne y hy')] at hxy
          have := h.index_lt y
          simp only at hxy
          omega
        · rw [hother x (hne x hx'), hother y (hne y hy')] at hxy
          exact h.stack_reach x hx' y hy' hxy
    · intro y hy
      rw [hstack] at hy
      rcases List.mem_cons.1 hy with rfl | hy
      · exact ⟨y, List.mem_cons_self _ _, le_refl _, Reach.refl g y⟩
      · obtain ⟨z, hz, e, r⟩ := h.to_gray y hy
        refine ⟨z, List.mem_cons_of_mem _ hz, ?_, r⟩
        rw [hother z (hne z (h.gray_sub.subset hz)), hother y (hne y hy)]
        exact e
    · intro x
      rw [hcomp, hstack, h.comps_done x]
      by_cases hxv : x = v
      · subst hxv
        simp [h0]
      · rw [hother x hxv]
        simp [hxv]
    · rw [hcomp]
      exact h.comps_scc
    · rw [hcomp]
      exact h.comps_nodup
    · rw [hcomp]
      exact h.comps_ne
    · intro x hx hxs y hy
      rw [hstack] at hxs ⊢
      have hxv : x ≠ v := fun e => hxs (e ▸ List.mem_cons_self _ _)
      rw [hother x hxv] at hx
      obtain ⟨a, b⟩ := h.done_closed x hx (fun hm => hxs (List.mem_cons_of_mem _ hm)) y hy
      have hyv : y ≠ v := fun e => a (e ▸ h0)
      refine ⟨hmono y a, ?_⟩
      simp only [List.mem_cons, not_or]
      exact ⟨hyv, b⟩
  · constructor
    · rw [hstack]; rfl
    · intro x hx
      simp only [List.nil_append, List.mem_singleton] at hx
      rw [hx]; exact h0
    · intro x hx
      exact hother x (hne x hx)
    · intro x hx
      rw [hidx x hx]
    · rw [hnext]; omega
    · intro x hx0 hx1
      by_cases hxv : x = v
      · rw [hxv, hsame]
      · rw [hother x hxv] at hx1
        exact absurd hx0 hx1
    · exact unvisited_mono g s0 _ hmono
  · intro x hx
    cases hx
  · intro w hw
    cases hw
  · intro w hw
    cases hw
  · exact unvisited_lt g s0 _ hmono v hv h0 hvis


theorem relax_stack (v w : Nat) (s : State) : (relax v w s).stack = s.stack := by
  unfold relax; split_ifs <;> rfl

theorem relax_nextIndex (v w : Nat) (s : State) : (relax v w s).nextIndex = s.nextIndex := by
  unfold relax; split_ifs <;> rfl

theorem relax_components (v w : Nat) (s : State) :
    (relax v w s).components = s.components := by
  unfold relax; split_ifs <;> rfl

theorem relax_index (v w : Nat) (s : State) (x : Nat) :
    ((relax v w s).vs x).index = (s.vs x).index := by
  unfold relax
  split_ifs
  · by_cases hx : x = v
    · subst hx; simp only [setV_same]
    · simp only [setV_other _ _ _ hx]
  · rfl

theorem relax_onStack (v w : Nat) (s : State) (x : Nat) :
    ((relax v w s).vs x).onStack = (s.vs x).onStack := by
  unfold relax
  split_ifs
  · by_cases hx : x = v
    · subst hx; simp only [setV_same]
    · simp only [setV_other _ _ _ hx]
  · rfl

theorem relax_vs_other (v w : Nat) (s : State) {x : Nat} (hx : x ≠ v) :
    (relax v w s).vs x = s.vs x := by
  unfold relax
  split_ifs
  · simp only [setV_other _ _ _ hx]
  · rfl

theorem relax_low (v w : Nat) (s : State) :
    ((relax v w s).vs v).low = (s.vs v).low ∨
      (((relax v w s).vs v).low = (s.vs w).low ∧ (s.vs w).low < (s.vs v).low) := by
  unfold relax
  split_ifs with h
  · right
    exact ⟨by simp [setV], h⟩
  · left; rfl

theorem unvisited_congr (g : List (List Nat)) (s s' : State)
    (h : ∀ x, (s'.vs x).index = (s.vs x).index) : unvisited g s' = unvisited g s := by
  unfold unvisited
  congr 1
  funext x
  rw [h x]

/-- The invariant after `vs[v].low` has been lowered to the `low` of `w`, when
this is the index of a vertex on the stack that `v` reaches. -/
theorem Inv.relaxed {g : List (List Nat)} {G : List Nat} {s : State} (h : Inv g G s)
    (v w : Nat) (hv : v ∈ s.stack)
    (hw : (s.vs w).low < (s.vs v).low →
      ∃ z ∈ s.stack, (s.vs z).index = (s.vs w).low ∧ Reach g v z) :
    Inv g G (relax v w s) := by
  have hi := relax_index v w s
  have ho := relax_onStack v w s
  have hst := relax_stack v w s
  have hn := relax_nextIndex v w s
  have hc := relax_components v w s
  constructor
  · rw [hn]; exact h.next_pos
  · intro x; rw [hn, hi]; exact h.index_lt x
  · intro x; rw [hi]; exact h.visited_lt x
  · intro x; rw [ho, hst]; exact h.onStack_iff x
  · intro x; rw [hst, hi]; exact h.stack_visited x
  · rw [hst]
    refine h.stack_sorted.imp ?_
    intro a b hab
    rw [hi, hi]; exact hab
  · rw [hst]; exact h.gray_sub
  · intro x hx hxG y hy
    rw [hi] at hx ⊢
    exact h.explored x hx hxG y hy
  · intro x hx
    rw [hst] at hx
    rw [hi]
    by_cases hxv : x = v
    · subst hxv
      have := (relax_low_le x w s).1
      have := h.low_le x hx
      omega
    · rw [relax_vs_other v w s hxv]
      exact h.low_le x hx
  · intro x hx
    rw [hst] at hx ⊢
    by_cases hxv : x = v
    · subst hxv
      rcases relax_low x w s with e | ⟨e, hlt⟩
      · obtain ⟨z, hz, ez, r⟩ := h.low_wit x hx
        exact ⟨z, hz, by rw [hi, e]; exact ez, r⟩
      · obtain ⟨z, hz, ez, r⟩ := hw hlt
        exact ⟨z, hz, by rw [hi, e]; exact ez, r⟩
    · obtain ⟨z, hz, ez, r⟩ := h.low_wit x hx
      exact ⟨z, hz, by rw [hi, relax_vs_other v w s hxv]; exact ez, r⟩
  · intro x hx y hy hxy
    rw [hst] at hx hy
    rw [hi, hi] at hxy
    exact h.stack_reach x hx y hy hxy
  · intro y hy
    rw [hst] at hy
    obtain ⟨z, hz, e, r⟩ := h.to_gray y hy
    exact ⟨z, hz, by rw [hi, hi]; exact e, r⟩
  · intro x
    rw [hc, hst, hi]
    exact h.comps_done x
  · rw [hc]; exact h.comps_scc
  · rw [hc]; exact h.comps_nodup
  · rw [hc]; exact h.comps_ne
  · intro x hx hxs y hy
    rw [hst] at hxs ⊢
    rw [hi] at hx ⊢
    exact h.done_closed x hx hxs y hy

theorem Ext.relax_keep {g : List (List Nat)} {s0 s : State} {seg : List Nat} (h : Ext g s0 s seg)
    (v w : Nat) (hv : v ∉ s0.stack) : Ext g s0 (relax v w s) seg := by
  have hi := relax_index v w s
  constructor
  · rw [relax_stack]; exact h.stack_eq
  · exact h.seg_new
  · intro x hx
    rw [relax_vs_other v w s (fun e => hv (e ▸ hx))]
    exact h.old_vs x hx
  · intro x hx
    rw [hi]; exact h.index_keep x hx
  · rw [relax_nextIndex]; exact h.next_le
  · intro x h0 h1
    rw [hi] at h1 ⊢
    exact h.new_ge x h0 h1
  · rw [unvisited_congr g s _ hi]; exact h.unv_le

theorem Ext.visited_mono {g : List (List Nat)} {s0 s : State} {seg : List Nat}
    (h : Ext g s0 s seg) (x : Nat) (hx : (s0.vs x).index ≠ 0) : (s.vs x).index ≠ 0 := by
  rw [h.index_keep x hx]; exact hx

theorem Ext.chain {g : List (List Nat)} {s0 s1 s2 : State} {seg1 seg2 : List Nat}
    (h1 : Ext g s0 s1 seg1) (h2 : Ext g s1 s2 seg2) : Ext g s0 s2 (seg2 ++ seg1) := by
  constructor
  · rw [h2.stack_eq, h1.stack_eq, List.append_assoc]
  · intro x hx
    rcases List.mem_append.1 hx with hx | hx
    · by_contra hc
      have := h2.seg_new x hx
      exact h1.visited_mono x hc this
    · exact h1.seg_new x hx
  · intro x hx
    have hx1 : x ∈ s1.stack := by
      rw [h1.stack_eq]; exact List.mem_append_right _ hx
    rw [h2.old_vs x hx1, h1.old_vs x hx]
  · intro x hx
    rw [h2.index_keep x (h1.visited_mono x hx), h1.index_keep x hx]
  · exact le_trans h1.next_le h2.next_le
  · intro x h0 hx2
    by_cases hx1 : (s1.vs x).index = 0
    · exact le_trans h1.next_le (h2.new_ge x hx1 hx2)
    · rw [h2.index_keep x hx1]
      exact h1.new_ge x h0 hx1
  · exact le_trans h2.unv_le h1.unv_le

/-- In the loop of `dfs(v)` the vertex `v` is not on the stack of the caller,
and is on the stack. -/
theorem Body.v_not_old {g : List (List Nat)} {G : List Nat} {v : Nat} {s0 s : State}
    {seg P : List Nat} (h : Body g G v s0 s seg P) (h0 : Inv g G s0) : v ∉ s0.stack := by
  intro hm
  exact h0.stack_visited v hm (h.ext.seg_new v (by simp))

theorem Body.v_mem {g : List (List Nat)} {G : List Nat} {v : Nat} {s0 s : State}
    {seg P : List Nat} (h : Body g G v s0 s seg P) : v ∈ s.stack := by
  rw [h.ext.stack_eq]
  simp

/-- Every vertex on the stack reaches a neighbour `w` of `v`. -/
theorem Body.reach_child {g : List (List Nat)} {G : List Nat} {v : Nat} {s0 s : State}
    {seg P : List Nat} (h : Body g G v s0 s seg P) {w : Nat} (hw : Edge g v w) :
    ∀ x ∈ s.stack, Reach g x w := by
  intro x hx
  obtain ⟨z, hz, -, r⟩ := h.inv.to_gray x hx
  have hzv : Reach g z v := by
    rcases List.mem_cons.1 hz with rfl | hzG
    · exact Reach.refl g _
    · have hs := h.inv.gray_sorted
      have := (List.pairwise_cons.1 hs).1 z hzG
      exact h.inv.stack_reach z (h.inv.gray_sub.subset hz) v h.v_mem (le_of_lt this)
  exact (r.trans hzv).trans (Reach.edge hw)


/-- The invariant of the loop after the `low` of `v` has been lowered to that
of a neighbour. -/
theorem Body.of_relax {g : List (List Nat)} {G : List Nat} {v : Nat} {s0 s1 : State}
    {seg1 P1 : List Nat} (w : Nat) (h0 : Inv g G s0) (hinv : Inv g (v :: G) s1)
    (hext : Ext g s0 s1 (seg1 ++ [v])) (hg : G.Sublist s0.stack)
    (hw : (s1.vs w).low < (s1.vs v).low →
      ∃ z ∈ s1.stack, (s1.vs z).index = (s1.vs w).low ∧ Reach g v z)
    (hx : ∀ x ∈ seg1, ∀ y ∈ s0.stack, Edge g x y →
      ((relax v w s1).vs v).low ≤ (s1.vs y).index)
    (hp1 : ∀ u ∈ P1, (s1.vs u).index ≠ 0)
    (hp2 : ∀ u ∈ P1, u ∈ s0.stack → ((relax v w s1).vs v).low ≤ (s1.vs u).index)
    (hu : unvisited g s1 < unvisited g s0) : Body g G v s0 (relax v w s1) seg1 P1 := by
  have hv1 : v ∈ s1.stack := by rw [hext.stack_eq]; simp
  have hv0 : v ∉ s0.stack := fun hm => h0.stack_visited v hm (hext.seg_new v (by simp))
  have hi := relax_index v w s1
  refine ⟨hinv.relaxed v w hv1 hw, hext.relax_keep v w hv0, hg, ?_, ?_, ?_, ?_⟩
  · intro x hxs y hy he
    rw [hi]
    exact hx x hxs y hy he
  · intro u hu1
    rw [hi]
    exact hp1 u hu1
  · intro u hu1 hu0
    rw [hi]
    exact hp2 u hu1 hu0
  · rw [unvisited_congr g s1 _ hi]
    exact hu

/-- A neighbour that is on the stack. -/
theorem Body.stack_edge {g : List (List Nat)} {G : List Nat} {v : Nat} {s0 s : State}
    {seg P : List Nat} (hb : Body g G v s0 s seg P) (h0 : Inv g G s0) {w : Nat}
    (he : Edge g v w) (hws : w ∈ s.stack) : Body g G v s0 (relax v w s) seg (w :: P) := by
  have hl := relax_low_le v w s
  refine Body.of_relax w h0 hb.inv hb.ext hb.gray0 ?_ ?_ ?_ ?_ hb.unv_lt
  · intro _
    obtain ⟨z, hz, ez, r⟩ := hb.inv.low_wit w hws
    exact ⟨z, hz, ez, (Reach.edge he).trans r⟩
  · intro x hx y hy hxy
    have := hb.xedge x hx y hy hxy
    omega
  · intro u hu
    rcases List.mem_cons.1 hu with rfl | hu
    · exact hb.inv.stack_visited u hws
    · exact hb.proc_visited u hu
  · intro u hu hu0
    rcases List.mem_cons.1 hu with rfl | hu
    · have := hb.inv.low_le u hws
      omega
    · have := hb.proc_low u hu hu0
      omega

/-- A neighbour that has been visited and is not on the stack. -/
theorem Body.done_edge {g : List (List Nat)} {G : List Nat} {v : Nat} {s0 s : State}
    {seg P : List Nat} (hb : Body g G v s0 s seg P) {w : Nat}
    (hw : (s.vs w).index ≠ 0) (hws : w ∉ s.stack) : Body g G v s0 s seg (w :: P) := by
  refine ⟨hb.inv, hb.ext, hb.gray0, hb.xedge, ?_, ?_, hb.unv_lt⟩
  · intro u hu
    rcases List.mem_cons.1 hu with rfl | hu
    · exact hw
    · exact hb.proc_visited u hu
  · intro u hu hu0
    rcases List.mem_cons.1 hu with rfl | hu
    · exfalso
      apply hws
      rw [hb.ext.stack_eq]
      exact List.mem_append_right _ hu0
    · exact hb.proc_low u hu hu0

/-- A neighbour that had not been visited, after the call of `dfs` for it. -/
theorem Body.child {g : List (List Nat)} {G : List Nat} {v : Nat} {s0 s s1 : State}
    {seg segw P : List Nat} (hb : Body g G v s0 s seg P) (h0 : Inv g G s0) {w : Nat}
    (he : Edge g v w) (hw0 : (s.vs w).index = 0) (hp : Post g (v :: G) w s s1 segw) :
    Body g G v s0 (relax v w s1) (segw ++ seg) (w :: P) := by
  have hl := relax_low_le v w s1
  have hvs : v ∈ s.stack := hb.v_mem
  have hvs1 : v ∈ s1.stack := by
    rw [hp.ext.stack_eq]; exact List.mem_append_right _ hvs
  have hvv : s1.vs v = s.vs v := hp.ext.old_vs v hvs
  have hold : ∀ y ∈ s0.stack, y ∈ s.stack := by
    intro y hy
    rw [hb.ext.stack_eq]; exact List.mem_append_right _ hy
  have hext : Ext g s0 s1 ((segw ++ seg) ++ [v]) := by
    have := hb.ext.chain hp.ext
    rwa [← List.append_assoc] at this
  refine Body.of_relax w h0 hp.inv hext hb.gray0 ?_ ?_ ?_ ?_
    (lt_trans hp.unv_lt hb.unv_lt)
  · intro hlt
    by_cases hws : w ∈ s1.stack
    · obtain ⟨z, hz, ez, r⟩ := hp.inv.low_wit w hws
      exact ⟨z, hz, ez, (Reach.edge he).trans r⟩
    · exfalso
      have e1 := hp.popped hws
      have e2 := hp.ext.new_ge w hw0 hp.visited
      have e3 := hb.inv.index_lt v
      have e4 := hp.inv.low_le v hvs1
      rw [hvv] at e4 hlt
      omega
  · intro x hx y hy hxy
    rcases List.mem_append.1 hx with hx | hx
    · have := hp.xedge x hx y (hold y hy) hxy
      omega
    · have := hb.xedge x hx y hy hxy
      rw [hp.ext.old_vs y (hold y hy)]
      rw [hvv] at hl
      omega
  · intro u hu
    rcases List.mem_cons.1 hu with rfl | hu
    · exact hp.visited
    · exact hp.ext.visited_mono u (hb.proc_visited u hu)
  · intro u hu hu0
    rcases List.mem_cons.1 hu with rfl | hu
    · exact absurd hw0 (hb.inv.stack_visited u (hold u hu0))
    · have := hb.proc_low u hu hu0
      rw [hp.ext.old_vs u (hold u hu0)]
      rw [hvv] at hl
      omega


/-- When the call for `v` ends and leaves `v` on the stack, `v` is no longer
among the vertices whose call is running. -/
theorem Inv.ungray {g : List (List Nat)} {G : List Nat} {v : Nat} {s : State}
    (h : Inv g (v :: G) s) (hexp : ∀ y, Edge g v y → (s.vs y).index ≠ 0)
    (hlow : (s.vs v).low < (s.vs v).index) : Inv g G s := by
  have hv : v ∈ s.stack := h.gray_sub.subset (List.mem_cons_self _ _)
  refine { h with
    gray_sub := (List.sublist_cons_self v G).trans h.gray_sub
    explored := ?_
    to_gray := ?_ }
  · intro x hx hxG y hy
    by_cases hxv : x = v
    · subst hxv
      exact hexp y hy
    · exact h.explored x hx (by simp [hxv, hxG]) y hy
  · intro y hy
    obtain ⟨z, hz, e, r⟩ := h.to_gray y hy
    rcases List.mem_cons.1 hz with rfl | hzG
    · obtain ⟨z1, hz1, e1, r1⟩ := h.low_wit z hv
      obtain ⟨z2, hz2, e2, r2⟩ := h.to_gray z1 hz1
      rcases List.mem_cons.1 hz2 with rfl | hz2G
      · omega
      · exact ⟨z2, hz2G, by omega, (r.trans r1).trans r2⟩
    · exact ⟨z, hzG, e, r⟩

/-- The end of `dfs(v)` when `low` is less than `index`. -/
theorem Body.keep {g : List (List Nat)} {G : List Nat} {v : Nat} {s0 s : State}
    {seg P : List Nat} (hb : Body g G v s0 s seg P) (hall : ∀ w, Edge g v w → w ∈ P)
    (hlow : (s.vs v).low ≠ (s.vs v).index) : Post g G v s0 s (seg ++ [v]) := by
  have hv : v ∈ s.stack := hb.v_mem
  have hle := hb.inv.low_le v hv
  refine ⟨hb.inv.ungray (fun y hy => hb.proc_visited y (hall y hy)) (by omega), hb.ext,
    hb.inv.stack_visited v hv, ?_, fun hn => absurd hv hn, hb.unv_lt⟩
  intro x hx y hy hxy
  rcases List.mem_append.1 hx with hx | hx
  · exact hb.xedge x hx y hy hxy
  · simp only [List.mem_singleton] at hx
    subst hx
    exact hb.proc_low y (hall y hxy) hy


/-- The shape of the stack in the loop of `dfs(v)`. -/
theorem Body.seg_facts {g : List (List Nat)} {G : List Nat} {v : Nat} {s0 s : State}
    {seg P : List Nat} (hb : Body g G v s0 s seg P) :
    s.stack = seg ++ v :: s0.stack ∧ v ∉ seg ∧ seg.Nodup ∧
    (∀ x, x ∈ seg ∨ x = v → x ∉ s0.stack) ∧
    (∀ x ∈ seg, (s.vs v).index < (s.vs x).index) ∧
    (∀ y ∈ s0.stack, (s.vs y).index < (s.vs v).index) := by
  have hstack : s.stack = seg ++ v :: s0.stack := by
    rw [hb.ext.stack_eq]; simp
  have hnd := hb.inv.stack_nodup
  have hso := hb.inv.stack_sorted
  rw [hstack] at hnd hso
  obtain ⟨n1, n2, n3⟩ := List.nodup_append.1 hnd
  obtain ⟨n4, n5⟩ := List.nodup_cons.1 n2
  obtain ⟨p1, p2, p3⟩ := List.pairwise_append.1 hso
  obtain ⟨p4, p5⟩ := List.pairwise_cons.1 p2
  refine ⟨hstack, ?_, n1, ?_, ?_, ?_⟩
  · intro hm
    exact n3 hm (List.mem_cons_self _ _)
  · intro x hx hx0
    rcases hx with hx | rfl
    · exact n3 hx (List.mem_cons_of_mem _ hx0)
    · exact n4 hx0
  · intro x hx
    exact p3 x hx v (List.mem_cons_self _ _)
  · intro y hy
    exact p4 y hy

/-- In the loop of `dfs(v)` every vertex on the stack from `v` up is reached
from `v` and reaches `v`. -/
theorem Body.in_scc {g : List (List Nat)} {G : List Nat} {v : Nat} {s0 s : State}
    {seg P : List Nat} (hb : Body g G v s0 s seg P) (x : Nat) (hx : x ∈ seg ∨ x = v) :
    Reach g v x ∧ Reach g x v := by
  obtain ⟨hstack, -, -, -, f4, -⟩ := hb.seg_facts
  have hv : v ∈ s.stack := hb.v_mem
  have hxs : x ∈ s.stack := by
    rw [hstack]
    rcases hx with hx | rfl
    · exact List.mem_append_left _ hx
    · exact List.mem_append_right _ (List.mem_cons_self _ _)
  constructor
  · apply hb.inv.stack_reach v hv x hxs
    rcases hx with hx | rfl
    · exact le_of_lt (f4 x hx)
    · exact le_refl _
  · obtain ⟨z, hz, -, r⟩ := hb.inv.to_gray x hxs
    refine r.trans ?_
    rcases List.mem_cons.1 hz with rfl | hzG
    · exact Reach.refl g _
    · have hs := hb.inv.gray_sorted
      have := (List.pairwise_cons.1 hs).1 z hzG
      exact hb.inv.stack_reach z (hb.inv.gray_sub.subset hz) v hv (le_of_lt this)

/-- At the end of the loop of `dfs(v)`, when `low` equals `index`, the edges
from the vertices on the stack from `v` up lead to these vertices or to
vertices of the components found. -/
theorem Body.edges_out {g : List (List Nat)} {G : List Nat} {v : Nat} {s0 s : State}
    {seg P : List Nat} (hb : Body g G v s0 s seg P) (hall : ∀ w, Edge g v w → w ∈ P)
    (hlow : (s.vs v).low = (s.vs v).index) (x : Nat) (hx : x ∈ seg ∨ x = v) (y : Nat)
    (hxy : Edge g x y) : (y ∈ seg ∨ y = v) ∨ ((s.vs y).index ≠ 0 ∧ y ∉ s.stack) := by
  obtain ⟨hstack, f1, -, f3, f4, f5⟩ := hb.seg_facts
  have hyv : (s.vs y).index ≠ 0 := by
    rcases hx with hx | hx
    · have hxs : x ∈ s.stack := by rw [hstack]; exact List.mem_append_left _ hx
      refine hb.inv.explored x (hb.inv.stack_visited x hxs) ?_ y hxy
      intro hm
      rcases List.mem_cons.1 hm with e | hG
      · exact f1 (e ▸ hx)
      · exact f3 x (Or.inl hx) (hb.gray0.subset hG)
    · rw [hx] at hxy
      exact hb.proc_visited y (hall y hxy)
  by_cases hys : y ∈ s.stack
  · left
    rw [hstack] at hys
    rcases List.mem_append.1 hys with k1 | k2
    · exact Or.inl k1
    · rcases List.mem_cons.1 k2 with k3 | k4
      · exact Or.inr k3
      · exfalso
        have h1 := f5 y k4
        rcases hx with hx | hx
        · have := hb.xedge x hx y k4 hxy
          omega
        · rw [hx] at hxy
          have := hb.proc_low y (hall y hxy) k4
          omega
  · exact Or.inr ⟨hyv, hys⟩

/-- At the end of the loop of `dfs(v)`, when `low` equals `index`, every vertex
that `v` reaches and that reaches `v` is on the stack from `v` up. -/
theorem Body.scc_in {g : List (List Nat)} {G : List Nat} {v : Nat} {s0 s : State}
    {seg P : List Nat} (hb : Body g G v s0 s seg P) (hall : ∀ w, Edge g v w → w ∈ P)
    (hlow : (s.vs v).low = (s.vs v).index) (u : Nat) (h1 : Reach g v u)
    (h2 : Reach g u v) : u ∈ seg ∨ u = v := by
  induction h1 with
  | refl => exact Or.inr rfl
  | tail hvb hbc ih =>
    rename_i b c
    have hb1 := ih ((Reach.edge hbc).trans h2)
    rcases hb.edges_out hall hlow b hb1 c hbc with h | ⟨hc1, hc2⟩
    · exact h
    · exfalso
      obtain ⟨c0, hc0, hcc⟩ := (hb.inv.comps_done c).2 ⟨hc1, hc2⟩
      have hvc : v ∈ c0 := (hb.inv.comps_scc c0 hc0 c hcc v).2 ⟨h2, hvb.tail hbc⟩
      exact ((hb.inv.comps_done v).1 ⟨c0, hc0, hvc⟩).2 hb.v_mem


/-- The state after the vertices from `v` up have been popped as a new
component. -/
theorem Body.pop_post {g : List (List Nat)} {G : List Nat} {v : Nat} {s0 s : State}
    {seg P : List Nat} (hb : Body g G v s0 s seg P) (hall : ∀ w, Edge g v w → w ∈ P)
    (hlow : (s.vs v).low = (s.vs v).index) (s1 : State)
    (hvs : s1.vs = clearOnStack (seg ++ [v]).reverse s.vs) (hst : s1.stack = s0.stack)
    (hni : s1.nextIndex = s.nextIndex)
    (hco : s1.components = s.components ++ [(seg ++ [v]).reverse]) :
    Post g G v s0 s1 [] := by
  obtain ⟨hstack, f1, f2, f3, f4, f5⟩ := hb.seg_facts
  have hv : v ∈ s.stack := hb.v_mem
  have hC : ∀ x, x ∈ (seg ++ [v]).reverse ↔ (x ∈ seg ∨ x = v) := by
    intro x; simp [or_comm]
  have hidx : ∀ x, (s1.vs x).index = (s.vs x).index := by
    intro x
    rw [hvs, clearOnStack_apply]
    split_ifs <;> rfl
  have hlw : ∀ x, (s1.vs x).low = (s.vs x).low := by
    intro x
    rw [hvs, clearOnStack_apply]
    split_ifs <;> rfl
  have hkeep : ∀ x, ¬ (x ∈ seg ∨ x = v) → s1.vs x = s.vs x := by
    intro x hx
    rw [hvs, clearOnStack_apply, if_neg (fun h => hx ((hC x).1 h))]
  have hoff : ∀ x, (x ∈ seg ∨ x = v) → (s1.vs x).onStack = false := by
    intro x hx
    rw [hvs, clearOnStack_apply, if_pos ((hC x).2 hx)]
  have hsub : ∀ x, x ∈ s0.stack → x ∈ s.stack := by
    intro x hx
    rw [hstack]
    exact List.mem_append_right _ (List.mem_cons_of_mem _ hx)
  have hCs : ∀ x, (x ∈ seg ∨ x = v) → x ∈ s.stack := by
    intro x hx
    rw [hstack]
    rcases hx with hx | hx
    · exact List.mem_append_left _ hx
    · rw [hx]; exact List.mem_append_right _ (List.mem_cons_self _ _)
  have hsplit : ∀ x, x ∈ s.stack → (x ∈ seg ∨ x = v) ∨ x ∈ s0.stack := by
    intro x hx
    rw [hstack] at hx
    rcases List.mem_append.1 hx with k | k
    · exact Or.inl (Or.inl k)
    · rcases List.mem_cons.1 k with k | k
      · exact Or.inl (Or.inr k)
      · exact Or.inr k
  have hCge : ∀ x, (x ∈ seg ∨ x = v) → (s.vs v).index ≤ (s.vs x).index := by
    intro x hx
    rcases hx with hx | hx
    · exact le_of_lt (f4 x hx)
    · rw [hx]
  have hsl : s0.stack.Sublist s.stack := by
    rw [hstack]
    exact (List.sublist_cons_self v _).trans (List.sublist_append_right _ _)
  have hinv : Inv g G s1 := by
    constructor
    · rw [hni]; exact hb.inv.next_pos
    · intro x; rw [hidx, hni]; exact hb.inv.index_lt x
    · intro x hx; rw [hidx] at hx; exact hb.inv.visited_lt x hx
    · intro x
      rw [hst]
      constructor
      · intro hx
        by_cases hxC : x ∈ seg ∨ x = v
        · rw [hoff x hxC] at hx; cases hx
        · rw [hkeep x hxC] at hx
          rcases hsplit x ((hb.inv.onStack_iff x).1 hx) with k | k
          · exact absurd k hxC
          · exact k
      · intro hx
        have hxC : ¬ (x ∈ seg ∨ x = v) := fun k => f3 x k hx
        rw [hkeep x hxC]
        exact (hb.inv.onStack_iff x).2 (hsub x hx)
    · intro x hx
      rw [hst] at hx
      rw [hidx]
      exact hb.inv.stack_visited x (hsub x hx)
    · rw [hst]
      refine (hb.inv.stack_sorted.sublist hsl).imp ?_
      intro a b hab
      rw [hidx, hidx]; exact hab
    · rw [hst]; exact hb.gray0
    · intro x hx hxG y hy
      rw [hidx] at hx ⊢
      by_cases hxv : x = v
      · rw [hxv] at hy
        exact hb.proc_visited y (hall y hy)
      · exact hb.inv.explored x hx (by simp [hxv, hxG]) y hy
    · intro x hx
      rw [hst] at hx
      rw [hidx, hlw]
      exact hb.inv.low_le x (hsub x hx)
    · intro x hx
      rw [hst] at hx ⊢
      obtain ⟨z, hz, e, r⟩ := hb.inv.low_wit x (hsub x hx)
      refine ⟨z, ?_, by rw [hidx, hlw]; exact e, r⟩
      rcases hsplit z hz with k | k
      · exfalso
        have h1 := hCge z k
        have h2 := f5 x hx
        have h3 := hb.inv.low_le x (hsub x hx)
        omega
      · exact k
    · intro x hx y hy hxy
      rw [hst] at hx hy
      rw [hidx, hidx] at hxy
      exact hb.inv.stack_reach x (hsub x hx) y (hsub y hy) hxy
    · intro y hy
      rw [hst] at hy
      obtain ⟨z, hz, e, r⟩ := hb.inv.to_gray y (hsub y hy)
      rcases List.mem_cons.1 hz with k | k
      · exfalso
        rw [k] at e
        have := f5 y hy
        omega
      · exact ⟨z, k, by rw [hidx, hidx]; exact e, r⟩
    · intro x
      rw [hco, hst, hidx]
      constructor
      · rintro ⟨c, hc, hxc⟩
        rcases List.mem_append.1 hc with k | k
        · have := (hb.inv.comps_done x).1 ⟨c, k, hxc⟩
          exact ⟨this.1, fun h => this.2 (hsub x h)⟩
        · rw [List.mem_singleton] at k
          rw [k] at hxc
          have hxC := (hC x).1 hxc
          exact ⟨hb.inv.stack_visited x (hCs x hxC), f3 x hxC⟩
      · rintro ⟨h1, h2⟩
        by_cases hxC : x ∈ seg ∨ x = v
        · exact ⟨_, List.mem_append_right _ (List.mem_singleton_self _), (hC x).2 hxC⟩
        · have hxs : x ∉ s.stack := by
            intro h
            rcases hsplit x h with k | k
            · exact hxC k
            · exact h2 k
          obtain ⟨c, hc, hxc⟩ := (hb.inv.comps_done x).2 ⟨h1, hxs⟩
          exact ⟨c, List.mem_append_left _ hc, hxc⟩
    · intro c hc x hx y
      rw [hco] at hc
      rcases List.mem_append.1 hc with k | k
      · exact hb.inv.comps_scc c k x hx y
      · rw [List.mem_singleton] at k
        rw [k] at hx ⊢
        have hxC := (hC x).1 hx
        obtain ⟨rx1, rx2⟩ := hb.in_scc x hxC
        rw [hC]
        constructor
        · intro hyC
          obtain ⟨ry1, ry2⟩ := hb.in_scc y hyC
          exact ⟨rx2.trans ry1, ry2.trans rx1⟩
        · rintro ⟨r1, r2⟩
          exact hb.scc_in hall hlow y (rx1.trans r1) (r2.trans rx2)
    · rw [hco, List.flatten_append]
      refine List.nodup_append.2 ⟨hb.inv.comps_nodup, ?_, ?_⟩
      · simp only [List.flatten_cons, List.flatten_nil, List.append_nil]
        rw [List.nodup_reverse]
        refine List.nodup_append.2 ⟨f2, List.nodup_singleton v, ?_⟩
        intro a ha hav
        rw [List.mem_singleton] at hav
        exact f1 (hav ▸ ha)
      · intro a ha haC
        simp only [List.flatten_cons, List.flatten_nil, List.append_nil] at haC
        obtain ⟨c, hc, hac⟩ := List.mem_flatten.1 ha
        exact ((hb.inv.comps_done a).1 ⟨c, hc, hac⟩).2 (hCs a ((hC a).1 haC))
    · intro c hc
      rw [hco] at hc
      rcases List.mem_append.1 hc with k | k
      · exact hb.inv.comps_ne c k
      · rw [List.mem_singleton] at k
        rw [k]
        intro h
        have : v ∈ (seg ++ [v]).reverse := (hC v).2 (Or.inr rfl)
        rw [h] at this
        cases this
    · intro x hx hxs y hy
      rw [hidx] at hx
      rw [hst] at hxs
      rw [hidx, hst]
      by_cases hxC : x ∈ seg ∨ x = v
      · rcases hb.edges_out hall hlow x hxC y hy with k | ⟨k1, k2⟩
        · exact ⟨hb.inv.stack_visited y (hCs y k), f3 y k⟩
        · exact ⟨k1, fun h => k2 (hsub y h)⟩
      · have hxs2 : x ∉ s.stack := by
          intro h
          rcases hsplit x h with k | k
          · exact hxC k
          · exact hxs k
        have := hb.inv.done_closed x hx hxs2 y hy
        exact ⟨this.1, fun h => this.2 (hsub y h)⟩
  have hu : unvisited g s1 = unvisited g s := unvisited_congr g s s1 hidx
  refine ⟨hinv, ?_, ?_, ?_, ?_, ?_⟩
  · constructor
    · rw [hst]; rfl
    · intro x hx; cases hx
    · intro x hx
      rw [hkeep x (fun k => f3 x k hx)]
      exact hb.ext.old_vs x hx
    · intro x hx
      rw [hidx]; exact hb.ext.index_keep x hx
    · rw [hni]; exact hb.ext.next_le
    · intro x h0 h1
      rw [hidx] at h1 ⊢
      exact hb.ext.new_ge x h0 h1
    · rw [hu]; exact hb.ext.unv_le
  · rw [hidx]; exact hb.inv.stack_visited v hv
  · intro x hx; cases hx
  · intro _
    rw [hidx, hlw]; exact hlow
  · rw [hu]; exact hb.unv_lt

/-- The end of `dfs(v)` when `low` equals `index`: the vertices from `v` up are
popped and make a new component. -/
theorem Body.pop_comp {g : List (List Nat)} {G : List Nat} {v : Nat} {s0 s : State}
    {seg P : List Nat} (hb : Body g G v s0 s seg P) (hall : ∀ w, Edge g v w → w ∈ P)
    (hlow : (s.vs v).low = (s.vs v).index) :
    ∃ s1, finish v s = .ok s1 ∧ Post g G v s0 s1 [] := by
  obtain ⟨hstack, f1, -⟩ := hb.seg_facts
  refine ⟨{ s with
            vs := clearOnStack (seg ++ [v]).reverse s.vs
            stack := s0.stack
            components := s.components ++ [(seg ++ [v]).reverse] }, ?_, ?_⟩
  · unfold finish
    rw [if_pos hlow, hstack, popTo_append v seg _ f1]
  · exact hb.pop_post hall hlow _ rfl rfl rfl rfl

/-- The end of `dfs(v)`. -/
theorem Body.finish {g : List (List Nat)} {G : List Nat} {v : Nat} {s0 s : State}
    {seg P : List Nat} (hb : Body g G v s0 s seg P) (hall : ∀ w, Edge g v w → w ∈ P) :
    ∃ s1 seg1, finish v s = .ok s1 ∧ Post g G v s0 s1 seg1 := by
  by_cases hlow : (s.vs v).low = (s.vs v).index
  · obtain ⟨s1, h1, h2⟩ := hb.pop_comp hall hlow
    exact ⟨s1, [], h1, h2⟩
  · refine ⟨s, seg ++ [v], ?_, hb.keep hall hlow⟩
    unfold Partition.finish
    rw [if_neg hlow]


/-- The loop of `dfs(v)` over the neighbours `ws` keeps its invariant, given
that the calls of `dfs` it makes return as specified. -/
theorem scan_body {g : List (List Nat)} (hr : InRange g) {G : List Nat} {v : Nat}
    {s0 : State} (h0 : Inv g G s0) (call : Nat → State → Out State) (bound : Nat)
    (hcall : ∀ (w : Nat) (s : State), Inv g (v :: G) s → w < g.length →
      (s.vs w).index = 0 → (∀ x ∈ s.stack, Reach g x w) → unvisited g s < bound →
      ∃ s1 seg, call w s = .ok s1 ∧ Post g (v :: G) w s s1 seg)
    (hbound : unvisited g s0 ≤ bound) :
    ∀ (ws : List Nat) (s : State) (seg P : List Nat), Body g G v s0 s seg P →
      (∀ w ∈ ws, Edge g v w) →
      ∃ s1 seg1, scan g.length call v ws s = .ok s1 ∧
        Body g G v s0 s1 seg1 (ws.reverse ++ P) := by
  intro ws
  induction ws with
  | nil =>
    intro s seg P hb _
    exact ⟨s, seg, rfl, by simpa using hb⟩
  | cons w ws ih =>
    intro s seg P hb hws
    have he : Edge g v w := hws w (List.mem_cons_self _ _)
    have hwn : w < g.length := hr v w he
    have hws1 : ∀ u ∈ ws, Edge g v u := fun u hu => hws u (List.mem_cons_of_mem _ hu)
    have hP : (w :: ws).reverse ++ P = ws.reverse ++ (w :: P) := by simp
    rw [hP]
    unfold scan
    rw [if_pos hwn]
    by_cases hw0 : (s.vs w).index = 0
    · rw [if_pos hw0]
      have hlt : unvisited g s < bound := lt_of_lt_of_le hb.unv_lt hbound
      obtain ⟨s1, segw, hc, hp⟩ := hcall w s hb.inv hwn hw0 (hb.reach_child he) hlt
      rw [hc]
      exact ih (relax v w s1) (segw ++ seg) (w :: P) (hb.child h0 he hw0 hp) hws1
    · rw [if_neg hw0]
      by_cases hon : (s.vs w).onStack = true
      · rw [if_pos hon]
        exact ih (relax v w s) seg (w :: P)
          (hb.stack_edge h0 he ((hb.inv.onStack_iff w).1 hon)) hws1
      · rw [if_neg hon]
        exact ih s seg (w :: P)
          (hb.done_edge hw0 (fun hm => hon ((hb.inv.onStack_iff w).2 hm))) hws1

/-- A call `dfs(v)` for a vertex not yet visited, with a bound above the
number of vertices not yet visited, returns; the state it leaves satisfies
the invariant. -/
theorem dfs_post {g : List (List Nat)} (hr : InRange g) :
    ∀ (fuel : Nat) (G : List Nat) (v : Nat) (s0 : State), Inv g G s0 → v < g.length →
      (s0.vs v).index = 0 → (∀ x ∈ s0.stack, Reach g x v) → unvisited g s0 < fuel →
      ∃ s1 seg, dfs g fuel v s0 = .ok s1 ∧ Post g G v s0 s1 seg := by
  intro fuel
  induction fuel with
  | zero =>
    intro G v s0 _ _ _ _ hf
    exact absurd hf (Nat.not_lt_zero _)
  | succ fuel ih =>
    intro G v s0 h0 hv hv0 hreach hf
    have hb := enter_body h0 hv hv0 hreach
    obtain ⟨s1, seg1, hs, hb1⟩ := scan_body hr h0 (dfs g fuel) fuel
      (fun w s hi hw hw0 hrw hlt => ih (v :: G) w s hi hw hw0 hrw hlt)
      (Nat.lt_succ_iff.1 hf) (g.getD v []) (enter v s0) [] [] hb (fun w hw => hw)
    have hall : ∀ w, Edge g v w → w ∈ (g.getD v []).reverse ++ [] := by
      intro w hw
      rw [List.append_nil, List.mem_reverse]
      exact hw
    obtain ⟨s2, seg2, hfin, hp⟩ := hb1.finish hall
    refine ⟨s2, seg2, ?_, hp⟩
    unfold dfs
    rw [if_pos hv, hs]
    exact hfin


/-- The loop of `dfs` returns the same with calls that return more often. -/
theorem scan_call_mono {n : Nat} {call call2 : Nat → State → Out State}
    (h : ∀ w s s1, call w s = .ok s1 → call2 w s = .ok s1) (v : Nat) :
    ∀ (ws : List Nat) (s s1 : State), scan n call v ws s = .ok s1 →
      scan n call2 v ws s = .ok s1 := by
  intro ws
  induction ws with
  | nil =>
    intro s s1 hs
    exact hs
  | cons w ws ih =>
    intro s s1 hs
    unfold scan at hs ⊢
    by_cases hw : w < n
    · rw [if_pos hw] at hs ⊢
      by_cases hw0 : (s.vs w).index = 0
      · rw [if_pos hw0] at hs ⊢
        cases hc : call w s with
        | ok s2 =>
          rw [hc] at hs
          rw [h w s s2 hc]
          exact ih _ _ hs
        | panic => rw [hc] at hs; cases hs
        | timeout => rw [hc] at hs; cases hs
      · rw [if_neg hw0] at hs ⊢
        by_cases hon : (s.vs w).onStack = true
        · rw [if_pos hon] at hs ⊢
          exact ih _ _ hs
        · rw [if_neg hon] at hs ⊢
          exact ih _ _ hs
    · rw [if_neg hw] at hs
      cases hs

/-- What `dfs` returns within a bound it returns with the next bound. -/
theorem dfs_fuel_succ (g : List (List Nat)) :
    ∀ (fuel v : Nat) (s s1 : State), dfs g fuel v s = .ok s1 → dfs g (fuel + 1) v s = .ok s1 := by
  intro fuel
  induction fuel with
  | zero =>
    intro v s s1 h
    cases h
  | succ fuel ih =>
    intro v s s1 h
    rw [dfs] at h ⊢
    by_cases hv : v < g.length
    · rw [if_pos hv] at h ⊢
      cases hs : scan g.length (dfs g fuel) v (g.getD v []) (enter v s) with
      | ok s2 =>
        rw [hs] at h
        rw [scan_call_mono ih v _ _ _ hs]
        exact h
      | panic => rw [hs] at h; cases h
      | timeout => rw [hs] at h; cases h
    · rw [if_neg hv] at h
      cases h

/-- What `dfs` returns within a bound it returns with every larger bound. -/
theorem dfs_fuel (g : List (List Nat)) {fuel fuel2 : Nat} (hle : fuel ≤ fuel2) (v : Nat)
    (s s1 : State) (h : dfs g fuel v s = .ok s1) : dfs g fuel2 v s = .ok s1 := by
  induction hle with
  | refl => exact h
  | step _ ih => exact dfs_fuel_succ g _ v s s1 ih

/-- What the loop over the vertices returns within a bound it returns with
every larger bound. -/
theorem roots_fuel (g : List (List Nat)) {fuel fuel2 : Nat} (hle : fuel ≤ fuel2) :
    ∀ (l : List Nat) (s s1 : State), roots g fuel l s = .ok s1 → roots g fuel2 l s = .ok s1 := by
  intro l
  induction l with
  | nil =>
    intro s s1 h
    exact h
  | cons i rest ih =>
    intro s s1 h
    unfold roots at h ⊢
    by_cases h0 : (s.vs i).index = 0
    · rw [if_pos h0] at h ⊢
      cases hd : dfs g fuel i s with
      | ok s2 =>
        rw [hd] at h
        rw [dfs_fuel g hle i s s2 hd]
        exact ih _ _ h
      | panic => rw [hd] at h; cases h
      | timeout => rw [hd] at h; cases h
    · rw [if_neg h0] at h ⊢
      exact ih _ _ h

/-- At most `g.Size()` vertices are not visited. -/
theorem unvisited_le (g : List (List Nat)) (s : State) : unvisited g s ≤ g.length := by
  unfold unvisited
  exact (List.countP_le_length _).trans (le_of_eq (List.length_range _))

/-- The invariant holds before the loop over the vertices. -/
theorem init_inv (g : List (List Nat)) : Inv g [] init := by
  constructor
  · exact le_refl _
  · intro x; exact Nat.zero_lt_one
  · intro x hx; exact absurd rfl hx
  · intro x
    constructor
    · intro h; cases h
    · intro h; cases h
  · intro x hx; cases hx
  · exact List.Pairwise.nil
  · exact List.Sublist.slnil
  · intro x hx; exact absurd rfl hx
  · intro x hx; cases hx
  · intro x hx; cases hx
  · intro x hx; cases hx
  · intro y hy; cases hy
  · intro x
    constructor
    · rintro ⟨c, hc, -⟩; cases hc
    · rintro ⟨h, -⟩; exact absurd rfl h
  · intro c hc; cases hc
  · exact List.nodup_nil
  · intro c hc; cases hc
  · intro x hx; exact absurd rfl hx

/-- The loop over the vertices returns, keeps the invariant, and leaves every
vertex of the list visited. -/
theorem roots_post {g : List (List Nat)} (hr : InRange g) {fuel : Nat} (hf : g.length < fuel) :
    ∀ (l : List Nat) (s : State), Inv g [] s → (∀ i ∈ l, i < g.length) →
      ∃ s1, roots g fuel l s = .ok s1 ∧ Inv g [] s1 ∧
        (∀ x, (s.vs x).index ≠ 0 → (s1.vs x).index ≠ 0) ∧ ∀ i ∈ l, (s1.vs i).index ≠ 0 := by
  intro l
  induction l with
  | nil =>
    intro s hs _
    exact ⟨s, rfl, hs, fun _ h => h, fun i hi => by cases hi⟩
  | cons i rest ih =>
    intro s hs hl
    have hrest : ∀ j ∈ rest, j < g.length := fun j hj => hl j (List.mem_cons_of_mem _ hj)
    unfold roots
    by_cases h0 : (s.vs i).index = 0
    · rw [if_pos h0]
      have hst : s.stack = [] := hs.stack_nil
      obtain ⟨s1, seg, hd, hp⟩ := dfs_post hr fuel [] i s hs (hl i (List.mem_cons_self _ _)) h0
        (by intro x hx; rw [hst] at hx; cases hx) (lt_of_le_of_lt (unvisited_le g s) hf)
      rw [hd]
      obtain ⟨s2, h2, hi2, hm2, ha2⟩ := ih s1 hp.inv hrest
      refine ⟨s2, h2, hi2, fun x hx => hm2 x (hp.ext.visited_mono x hx), ?_⟩
      intro j hj
      rcases List.mem_cons.1 hj with e | hj
      · rw [e]; exact hm2 i hp.visited
      · exact ha2 j hj
    · rw [if_neg h0]
      obtain ⟨s2, h2, hi2, hm2, ha2⟩ := ih s hs hrest
      refine ⟨s2, h2, hi2, hm2, ?_⟩
      intro j hj
      rcases List.mem_cons.1 hj with e | hj
      · rw [e]; exact hm2 i h0
      · exact ha2 j hj

/-! ## The claim on `partition.StronglyConnected` -/

end Partition
